import Mathlib

/-!
RBM_THR2: contrastive-divergence training of one RBM layer.

A shallow embedding of `V1 Source/RBM_THR2.CPP` (the worker `rbm2_threaded` and the
epoch controller `rbm_thr2`) and the properties proved about it.

Conventions of the embedding.

* A C `int` is a Lean `Int`; `a / b` on `int` is `Int.tdiv` (truncation toward zero) and
  `a % b` is `Int.tmod`.  Where a value can leave the 32-bit range the wrap-around of the
  two's-complement machine is written out with `wrap32`.
* A counted loop `for (i=0 ; i<n ; i++)` whose body changes neither `i` nor `n` is a
  recursion on the number of trips that are left; the counter is carried along so that the
  body reads as in the source.
* A `while` loop is a recursion on a fuel argument; each such loop comes with a lemma
  saying that the fuel handed over by the caller is enough.
* A `double` that only carries data (errors, weights, uniforms) is an exact rational:
  rounding is not modelled.  A quotient whose divisor can be zero is a `Dbl`, which adds
  the IEEE special values to the rationals; the quotients by `n_in_batch` of the update
  after a batch are exact, and what is proved of them is proved for a batch that is not
  empty.  The direction code of lines 640-667, where rounding decides what holds, is
  embedded over an `Arith`, the operations it uses, and is run in `binary64`, which rounds
  as IEEE 754 does, or in arithmetic without rounding.
* A `double` array is a function from the index to the element, seen from the pointer the
  code uses; it has no end in the model, the lengths of the arrays are looked at apart.
* What the file takes from its headers and libraries is a parameter: the functions `exp`
  and `log` of `math.h` and the switches of `const.h` are the fields of a `Build`.
-/

namespace RBM

/-! ## Splitting a batch into worker ranges (`rbm_thr2`, lines 518-551) -/

/-- The thread-count reduction loop, lines 518-520:
`while (n_threads > 1  &&  n_in_batch / n_threads < 10) --n_threads ;` -/
def reduceThreads (n_in_batch : Int) : Nat → Int → Int
  | 0, n_threads => n_threads
  | fuel + 1, n_threads =>
    if n_threads > 1 ∧ Int.tdiv n_in_batch n_threads < 10 then
      reduceThreads n_in_batch fuel (n_threads - 1)
    else n_threads

/-- The number of threads used for a batch: `n_threads = max_threads` followed by the
reduction loop. -/
def threadCount (max_threads n_in_batch : Int) : Int :=
  reduceThreads n_in_batch max_threads.toNat max_threads

/-- The thread loop, lines 529-551.  Each trip computes `n_in_thread`, `jstop`, stores
`params[ithread].istart` and `params[ithread].istop`, and calls `_beginthreadex`; when
that call returns `NULL` (`createFails ithread`) the routine returns at once.  The result
is the list of the `(istart, istop)` pairs stored so far and whether every thread was
created. -/
def threadLoop (createFails : Nat → Bool) (istart n_in_batch n_threads : Int) :
    Nat → Nat → Int → Int → List (Int × Int) × Bool
  | 0, _, _, _ => ([], true)
  | left + 1, ithread, jstart, nt_done =>
    let n_in_thread := Int.tdiv (n_in_batch - nt_done) (n_threads - (ithread : Int))
    let jstop := jstart + n_in_thread
    let p : Int × Int := (istart + jstart, istart + jstop)
    if createFails ithread then ([p], false)
    else
      let r := threadLoop createFails istart n_in_batch n_threads left (ithread + 1) jstop
        (nt_done + n_in_thread)
      (p :: r.1, r.2)

/-- The worker ranges `[params[t].istart, params[t].istop)` of a batch when every thread is
created: `jstart = 0`, `nt_done = 0`, then the thread loop. -/
def threadRanges (istart n_in_batch n_threads : Int) : List (Int × Int) :=
  (threadLoop (fun _ => false) istart n_in_batch n_threads n_threads.toNat 0 0 0).1

/-- A list of ranges tiles `[a, b)`: the first starts at `a`, each one is non-empty or
empty but never reversed, each next one starts where the previous one stops, and the last
stops at `b`. -/
def Tiles : Int → Int → List (Int × Int) → Prop
  | a, b, [] => a = b
  | a, b, r :: rs => r.1 = a ∧ r.1 ≤ r.2 ∧ Tiles r.2 b rs

/-! ## Splitting an epoch into batches (`rbm_thr2`, lines 500-520 and 689-690) -/

/-- What the batch loop fixes for one batch before it starts the threads: the batch start
`istart`, the batch size `n_in_batch` and the thread count `n_threads`. -/
structure Batch where
  istart : Int
  n_in_batch : Int
  n_threads : Int
deriving DecidableEq

/-- The batch loop, lines 506-520 and 689-690, without the work done on a batch:
`n_in_batch = (nc - n_done) / (n_batches - ibatch)`, `istop = istart + n_in_batch`, the
thread count, and at the end of the trip `n_done += n_in_batch`, `istart = istop`. -/
def batchPlan (max_threads nc n_batches : Int) : Nat → Nat → Int → Int → List Batch
  | 0, _, _, _ => []
  | left + 1, ibatch, istart, n_done =>
    let n_in_batch := Int.tdiv (nc - n_done) (n_batches - (ibatch : Int))
    let istop := istart + n_in_batch
    let n_threads := threadCount max_threads n_in_batch
    { istart := istart, n_in_batch := n_in_batch, n_threads := n_threads } ::
      batchPlan max_threads nc n_batches left (ibatch + 1) istop (n_done + n_in_batch)

/-- The batches of one epoch: `istart = 0`, `n_done = 0`, then the batch loop. -/
def epochBatches (max_threads nc n_batches : Int) : List Batch :=
  batchPlan max_threads nc n_batches n_batches.toNat 0 0 0

/-- The case loop of the worker, line 105: `for (icase=istart ; icase<istop ; icase++)`;
the positions `icase` in the order in which they are handled. -/
def caseLoop : Nat → Int → List Int
  | 0, _ => []
  | left + 1, icase => icase :: caseLoop left (icase + 1)

/-- The positions handled by `rbm2_threaded (istart, istop, ...)`. -/
def workerCases (istart istop : Int) : List Int :=
  caseLoop (istop - istart).toNat istart

/-- The positions handled by the workers of one batch, worker after worker. -/
def batchCases (b : Batch) : List Int :=
  (threadRanges b.istart b.n_in_batch b.n_threads).flatMap (fun r => workerCases r.1 r.2)

/-- The positions handled in an epoch whose batch loop runs through all its batches. -/
def epochCases (max_threads nc n_batches : Int) : List Int :=
  (epochBatches max_threads nc n_batches).flatMap batchCases

/-- Element `i` of a C array held as a list; `none` when `i` is outside the array. -/
def readAt (a : List Int) (i : Int) : Option Int :=
  if 0 ≤ i then a[i.toNat]? else none

/-- The elements of `a` at the positions `is`, in order; `none` if a position lies outside
`a`. -/
def readAll (a : List Int) : List Int → Option (List Int)
  | [] => some []
  | i :: is =>
    match readAt a i, readAll a is with
    | some x, some xs => some (x :: xs)
    | _, _ => none

/-- The data rows `shuffle_index[icase]` (line 106) read in such an epoch, in order;
`none` if some position lies outside `shuffle_index`. -/
def epochRows (shuffle_index : List Int) (max_threads nc n_batches : Int) :
    Option (List Int) :=
  readAll shuffle_index (epochCases max_threads nc n_batches)

/-! ## Shuffling (`rbm_thr2`, lines 466-490) -/

/-- Store `v` in element `i` of a C array held as a list; `none` when `i` is outside the
array. -/
def writeAt (a : List Int) (i : Int) (v : Int) : Option (List Int) :=
  if 0 ≤ i ∧ i.toNat < a.length then some (a.set i.toNat v) else none

/-- The conversion `(int) x` of a `double`: the fraction is dropped (truncation toward
zero). -/
def truncToInt (x : ℚ) : Int :=
  if 0 ≤ x then ⌊x⌋ else ⌈x⌉

/-- The identity stored before the first epoch, lines 467-468:
`for (i=0 ; i<nc ; i++) shuffle_index[i] = i ;` -/
def identityIndex (nc : Int) : List Int :=
  caseLoop nc.toNat 0

/-- How the shuffle loop ends: with the shuffled array, with an index outside
`shuffle_index`, or, in the embedding, with its fuel used up. -/
inductive ShuffleResult where
  | done (shuffle_index : List Int)
  | outOfRange
  | outOfFuel
deriving DecidableEq

/-- The shuffle loop, lines 483-490, entered with `i` cases left to shuffle.
`unifrand_fast` is not part of this file: `draw n` stands for the value of its `n`-th
call, and the product `unifrand_fast () * i` is taken exactly. -/
def shuffleLoop (draw : Nat → ℚ) : Nat → Nat → Int → List Int → ShuffleResult
  | 0, _, i, shuffle_index =>
    if i > 1 then ShuffleResult.outOfFuel else ShuffleResult.done shuffle_index
  | fuel + 1, n, i, shuffle_index =>
    if i > 1 then
      let j0 := truncToInt (draw n * (i : ℚ))
      let j := if j0 ≥ i then i - 1 else j0
      let i1 := i - 1
      match readAt shuffle_index i1, readAt shuffle_index j with
      | some k, some sj =>
        match writeAt shuffle_index i1 sj with
        | some a1 =>
          match writeAt a1 j k with
          | some a2 => shuffleLoop draw fuel (n + 1) i1 a2
          | none => ShuffleResult.outOfRange
        | none => ShuffleResult.outOfRange
      | _, _ => ShuffleResult.outOfRange
    else ShuffleResult.done shuffle_index

/-- The shuffle of one epoch: `i = nc`, then the loop; `n` calls of `unifrand_fast` were
made before. -/
def shuffle (draw : Nat → ℚ) (n : Nat) (nc : Int) (shuffle_index : List Int) :
    ShuffleResult :=
  shuffleLoop draw nc.toNat n nc shuffle_index

/-! ## The random number generator of the worker (`rbm2_threaded`, lines 38-42, 74-76, 112-116) -/

/-- The multiplier, `#define IA 16807`. -/
def IA : Int := 16807

/-- The modulus `2^31 - 1`, `#define IM 2147483647`. -/
def IM : Int := 2147483647

/-- The quotient `IM / IA`, `#define IQ 127773`. -/
def IQ : Int := 127773

/-- The remainder `IM % IA`, `#define IR 2836`. -/
def IR : Int := 2836

/-- The scale `1 / IM` of a uniform, `#define AM (1.0 / IM)`, taken exactly. -/
def AM : ℚ := 1 / 2147483647

/-- A value is an `int` of 32 bits. -/
def inInt32 (x : Int) : Prop := -2147483648 ≤ x ∧ x ≤ 2147483647

/-- The `int` a two's-complement machine of 32 bits keeps of the exact result `x`. -/
def wrap32 (x : Int) : Int := (x + 2147483648) % 4294967296 - 2147483648

/-- The exact values of the sub-expressions of one step of the generator, in the order in
which they are computed: `k`, `k * IQ`, `randnum - k * IQ`, `IA * (randnum - k * IQ)`,
`IR * k`, their difference, and the result after `if (randnum < 0) randnum += IM`. -/
def rngIntermediates (randnum : Int) : List Int :=
  let k := Int.tdiv randnum IQ
  let d := IA * (randnum - k * IQ) - IR * k
  [k, k * IQ, randnum - k * IQ, IA * (randnum - k * IQ), IR * k, d,
    if d < 0 then d + IM else d]

/-- One step of the generator on the machine, lines 112-115:
`k = randnum / IQ ; randnum = IA * (randnum - k * IQ) - IR * k ;`
`if (randnum < 0) randnum += IM ;` with every `int` operation wrapped to 32 bits. -/
def rngStep (randnum : Int) : Int :=
  let k := Int.tdiv randnum IQ
  let t1 := wrap32 (k * IQ)
  let t2 := wrap32 (randnum - t1)
  let t3 := wrap32 (IA * t2)
  let t4 := wrap32 (IR * k)
  let t5 := wrap32 (t3 - t4)
  if t5 < 0 then wrap32 (t5 + IM) else t5

/-- The uniform made from a state, line 116: `frand = AM * randnum`. -/
def frand (randnum : Int) : ℚ := AM * (randnum : ℚ)

/-- The state a worker starts from, lines 74-76:
`randnum = (istop + shuffle_index[0]) % IM ; if (randnum == 0) randnum = 1 ;`
where `s0` is `shuffle_index[0]` and the sum is an `int`. -/
def seedOf (istop s0 : Int) : Int :=
  let randnum := Int.tmod (wrap32 (istop + s0)) IM
  if randnum = 0 then 1 else randnum

/-- The state after `n` steps of the generator. -/
def rngIter : Nat → Int → Int
  | 0, randnum => randnum
  | n + 1, randnum => rngIter n (rngStep randnum)

/-! ## The epoch controller (`rbm_thr2`, lines 474-786)

The control flow of `rbm_thr2` is embedded as it stands.  What it does not decide itself is
handed in through an `Env`: whether `_beginthreadex` fails, what
`WaitForMultipleObjects` returns, what the escape test answers, and the numbers computed
by the floating-point kernel that the control flow looks at (the pooled error of a batch,
`max_inc` and `max_weight` of an epoch).  The run records, epoch by epoch, what it did. -/

/-- The value of a `double` division: an exact rational, or one of the IEEE special
values. -/
inductive Dbl where
  | fin (q : ℚ)
  | pinf
  | ninf
  | nan
deriving DecidableEq

/-- The quotient `a / b` of two finite doubles.  A zero divisor does not trap: IEEE 754
gives an infinity with the sign of `a` (the zero divisors met here are `+0`), and a NaN for
`0 / 0`. -/
def Dbl.div (a b : ℚ) : Dbl :=
  if b = 0 then (if a = 0 then Dbl.nan else if 0 < a then Dbl.pinf else Dbl.ninf)
  else Dbl.fin (a / b)

/-- The comparison `x < y` of doubles; it is false as soon as one side is a NaN. -/
def Dbl.lt : Dbl → Dbl → Bool
  | Dbl.fin a, Dbl.fin b => decide (a < b)
  | Dbl.fin _, Dbl.pinf => true
  | Dbl.ninf, Dbl.fin _ => true
  | Dbl.ninf, Dbl.pinf => true
  | _, _ => false

/-- The value `WAIT_TIMEOUT` of `windows.h`. -/
def WAIT_TIMEOUT : Int := 258

/-- The value `WAIT_FAILED` of `windows.h`, `0xFFFFFFFF`, as the `int ret_val` holds it. -/
def WAIT_FAILED : Int := -1

/-- The test of line 558 on the value returned by `WaitForMultipleObjects`. -/
def waitBad (ret_val n_threads : Int) : Bool :=
  ret_val == WAIT_TIMEOUT || ret_val == WAIT_FAILED || decide (ret_val < 0) ||
    decide (ret_val ≥ n_threads)

/-- The arguments of `rbm_thr2` (and the global `max_threads`) that the control flow uses. -/
structure Params where
  nc : Int
  n_inputs : Int
  n_batches : Int
  max_epochs : Int
  max_no_improvement : Int
  max_threads : Int
  convergence_crit : ℚ

/-- What the run meets from outside the control flow, by epoch `e`, batch `b` and thread
`t`, all counted from 0. -/
structure Env where
  /-- `_beginthreadex` returns `NULL` for thread `t` of batch `b` of epoch `e`. -/
  createFails : Nat → Nat → Nat → Bool
  /-- The value `WaitForMultipleObjects` returns for batch `b` of epoch `e`. -/
  waitRet : Nat → Nat → Int
  /-- The pooled error `error_vec[0]` of batch `b` of epoch `e` (line 599). -/
  batchError : Nat → Nat → ℚ
  /-- The value of `escape_key_pressed || user_pressed_escape ()` at line 632, after the
  update of batch `b` of epoch `e`. -/
  escapeBatch : Nat → Nat → Bool
  /-- The value of the same test at line 707, after the batch loop of epoch `e`. -/
  escapeEpoch : Nat → Bool
  /-- The value of `max_inc` when the batch loop of epoch `e` is left. -/
  max_inc : Nat → ℚ
  /-- The value of `max_weight` found by lines 727-733 in epoch `e`. -/
  max_weight : Nat → ℚ

/-- How a batch loop was left: through its loop test, through the `break` of line 633, or
through a `return -1.e40` of line 546 or 564. -/
inductive BatchExit where
  | completed
  | escape
  | fatal
deriving DecidableEq

/-- The places where `max_inc / max_weight` is evaluated: line 735, line 745, line 746,
and line 761 or 763. -/
inductive Site where
  | convergenceTest
  | bestTest
  | bestUpdate
  | smoothedRatio
deriving DecidableEq

/-- How the routine was left: `return -1.e40`, the `break` of line 713, of line 736, of
line 753, or the end of the epoch loop. -/
inductive Exit where
  | fatal
  | escape
  | converged
  | noImprovement
  | maxEpochs
deriving DecidableEq

/-- The value returned: `-1.e40`, or the contents of `most_recent_correct_error`, which are
`none` as long as nothing has been stored there. -/
inductive Ret where
  | sentinel
  | value (v : Option Dbl)
deriving DecidableEq

/-- What the batch loop of an epoch leaves behind: how it was left, the error summed so
far, the number of batches whose threads were started and the number of batches whose
update of the weights and biases (lines 599-630) was made. -/
structure BatchLoopOut where
  exit : BatchExit
  error : ℚ
  dispatched : Nat
  updates : Nat
deriving DecidableEq

/-- The record of one epoch: the batch loop, whether the test of line 707 fired, and the
divisors of the quotients `max_inc / max_weight` that were evaluated, in order. -/
structure EpochRec where
  batches : BatchLoopOut
  cancelled : Bool
  divisors : List (Site × ℚ)
deriving DecidableEq

/-- The variables that one epoch hands to the next. -/
structure Ctl where
  most_recent_correct_error : Option Dbl
  best_crit : Option Dbl
  n_no_improvement : Int

/-- The result of a run: the value returned, how the routine was left, and the records of
the epochs that were entered, in order. -/
structure Result where
  ret : Ret
  exit : Exit
  trace : List EpochRec

/-- The batch loop, lines 506-692, over the batches still to do; `ibatch` is the number of
the first of them and `error` the sum so far. -/
def batchLoop (env : Env) (i_epoch : Nat) : List Batch → Nat → ℚ → BatchLoopOut
  | [], ibatch, error =>
    { exit := BatchExit.completed, error := error, dispatched := ibatch, updates := ibatch }
  | b :: rest, ibatch, error =>
    if (threadLoop (env.createFails i_epoch ibatch) b.istart b.n_in_batch b.n_threads
        b.n_threads.toNat 0 0 0).2 = false then
      { exit := BatchExit.fatal, error := error, dispatched := ibatch + 1, updates := ibatch }
    else if waitBad (env.waitRet i_epoch ibatch) b.n_threads = true then
      { exit := BatchExit.fatal, error := error, dispatched := ibatch + 1, updates := ibatch }
    else
      let error1 := error + env.batchError i_epoch ibatch
      if i_epoch ≠ 0 ∧ env.escapeBatch i_epoch ibatch = true then
        { exit := BatchExit.escape, error := error1, dispatched := ibatch + 1,
          updates := ibatch + 1 }
      else batchLoop env i_epoch rest (ibatch + 1) error1

/-- The end of one trip of the epoch loop: the routine returns or leaves the loop with a
value, or goes on to the next epoch. -/
inductive Step where
  | stop (ret : Ret) (exit : Exit)
  | next (c : Ctl)

/-- The quotient `max_inc / max_weight` of epoch `i_epoch`. -/
def ratio (env : Env) (i_epoch : Nat) : Dbl :=
  Dbl.div (env.max_inc i_epoch) (env.max_weight i_epoch)

/-- The normalization of line 716, `error /= nc * n_inputs`: the product is an `int`. -/
def normalize (P : Params) (error : ℚ) : Dbl :=
  Dbl.div error ((wrap32 (P.nc * P.n_inputs) : Int) : ℚ)

/-- One trip of the epoch loop, lines 476-783. -/
def epochBody (P : Params) (env : Env) (i_epoch : Nat) (c : Ctl) : EpochRec × Step :=
  let out := batchLoop env i_epoch (epochBatches P.max_threads P.nc P.n_batches) 0 0
  if out.exit = BatchExit.fatal then
    ({ batches := out, cancelled := false, divisors := [] },
      Step.stop Ret.sentinel Exit.fatal)
  else if i_epoch ≠ 0 ∧ env.escapeEpoch i_epoch = true then
    ({ batches := out, cancelled := true, divisors := [] },
      Step.stop (Ret.value c.most_recent_correct_error) Exit.escape)
  else
    let error := normalize P out.error
    let mw := env.max_weight i_epoch
    if Dbl.lt (ratio env i_epoch) (Dbl.fin P.convergence_crit) = true then
      ({ batches := out, cancelled := false, divisors := [(Site.convergenceTest, mw)] },
        Step.stop (Ret.value (some error)) Exit.converged)
    else if i_epoch = 0 then
      ({ batches := out, cancelled := false,
         divisors := [(Site.convergenceTest, mw), (Site.bestUpdate, mw),
           (Site.smoothedRatio, mw)] },
        Step.next { most_recent_correct_error := some error,
                    best_crit := some (ratio env i_epoch), n_no_improvement := 0 })
    else if (match c.best_crit with
        | some best => Dbl.lt (ratio env i_epoch) best
        | none => false) = true then
      ({ batches := out, cancelled := false,
         divisors := [(Site.convergenceTest, mw), (Site.bestTest, mw), (Site.bestUpdate, mw),
           (Site.smoothedRatio, mw)] },
        Step.next { most_recent_correct_error := some error,
                    best_crit := some (ratio env i_epoch), n_no_improvement := 0 })
    else if c.n_no_improvement + 1 > P.max_no_improvement then
      ({ batches := out, cancelled := false,
         divisors := [(Site.convergenceTest, mw), (Site.bestTest, mw)] },
        Step.stop (Ret.value (some error)) Exit.noImprovement)
    else
      ({ batches := out, cancelled := false,
         divisors := [(Site.convergenceTest, mw), (Site.bestTest, mw),
           (Site.smoothedRatio, mw)] },
        Step.next { most_recent_correct_error := some error, best_crit := c.best_crit,
                    n_no_improvement := c.n_no_improvement + 1 })

/-- The epoch loop, line 474, with `left` trips to go, and the `return` of line 786. -/
def epochLoop (P : Params) (env : Env) : Nat → Nat → Ctl → Result
  | 0, _, c =>
    { ret := Ret.value c.most_recent_correct_error, exit := Exit.maxEpochs, trace := [] }
  | left + 1, i_epoch, c =>
    match epochBody P env i_epoch c with
    | (rec, Step.stop ret exit) => { ret := ret, exit := exit, trace := [rec] }
    | (rec, Step.next c1) =>
      let r := epochLoop P env left (i_epoch + 1) c1
      { ret := r.ret, exit := r.exit, trace := rec :: r.trace }

/-- The variables before the first epoch: `n_no_improvement = 0` (line 471), nothing stored
yet in `most_recent_correct_error` and `best_crit`. -/
def startCtl : Ctl :=
  { most_recent_correct_error := none, best_crit := none, n_no_improvement := 0 }

/-- The control flow of `rbm_thr2`: the epoch loop from `i_epoch = 0`, and the `return`. -/
def rbm_thr2 (P : Params) (env : Env) : Result :=
  epochLoop P env P.max_epochs.toNat 0 startCtl

/-! ## Notions used to state the properties of the controller -/

/-- The creation of a thread fails for a worker of batch `b` of epoch `e`, a batch of
`n_threads` workers. -/
def createFailure (env : Env) (e b : Nat) (n_threads : Int) : Prop :=
  ∃ t : Nat, (t : Int) < n_threads ∧ env.createFails e b t = true

/-- The dispatcher fails on batch `b` of epoch `e`: the creation of a thread fails, or the
wait on the workers reports a timeout or a failure. -/
def dispatchFails (env : Env) (e b : Nat) (n_threads : Int) : Prop :=
  createFailure env e b n_threads ∨ env.waitRet e b = WAIT_TIMEOUT ∨
    env.waitRet e b = WAIT_FAILED

/-- The reconstruction error of epoch `e` summed over its first `n` batches. -/
def errorSum (env : Env) (e n : Nat) : ℚ :=
  ((List.range n).map (env.batchError e)).sum

/-- The normalized error of epoch `e`: the error summed over all its batches, divided by
`nc * n_inputs`. -/
def normalizedError (P : Params) (env : Env) (e : Nat) : Dbl :=
  normalize P (errorSum env e P.n_batches.toNat)

/-! ## Runs used as examples -/

/-- An environment in which nothing goes wrong: every thread is created, every wait returns
`WAIT_OBJECT_0`, the escape key is never pressed, every batch of epoch `e` has error
`e + 1`, and the ratio `max_inc / max_weight` of epoch `e` is `(5 + e) / 10`. -/
def quietEnv : Env :=
  { createFails := fun _ _ _ => false, waitRet := fun _ _ => 0, batchError := fun e _ => (e : ℚ) + 1,
    escapeBatch := fun _ _ => false, escapeEpoch := fun _ => false,
    max_inc := fun e => 5 + (e : ℚ), max_weight := fun _ => 10 }

/-- A training run of 40 cases in 2 batches on at most 2 threads, at most 3 epochs. -/
def smallRun : Params :=
  { nc := 40, n_inputs := 2, n_batches := 2, max_epochs := 3, max_no_improvement := 5,
    max_threads := 2, convergence_crit := 1 / 1000 }

/-- As `quietEnv`, but the creation of thread 1 of batch 1 of epoch 1 fails. -/
def failingEnv : Env :=
  { quietEnv with createFails := fun e b t => e == 1 && b == 1 && t == 1 }

/-- As `quietEnv`, but the escape key is found pressed by the test of line 707 at the end
of epoch 1, after every test of line 632 of that epoch found it not pressed. -/
def lateEscapeEnv : Env :=
  { quietEnv with escapeEpoch := fun e => e == 1 }

/-- As `smallRun`, but with `max_epochs = 0`. -/
def noEpochRun : Params :=
  { smallRun with max_epochs := 0 }

/-- As `quietEnv`, but the escape key is found pressed after the first batch of epoch 2, by
the test of line 632 and then by the test of line 707. -/
def escapeEnv : Env :=
  { quietEnv with escapeBatch := fun e b => e == 2 && b == 0, escapeEpoch := fun e => e == 2 }

/-- As `smallRun`, but with at most 10 epochs and `max_no_improvement = 1`. -/
def impatientRun : Params :=
  { smallRun with max_epochs := 10, max_no_improvement := 1 }

/-- As `quietEnv`, but every weight and every weight increment is 0 in every epoch, as it
happens for `nhid = 0`: `max_inc = 0` and `max_weight = 0`. -/
def zeroWeightEnv : Env :=
  { quietEnv with max_inc := fun _ => 0, max_weight := fun _ => 0 }

/-- The record of epoch 1 of `smallRun` in `failingEnv`: the first batch is done, the
threads of the second cannot all be created. -/
def failedEpoch : EpochRec :=
  { batches := { exit := BatchExit.fatal, error := 2, dispatched := 2, updates := 1 },
    cancelled := false, divisors := [] }

/-- The record of epoch 1 of `smallRun` in `zeroWeightEnv`. -/
def zeroWeightEpoch : EpochRec :=
  { batches := { exit := BatchExit.completed, error := 4, dispatched := 2, updates := 2 },
    cancelled := false,
    divisors := [(Site.convergenceTest, 0), (Site.bestTest, 0), (Site.smoothedRatio, 0)] }

/-- As `quietEnv`, but the escape key is pressed during the first batch of epoch 0 and
stays pressed to the end of that epoch. -/
def earlyEscapeEnv : Env :=
  { quietEnv with escapeBatch := fun e b => e == 0 && b == 0, escapeEpoch := fun e => e == 0 }

/-- The record of epoch 2 of `smallRun` in `escapeEnv`: the batch loop is left after the
update of the first batch. -/
def escapedEpoch : EpochRec :=
  { batches := { exit := BatchExit.escape, error := 3, dispatched := 1, updates := 1 },
    cancelled := true, divisors := [] }

/-! ## The learning rate (`rbm_thr2`, lines 669-680 and 769-782) -/

/-- The adjustment of the learning rate to the direction cosine `dot`, lines 669-680; a
comparison with a NaN `dot` is false. -/
def adjustRate (learning_rate : ℚ) (dot : Dbl) : ℚ :=
  let lr1 :=
    if Dbl.lt (Dbl.fin (1 / 2)) dot = true then learning_rate * (6 / 5)
    else if Dbl.lt (Dbl.fin (3 / 10)) dot = true then learning_rate * (11 / 10)
    else if Dbl.lt dot (Dbl.fin (-(1 / 2))) = true then learning_rate / (6 / 5)
    else if Dbl.lt dot (Dbl.fin (-(3 / 10))) = true then learning_rate / (11 / 10)
    else learning_rate
  let lr2 := if lr1 > 1 then 1 else lr1
  if lr2 < 1 / 1000 then 1 / 1000 else lr2

/-- The caps of the end of an epoch, lines 769-782. -/
def capRate (learning_rate : ℚ) (n_no_improvement : Int) : ℚ :=
  let lr1 := if n_no_improvement > 50 ∧ learning_rate > 3 / 100 then 3 / 100 else learning_rate
  let lr2 := if n_no_improvement > 100 ∧ lr1 > 2 / 100 then 2 / 100 else lr1
  let lr3 := if n_no_improvement > 150 ∧ lr2 > 1 / 100 then 1 / 100 else lr2
  let lr4 := if n_no_improvement > 200 ∧ lr3 > 5 / 1000 then 5 / 1000 else lr3
  if n_no_improvement > 250 ∧ lr4 > 2 / 1000 then 2 / 1000 else lr4

/-- What changes the learning rate during a run: the adjustment after a batch, with its
direction cosine, and the caps at the end of an epoch, with the counter they look at. -/
inductive RateEvent where
  | adjust (dot : Dbl)
  | cap (n_no_improvement : Int)

/-- The learning rate after one event. -/
def rateStep (learning_rate : ℚ) : RateEvent → ℚ
  | RateEvent.adjust dot => adjustRate learning_rate dot
  | RateEvent.cap n => capRate learning_rate n

/-- The learning rate after a sequence of events, from the value the caller supplies. -/
def rateAfter (learning_rate : ℚ) (events : List RateEvent) : ℚ :=
  events.foldl rateStep learning_rate

/-- A value is one of the five caps. -/
def isCapValue (x : ℚ) : Prop :=
  x = 3 / 100 ∨ x = 2 / 100 ∨ x = 1 / 100 ∨ x = 5 / 1000 ∨ x = 2 / 1000

/-! ## The rule `size = remaining / parts remaining` (lines 507 and 530) -/

/-- The sizes made by the rule shared by the batch loop (line 507,
`n_in_batch = (nc - n_done) / (n_batches - ibatch)`) and the thread loop (line 530,
`n_in_thread = (n_in_batch - nt_done) / (n_threads - ithread)`): with `left` parts to go,
part `i` takes `(total - done) / (parts - i)`. -/
def splitSizes (total parts : Int) : Nat → Nat → Int → List Int
  | 0, _, _ => []
  | left + 1, i, done =>
    let size := Int.tdiv (total - done) (parts - (i : Int))
    size :: splitSizes total parts left (i + 1) (done + size)


/-! ## The work vectors of the threads (`rbm_thr2`, lines 349-361 and 415-436) -/

/-- Where the slot of thread `i` starts in a work vector addressed per neuron, lines
426-433: `params[i].visible1 = visible1 + i * max_neurons`, and the same for `visible2`,
`hidden1`, `hidden2`, `hidden_act`, `in_bias_grad`, `hid_bias_grad`, `hid_on_frac`. -/
def slotOffset (max_neurons i : Int) : Int := i * max_neurons

/-- Where the slot of thread `i` starts in `w_grad`, line 434:
`params[i].w_grad = w_grad + i * nhid * n_inputs`. -/
def wGradOffset (nhid n_inputs i : Int) : Int := i * nhid * n_inputs

/-- The elements of a work vector that thread `i` reaches through its slot pointer with a
loop `for (k=0 ; k<count ; k++) ... ptr[k] ...`, where `count` is `n_inputs` for
`visible1`, `visible2`, `in_bias_grad` and `nhid` for `hidden1`, `hidden2`, `hidden_act`,
`hid_on_frac`, `hid_bias_grad` (`rbm2_threaded`, lines 83-240; pooling loop, lines
571-581). -/
def slotIndices (max_neurons count i : Int) : List Int :=
  (List.range count.toNat).map (fun (k : Nat) => slotOffset max_neurons i + (k : Int))

/-- The elements of `w_grad` that thread `i` reaches through its slot pointer with
`for (ihid=0 ; ihid<nhid ; ihid++) for (ivis=0 ; ivis<n_inputs ; ivis++)`
`... ptr[ihid*n_inputs+ivis] ...`. -/
def wGradIndices (nhid n_inputs i : Int) : List Int :=
  (List.range nhid.toNat).flatMap (fun (ihid : Nat) =>
    (List.range n_inputs.toNat).map (fun (ivis : Nat) =>
      wGradOffset nhid n_inputs i + ((ihid : Int) * n_inputs + (ivis : Int))))

/-- The length the parameter comments give for `visible1`, `visible2` and `in_bias_grad`,
lines 349, 350, 359: `Work vector n_inputs * max_threads long`. -/
def visibleLength (n_inputs max_threads : Int) : Int := n_inputs * max_threads

/-- The length the parameter comments give for `hidden1`, `hidden2`, `hidden_act`,
`hid_on_frac` and `hid_bias_grad`, lines 351-354, 360:
`Work vector nhid * max_threads long`. -/
def hiddenLength (nhid max_threads : Int) : Int := nhid * max_threads

/-- The length the parameter comment gives for `w_grad`, line 361:
`Work vector n_inputs * nhid * max_threads long`. -/
def wGradLength (n_inputs nhid max_threads : Int) : Int := n_inputs * nhid * max_threads


/-! ## Loops over arrays -/

/-- A counted loop `for (i=first ; i<first+trips ; i++) body`, on the state `s` the body
works on: `forLoop body trips first s`. -/
def forLoop {σ : Type} (body : Nat → σ → σ) : Nat → Nat → σ → σ
  | 0, _, s => s
  | left + 1, i, s => forLoop body left (i + 1) (body i s)

/-- A `double` array seen from a pointer to it: `a i` is the element `a[i]`.  The arrays
of the model have no end; the elements the code reaches through a slot pointer are listed
by `slotIndices` and `wGradIndices`. -/
abbrev Vec : Type := Nat → ℚ

/-! ## Pooling the results of the threads (`rbm_thr2`, lines 571-583) -/

/-- The vectors the threads leave their results in, each as one piece of memory seen from
its base pointer (`hid_bias_grad`, `hid_on_frac`, `w_grad`, `in_bias_grad`, `error_vec`);
the slot of thread `i` starts at `i * max_neurons`, at `i * nhid * n_inputs` in `w_grad`
and is the element `i` of `error_vec` (lines 431-435). -/
structure Pooled where
  hid_bias_grad : Vec
  hid_on_frac : Vec
  w_grad : Vec
  in_bias_grad : Vec
  error_vec : Vec

/-- The loop over the inputs of one hidden neuron in the pooling loop, lines 575-576:
`w_grad[ihid*n_inputs+ivis] += (params[ithread].w_grad)[ihid*n_inputs+ivis]`. -/
def poolWeights (nhid n_inputs ithread ihid : Nat) (m : Pooled) : Pooled :=
  forLoop (fun ivis (m : Pooled) =>
    let sum := m.w_grad (ihid * n_inputs + ivis)
      + m.w_grad (ithread * nhid * n_inputs + (ihid * n_inputs + ivis))
    { m with w_grad := Function.update m.w_grad (ihid * n_inputs + ivis) sum }) n_inputs 0 m

/-- The loop over the hidden neurons in the pooling loop, lines 572-577. -/
def poolHidden (max_neurons nhid n_inputs ithread : Nat) (m : Pooled) : Pooled :=
  forLoop (fun ihid (m : Pooled) =>
    let sum := m.hid_bias_grad ihid + m.hid_bias_grad (ithread * max_neurons + ihid)
    let m := { m with hid_bias_grad := Function.update m.hid_bias_grad ihid sum }
    let sum := m.hid_on_frac ihid + m.hid_on_frac (ithread * max_neurons + ihid)
    let m := { m with hid_on_frac := Function.update m.hid_on_frac ihid sum }
    poolWeights nhid n_inputs ithread ihid m) nhid 0 m

/-- The loop over the inputs in the pooling loop, lines 578-579. -/
def poolVisible (max_neurons n_inputs ithread : Nat) (m : Pooled) : Pooled :=
  forLoop (fun ivis (m : Pooled) =>
    let sum := m.in_bias_grad ivis + m.in_bias_grad (ithread * max_neurons + ivis)
    { m with in_bias_grad := Function.update m.in_bias_grad ivis sum }) n_inputs 0 m

/-- One trip of the pooling loop, lines 572-580, for the thread `ithread`; the dimensions
are natural numbers, a loop over a count that is not positive does nothing. -/
def poolThread (max_neurons nhid n_inputs ithread : Nat) (m : Pooled) : Pooled :=
  let m := poolHidden max_neurons nhid n_inputs ithread m
  let m := poolVisible max_neurons n_inputs ithread m
  { m with error_vec := Function.update m.error_vec 0 (m.error_vec 0 + m.error_vec ithread) }

/-- The pooling loop, line 571: `for (ithread=1 ; ithread<n_threads ; ithread++)`. -/
def pool (max_neurons nhid n_inputs n_threads : Nat) (m : Pooled) : Pooled :=
  forLoop (fun ithread m => poolThread max_neurons nhid n_inputs ithread m)
    (n_threads - 1) 1 m

/-- The sum over the slots `0 .. n - 1` of element `i` of a vector whose slots are `stride`
apart. -/
def slotSum (a : Vec) (stride n i : Nat) : ℚ :=
  ((List.range n).map (fun t => a (t * stride + i))).sum

/-- Vectors for two threads with two hidden neurons and one input, `max_neurons = 2`. -/
def twoSlots : Pooled :=
  { hid_bias_grad := fun i => (i : ℚ) + 1,
    hid_on_frac := fun i => 2 * (i : ℚ),
    w_grad := fun i => (i : ℚ) * (i : ℚ),
    in_bias_grad := fun i => 7 - (i : ℚ),
    error_vec := fun i => (i : ℚ) + 3 }


/-! ## The update after a batch (`rbm_thr2`, lines 601-630 and 669-683) -/

/-- The vectors and the running maximum the update of a batch works on; the gradient
vectors and `hid_on_frac` are those of slot 0, after pooling. -/
structure Weights where
  hid_on_frac : Vec
  hid_on_smoothed : Vec
  hid_bias_grad : Vec
  hid_bias_inc : Vec
  hid_bias : Vec
  w_grad : Vec
  w_inc : Vec
  w : Vec
  in_bias_grad : Vec
  in_bias_inc : Vec
  in_bias : Vec
  max_inc : ℚ

/-- The scalars and the vector `data_mean` the update of a batch reads; `nhid` and
`n_inputs` are natural numbers, a loop over a count that is not positive does nothing. -/
structure Hyper where
  nhid : Nat
  n_inputs : Nat
  n_in_batch : Int
  momentum : ℚ
  learning_rate : ℚ
  weight_penalty : ℚ
  sparsity_penalty : ℚ
  sparsity_target : ℚ
  data_mean : Vec

/-- The sparsity penalty of a hidden neuron from its smoothed activation, lines 604-608. -/
def spPen (H : Hyper) (smoothed : ℚ) : ℚ :=
  let sp_pen := H.sparsity_penalty * (smoothed - H.sparsity_target)
  let sp_pen := if smoothed < 1 / 100 then sp_pen + 1 / 2 * (smoothed - 1 / 100) else sp_pen
  if smoothed > 99 / 100 then sp_pen + 1 / 2 * (smoothed - 99 / 100) else sp_pen

/-- One trip of the loop over the inputs of the hidden neuron `ihid`, lines 614-622. -/
def updateWeight (H : Hyper) (ihid : Nat) (sp_pen : ℚ) (ivis : Nat) (s : Weights) : Weights :=
  let i := ihid * H.n_inputs + ivis
  let s := { s with w_grad := Function.update s.w_grad i (s.w_grad i / (H.n_in_batch : ℚ)) }
  let s := { s with w_grad := Function.update s.w_grad i (s.w_grad i - H.weight_penalty * s.w i) }
  let s := { s with w_grad := Function.update s.w_grad i (s.w_grad i - H.data_mean ivis * sp_pen) }
  let inc := H.momentum * s.w_inc i + H.learning_rate * s.w_grad i
  let s := { s with w_inc := Function.update s.w_inc i inc }
  let s := { s with w := Function.update s.w i (s.w i + s.w_inc i) }
  if |s.w_inc i| > s.max_inc then { s with max_inc := |s.w_inc i| } else s

/-- The loop over the inputs of the hidden neuron `ihid`, lines 613-623. -/
def updateWeights (H : Hyper) (ihid : Nat) (sp_pen : ℚ) (s : Weights) : Weights :=
  forLoop (updateWeight H ihid sp_pen) H.n_inputs 0 s

/-- One trip of the loop over the hidden neurons, lines 602-623. -/
def updateNeuron (H : Hyper) (ihid : Nat) (s : Weights) : Weights :=
  let frac := s.hid_on_frac ihid / (H.n_in_batch : ℚ)
  let s := { s with hid_on_frac := Function.update s.hid_on_frac ihid frac }
  let smoothed := 95 / 100 * s.hid_on_smoothed ihid + 5 / 100 * s.hid_on_frac ihid
  let s := { s with hid_on_smoothed := Function.update s.hid_on_smoothed ihid smoothed }
  let sp_pen := spPen H (s.hid_on_smoothed ihid)
  let inc := H.momentum * s.hid_bias_inc ihid
    + H.learning_rate * (s.hid_bias_grad ihid / (H.n_in_batch : ℚ) - sp_pen)
  let s := { s with hid_bias_inc := Function.update s.hid_bias_inc ihid inc }
  let sum := s.hid_bias ihid + s.hid_bias_inc ihid
  let s := { s with hid_bias := Function.update s.hid_bias ihid sum }
  updateWeights H ihid sp_pen s

/-- The loop over the hidden neurons, lines 601-624. -/
def updateHidden (H : Hyper) (s : Weights) : Weights :=
  forLoop (updateNeuron H) H.nhid 0 s

/-- One trip of the loop over the inputs, lines 626-628. -/
def updateInput (H : Hyper) (ivis : Nat) (s : Weights) : Weights :=
  let inc := H.momentum * s.in_bias_inc ivis
    + H.learning_rate * s.in_bias_grad ivis / (H.n_in_batch : ℚ)
  let s := { s with in_bias_inc := Function.update s.in_bias_inc ivis inc }
  let sum := s.in_bias ivis + s.in_bias_inc ivis
  { s with in_bias := Function.update s.in_bias ivis sum }

/-- The loop over the inputs, lines 625-629. -/
def updateVisible (H : Hyper) (s : Weights) : Weights :=
  forLoop (updateInput H) H.n_inputs 0 s

/-- The update of the weights and biases after a batch, lines 601-629. -/
def batchUpdate (H : Hyper) (s : Weights) : Weights :=
  updateVisible H (updateHidden H s)

/-- The absolute value `fabs` of a double. -/
def Dbl.abs : Dbl → Dbl
  | Dbl.fin q => Dbl.fin |q|
  | Dbl.pinf => Dbl.pinf
  | Dbl.ninf => Dbl.pinf
  | Dbl.nan => Dbl.nan

/-- The momentum after the test of line 682: `if (fabs(dot) > 0.3) momentum /= 1.5`. -/
def adjustMomentum (momentum : ℚ) (dot : Dbl) : ℚ :=
  if Dbl.lt (Dbl.fin (3 / 10)) (Dbl.abs dot) = true then momentum / (3 / 2) else momentum

/-- What a batch does after pooling, lines 601-683: first the update, with the momentum
and the learning rate it finds, then, except on the first batch of training
(`i_epoch == 0 && ibatch == 0`), the adjustment of the learning rate and of the momentum
to the direction cosine `dot` of this batch.  The result is the updated vectors, the
learning rate and the momentum left for the next batch. -/
def batchTail (firstBatch : Bool) (dot : Dbl) (H : Hyper) (s : Weights) : Weights × ℚ × ℚ :=
  let s := batchUpdate H s
  if firstBatch then (s, H.learning_rate, H.momentum)
  else (s, adjustRate H.learning_rate dot, adjustMomentum H.momentum dot)

/-- The smoothed activation of the hidden neuron `h` after the update, lines 602-603,
from the values before it. -/
def smoothedAfter (H : Hyper) (s : Weights) (h : Nat) : ℚ :=
  95 / 100 * s.hid_on_smoothed h + 5 / 100 * (s.hid_on_frac h / (H.n_in_batch : ℚ))

/-- The gradient of the weight from input `v` to hidden neuron `h` as the update uses it,
lines 614-616, from the values before the update. -/
def wGradAfter (H : Hyper) (s : Weights) (h v : Nat) : ℚ :=
  s.w_grad (h * H.n_inputs + v) / (H.n_in_batch : ℚ)
    - H.weight_penalty * s.w (h * H.n_inputs + v)
    - H.data_mean v * spPen H (smoothedAfter H s h)

/-- The increment of that weight, lines 617-618, from the values before the update. -/
def wIncAfter (H : Hyper) (s : Weights) (h v : Nat) : ℚ :=
  H.momentum * s.w_inc (h * H.n_inputs + v) + H.learning_rate * wGradAfter H s h v

/-- The increment of the bias of the hidden neuron `h`, lines 609-610, from the values
before the update. -/
def hidIncAfter (H : Hyper) (s : Weights) (h : Nat) : ℚ :=
  H.momentum * s.hid_bias_inc h
    + H.learning_rate * (s.hid_bias_grad h / (H.n_in_batch : ℚ) - spPen H (smoothedAfter H s h))

/-- The gradient of a weight of the hidden neuron `h` as the update uses it, for a given
sparsity penalty of the neuron. -/
def rowGrad (H : Hyper) (s : Weights) (h : Nat) (sp_pen : ℚ) (v : Nat) : ℚ :=
  s.w_grad (h * H.n_inputs + v) / (H.n_in_batch : ℚ)
    - H.weight_penalty * s.w (h * H.n_inputs + v) - H.data_mean v * sp_pen

/-- The increment of that weight. -/
def rowInc (H : Hyper) (s : Weights) (h : Nat) (sp_pen : ℚ) (v : Nat) : ℚ :=
  H.momentum * s.w_inc (h * H.n_inputs + v) + H.learning_rate * rowGrad H s h sp_pen v

/-- The vectors addressed per hidden neuron are the same in `r` and `s`. -/
def keepsHidden (r s : Weights) : Prop :=
  r.hid_on_frac = s.hid_on_frac ∧ r.hid_on_smoothed = s.hid_on_smoothed ∧
  r.hid_bias_grad = s.hid_bias_grad ∧ r.hid_bias_inc = s.hid_bias_inc ∧
  r.hid_bias = s.hid_bias

/-- The vectors addressed per input are the same in `r` and `s`. -/
def keepsVisible (r s : Weights) : Prop :=
  r.in_bias_grad = s.in_bias_grad ∧ r.in_bias_inc = s.in_bias_inc ∧ r.in_bias = s.in_bias

/-- The vectors addressed per weight and `max_inc` are the same in `r` and `s`. -/
def keepsWeights (r s : Weights) : Prop :=
  r.w_grad = s.w_grad ∧ r.w_inc = s.w_inc ∧ r.w = s.w ∧ r.max_inc = s.max_inc

/-- A single weight: `nhid = n_inputs = 1`, a batch of 4 cases. -/
def oneWeightHyper : Hyper :=
  { nhid := 1, n_inputs := 1, n_in_batch := 4, momentum := 1 / 2, learning_rate := 1 / 10,
    weight_penalty := 1 / 100, sparsity_penalty := 1 / 5, sparsity_target := 1 / 10,
    data_mean := fun _ => 1 / 4 }

/-- The state before the update of the single weight. -/
def oneWeightState : Weights :=
  { hid_on_frac := fun _ => 2, hid_on_smoothed := fun _ => 1 / 2,
    hid_bias_grad := fun _ => 1, hid_bias_inc := fun _ => 0, hid_bias := fun _ => 0,
    w_grad := fun _ => 2, w_inc := fun _ => 1 / 5, w := fun _ => 1,
    in_bias_grad := fun _ => -1, in_bias_inc := fun _ => 0, in_bias := fun _ => 0,
    max_inc := 0 }


/-! ## The worker `rbm2_threaded` (lines 44-243)

The worker is embedded loop by loop.  Its arrays are seen from the pointers it is handed,
so element 0 of a vector of the worker is the first element of its slot. -/

/-- What the worker is compiled and linked with: the functions `exp` and `log` of
`math.h`, as functions on the values a `double` takes, and the switches
`RECON_ERR_DIRECT` and `RECON_ERR_XENT` of `const.h`. -/
structure Build where
  exp : ℚ → ℚ
  log : ℚ → ℚ
  RECON_ERR_DIRECT : Bool
  RECON_ERR_XENT : Bool

/-- The arguments of `rbm2_threaded` that it only reads.  The counts `n_inputs`, `nhid`
and `n_chain` are natural numbers (a loop over a count that is not positive does nothing);
`data` and `shuffle_index` are addressed by an `int`. -/
structure Args where
  istart : Int
  istop : Int
  ncols : Int
  n_inputs : Nat
  data : Int → ℚ
  nhid : Nat
  n_chain : Nat
  mean_field : Bool
  greedy_mean_field : Bool
  w : Vec
  in_bias : Vec
  hid_bias : Vec
  shuffle_index : Int → Int

/-- What the worker writes: its local `randnum`, the work vectors, the accumulators and
`*error`. -/
structure Work where
  randnum : Int
  visible1 : Vec
  visible2 : Vec
  hidden1 : Vec
  hidden2 : Vec
  hidden_act : Vec
  in_bias_grad : Vec
  hid_bias_grad : Vec
  w_grad : Vec
  hid_on_frac : Vec
  error : ℚ

/-- The probability `1.0 / (1.0 + exp(-sum))`, lines 131, 141, 176, 210. -/
def logistic (B : Build) (sum : ℚ) : ℚ := 1 / (1 + B.exp (-sum))

/-- The net input of the hidden neuron `ihid` from the visible vector `x`, lines 127-130
and 206-209: `sum = hid_bias[ihid]`, then `sum += wptr[ivis] * x[ivis]` for every input,
with `wptr = w + ihid * n_inputs`. -/
def hiddenNet (A : Args) (x : Vec) (ihid : Nat) : ℚ :=
  forLoop (fun ivis sum => sum + A.w (ihid * A.n_inputs + ivis) * x ivis)
    A.n_inputs 0 (A.hid_bias ihid)

/-- The net input of the input `ivis` from the hidden vector `x`, lines 138-140 and
173-175: `sum = in_bias[ivis]`, then `sum += w[ihid*n_inputs+ivis] * x[ihid]` for every
hidden neuron. -/
def visibleNet (A : Args) (x : Vec) (ivis : Nat) : ℚ :=
  forLoop (fun ihid sum => sum + A.w (ihid * A.n_inputs + ivis) * x ihid)
    A.nhid 0 (A.in_bias ivis)

/-- Lines 86-87, one trip: `w_grad[ihid*n_inputs+ivis] = 0.0`. -/
def zeroWeight (A : Args) (ihid ivis : Nat) (s : Work) : Work :=
  { s with w_grad := Function.update s.w_grad (ihid * A.n_inputs + ivis) 0 }

/-- Lines 83-88, one trip of the loop over the hidden neurons. -/
def zeroHidden (A : Args) (ihid : Nat) (s : Work) : Work :=
  let s := { s with hid_bias_grad := Function.update s.hid_bias_grad ihid 0 }
  let s := { s with hid_on_frac := Function.update s.hid_on_frac ihid 0 }
  forLoop (zeroWeight A ihid) A.n_inputs 0 s

/-- Lines 90-91, one trip: `in_bias_grad[ivis] = 0.0`. -/
def zeroInput (ivis : Nat) (s : Work) : Work :=
  { s with in_bias_grad := Function.update s.in_bias_grad ivis 0 }

/-- Lines 83-93: the accumulators are set to zero. -/
def zeroAccumulators (A : Args) (s : Work) : Work :=
  let s := forLoop (zeroHidden A) A.nhid 0 s
  let s := forLoop zeroInput A.n_inputs 0 s
  { s with error := 0 }

/-- Line 108, one trip: `visible1[ivis] = dptr[ivis]` with
`dptr = data + shuffle_index[icase] * ncols`. -/
def loadInput (A : Args) (icase : Int) (ivis : Nat) (s : Work) : Work :=
  let x := A.data (A.shuffle_index icase * A.ncols + (ivis : Int))
  { s with visible1 := Function.update s.visible1 ivis x }

/-- Lines 106-108: the case is copied to `visible1`. -/
def loadCase (A : Args) (icase : Int) (s : Work) : Work :=
  forLoop (loadInput A icase) A.n_inputs 0 s

/-- Lines 112-117, one trip: a step of the generator, then
`visible1[ivis] = (frand < visible1[ivis]) ? 1.0 : 0.0`. -/
def sampleInput (ivis : Nat) (s : Work) : Work :=
  let s := { s with randnum := rngStep s.randnum }
  let x : ℚ := if frand s.randnum < s.visible1 ivis then 1 else 0
  { s with visible1 := Function.update s.visible1 ivis x }

/-- Lines 110-119: unless `greedy_mean_field` is set, the inputs are sampled. -/
def sampleInputs (A : Args) (s : Work) : Work :=
  if A.greedy_mean_field = true then s else forLoop sampleInput A.n_inputs 0 s

/-- Lines 127-133, one trip: `Q` is the probability of the hidden neuron given
`visible1`; `hidden1[ihid] = hidden2[ihid] = Q ; hid_on_frac[ihid] += Q`. -/
def hiddenProb (B : Build) (A : Args) (ihid : Nat) (s : Work) : Work :=
  let Q := logistic B (hiddenNet A s.visible1 ihid)
  let s := { s with hidden2 := Function.update s.hidden2 ihid Q }
  let s := { s with hidden1 := Function.update s.hidden1 ihid Q }
  { s with hid_on_frac := Function.update s.hid_on_frac ihid (s.hid_on_frac ihid + Q) }

/-- Lines 126-134. -/
def hiddenProbs (B : Build) (A : Args) (s : Work) : Work :=
  forLoop (hiddenProb B A) A.nhid 0 s

/-- The reconstruction criterion of one input with value `x` and reconstruction
probability `P`, added to `error`: lines 142-147 and 181-186.  The cross entropy
`error -= x * log(P+1.e-10) + (1.0-x) * log(1.0-P+1.e-10)` under `RECON_ERR_XENT`, the
squared difference `error += diff * diff` with `diff = x - P` otherwise. -/
def errorTerm (B : Build) (x P error : ℚ) : ℚ :=
  if B.RECON_ERR_XENT = true then
    error - (x * B.log (P + 1 / 10000000000) + (1 - x) * B.log (1 - P + 1 / 10000000000))
  else error + (x - P) * (x - P)

/-- Lines 138-147, one trip of the loop of the direct reconstruction error. -/
def directErrorTerm (B : Build) (A : Args) (ivis : Nat) (s : Work) : Work :=
  let P := logistic B (visibleNet A s.hidden1 ivis)
  { s with error := errorTerm B (s.visible1 ivis) P s.error }

/-- Lines 136-150: the reconstruction error `the deterministic but expensive way`, compiled
in under `RECON_ERR_DIRECT`. -/
def directError (B : Build) (A : Args) (s : Work) : Work :=
  if B.RECON_ERR_DIRECT = true then forLoop (directErrorTerm B A) A.n_inputs 0 s else s

/-- Lines 161-166, one trip: a step of the generator, then
`hidden_act[ihid] = (frand < hidden2[ihid]) ? 1.0 : 0.0`. -/
def sampleHiddenUnit (ihid : Nat) (s : Work) : Work :=
  let s := { s with randnum := rngStep s.randnum }
  let x : ℚ := if frand s.randnum < s.hidden2 ihid then 1 else 0
  { s with hidden_act := Function.update s.hidden_act ihid x }

/-- Lines 160-167: the hidden layer is sampled, in every mode. -/
def sampleHidden (A : Args) (s : Work) : Work :=
  forLoop sampleHiddenUnit A.nhid 0 s

/-- Lines 173-199, one trip: `P` is the probability of the input given `hidden_act`;
without `RECON_ERR_DIRECT` the first chain step adds the reconstruction criterion;
`visible2[ivis]` is `P` under `mean_field` and a sample of it otherwise. -/
def reconstructInput (B : Build) (A : Args) (ichain ivis : Nat) (s : Work) : Work :=
  let P := logistic B (visibleNet A s.hidden_act ivis)
  let s :=
    if B.RECON_ERR_DIRECT = false ∧ ichain = 0 then
      { s with error := errorTerm B (s.visible1 ivis) P s.error }
    else s
  if A.mean_field = true then { s with visible2 := Function.update s.visible2 ivis P }
  else
    let s := { s with randnum := rngStep s.randnum }
    let x : ℚ := if frand s.randnum < P then 1 else 0
    { s with visible2 := Function.update s.visible2 ivis x }

/-- Lines 172-200. -/
def reconstruct (B : Build) (A : Args) (ichain : Nat) (s : Work) : Work :=
  forLoop (reconstructInput B A ichain) A.n_inputs 0 s

/-- Lines 206-210, one trip: `hidden2[ihid]` is the probability of the hidden neuron
given `visible2`. -/
def hiddenProb2 (B : Build) (A : Args) (ihid : Nat) (s : Work) : Work :=
  let Q := logistic B (hiddenNet A s.visible2 ihid)
  { s with hidden2 := Function.update s.hidden2 ihid Q }

/-- Lines 205-211. -/
def hiddenProbs2 (B : Build) (A : Args) (s : Work) : Work :=
  forLoop (hiddenProb2 B A) A.nhid 0 s

/-- Lines 156-212, one trip of the Markov chain. -/
def chainStep (B : Build) (A : Args) (ichain : Nat) (s : Work) : Work :=
  hiddenProbs2 B A (reconstruct B A ichain (sampleHidden A s))

/-- Lines 156-212: `for (ichain=0 ; ichain<n_chain ; ichain++)`. -/
def chain (B : Build) (A : Args) (s : Work) : Work :=
  forLoop (chainStep B A) A.n_chain 0 s

/-- Lines 222-223, one trip, under `mean_field`:
`w_grad[ihid*n_inputs+ivis] += hidden1[ihid] * visible1[ivis] - hidden2[ihid] * visible2[ivis]`. -/
def weightGradMean (A : Args) (ihid ivis : Nat) (s : Work) : Work :=
  let x := s.w_grad (ihid * A.n_inputs + ivis)
    + (s.hidden1 ihid * s.visible1 ivis - s.hidden2 ihid * s.visible2 ivis)
  { s with w_grad := Function.update s.w_grad (ihid * A.n_inputs + ivis) x }

/-- Lines 234-235, one trip, without `mean_field`:
`w_grad[ihid*n_inputs+ivis] += hidden_act[ihid] * visible1[ivis] - hidden2[ihid] * visible2[ivis]`. -/
def weightGradSampled (A : Args) (ihid ivis : Nat) (s : Work) : Work :=
  let x := s.w_grad (ihid * A.n_inputs + ivis)
    + (s.hidden_act ihid * s.visible1 ivis - s.hidden2 ihid * s.visible2 ivis)
  { s with w_grad := Function.update s.w_grad (ihid * A.n_inputs + ivis) x }

/-- Lines 220-236, one trip of the loop over the hidden neurons. -/
def gradientUnit (A : Args) (ihid : Nat) (s : Work) : Work :=
  if A.mean_field = true then
    let x := s.hid_bias_grad ihid + (s.hidden1 ihid - s.hidden2 ihid)
    let s := { s with hid_bias_grad := Function.update s.hid_bias_grad ihid x }
    forLoop (weightGradMean A ihid) A.n_inputs 0 s
  else
    let s := { s with randnum := rngStep s.randnum }
    let x : ℚ := if frand s.randnum < s.hidden1 ihid then 1 else 0
    let s := { s with hidden_act := Function.update s.hidden_act ihid x }
    let x := s.hid_bias_grad ihid + (s.hidden_act ihid - s.hidden2 ihid)
    let s := { s with hid_bias_grad := Function.update s.hid_bias_grad ihid x }
    forLoop (weightGradSampled A ihid) A.n_inputs 0 s

/-- Lines 218-237. -/
def gradient (A : Args) (s : Work) : Work :=
  forLoop (gradientUnit A) A.nhid 0 s

/-- Line 240, one trip: `in_bias_grad[ivis] += visible1[ivis] - visible2[ivis]`. -/
def inputGradient (ivis : Nat) (s : Work) : Work :=
  let x := s.in_bias_grad ivis + (s.visible1 ivis - s.visible2 ivis)
  { s with in_bias_grad := Function.update s.in_bias_grad ivis x }

/-- Lines 239-240. -/
def inputGradients (A : Args) (s : Work) : Work :=
  forLoop inputGradient A.n_inputs 0 s

/-- Lines 106-212: what the body of the case loop does to the case at position `icase`
up to the end of the Markov chain. -/
def afterChain (B : Build) (A : Args) (icase : Int) (s : Work) : Work :=
  chain B A (directError B A (hiddenProbs B A (sampleInputs A (loadCase A icase s))))

/-- Lines 106-240: the body of the case loop. -/
def caseBody (B : Build) (A : Args) (icase : Int) (s : Work) : Work :=
  inputGradients A (gradient A (afterChain B A icase s))

/-- The case loop over the positions `cases`, in order. -/
def runCases (B : Build) (A : Args) : List Int → Work → Work
  | [], s => s
  | icase :: rest, s => runCases B A rest (caseBody B A icase s)

/-- The worker from line 83 on, started with the generator in the state `randnum`; `s`
holds what the vectors contain on entry. -/
def rbm2_from (B : Build) (A : Args) (randnum : Int) (s : Work) : Work :=
  runCases B A (workerCases A.istart A.istop) (zeroAccumulators A { s with randnum := randnum })

/-- The worker `rbm2_threaded`: the generator is started from `istop` and
`shuffle_index[0]` (lines 74-76), the rest follows. -/
def rbm2_threaded (B : Build) (A : Args) (s : Work) : Work :=
  rbm2_from B A (seedOf A.istop (A.shuffle_index 0)) s

/-- The states at the end of the Markov chain, one for each case handled by the case loop
over `cases` started in the state `s`. -/
def chainStates (B : Build) (A : Args) : List Int → Work → List Work
  | [], _ => []
  | icase :: rest, s => afterChain B A icase s :: chainStates B A rest (caseBody B A icase s)

/-- The states at the end of the Markov chain of the cases handled by `rbm2_threaded`. -/
def workerStates (B : Build) (A : Args) (s : Work) : List Work :=
  chainStates B A (workerCases A.istart A.istop)
    (zeroAccumulators A { s with randnum := seedOf A.istop (A.shuffle_index 0) })

/-- What the Markov chain does not write: `visible1`, `hidden1` and the accumulators
`in_bias_grad`, `hid_bias_grad`, `w_grad`, `hid_on_frac`. -/
def chainKeeps (s : Work) : Vec × Vec × Vec × Vec × Vec × Vec :=
  (s.visible1, s.hidden1, s.in_bias_grad, s.hid_bias_grad, s.w_grad, s.hid_on_frac)

/-- The state `s` with the generator in the state `randnum`. -/
def setRand (randnum : Int) (s : Work) : Work := { s with randnum := randnum }

/-- The state `s` with `*error` holding `error`. -/
def setError (error : ℚ) (s : Work) : Work := { s with error := error }


/-! ## Example runs of the worker -/

/-- A build for the examples: in place of `exp` a function of the same kind (positive,
increasing, 1 at 0) that takes rational values, the squared difference as reconstruction
criterion, taken at the first chain step. -/
def plainBuild : Build :=
  { exp := fun x => if x ≤ 0 then 1 / (1 - x) else 1 + x, log := fun _ => 0,
    RECON_ERR_DIRECT := false, RECON_ERR_XENT := false }

/-- Work vectors that hold zeros on entry. -/
def zeroWork : Work :=
  { randnum := 0, visible1 := fun _ => 0, visible2 := fun _ => 0, hidden1 := fun _ => 0,
    hidden2 := fun _ => 0, hidden_act := fun _ => 0, in_bias_grad := fun _ => 0,
    hid_bias_grad := fun _ => 0, w_grad := fun _ => 0, hid_on_frac := fun _ => 0, error := 0 }

/-- One input, one hidden neuron, weight 1, biases 0, one chain step, both mean-field
flags set; the range is the single case at position 1, which is the data row 1, an input
of value 0; `shuffle_index[0]` is `first`. -/
def unitArgs (first : Int) : Args :=
  { istart := 1, istop := 2, ncols := 1, n_inputs := 1, data := fun _ => 0, nhid := 1,
    n_chain := 1, mean_field := true, greedy_mean_field := true, w := fun _ => 1,
    in_bias := fun _ => 0, hid_bias := fun _ => 0,
    shuffle_index := fun i => if i = 0 then first else 1 }

/-- A batch of 20 cases of one input, one hidden neuron, all weights and biases 0, one
chain step, `mean_field` set and `greedy_mean_field` not; the data row 0 holds the value
0.0001, all other rows hold 0; the cases are in their original order. -/
def twentyArgs : Args :=
  { istart := 0, istop := 20, ncols := 1, n_inputs := 1,
    data := fun i => if i = 0 then 1 / 10000 else 0, nhid := 1,
    n_chain := 1, mean_field := true, greedy_mean_field := false, w := fun _ => 0,
    in_bias := fun _ => 0, hid_bias := fun _ => 0, shuffle_index := fun i => i }

/-- The single case of `unitArgs` without a Markov chain: `n_chain = 0`. -/
def noChainArgs : Args := { unitArgs 0 with n_chain := 0 }


/-! ## A batch on its threads (`rbm_thr2`, lines 518-583) -/

/-- The vectors at the join of line 557, as the pooling loop finds them.  Thread `t` was
handed the pointers `base + t * max_neurons` (`w_grad + t * nhid * n_inputs`,
`error_vec + t`), so element `i` of what the worker `W t` leaves in a vector is element
`t * max_neurons + i` of the whole vector (`t * nhid * n_inputs + i` in `w_grad`), as long
as `i` stays below the distance of two slots. -/
def joined (max_neurons nhid n_inputs : Nat) (W : Nat → Work) : Pooled :=
  { hid_bias_grad := fun j => (W (j / max_neurons)).hid_bias_grad (j % max_neurons),
    hid_on_frac := fun j => (W (j / max_neurons)).hid_on_frac (j % max_neurons),
    w_grad := fun j => (W (j / (nhid * n_inputs))).w_grad (j % (nhid * n_inputs)),
    in_bias_grad := fun j => (W (j / max_neurons)).in_bias_grad (j % max_neurons),
    error_vec := fun t => (W t).error }

/-- The worker of thread `t` of a batch: `rbm2_threaded` on the range the thread loop has
stored for it (lines 535-536), with the other arguments of the batch, on the vectors of
its slot, which hold `init t` on entry. -/
def batchThread (B : Build) (A : Args) (ranges : List (Int × Int)) (init : Nat → Work)
    (t : Nat) : Work :=
  rbm2_threaded B
    { A with istart := (ranges.getD t (0, 0)).1, istop := (ranges.getD t (0, 0)).2 } (init t)

/-- The batch `[A.istart, A.istop)` run with the global `max_threads`: the thread count of
lines 518-520, the ranges of lines 529-551, a worker on each range, and the pooling loop
of lines 571-583.  The result is the vectors after pooling. -/
def runBatch (B : Build) (A : Args) (max_neurons : Nat) (max_threads : Int)
    (init : Nat → Work) : Pooled :=
  let n_in_batch := A.istop - A.istart
  let n_threads := threadCount max_threads n_in_batch
  pool max_neurons A.nhid A.n_inputs n_threads.toNat
    (joined max_neurons A.nhid A.n_inputs
      (batchThread B A (threadRanges A.istart n_in_batch n_threads) init))

/-- The gradient vectors of slot 0 after pooling: `hid_bias_grad`, `w_grad`,
`in_bias_grad`. -/
def pooledGradients (p : Pooled) : Vec × Vec × Vec :=
  (p.hid_bias_grad, p.w_grad, p.in_bias_grad)

/-- The gradient vectors a worker leaves: `hid_bias_grad`, `w_grad`, `in_bias_grad`. -/
def workGradients (W : Work) : Vec × Vec × Vec :=
  (W.hid_bias_grad, W.w_grad, W.in_bias_grad)

/-- The elementwise sums of the gradient vectors the workers `W 0 .. W (n - 1)` leave. -/
def summedGradients (n : Nat) (W : Nat → Work) : Vec × Vec × Vec :=
  (fun i => ((List.range n).map (fun t => (W t).hid_bias_grad i)).sum,
   fun i => ((List.range n).map (fun t => (W t).w_grad i)).sum,
   fun i => ((List.range n).map (fun t => (W t).in_bias_grad i)).sum)

/-- Two triples of gradient vectors hold the same gradients: `hid_bias_grad[h]`,
`w_grad[h*n_inputs+v]` and `in_bias_grad[v]` agree for every `h < nhid`, `v < n_inputs`. -/
def sameGradients (nhid n_inputs : Nat) (x y : Vec × Vec × Vec) : Prop :=
  (∀ h, h < nhid → x.1 h = y.1 h) ∧
  (∀ h v, h < nhid → v < n_inputs →
    x.2.1 (h * n_inputs + v) = y.2.1 (h * n_inputs + v)) ∧
  (∀ v, v < n_inputs → x.2.2 v = y.2.2 v)

/-! ## Two runs of the worker side by side -/

/-- Two states of the worker hold the same where it matters: the generator state, `*error`
and the used part of every accumulator agree, and so do the first `v1` elements of
`visible1`, the first `v2` of `visible2`, the first `h1` of `hidden1`, the first `h2` of
`hidden2` and the first `ha` of `hidden_act`. -/
structure Agree (A : Args) (v1 v2 h1 h2 ha : Nat) (t u : Work) : Prop where
  rand : t.randnum = u.randnum
  err : t.error = u.error
  ibg : ∀ i, i < A.n_inputs → t.in_bias_grad i = u.in_bias_grad i
  hbg : ∀ i, i < A.nhid → t.hid_bias_grad i = u.hid_bias_grad i
  wg : ∀ i, i < A.nhid * A.n_inputs → t.w_grad i = u.w_grad i
  hof : ∀ i, i < A.nhid → t.hid_on_frac i = u.hid_on_frac i
  vis1 : ∀ i, i < v1 → t.visible1 i = u.visible1 i
  vis2 : ∀ i, i < v2 → t.visible2 i = u.visible2 i
  hid1 : ∀ i, i < h1 → t.hidden1 i = u.hidden1 i
  hid2 : ∀ i, i < h2 → t.hidden2 i = u.hidden2 i
  act : ∀ i, i < ha → t.hidden_act i = u.hidden_act i

/-- The state `t` holds what `s` holds in every element of a vector that lies at or after
the count the worker uses of it: `n_inputs` for `visible1`, `visible2`, `in_bias_grad`,
`nhid` for `hidden1`, `hidden2`, `hidden_act`, `hid_bias_grad`, `hid_on_frac`, and
`nhid * n_inputs` for `w_grad`. -/
structure Outside (A : Args) (s t : Work) : Prop where
  vis1 : ∀ i, A.n_inputs ≤ i → t.visible1 i = s.visible1 i
  vis2 : ∀ i, A.n_inputs ≤ i → t.visible2 i = s.visible2 i
  ibg : ∀ i, A.n_inputs ≤ i → t.in_bias_grad i = s.in_bias_grad i
  hid1 : ∀ i, A.nhid ≤ i → t.hidden1 i = s.hidden1 i
  hid2 : ∀ i, A.nhid ≤ i → t.hidden2 i = s.hidden2 i
  act : ∀ i, A.nhid ≤ i → t.hidden_act i = s.hidden_act i
  hbg : ∀ i, A.nhid ≤ i → t.hid_bias_grad i = s.hid_bias_grad i
  hof : ∀ i, A.nhid ≤ i → t.hid_on_frac i = s.hid_on_frac i
  wg : ∀ i, A.nhid * A.n_inputs ≤ i → t.w_grad i = s.w_grad i

/-- Where thread `i` finds its `*error`, line 435: `params[i].error = error_vec + i`. -/
def errorOffset (i : Int) : Int := i

/-- Work vectors, accumulators and locals that hold left-over values on entry. -/
def staleWork : Work :=
  { randnum := 5, visible1 := fun _ => 7, visible2 := fun _ => 7, hidden1 := fun _ => 7,
    hidden2 := fun _ => 7, hidden_act := fun _ => 7, in_bias_grad := fun _ => 7,
    hid_bias_grad := fun _ => 7, w_grad := fun _ => 7, hid_on_frac := fun _ => 7, error := 7 }


/-! ## The run of `rbm_thr2` on the numbers (lines 443-451, 506-630) -/

/-- Line 447, one trip: `w_inc[ihid*n_inputs+ivis] = 0.0`. -/
def initWeightInc (n_inputs ihid ivis : Nat) (s : Weights) : Weights :=
  { s with w_inc := Function.update s.w_inc (ihid * n_inputs + ivis) 0 }

/-- Lines 443-448, one trip: `hid_bias_inc[ihid] = 0.0 ; hid_on_smoothed[ihid] = 0.5 ;`
and the loop over the inputs. -/
def initHidden (n_inputs ihid : Nat) (s : Weights) : Weights :=
  let s := { s with hid_bias_inc := Function.update s.hid_bias_inc ihid 0 }
  let s := { s with hid_on_smoothed := Function.update s.hid_on_smoothed ihid (1 / 2) }
  forLoop (initWeightInc n_inputs ihid) n_inputs 0 s

/-- Line 451, one trip: `in_bias_inc[ivis] = 0.0`. -/
def initInput (ivis : Nat) (s : Weights) : Weights :=
  { s with in_bias_inc := Function.update s.in_bias_inc ivis 0 }

/-- Lines 443-451: the increments are set to zero and the smoothed activations to 0.5. -/
def initIncrements (nhid n_inputs : Nat) (s : Weights) : Weights :=
  forLoop initInput n_inputs 0 (forLoop (initHidden n_inputs) nhid 0 s)

/-- One trip of the batch loop on the numbers, lines 506-630, for the batch
`[A.istart, A.istop)`: the workers read the weights and biases as they stand
(`params[i].w = w` and so on, lines 422-424), the pooling loop leaves the sums in slot 0,
where the update finds `hid_on_frac` and the gradients, and the update divides by
`n_in_batch = istop - istart` (line 508).  `H` gives the learning rate, the momentum and
the penalties the batch finds; `A` the range, the data, the flags and the chain length;
`init t` what the vectors of slot `t` hold before the workers run. -/
def trainBatch (B : Build) (max_neurons : Nat) (max_threads : Int) (A : Args) (H : Hyper)
    (init : Nat → Work) (s : Weights) : Weights :=
  let A := { A with w := s.w, in_bias := s.in_bias, hid_bias := s.hid_bias }
  let p := runBatch B A max_neurons max_threads init
  let s := { s with
    hid_on_frac := p.hid_on_frac, hid_bias_grad := p.hid_bias_grad, w_grad := p.w_grad,
    in_bias_grad := p.in_bias_grad }
  batchUpdate
    { H with nhid := A.nhid, n_inputs := A.n_inputs, n_in_batch := A.istop - A.istart } s

/-- The batches of a run, one after the other, each with what it finds: its range, data,
flags and chain length, its learning rate, momentum and penalties, and the contents of
the work vectors. -/
def trainRun (B : Build) (max_neurons : Nat) (max_threads : Int) :
    List (Args × Hyper × (Nat → Work)) → Weights → Weights
  | [], s => s
  | b :: rest, s =>
    trainRun B max_neurons max_threads rest
      (trainBatch B max_neurons max_threads b.1 b.2.1 b.2.2 s)


/-! ## The direction of the gradient (`rbm_thr2`, lines 640-687)

The direction code is where rounding matters, so it is embedded over the arithmetic it is
run with: an `Arith` gives the operations on `double` that lines 641-667 use.  `binary64`
is the arithmetic of the machine, `exactArith` is arithmetic without rounding. -/

/-- The operations on `double` of lines 641-667: the constant `0.0`, `+` (as in `+=`),
`*`, `/` (as in `/=`) and `sqrt` of `math.h`, on a type `K` of values. -/
structure Arith (K : Type) where
  zero : K
  add : K → K → K
  mul : K → K → K
  div : K → K → K
  sqrt : K → K

/-- Arithmetic without rounding in a field, with `sqrt` handed in.  A quotient by zero,
which arithmetic without rounding does not define, is the `0` of the field; what is proved
of `dot` in this arithmetic is proved for vectors that are not zero, where the divisor is
not zero. -/
def exactArith {K : Type} [Field K] (sqrt : K → K) : Arith K :=
  { zero := 0, add := fun a b => a + b, mul := fun a b => a * b, div := fun a b => a / b,
    sqrt := sqrt }

/-- The power `2^e` of two, as a rational. -/
def pow2 (e : Int) : ℚ :=
  if 0 ≤ e then ((2 ^ e.toNat : Nat) : ℚ) else 1 / ((2 ^ (-e).toNat : Nat) : ℚ)

/-- The position of the highest bit of `n`, by halving; `fuel` bounds the number of
halvings. -/
def bitLog : Nat → Nat → Nat
  | 0, _ => 0
  | fuel + 1, n => if n < 2 then 0 else bitLog fuel (n / 2) + 1

/-- The position of the highest bit of `n`: the `k` with `2^k ≤ n < 2^(k+1)` for `n > 0`. -/
def natLog2 (n : Nat) : Nat := bitLog n n

/-- The exponent of a positive rational `a`: the `e` with `2^e ≤ a < 2^(e+1)`. -/
def floorLog2 (a : ℚ) : Int :=
  let l : Int := (natLog2 a.num.toNat : Int) - (natLog2 a.den : Int)
  if pow2 l ≤ a then l else l - 1

/-- A rational `x ≥ 0` rounded to the nearest natural number, a tie going to the even
one. -/
def roundEven (x : ℚ) : Nat :=
  let f := x.num.toNat / x.den
  let r := x.num.toNat % x.den
  if 2 * r < x.den then f
  else if x.den < 2 * r then f + 1
  else if f % 2 = 0 then f else f + 1

/-- The `double` (IEEE 754 binary64, rounding to nearest, ties to even) that an exact
result `x` is rounded to: 53 significant bits from the exponent of `x`, which is not taken
below `-1022` (below `2^-1022` the values are `2^-1074` apart), and an infinity when the
rounded value reaches `2^1024`.  The sign of a zero is not kept. -/
def round64 (x : ℚ) : Dbl :=
  if x = 0 then Dbl.fin 0
  else
    let a := if x < 0 then -x else x
    let e := max (floorLog2 a) (-1022)
    let q := pow2 (e - 52)
    let y := (roundEven (a / q) : ℚ) * q
    if pow2 1024 ≤ y then (if x < 0 then Dbl.ninf else Dbl.pinf)
    else Dbl.fin (if x < 0 then -y else y)

/-- The sum of two doubles. -/
def Dbl.add64 : Dbl → Dbl → Dbl
  | Dbl.fin a, Dbl.fin b => round64 (a + b)
  | Dbl.nan, _ => Dbl.nan
  | _, Dbl.nan => Dbl.nan
  | Dbl.pinf, Dbl.ninf => Dbl.nan
  | Dbl.ninf, Dbl.pinf => Dbl.nan
  | Dbl.pinf, _ => Dbl.pinf
  | _, Dbl.pinf => Dbl.pinf
  | Dbl.ninf, _ => Dbl.ninf
  | _, Dbl.ninf => Dbl.ninf

/-- The sign of a double that is not a NaN: `-1`, `0` or `1`. -/
def Dbl.sign : Dbl → Int
  | Dbl.fin a => if a < 0 then -1 else if a = 0 then 0 else 1
  | Dbl.pinf => 1
  | Dbl.ninf => -1
  | Dbl.nan => 0

/-- The product of two doubles. -/
def Dbl.mul64 : Dbl → Dbl → Dbl
  | Dbl.fin a, Dbl.fin b => round64 (a * b)
  | Dbl.nan, _ => Dbl.nan
  | _, Dbl.nan => Dbl.nan
  | x, y =>
    if x.sign * y.sign = 0 then Dbl.nan
    else if x.sign * y.sign < 0 then Dbl.ninf else Dbl.pinf

/-- The quotient of two doubles; a zero divisor is taken as `+0`. -/
def Dbl.div64 : Dbl → Dbl → Dbl
  | Dbl.fin a, Dbl.fin b => if b = 0 then Dbl.div a b else round64 (a / b)
  | Dbl.nan, _ => Dbl.nan
  | _, Dbl.nan => Dbl.nan
  | Dbl.fin _, _ => Dbl.fin 0
  | _, Dbl.pinf => Dbl.nan
  | _, Dbl.ninf => Dbl.nan
  | x, Dbl.fin b => if (x.sign < 0) = (b < 0) then Dbl.pinf else Dbl.ninf

/-- The largest natural number whose square is at most `n`, bit by bit from bit `b - 1`
down; `r` holds the bits found so far. -/
def isqrtAux (n : Nat) : Nat → Nat → Nat
  | 0, r => r
  | b + 1, r => isqrtAux n b (if (r + 2 ^ b) * (r + 2 ^ b) ≤ n then r + 2 ^ b else r)

/-- The largest natural number whose square is at most `n`. -/
def isqrt (n : Nat) : Nat := isqrtAux n (natLog2 n / 2 + 1) 0

/-- The square root of a rational `x > 0`, correctly rounded to a `double` as IEEE 754
asks of `sqrt`: with `q` the distance of the doubles around the root, the root of
`x / q^2` is rounded to the nearest natural number. -/
def sqrtRound (x : ℚ) : ℚ :=
  let e := max (floorLog2 x / 2) (-1022)
  let q := pow2 (e - 52)
  let y := x / (q * q)
  let f := isqrt (y.num.toNat / y.den)
  let m : ℚ := (f : ℚ) + 1 / 2
  let r := if y < m * m then f else if m * m < y then f + 1 else if f % 2 = 0 then f else f + 1
  (r : ℚ) * q

/-- The function `sqrt` of `math.h` on doubles, correctly rounded. -/
def Dbl.sqrt64 : Dbl → Dbl
  | Dbl.fin a => if a < 0 then Dbl.nan else if a = 0 then Dbl.fin 0 else Dbl.fin (sqrtRound a)
  | Dbl.pinf => Dbl.pinf
  | Dbl.ninf => Dbl.nan
  | Dbl.nan => Dbl.nan

/-- The arithmetic of the machine: IEEE 754 binary64. -/
def binary64 : Arith Dbl :=
  { zero := Dbl.fin 0, add := Dbl.add64, mul := Dbl.mul64, div := Dbl.div64,
    sqrt := Dbl.sqrt64 }

/-- What the direction code keeps from one batch to the next: the vector `w_prev` and
`len_prev`.  (`smoothed_this` and `smoothed_dot` are, as the comment of line 637 says,
`purely for user display` and are left out.) -/
structure Direction (K : Type) where
  w_prev : Nat → K
  len_prev : K

/-- What the loops of lines 642-648 and 655-664 work on: `w_prev` and the locals
`len_this` and `dot`. -/
structure Scan (K : Type) where
  w_prev : Nat → K
  len_this : K
  dot : K

/-- Lines 644-646, one trip, on the first batch of training:
`x_this = w_grad[ihid*n_inputs+ivis] ; w_prev[ihid*n_inputs+ivis] = x_this ;`
`len_this += x_this * x_this ;` -/
def scanFirst {K : Type} (F : Arith K) (n_inputs : Nat) (w_grad : Nat → K) (ihid ivis : Nat)
    (c : Scan K) : Scan K :=
  let x_this := w_grad (ihid * n_inputs + ivis)
  { c with
    w_prev := Function.update c.w_prev (ihid * n_inputs + ivis) x_this,
    len_this := F.add c.len_this (F.mul x_this x_this) }

/-- Lines 657-661, one trip, on every later batch:
`x_this = w_grad[ihid*n_inputs+ivis] ; x_prev = w_prev[ihid*n_inputs+ivis] ;`
`w_prev[ihid*n_inputs+ivis] = x_this ; len_this += x_this * x_this ;`
`dot += x_this * x_prev ;` -/
def scanNext {K : Type} (F : Arith K) (n_inputs : Nat) (w_grad : Nat → K) (ihid ivis : Nat)
    (c : Scan K) : Scan K :=
  let x_this := w_grad (ihid * n_inputs + ivis)
  let x_prev := c.w_prev (ihid * n_inputs + ivis)
  { w_prev := Function.update c.w_prev (ihid * n_inputs + ivis) x_this,
    len_this := F.add c.len_this (F.mul x_this x_this),
    dot := F.add c.dot (F.mul x_this x_prev) }

/-- Lines 640-651, the branch `i_epoch == 0 && ibatch == 0`: `len_this = 0.0`, the two
loops, `len_prev = len_this`. -/
def directionFirst {K : Type} (F : Arith K) (nhid n_inputs : Nat) (w_grad : Nat → K)
    (d : Direction K) : Direction K :=
  let c := forLoop (fun ihid c => forLoop (scanFirst F n_inputs w_grad ihid) n_inputs 0 c)
    nhid 0 { w_prev := d.w_prev, len_this := F.zero, dot := F.zero }
  { w_prev := c.w_prev, len_prev := c.len_this }

/-- Lines 653-667, the other branch: `len_this = dot = 0.0`, the two loops,
`dot /= sqrt ( len_this * len_prev ) ; len_prev = len_this`.  The result is what is kept
for the next batch, and `dot`. -/
def directionNext {K : Type} (F : Arith K) (nhid n_inputs : Nat) (w_grad : Nat → K)
    (d : Direction K) : Direction K × K :=
  let c := forLoop (fun ihid c => forLoop (scanNext F n_inputs w_grad ihid) n_inputs 0 c)
    nhid 0 { w_prev := d.w_prev, len_this := F.zero, dot := F.zero }
  ({ w_prev := c.w_prev, len_prev := c.len_this },
    F.div c.dot (F.sqrt (F.mul c.len_this d.len_prev)))

/-- The direction code of a batch that is not left at the `break` of line 632, after the
update of lines 601-630: on the first batch of training the branch of line 640, on every
other batch the branch of line 653, on the `w_grad` the update has left.  `read` takes an
element of `w_grad`, which the model of the update holds as an exact rational, into the
arithmetic of the direction code.  The result is what the direction code keeps, and `dot`
when it is computed. -/
def batchDirection {K : Type} (F : Arith K) (read : ℚ → K) (firstBatch : Bool) (H : Hyper)
    (s : Weights) (d : Direction K) : Direction K × Option K :=
  let u := batchUpdate H s
  if firstBatch then
    (directionFirst F H.nhid H.n_inputs (fun i => read (u.w_grad i)) d, none)
  else
    let r := directionNext F H.nhid H.n_inputs (fun i => read (u.w_grad i)) d
    (r.1, some r.2)

/-- The direction code over the batches that reach it after the first one, given by the
gradient vectors they find in `w_grad`: what is kept at the end. -/
def directionRun {K : Type} (F : Arith K) (nhid n_inputs : Nat) :
    List (Nat → K) → Direction K → Direction K
  | [], d => d
  | g :: gs, d => directionRun F nhid n_inputs gs (directionNext F nhid n_inputs g d).1

/-- The squared Euclidean length of the first `n` elements of a vector. -/
def sqLength {K : Type} [Semiring K] (n : Nat) (a : Nat → K) : K :=
  ((List.range n).map (fun i => a i * a i)).sum

/-- The inner product of the first `n` elements of two vectors. -/
def innerProduct {K : Type} [Semiring K] (n : Nat) (a b : Nat → K) : K :=
  ((List.range n).map (fun i => a i * b i)).sum

/-- The last of the vectors `prev, gs`. -/
def lastVec {K : Type} : (Nat → K) → List (Nat → K) → Nat → K
  | prev, [] => prev
  | _, g :: gs => lastVec g gs

/-- Two doubles as a vector of one hidden neuron and two inputs. -/
def vec2 (x y : Dbl) : Nat → Dbl := fun i => if i = 0 then x else y

/-- The gradient `(0.1, 0.7)`, in doubles. -/
def gradPrev : Nat → Dbl := vec2 (round64 (1 / 10)) (round64 (7 / 10))

/-- The gradient `(0.3, 2.1)`, in doubles: three times `gradPrev` but for rounding. -/
def gradThis : Nat → Dbl := vec2 (round64 (3 / 10)) (round64 (21 / 10))

/-- A gradient whose squares are below the smallest double: `(2^-600, 2^-600)`. -/
def gradTiny : Nat → Dbl := vec2 (Dbl.fin (pow2 (-600))) (Dbl.fin (pow2 (-600)))

/-- What `w_prev` and `len_prev` hold before the first batch, here zeros. -/
def noDirection : Direction Dbl := { w_prev := fun _ => Dbl.fin 0, len_prev := Dbl.fin 0 }

/-- A stand-in for `sqrt` on the rationals that is right at 625. -/
def sqrtAt625 (x : ℚ) : ℚ := if x = 625 then 25 else 0

/-- The gradient vector `(3, 4)`. -/
def vec34 : Nat → ℚ := fun i => if i = 0 then 3 else if i = 1 then 4 else 0

/-- The gradient vector `(4, 3)`. -/
def vec43 : Nat → ℚ := fun i => if i = 0 then 4 else if i = 1 then 3 else 0

/-- The two elements of `gradPrev` as exact rationals. -/
def gradPrevExact : Nat → ℚ := fun i =>
  if i = 0 then 3602879701896397 / 36028797018963968 else 3152519739159347 / 4503599627370496

/-! ## Theorems -/

theorem tiles_le : ∀ (rs : List (Int × Int)) (a b : Int), Tiles a b rs → a ≤ b
  | [], a, b, h => by simp [Tiles] at h; omega
  | r :: rs, a, b, h => by
    obtain ⟨h1, h2, h3⟩ := h
    have := tiles_le rs _ _ h3
    omega

theorem tiles_bounds : ∀ (rs : List (Int × Int)) (a b : Int), Tiles a b rs →
    ∀ r ∈ rs, a ≤ r.1 ∧ r.1 ≤ r.2 ∧ r.2 ≤ b
  | [], _, _, _ => by simp
  | r :: rs, a, b, h => by
    obtain ⟨h1, h2, h3⟩ := h
    intro x hx
    rcases List.mem_cons.mp hx with rfl | hx
    · have := tiles_le rs _ _ h3
      omega
    · have := tiles_bounds rs _ _ h3 x hx
      omega

theorem tiles_sum : ∀ (rs : List (Int × Int)) (a b : Int), Tiles a b rs →
    (rs.map (fun r => r.2 - r.1)).sum = b - a
  | [], a, b, h => by simp [Tiles] at h; simp [h]
  | r :: rs, a, b, h => by
    obtain ⟨h1, h2, h3⟩ := h
    have := tiles_sum rs _ _ h3
    simp only [List.map_cons, List.sum_cons, this]
    omega

theorem tiles_chain : ∀ (rs : List (Int × Int)) (a b : Int), Tiles a b rs →
    List.Chain' (fun p q : Int × Int => p.2 = q.1) rs
  | [], _, _, _ => List.chain'_nil
  | [_], _, _, _ => List.chain'_singleton _
  | r :: s :: rs, a, b, h => by
    obtain ⟨h1, h2, h3⟩ := h
    refine List.Chain'.cons ?_ (tiles_chain (s :: rs) _ _ h3)
    exact h3.1.symm

theorem tiles_pairwise : ∀ (rs : List (Int × Int)) (a b : Int), Tiles a b rs →
    List.Pairwise (fun p q : Int × Int => p.2 ≤ q.1) rs
  | [], _, _, _ => List.Pairwise.nil
  | r :: rs, a, b, h => by
    obtain ⟨h1, h2, h3⟩ := h
    refine List.Pairwise.cons ?_ (tiles_pairwise rs _ _ h3)
    intro x hx
    exact (tiles_bounds rs _ _ h3 x hx).1

theorem tiles_head : ∀ (rs : List (Int × Int)) (a b : Int), Tiles a b rs →
    ∀ r, rs.head? = some r → r.1 = a
  | [], _, _, _ => by simp
  | r :: rs, a, b, h => by
    intro x hx
    simp at hx
    subst hx
    exact h.1

theorem tiles_last : ∀ (rs : List (Int × Int)) (a b : Int), Tiles a b rs →
    ∀ r, rs.getLast? = some r → r.2 = b
  | [], _, _, _ => by simp
  | [r], a, b, h => by
    intro x hx
    simp at hx
    subst hx
    obtain ⟨_, _, h3⟩ := h
    simpa [Tiles] using h3
  | r :: s :: rs, a, b, h => by
    intro x hx
    rw [List.getLast?_cons_cons] at hx
    exact tiles_last (s :: rs) _ _ h.2.2 x hx

/-- The thread loop, entered with `left` trips to go, `jstart = nt_done` and
`0 ≤ nt_done ≤ n_in_batch`, stores `left` ranges that tile the rest of the batch. -/
theorem threadLoop_tiles (istart n_in_batch n_threads : Int) :
    ∀ (left ithread : Nat) (nt_done : Int),
      (n_threads - (ithread : Int) = left) → 0 ≤ nt_done → nt_done ≤ n_in_batch →
      (left = 0 → nt_done = n_in_batch) →
      let r := threadLoop (fun _ => false) istart n_in_batch n_threads left ithread
        nt_done nt_done
      r.1.length = left ∧ r.2 = true ∧ Tiles (istart + nt_done) (istart + n_in_batch) r.1
  | 0, ithread, nt_done, _, _, _, h0 => by
    simp [threadLoop, Tiles, h0 rfl]
  | left + 1, ithread, nt_done, hleft, h1, h2, _ => by
    have hpos : (0 : Int) ≤ n_threads - (ithread : Int) := by omega
    have hrem : (0 : Int) ≤ n_in_batch - nt_done := by omega
    have hq : Int.tdiv (n_in_batch - nt_done) (n_threads - (ithread : Int))
        = (n_in_batch - nt_done) / (n_threads - (ithread : Int)) :=
      Int.tdiv_eq_ediv hrem hpos
    have hq0 : 0 ≤ (n_in_batch - nt_done) / (n_threads - (ithread : Int)) :=
      Int.ediv_nonneg hrem hpos
    have hq1 : (n_in_batch - nt_done) / (n_threads - (ithread : Int)) ≤ n_in_batch - nt_done :=
      Int.ediv_le_self _ hrem
    have hlast : left = 0 →
        nt_done + (n_in_batch - nt_done) / (n_threads - (ithread : Int)) = n_in_batch := by
      intro hl
      have : n_threads - (ithread : Int) = 1 := by rw [hleft, hl]; simp
      rw [this, Int.ediv_one]
      omega
    have ih := threadLoop_tiles istart n_in_batch n_threads left (ithread + 1)
      (nt_done + (n_in_batch - nt_done) / (n_threads - (ithread : Int)))
      (by push_cast at hleft ⊢; omega) (by omega) (by omega) hlast
    simp only [threadLoop, hq, Bool.false_eq_true, if_false, List.length_cons, Tiles]
    obtain ⟨ih1, ih2, ih3⟩ := ih
    exact ⟨by rw [ih1], ih2, trivial, by omega, ih3⟩

theorem threadRanges_tiles (istart n_in_batch n_threads : Int) (hb : 0 ≤ n_in_batch)
    (ht : 1 ≤ n_threads) :
    (threadRanges istart n_in_batch n_threads).length = n_threads.toNat ∧
      Tiles istart (istart + n_in_batch) (threadRanges istart n_in_batch n_threads) := by
  have h := threadLoop_tiles istart n_in_batch n_threads n_threads.toNat 0 0
    (by simp; omega) (le_refl _) hb (by omega)
  simp only [Int.add_zero] at h
  exact ⟨h.1, h.2.2⟩

/-- C1. For every `n_in_batch ≥ 0`, `n_threads ≥ 1` and batch start `istart`, the thread loop
of `rbm_thr2` stores `n_threads` worker ranges; the first starts at `istart`, each next one
starts where the previous one stops, the last stops at `istart + n_in_batch`, no range is
reversed and all lie inside the batch (so they do not overlap, and no bound leaves the
`int` range as long as the two ends of the batch are in it), and their sizes sum to
`n_in_batch`. -/
theorem C1_thread_partition (istart n_in_batch n_threads : Int) (hb : 0 ≤ n_in_batch)
    (ht : 1 ≤ n_threads) :
    (threadRanges istart n_in_batch n_threads).length = n_threads.toNat ∧
    (∀ r, (threadRanges istart n_in_batch n_threads).head? = some r → r.1 = istart) ∧
    List.Chain' (fun p q : Int × Int => p.2 = q.1) (threadRanges istart n_in_batch n_threads) ∧
    (∀ r, (threadRanges istart n_in_batch n_threads).getLast? = some r →
      r.2 = istart + n_in_batch) ∧
    (∀ r ∈ threadRanges istart n_in_batch n_threads,
      istart ≤ r.1 ∧ r.1 ≤ r.2 ∧ r.2 ≤ istart + n_in_batch) ∧
    List.Pairwise (fun p q : Int × Int => p.2 ≤ q.1) (threadRanges istart n_in_batch n_threads) ∧
    ((threadRanges istart n_in_batch n_threads).map (fun r => r.2 - r.1)).sum = n_in_batch := by
  obtain ⟨hlen, ht⟩ := threadRanges_tiles istart n_in_batch n_threads hb ht
  refine ⟨hlen, tiles_head _ _ _ ht, tiles_chain _ _ _ ht, tiles_last _ _ _ ht,
    tiles_bounds _ _ _ ht, tiles_pairwise _ _ _ ht, ?_⟩
  rw [tiles_sum _ _ _ ht]
  omega

theorem C1_thread_partition_witness :
    (threadRanges 100 25 3).length = (3 : Int).toNat ∧
    (∀ r, (threadRanges 100 25 3).head? = some r → r.1 = 100) ∧
    List.Chain' (fun p q : Int × Int => p.2 = q.1) (threadRanges 100 25 3) ∧
    (∀ r, (threadRanges 100 25 3).getLast? = some r → r.2 = 100 + 25) ∧
    (∀ r ∈ threadRanges 100 25 3, (100 : Int) ≤ r.1 ∧ r.1 ≤ r.2 ∧ r.2 ≤ 100 + 25) ∧
    List.Pairwise (fun p q : Int × Int => p.2 ≤ q.1) (threadRanges 100 25 3) ∧
    ((threadRanges 100 25 3).map (fun r => r.2 - r.1)).sum = 25 :=
  C1_thread_partition 100 25 3 (by decide) (by decide)

/-! ### One epoch is one pass -/

theorem reduceThreads_ge_one (n_in_batch : Int) :
    ∀ (fuel : Nat) (n_threads : Int), 1 ≤ n_threads →
      1 ≤ reduceThreads n_in_batch fuel n_threads
  | 0, _, h => h
  | fuel + 1, n_threads, h => by
    unfold reduceThreads
    split
    · exact reduceThreads_ge_one n_in_batch fuel _ (by omega)
    · exact h

theorem caseLoop_append : ∀ (m n : Nat) (a : Int),
    caseLoop (m + n) a = caseLoop m a ++ caseLoop n (a + m)
  | 0, n, a => by simp [caseLoop]
  | m + 1, n, a => by
    have h := caseLoop_append m n (a + 1)
    have e : m + 1 + n = (m + n) + 1 := by omega
    rw [e]
    simp only [caseLoop, List.cons_append, h]
    push_cast
    rw [Int.add_assoc, Int.add_comm 1 (m : Int)]

theorem caseLoop_length : ∀ (n : Nat) (a : Int), (caseLoop n a).length = n
  | 0, _ => rfl
  | n + 1, a => by simp [caseLoop, caseLoop_length n]

theorem caseLoop_getElem? : ∀ (n : Nat) (a : Int) (k : Nat), k < n →
    (caseLoop n a)[k]? = some (a + k)
  | 0, _, _, h => by omega
  | n + 1, a, 0, _ => by simp [caseLoop]
  | n + 1, a, k + 1, h => by
    simp only [caseLoop, List.getElem?_cons_succ]
    rw [caseLoop_getElem? n (a + 1) k (by omega)]
    push_cast
    congr 1
    omega

/-- The workers of ranges that tile `[a, b)` handle the positions `a, a+1, ..., b-1`. -/
theorem tiles_cases : ∀ (rs : List (Int × Int)) (a b : Int), Tiles a b rs →
    rs.flatMap (fun r => workerCases r.1 r.2) = caseLoop (b - a).toNat a
  | [], a, b, h => by
    simp only [Tiles] at h
    subst h
    simp [caseLoop]
  | r :: rs, a, b, h => by
    obtain ⟨h1, h2, h3⟩ := h
    have hle := tiles_le rs _ _ h3
    have ih := tiles_cases rs _ _ h3
    have e : (b - a).toNat = (r.2 - r.1).toNat + (b - r.2).toNat := by omega
    rw [List.flatMap_cons, ih, e, caseLoop_append, workerCases, h1]
    congr 2
    omega

theorem batchCases_eq (b : Batch) (hb : 0 ≤ b.n_in_batch) (ht : 1 ≤ b.n_threads) :
    batchCases b = caseLoop b.n_in_batch.toNat b.istart := by
  unfold batchCases
  rw [tiles_cases _ _ _ (threadRanges_tiles b.istart b.n_in_batch b.n_threads hb ht).2]
  congr 1
  omega

/-- The batch loop, entered with `left` trips to go, `istart = n_done` and
`0 ≤ n_done ≤ nc`, makes batches whose workers handle the positions `n_done, ..., nc-1`. -/
theorem batchPlan_cases (max_threads nc n_batches : Int) (hm : 1 ≤ max_threads) :
    ∀ (left ibatch : Nat) (n_done : Int),
      (n_batches - (ibatch : Int) = left) → 0 ≤ n_done → n_done ≤ nc →
      (left = 0 → n_done = nc) →
      (batchPlan max_threads nc n_batches left ibatch n_done n_done).flatMap batchCases
        = caseLoop (nc - n_done).toNat n_done
  | 0, ibatch, n_done, _, _, _, h0 => by
    simp [batchPlan, h0 rfl, caseLoop]
  | left + 1, ibatch, n_done, hleft, h1, h2, _ => by
    have hpos : (0 : Int) ≤ n_batches - (ibatch : Int) := by omega
    have hrem : (0 : Int) ≤ nc - n_done := by omega
    have hq : Int.tdiv (nc - n_done) (n_batches - (ibatch : Int))
        = (nc - n_done) / (n_batches - (ibatch : Int)) := Int.tdiv_eq_ediv hrem hpos
    have hq0 : 0 ≤ (nc - n_done) / (n_batches - (ibatch : Int)) := Int.ediv_nonneg hrem hpos
    have hq1 : (nc - n_done) / (n_batches - (ibatch : Int)) ≤ nc - n_done :=
      Int.ediv_le_self _ hrem
    have hlast : left = 0 → n_done + (nc - n_done) / (n_batches - (ibatch : Int)) = nc := by
      intro hl
      have : n_batches - (ibatch : Int) = 1 := by rw [hleft, hl]; simp
      rw [this, Int.ediv_one]
      omega
    have ih := batchPlan_cases max_threads nc n_batches hm left (ibatch + 1)
      (n_done + (nc - n_done) / (n_batches - (ibatch : Int)))
      (by push_cast at hleft ⊢; omega) (by omega) (by omega) hlast
    simp only [batchPlan, hq, List.flatMap_cons]
    rw [ih, batchCases_eq _ hq0 (reduceThreads_ge_one _ _ _ hm)]
    have e : (nc - n_done).toNat = ((nc - n_done) / (n_batches - (ibatch : Int))).toNat
        + (nc - (n_done + (nc - n_done) / (n_batches - (ibatch : Int)))).toNat := by omega
    rw [e, caseLoop_append]
    congr 2
    omega

theorem tdiv_of_nonpos (a b : Int) (ha : a ≤ 0) (hb : 0 < b) :
    a ≤ Int.tdiv a b ∧ Int.tdiv a b ≤ 0 := by
  have h : Int.tdiv a b = -(Int.tdiv (-a) b) := by rw [Int.neg_tdiv, Int.neg_neg]
  have h1 : Int.tdiv (-a) b = (-a) / b := Int.tdiv_eq_ediv (by omega) (by omega)
  have h2 : 0 ≤ (-a) / b := Int.ediv_nonneg (by omega) (by omega)
  have h3 : (-a) / b ≤ -a := Int.ediv_le_self _ (by omega)
  omega

/-- When nothing is left of the batch (`n_in_batch ≤ nt_done`, as for a batch of negative
size), the thread loop stores ranges without any case. -/
theorem threadLoop_no_case (istart n_in_batch n_threads : Int) :
    ∀ (left ithread : Nat) (jstart nt_done : Int),
      (n_threads - (ithread : Int) = left) → n_in_batch ≤ nt_done →
      ∀ r ∈ (threadLoop (fun _ => false) istart n_in_batch n_threads left ithread jstart
        nt_done).1, r.2 ≤ r.1
  | 0, _, _, _, _, _ => by simp [threadLoop]
  | left + 1, ithread, jstart, nt_done, hleft, h => by
    have hq := tdiv_of_nonpos (n_in_batch - nt_done) (n_threads - (ithread : Int))
      (by omega) (by omega)
    have ih := threadLoop_no_case istart n_in_batch n_threads left (ithread + 1)
      (jstart + Int.tdiv (n_in_batch - nt_done) (n_threads - (ithread : Int)))
      (nt_done + Int.tdiv (n_in_batch - nt_done) (n_threads - (ithread : Int)))
      (by push_cast at hleft ⊢; omega) (by omega)
    simp only [threadLoop, Bool.false_eq_true, if_false, List.mem_cons]
    rintro r (rfl | hr)
    · simp only
      omega
    · exact ih r hr

theorem batchCases_nil (b : Batch) (hb : b.n_in_batch ≤ 0) (ht : 1 ≤ b.n_threads) :
    batchCases b = [] := by
  unfold batchCases
  rw [List.flatMap_eq_nil_iff]
  intro r hr
  have h := threadLoop_no_case b.istart b.n_in_batch b.n_threads b.n_threads.toNat 0 0 0
    (by simp; omega) hb r hr
  unfold workerCases
  have e : (r.2 - r.1).toNat = 0 := by omega
  rw [e]
  rfl

/-- When no case is left (`nc ≤ n_done`, as for a negative `nc`), the batches hold no
case. -/
theorem batchPlan_no_case (max_threads nc n_batches : Int) (hm : 1 ≤ max_threads) :
    ∀ (left ibatch : Nat) (istart n_done : Int),
      (n_batches - (ibatch : Int) = left) → nc ≤ n_done →
      (batchPlan max_threads nc n_batches left ibatch istart n_done).flatMap batchCases = []
  | 0, _, _, _, _, _ => by simp [batchPlan]
  | left + 1, ibatch, istart, n_done, hleft, h => by
    have hq := tdiv_of_nonpos (nc - n_done) (n_batches - (ibatch : Int)) (by omega) (by omega)
    have ih := batchPlan_no_case max_threads nc n_batches hm left (ibatch + 1)
      (istart + Int.tdiv (nc - n_done) (n_batches - (ibatch : Int)))
      (n_done + Int.tdiv (nc - n_done) (n_batches - (ibatch : Int)))
      (by push_cast at hleft ⊢; omega) (by omega)
    simp only [batchPlan, List.flatMap_cons]
    rw [ih, batchCases_nil _ hq.2 (reduceThreads_ge_one _ _ _ hm)]
    rfl

theorem epochCases_eq (max_threads nc n_batches : Int) (hb : 1 ≤ n_batches)
    (hm : 1 ≤ max_threads) :
    epochCases max_threads nc n_batches = caseLoop nc.toNat 0 := by
  by_cases hnc : 0 ≤ nc
  · have h := batchPlan_cases max_threads nc n_batches hm n_batches.toNat 0 0
      (by simp; omega) (le_refl _) hnc (by omega)
    simpa [epochCases, epochBatches] using h
  · have h := batchPlan_no_case max_threads nc n_batches hm n_batches.toNat 0 0 0
      (by simp; omega) (by omega)
    have e : nc.toNat = 0 := by omega
    rw [e]
    simpa [epochCases, epochBatches, caseLoop] using h

theorem readAll_caseLoop (a : List Int) : ∀ (n : Nat) (k : Nat), k + n = a.length →
    readAll a (caseLoop n k) = some (a.drop k)
  | 0, k, h => by
    have : a.drop k = [] := List.drop_eq_nil_of_le (by omega)
    simp [caseLoop, readAll, this]
  | n + 1, k, h => by
    have hk : k < a.length := by omega
    have ih := readAll_caseLoop a n (k + 1) (by omega)
    have hr : readAt a (k : Int) = some a[k] := by
      simp [readAt, List.getElem?_eq_getElem hk]
    have hd : a.drop k = a[k] :: a.drop (k + 1) := List.drop_eq_getElem_cons hk
    push_cast at ih
    simp only [caseLoop, readAll, hr, hd, ih]

/-- C2. In an epoch whose batch loop runs through all its batches (`n_batches ≥ 1`,
`max_threads ≥ 1`), the positions `icase` handled by all workers of all batches are
`0, 1, ..., nc-1`, each exactly once (none at all when `nc ≤ 0`); so when `shuffle_index`
(of length `nc`) is a permutation of `0..nc-1`, the rows `shuffle_index[icase]` that are
run through the Gibbs kernel are read without leaving the array and are every row exactly
once. -/
theorem C2_epoch_is_one_pass (max_threads nc n_batches : Int) (shuffle_index : List Int)
    (hb : 1 ≤ n_batches) (hm : 1 ≤ max_threads)
    (hperm : shuffle_index.Perm (identityIndex nc)) :
    epochCases max_threads nc n_batches = caseLoop nc.toNat 0 ∧
    (∀ k : Nat, (k : Int) < nc → (epochCases max_threads nc n_batches).count (k : Int) = 1) ∧
    (∀ i ∈ epochCases max_threads nc n_batches, 0 ≤ i ∧ i < nc) ∧
    (∃ rows, epochRows shuffle_index max_threads nc n_batches = some rows ∧
      rows.Perm (identityIndex nc) ∧
      ∀ k : Nat, (k : Int) < nc → rows.count (k : Int) = 1) := by
  have hc := epochCases_eq max_threads nc n_batches hb hm
  unfold identityIndex at hperm
  have hlen : shuffle_index.length = nc.toNat := by rw [hperm.length_eq, caseLoop_length]
  have hnodup : (caseLoop nc.toNat 0).Nodup := by
    rw [List.nodup_iff_getElem?_ne_getElem?]
    intro i j hij hj
    rw [caseLoop_length] at hj
    rw [caseLoop_getElem? _ _ _ (by omega), caseLoop_getElem? _ _ _ hj]
    simp
    omega
  have hmem : ∀ i : Int, i ∈ caseLoop nc.toNat 0 ↔ 0 ≤ i ∧ i < nc := by
    intro i
    rw [List.mem_iff_getElem?]
    constructor
    · rintro ⟨k, hk⟩
      have hlt : k < nc.toNat := by
        by_contra hge
        rw [List.getElem?_eq_none (by rw [caseLoop_length]; omega)] at hk
        cases hk
      rw [caseLoop_getElem? _ _ _ hlt] at hk
      simp at hk
      omega
    · rintro ⟨h0, h1⟩
      refine ⟨i.toNat, ?_⟩
      rw [caseLoop_getElem? _ _ _ (by omega)]
      simp
      omega
  have hcount : ∀ k : Nat, (k : Int) < nc → (caseLoop nc.toNat 0).count (k : Int) = 1 := by
    intro k hk
    exact List.count_eq_one_of_mem hnodup ((hmem _).2 ⟨by omega, hk⟩)
  refine ⟨hc, ?_, ?_, shuffle_index, ?_, hperm, ?_⟩
  · rw [hc]; exact hcount
  · rw [hc]; intro i hi; exact (hmem i).1 hi
  · have h := readAll_caseLoop shuffle_index nc.toNat 0 (by omega)
    simpa [epochRows, hc] using h
  · intro k hk
    rw [hperm.count_eq]
    exact hcount k hk

theorem C2_epoch_is_one_pass_witness :
    epochCases 2 7 3 = caseLoop (7 : Int).toNat 0 ∧
    (∀ k : Nat, (k : Int) < 7 → (epochCases 2 7 3).count (k : Int) = 1) ∧
    (∀ i ∈ epochCases 2 7 3, 0 ≤ i ∧ i < 7) ∧
    (∃ rows, epochRows [3, 0, 6, 1, 5, 2, 4] 2 7 3 = some rows ∧
      rows.Perm (identityIndex 7) ∧
      ∀ k : Nat, (k : Int) < 7 → rows.count (k : Int) = 1) :=
  C2_epoch_is_one_pass 2 7 3 [3, 0, 6, 1, 5, 2, 4] (by decide) (by decide) (by decide)

/-- When every thread is created, the ranges stored are those of `threadRanges`. -/
theorem threadLoop_created (cf : Nat → Bool) (istart n_in_batch n_threads : Int) :
    ∀ (left ithread : Nat) (jstart nt_done : Int),
      (threadLoop cf istart n_in_batch n_threads left ithread jstart nt_done).2 = true →
      (threadLoop cf istart n_in_batch n_threads left ithread jstart nt_done).1 =
        (threadLoop (fun _ => false) istart n_in_batch n_threads left ithread jstart nt_done).1
  | 0, _, _, _, _ => rfl
  | left + 1, ithread, jstart, nt_done, h => by
    unfold threadLoop at h ⊢
    simp only [] at h ⊢
    by_cases hc : cf ithread = true
    · rw [if_pos hc] at h
      cases h
    · rw [if_neg hc] at h ⊢
      simp only [Bool.false_eq_true, if_false]
      rw [threadLoop_created cf istart n_in_batch n_threads left (ithread + 1) _ _ h]

/-- The fuel handed to the reduction loop is enough: the loop is left through its test. -/
theorem reduceThreads_exit (n_in_batch : Int) :
    ∀ (fuel : Nat) (n_threads : Int), (n_threads - 1).toNat ≤ fuel →
      ¬ (reduceThreads n_in_batch fuel n_threads > 1 ∧
        Int.tdiv n_in_batch (reduceThreads n_in_batch fuel n_threads) < 10)
  | 0, n_threads, h => by
    simp only [reduceThreads]
    omega
  | fuel + 1, n_threads, h => by
    unfold reduceThreads
    split
    · exact reduceThreads_exit n_in_batch fuel (n_threads - 1) (by omega)
    · assumption

theorem threadLoop_length (cf : Nat → Bool) (istart n_in_batch n_threads : Int) :
    ∀ (left ithread : Nat) (jstart nt_done : Int),
      (threadLoop cf istart n_in_batch n_threads left ithread jstart nt_done).1.length ≤ left
  | 0, _, _, _ => by simp [threadLoop]
  | left + 1, ithread, jstart, nt_done => by
    unfold threadLoop
    simp only []
    split
    · simp
    · have := threadLoop_length cf istart n_in_batch n_threads left (ithread + 1)
        (jstart + Int.tdiv (n_in_batch - nt_done) (n_threads - (ithread : Int)))
        (nt_done + Int.tdiv (n_in_batch - nt_done) (n_threads - (ithread : Int)))
      simp only [List.length_cons]
      omega

/-! ### The shuffle keeps a permutation -/

theorem swap_perm (a : List Int) (i j : Nat) (hi : i < a.length) (hj : j < a.length) :
    ((a.set i a[j]).set j a[i]).Perm a := by
  rw [List.perm_iff_count]
  intro b
  have hj' : j < (a.set i a[j]).length := by simpa using hj
  rw [List.count_set _ _ _ _ hj', List.count_set _ _ _ _ hi]
  have e : (a.set i a[j])[j] = a[j] := by
    rw [List.getElem_set]
    split <;> rfl
  rw [e]
  have h1 : (a[i] == b) = true → 0 < List.count b a := by
    intro h
    have : a[i] = b := by simpa using h
    exact List.count_pos_iff.2 (this ▸ List.getElem_mem hi)
  by_cases c1 : (a[i] == b) = true
  · have hpos := h1 c1
    by_cases c2 : (a[j] == b) = true <;> simp [c1, c2] <;> omega
  · by_cases c2 : (a[j] == b) = true <;> simp [c1, c2]

theorem readAt_of_lt (a : List Int) (i : Int) (h0 : 0 ≤ i) (h1 : i.toNat < a.length) :
    readAt a i = some a[i.toNat] := by
  simp [readAt, h0, List.getElem?_eq_getElem h1]

/-- The index `j` drawn in a trip of the shuffle loop lies in `[0, i)`. -/
theorem shuffle_j_range (u : ℚ) (i : Int) (hu0 : 0 ≤ u) (hi : 1 < i) :
    0 ≤ (if truncToInt (u * (i : ℚ)) ≥ i then i - 1 else truncToInt (u * (i : ℚ))) ∧
    (if truncToInt (u * (i : ℚ)) ≥ i then i - 1 else truncToInt (u * (i : ℚ))) < i := by
  have hipos : (0 : ℚ) ≤ (i : ℚ) := by exact_mod_cast (by omega : (0 : Int) ≤ i)
  have hx : 0 ≤ u * (i : ℚ) := mul_nonneg hu0 hipos
  have ht : truncToInt (u * (i : ℚ)) = ⌊u * (i : ℚ)⌋ := by simp [truncToInt, hx]
  have h0 : 0 ≤ ⌊u * (i : ℚ)⌋ := Int.floor_nonneg.2 hx
  rw [ht]
  split <;> omega

theorem shuffleLoop_perm (draw : Nat → ℚ) (hd : ∀ n, 0 ≤ draw n ∧ draw n ≤ 1) :
    ∀ (fuel n : Nat) (i : Int) (a : List Int),
      i ≤ a.length → i.toNat ≤ fuel →
      ∃ out, shuffleLoop draw fuel n i a = ShuffleResult.done out ∧ out.Perm a
  | 0, n, i, a, _, hf => by
    have : ¬ i > 1 := by omega
    exact ⟨a, by simp [shuffleLoop, this], List.Perm.refl _⟩
  | fuel + 1, n, i, a, hlen, hf => by
    by_cases hi : i > 1
    · obtain ⟨hj0, hj1⟩ := shuffle_j_range (draw n) i (hd n).1 hi
      generalize hj : (if truncToInt (draw n * (i : ℚ)) ≥ i then i - 1
        else truncToInt (draw n * (i : ℚ))) = j at hj0 hj1
      have hi1 : (i - 1).toNat < a.length := by omega
      have hjl : j.toNat < a.length := by omega
      have hjl' : j.toNat < (a.set (i - 1).toNat a[j.toNat]).length := by simpa using hjl
      have hw1 : writeAt a (i - 1) a[j.toNat] = some (a.set (i - 1).toNat a[j.toNat]) := by
        simp [writeAt, hi1]; omega
      have hw2 : writeAt (a.set (i - 1).toNat a[j.toNat]) j a[(i - 1).toNat]
          = some ((a.set (i - 1).toNat a[j.toNat]).set j.toNat a[(i - 1).toNat]) := by
        simp [writeAt, hjl, hj0]
      obtain ⟨out, ho, hp⟩ := shuffleLoop_perm draw hd fuel (n + 1) (i - 1)
        ((a.set (i - 1).toNat a[j.toNat]).set j.toNat a[(i - 1).toNat])
        (by simp; omega) (by omega)
      refine ⟨out, ?_, hp.trans (swap_perm a _ _ hi1 hjl)⟩
      simp only [shuffleLoop, hi, if_true, hj, readAt_of_lt a (i - 1) (by omega) hi1,
        readAt_of_lt a j hj0 hjl, hw1, hw2, ho]
    · exact ⟨a, by simp [shuffleLoop, hi], List.Perm.refl _⟩

/-- The fuel handed to the shuffle loop is enough, whatever the draws and the array. -/
theorem shuffleLoop_fuel (draw : Nat → ℚ) :
    ∀ (fuel n : Nat) (i : Int) (a : List Int), i.toNat ≤ fuel →
      shuffleLoop draw fuel n i a ≠ ShuffleResult.outOfFuel
  | 0, n, i, a, hf => by
    have : ¬ i > 1 := by omega
    simp [shuffleLoop, this]
  | fuel + 1, n, i, a, hf => by
    unfold shuffleLoop
    have ih := fun a2 => shuffleLoop_fuel draw fuel (n + 1) (i - 1) a2 (by omega)
    split
    · simp only []
      split
      · split
        · split
          · exact ih _
          · simp
        · simp
      · simp
    · simp

/-- C3. For every `nc ≥ 0`, every `shuffle_index` of length `nc` that holds a permutation of
`0..nc-1` (the identity before the first epoch is one) and every sequence of draws `u` with
`0 ≤ u ≤ 1`, the Fisher-Yates loop of `rbm_thr2` runs to its end without reading or writing
outside `[0, nc)` and leaves an array of length `nc` that is again a permutation of
`0..nc-1`. -/
theorem C3_shuffle_keeps_permutation (draw : Nat → ℚ) (n : Nat) (nc : Int)
    (shuffle_index : List Int) (hnc : 0 ≤ nc) (hd : ∀ k, 0 ≤ draw k ∧ draw k ≤ 1)
    (hperm : shuffle_index.Perm (identityIndex nc)) :
    (identityIndex nc).length = nc.toNat ∧ (identityIndex nc).Perm (identityIndex nc) ∧
    ∃ out, shuffle draw n nc shuffle_index = ShuffleResult.done out ∧ out.length = nc.toNat ∧
      out.Perm (identityIndex nc) := by
  have hlen : shuffle_index.length = nc.toNat := by
    rw [hperm.length_eq]
    exact caseLoop_length _ _
  obtain ⟨out, ho, hp⟩ := shuffleLoop_perm draw hd nc.toNat n nc shuffle_index
    (by omega) (le_refl _)
  exact ⟨caseLoop_length _ _, List.Perm.refl _, out, ho, by rw [hp.length_eq, hlen],
    hp.trans hperm⟩

theorem C3_shuffle_keeps_permutation_witness :
    (identityIndex 4).length = (4 : Int).toNat ∧ (identityIndex 4).Perm (identityIndex 4) ∧
    ∃ out, shuffle (fun k => if k % 2 = 0 then 1 else 1 / 3) 0 4 [2, 0, 3, 1]
        = ShuffleResult.done out ∧
      out.length = (4 : Int).toNat ∧ out.Perm (identityIndex 4) :=
  C3_shuffle_keeps_permutation (fun k => if k % 2 = 0 then 1 else 1 / 3) 0 4 [2, 0, 3, 1]
    (by decide)
    (by intro k; by_cases h : k % 2 = 0 <;> simp [h]; norm_num)
    (by decide)

/-! ### The generator -/

theorem wrap32_eq (x : Int) (h : inInt32 x) : wrap32 x = x := by
  unfold inInt32 at h
  unfold wrap32
  omega

/-- On a state in `[1, 2147483646]` no operation of the step wraps. -/
theorem rngStep_exact (s : Int) (h1 : 1 ≤ s) (h2 : s ≤ 2147483646) :
    rngStep s =
      if 16807 * (s - s / 127773 * 127773) - 2836 * (s / 127773) < 0 then
        16807 * (s - s / 127773 * 127773) - 2836 * (s / 127773) + 2147483647
      else 16807 * (s - s / 127773 * 127773) - 2836 * (s / 127773) := by
  have hq : Int.tdiv s 127773 = s / 127773 := Int.tdiv_eq_ediv (by omega) (by omega)
  have e1 : wrap32 (s / 127773 * 127773) = s / 127773 * 127773 :=
    wrap32_eq _ (by unfold inInt32; omega)
  have e2 : wrap32 (s - s / 127773 * 127773) = s - s / 127773 * 127773 :=
    wrap32_eq _ (by unfold inInt32; omega)
  have e3 : wrap32 (16807 * (s - s / 127773 * 127773)) = 16807 * (s - s / 127773 * 127773) :=
    wrap32_eq _ (by unfold inInt32; omega)
  have e4 : wrap32 (2836 * (s / 127773)) = 2836 * (s / 127773) :=
    wrap32_eq _ (by unfold inInt32; omega)
  have e5 : wrap32 (16807 * (s - s / 127773 * 127773) - 2836 * (s / 127773))
      = 16807 * (s - s / 127773 * 127773) - 2836 * (s / 127773) :=
    wrap32_eq _ (by unfold inInt32; omega)
  simp only [rngStep, IA, IM, IQ, IR, hq, e1, e2, e3, e4, e5]
  split
  · exact wrap32_eq _ (by unfold inInt32; omega)
  · rfl

theorem rngStep_eq (s : Int) (h1 : 1 ≤ s) (h2 : s ≤ 2147483646) :
    rngStep s = (16807 * s) % 2147483647 ∧ 1 ≤ rngStep s ∧ rngStep s ≤ 2147483646 := by
  rw [rngStep_exact s h1 h2]
  split <;> omega

/-- C4. For every state `s` with `1 ≤ s ≤ 2147483646` the step of the generator yields
`(16807 * s) mod 2147483647`; every sub-expression, computed exactly, is an `int` of 32
bits, so that the machine result is the exact one. -/
theorem C4_rng_step (s : Int) (h1 : 1 ≤ s) (h2 : s ≤ 2147483646) :
    rngStep s = (16807 * s) % 2147483647 ∧
    (∀ x ∈ rngIntermediates s, inInt32 x) ∧
    (rngIntermediates s).getLast? = some (rngStep s) := by
  have hq : Int.tdiv s 127773 = s / 127773 := Int.tdiv_eq_ediv (by omega) (by omega)
  refine ⟨(rngStep_eq s h1 h2).1, ?_, ?_⟩
  · simp only [rngIntermediates, IA, IM, IQ, IR, hq, inInt32, List.mem_cons,
      List.mem_singleton, List.not_mem_nil, or_false]
    rintro x (rfl | rfl | rfl | rfl | rfl | rfl | rfl) <;> (try split) <;> omega
  · rw [rngStep_exact s h1 h2]
    simp only [rngIntermediates, IA, IM, IQ, IR, hq, List.getLast?_cons_cons,
      List.getLast?_singleton]

theorem C4_rng_step_witness :
    rngStep 1 = (16807 * 1) % 2147483647 ∧
    (∀ x ∈ rngIntermediates 1, inInt32 x) ∧
    (rngIntermediates 1).getLast? = some (rngStep 1) :=
  C4_rng_step 1 (by decide) (by decide)

theorem rngIter_range : ∀ (n : Nat) (s : Int), 1 ≤ s → s ≤ 2147483646 →
    1 ≤ rngIter n s ∧ rngIter n s ≤ 2147483646
  | 0, s, h1, h2 => ⟨h1, h2⟩
  | n + 1, s, h1, h2 => by
    have h := rngStep_eq s h1 h2
    exact rngIter_range n (rngStep s) h.2.1 h.2.2

theorem frand_range (s : Int) (h1 : 1 ≤ s) (h2 : s ≤ 2147483646) :
    0 < frand s ∧ frand s < 1 := by
  have a : (1 : ℚ) ≤ (s : ℚ) := by exact_mod_cast h1
  have b : (s : ℚ) ≤ 2147483646 := by exact_mod_cast h2
  unfold frand AM
  constructor
  · positivity
  · rw [div_mul_eq_mul_div, one_mul, div_lt_one (by norm_num)]
    linarith

/-- C5 as stated fails when the `int` sum `istop + shuffle_index[0]` overflows: for
`istop = 2147483647` and `shuffle_index[0] = 1`, both non-negative, the sum wraps to
`-2147483648` and the state a worker starts from is `-1`. -/
theorem C5_counterexample :
    (0 : Int) ≤ 2147483647 ∧ (0 : Int) ≤ 1 ∧ seedOf 2147483647 1 = -1 ∧
    ¬ (1 ≤ seedOf 2147483647 1 ∧ seedOf 2147483647 1 ≤ 2147483646) := by
  decide

/-- C5, amended. For `istop ≥ 0` and `shuffle_index[0] ≥ 0` whose sum is an `int`
(`istop + shuffle_index[0] ≤ 2147483647`), the state a worker starts from lies in
`[1, 2147483646]`; every step of the generator maps `[1, 2147483646]` into itself; hence
the state after any number of steps lies there and every uniform `frand` the worker draws
satisfies `0 < frand < 1`. -/
theorem C5_rng_state_never_zero (istop s0 : Int) (hi : 0 ≤ istop) (hs : 0 ≤ s0)
    (hsum : istop + s0 ≤ 2147483647) :
    (1 ≤ seedOf istop s0 ∧ seedOf istop s0 ≤ 2147483646) ∧
    (∀ s : Int, 1 ≤ s → s ≤ 2147483646 → 1 ≤ rngStep s ∧ rngStep s ≤ 2147483646) ∧
    (∀ n : Nat, 1 ≤ rngIter n (seedOf istop s0) ∧ rngIter n (seedOf istop s0) ≤ 2147483646 ∧
      0 < frand (rngIter n (seedOf istop s0)) ∧ frand (rngIter n (seedOf istop s0)) < 1) := by
  have hw : wrap32 (istop + s0) = istop + s0 := by simp only [wrap32]; omega
  have hm : Int.tmod (istop + s0) 2147483647 = (istop + s0) % 2147483647 :=
    Int.tmod_eq_emod (by omega) (by omega)
  have hseed : 1 ≤ seedOf istop s0 ∧ seedOf istop s0 ≤ 2147483646 := by
    simp only [seedOf, IM, hw, hm]
    split <;> omega
  refine ⟨hseed, fun s h1 h2 => (rngStep_eq s h1 h2).2, fun n => ?_⟩
  have h := rngIter_range n _ hseed.1 hseed.2
  exact ⟨h.1, h.2, frand_range _ h.1 h.2⟩

theorem C5_rng_state_never_zero_witness :
    (1 ≤ seedOf 2147483000 647 ∧ seedOf 2147483000 647 ≤ 2147483646) ∧
    (∀ s : Int, 1 ≤ s → s ≤ 2147483646 → 1 ≤ rngStep s ∧ rngStep s ≤ 2147483646) ∧
    (∀ n : Nat, 1 ≤ rngIter n (seedOf 2147483000 647) ∧
      rngIter n (seedOf 2147483000 647) ≤ 2147483646 ∧
      0 < frand (rngIter n (seedOf 2147483000 647)) ∧
      frand (rngIter n (seedOf 2147483000 647)) < 1) :=
  C5_rng_state_never_zero 2147483000 647 (by decide) (by decide) (by decide)

/-! ### The batch loop -/

theorem batchPlan_length (max_threads nc n_batches : Int) :
    ∀ (left ibatch : Nat) (istart n_done : Int),
      (batchPlan max_threads nc n_batches left ibatch istart n_done).length = left
  | 0, _, _, _ => rfl
  | left + 1, ibatch, istart, n_done => by
    simp [batchPlan, batchPlan_length max_threads nc n_batches left]

theorem epochBatches_length (max_threads nc n_batches : Int) :
    (epochBatches max_threads nc n_batches).length = n_batches.toNat :=
  batchPlan_length _ _ _ _ _ _ _

/-- The thread loop reports a failure exactly when the creation of one of the threads it
has to start fails. -/
theorem threadLoop_fails_iff (cf : Nat → Bool) (istart n_in_batch n_threads : Int) :
    ∀ (left ithread : Nat) (jstart nt_done : Int),
      (threadLoop cf istart n_in_batch n_threads left ithread jstart nt_done).2 = false ↔
        ∃ t, t < left ∧ cf (ithread + t) = true
  | 0, _, _, _ => by simp [threadLoop]
  | left + 1, ithread, jstart, nt_done => by
    unfold threadLoop
    by_cases h : cf ithread = true
    · simp only [h, if_true]
      exact ⟨fun _ => ⟨0, by omega, by simpa using h⟩, fun _ => trivial⟩
    · simp only [h, Bool.false_eq_true, if_false]
      rw [threadLoop_fails_iff cf istart n_in_batch n_threads left (ithread + 1)]
      constructor
      · rintro ⟨t, ht, hc⟩
        exact ⟨t + 1, by omega, by rw [← hc]; congr 1; omega⟩
      · rintro ⟨t, ht, hc⟩
        cases t with
        | zero => exact absurd hc h
        | succ t => exact ⟨t, by omega, by rw [← hc]; congr 1; omega⟩

theorem threadLoop_fails_of_createFailure (env : Env) (e b : Nat) (B : Batch)
    (h : createFailure env e b B.n_threads) :
    (threadLoop (env.createFails e b) B.istart B.n_in_batch B.n_threads B.n_threads.toNat
      0 0 0).2 = false := by
  obtain ⟨t, ht, hc⟩ := h
  rw [threadLoop_fails_iff]
  exact ⟨t, by omega, by simpa using hc⟩

theorem waitBad_of_timeout_or_failed (ret_val n_threads : Int)
    (h : ret_val = WAIT_TIMEOUT ∨ ret_val = WAIT_FAILED) : waitBad ret_val n_threads = true := by
  rcases h with h | h <;> simp [waitBad, h]

theorem batchLoop_createFails (env : Env) (e : Nat) (b : Batch) (rest : List Batch) (ib : Nat)
    (err : ℚ)
    (h1 : (threadLoop (env.createFails e ib) b.istart b.n_in_batch b.n_threads
      b.n_threads.toNat 0 0 0).2 = false) :
    batchLoop env e (b :: rest) ib err =
      { exit := BatchExit.fatal, error := err, dispatched := ib + 1, updates := ib } := by
  rw [batchLoop, if_pos h1]

theorem batchLoop_waitBad (env : Env) (e : Nat) (b : Batch) (rest : List Batch) (ib : Nat)
    (err : ℚ)
    (h1 : ¬ (threadLoop (env.createFails e ib) b.istart b.n_in_batch b.n_threads
      b.n_threads.toNat 0 0 0).2 = false)
    (h2 : waitBad (env.waitRet e ib) b.n_threads = true) :
    batchLoop env e (b :: rest) ib err =
      { exit := BatchExit.fatal, error := err, dispatched := ib + 1, updates := ib } := by
  rw [batchLoop, if_neg h1, if_pos h2]

theorem batchLoop_escape (env : Env) (e : Nat) (b : Batch) (rest : List Batch) (ib : Nat)
    (err : ℚ)
    (h1 : ¬ (threadLoop (env.createFails e ib) b.istart b.n_in_batch b.n_threads
      b.n_threads.toNat 0 0 0).2 = false)
    (h2 : ¬ waitBad (env.waitRet e ib) b.n_threads = true)
    (h3 : e ≠ 0 ∧ env.escapeBatch e ib = true) :
    batchLoop env e (b :: rest) ib err =
      { exit := BatchExit.escape, error := err + env.batchError e ib, dispatched := ib + 1,
        updates := ib + 1 } := by
  rw [batchLoop, if_neg h1, if_neg h2]
  simp only []
  rw [if_pos h3]

theorem batchLoop_next (env : Env) (e : Nat) (b : Batch) (rest : List Batch) (ib : Nat)
    (err : ℚ)
    (h1 : ¬ (threadLoop (env.createFails e ib) b.istart b.n_in_batch b.n_threads
      b.n_threads.toNat 0 0 0).2 = false)
    (h2 : ¬ waitBad (env.waitRet e ib) b.n_threads = true)
    (h3 : ¬ (e ≠ 0 ∧ env.escapeBatch e ib = true)) :
    batchLoop env e (b :: rest) ib err =
      batchLoop env e rest (ib + 1) (err + env.batchError e ib) := by
  rw [batchLoop, if_neg h1, if_neg h2]
  simp only []
  rw [if_neg h3]

/-- What the batch loop leaves behind, case by case. -/
theorem batchLoop_spec (env : Env) (e : Nat) :
    ∀ (bs : List Batch) (ib : Nat) (err : ℚ),
      ib ≤ (batchLoop env e bs ib err).updates ∧
      (batchLoop env e bs ib err).updates ≤ (batchLoop env e bs ib err).dispatched ∧
      (batchLoop env e bs ib err).dispatched ≤ ib + bs.length ∧
      ((batchLoop env e bs ib err).exit = BatchExit.completed →
        (batchLoop env e bs ib err).dispatched = ib + bs.length ∧
        (batchLoop env e bs ib err).updates = ib + bs.length ∧
        (batchLoop env e bs ib err).error
          = err + ((List.range' ib bs.length).map (env.batchError e)).sum) ∧
      ((batchLoop env e bs ib err).exit = BatchExit.escape →
        (batchLoop env e bs ib err).dispatched = (batchLoop env e bs ib err).updates ∧
        ib < (batchLoop env e bs ib err).updates ∧ e ≠ 0 ∧
        env.escapeBatch e ((batchLoop env e bs ib err).updates - 1) = true) ∧
      ((batchLoop env e bs ib err).exit = BatchExit.fatal →
        (batchLoop env e bs ib err).dispatched = (batchLoop env e bs ib err).updates + 1) ∧
      (∀ k B, ib ≤ k → k < (batchLoop env e bs ib err).dispatched → bs[k - ib]? = some B →
        dispatchFails env e k B.n_threads →
        (batchLoop env e bs ib err).exit = BatchExit.fatal ∧
        (batchLoop env e bs ib err).dispatched = k + 1 ∧
        (batchLoop env e bs ib err).updates = k)
  | [], ib, err => by
    simp only [batchLoop, List.length_nil, Nat.add_zero, List.range'_zero, List.map_nil,
      List.sum_nil, add_zero]
    refine ⟨le_refl _, le_refl _, le_refl _, fun _ => ⟨trivial, trivial, trivial⟩, ?_, ?_, ?_⟩
    · intro h; cases h
    · intro h; cases h
    · intro k B h1 h2; omega
  | b :: rest, ib, err => by
    by_cases h1 : (threadLoop (env.createFails e ib) b.istart b.n_in_batch b.n_threads
        b.n_threads.toNat 0 0 0).2 = false
    · rw [batchLoop_createFails env e b rest ib err h1]
      simp only [List.length_cons]
      refine ⟨le_refl _, by omega, by omega, ?_, ?_, fun _ => trivial, ?_⟩
      · intro h; cases h
      · intro h; cases h
      · intro k B hk1 hk2 _ _
        exact ⟨trivial, by omega, by omega⟩
    · by_cases h2 : waitBad (env.waitRet e ib) b.n_threads = true
      · rw [batchLoop_waitBad env e b rest ib err h1 h2]
        simp only [List.length_cons]
        refine ⟨le_refl _, by omega, by omega, ?_, ?_, fun _ => trivial, ?_⟩
        · intro h; cases h
        · intro h; cases h
        · intro k B hk1 hk2 _ _
          exact ⟨trivial, by omega, by omega⟩
      · have hnofail : ¬ dispatchFails env e ib b.n_threads := by
          rintro (hc | hw)
          · exact h1 (threadLoop_fails_of_createFailure env e ib b hc)
          · exact h2 (waitBad_of_timeout_or_failed _ _ hw)
        by_cases h3 : e ≠ 0 ∧ env.escapeBatch e ib = true
        · rw [batchLoop_escape env e b rest ib err h1 h2 h3]
          simp only [List.length_cons]
          refine ⟨by omega, le_refl _, by omega, ?_, ?_, ?_, ?_⟩
          · intro h; cases h
          · intro _
            exact ⟨trivial, by omega, h3.1, by simpa using h3.2⟩
          · intro h; cases h
          · intro k B hk1 hk2 hB hf
            have hk : k = ib := by omega
            subst hk
            simp at hB
            subst hB
            exact absurd hf hnofail
        · rw [batchLoop_next env e b rest ib err h1 h2 h3]
          obtain ⟨i1, i2, i3, i4, i5, i6, i7⟩ :=
            batchLoop_spec env e rest (ib + 1) (err + env.batchError e ib)
          simp only [List.length_cons]
          refine ⟨by omega, i2, by omega, ?_, ?_, i6, ?_⟩
          · intro hc
            obtain ⟨a1, a2, a3⟩ := i4 hc
            refine ⟨by omega, by omega, ?_⟩
            rw [a3, List.range'_succ, List.map_cons, List.sum_cons]
            ring
          · intro hc
            obtain ⟨a1, a2, a3, a4⟩ := i5 hc
            exact ⟨a1, by omega, a3, a4⟩
          · intro k B hk1 hk2 hB hf
            by_cases hk : k = ib
            · subst hk
              simp at hB
              subst hB
              exact absurd hf hnofail
            · have e1 : k - ib = (k - (ib + 1)) + 1 := by omega
              rw [e1, List.getElem?_cons_succ] at hB
              exact i7 k B (by omega) hk2 hB hf

/-! ### One epoch -/

/-- What one trip of the epoch loop does, case by case. -/
theorem epochBody_cases (P : Params) (env : Env) (i : Nat) (c : Ctl) (rec : EpochRec)
    (st : Step) (h : epochBody P env i c = (rec, st)) :
    rec.batches = batchLoop env i (epochBatches P.max_threads P.nc P.n_batches) 0 0 ∧
    ((rec.batches.exit = BatchExit.fatal ∧ st = Step.stop Ret.sentinel Exit.fatal ∧
        rec.cancelled = false ∧ rec.divisors = []) ∨
     (rec.batches.exit ≠ BatchExit.fatal ∧ (i ≠ 0 ∧ env.escapeEpoch i = true) ∧
        st = Step.stop (Ret.value c.most_recent_correct_error) Exit.escape ∧
        rec.cancelled = true ∧ rec.divisors = []) ∨
     (rec.batches.exit ≠ BatchExit.fatal ∧ ¬ (i ≠ 0 ∧ env.escapeEpoch i = true) ∧
        Dbl.lt (ratio env i) (Dbl.fin P.convergence_crit) = true ∧
        st = Step.stop (Ret.value (some (normalize P rec.batches.error))) Exit.converged ∧
        rec.cancelled = false ∧
        rec.divisors = [(Site.convergenceTest, env.max_weight i)]) ∨
     (rec.batches.exit ≠ BatchExit.fatal ∧ ¬ (i ≠ 0 ∧ env.escapeEpoch i = true) ∧
        ¬ Dbl.lt (ratio env i) (Dbl.fin P.convergence_crit) = true ∧ i ≠ 0 ∧
        c.n_no_improvement + 1 > P.max_no_improvement ∧
        st = Step.stop (Ret.value (some (normalize P rec.batches.error))) Exit.noImprovement ∧
        rec.cancelled = false ∧
        rec.divisors = [(Site.convergenceTest, env.max_weight i),
          (Site.bestTest, env.max_weight i)]) ∨
     (rec.batches.exit ≠ BatchExit.fatal ∧ ¬ (i ≠ 0 ∧ env.escapeEpoch i = true) ∧
        ¬ Dbl.lt (ratio env i) (Dbl.fin P.convergence_crit) = true ∧
        rec.cancelled = false ∧
        (Site.convergenceTest, env.max_weight i) ∈ rec.divisors ∧
        (Site.smoothedRatio, env.max_weight i) ∈ rec.divisors ∧
        ((Site.bestTest, env.max_weight i) ∈ rec.divisors ∨
          (Site.bestUpdate, env.max_weight i) ∈ rec.divisors) ∧
        ∃ c1, st = Step.next c1 ∧
          c1.most_recent_correct_error = some (normalize P rec.batches.error) ∧
          (c1.n_no_improvement = 0 ∨
            (i ≠ 0 ∧ c1.n_no_improvement = c.n_no_improvement + 1 ∧
              c1.n_no_improvement ≤ P.max_no_improvement ∧ c1.best_crit = c.best_crit)))) := by
  unfold epochBody at h
  simp only [] at h
  split_ifs at h with h1 h2 h3 h4 h5 h6
  all_goals
    simp only [Prod.mk.injEq] at h
    obtain ⟨hr, hs⟩ := h
    subst hr
    subst hs
    refine ⟨rfl, ?_⟩
  · exact Or.inl ⟨h1, rfl, rfl, rfl⟩
  · exact Or.inr (Or.inl ⟨h1, h2, rfl, rfl, rfl⟩)
  · exact Or.inr (Or.inr (Or.inl ⟨h1, h2, h3, rfl, rfl, rfl⟩))
  · refine Or.inr (Or.inr (Or.inr (Or.inr ⟨h1, h2, h3, rfl, by simp, by simp, by simp, _, rfl,
      rfl, Or.inl rfl⟩)))
  · refine Or.inr (Or.inr (Or.inr (Or.inr ⟨h1, h2, h3, rfl, by simp, by simp, by simp, _, rfl,
      rfl, Or.inl rfl⟩)))
  · exact Or.inr (Or.inr (Or.inr (Or.inl ⟨h1, h2, h3, h4, h6, rfl, rfl, rfl⟩)))
  · refine Or.inr (Or.inr (Or.inr (Or.inr ⟨h1, h2, h3, rfl, by simp, by simp, by simp, _, rfl,
      rfl, Or.inr ⟨h4, rfl, by simpa using h6, rfl⟩⟩)))

/-! ### The epoch loop -/

theorem epochLoop_stop (P : Params) (env : Env) (left i : Nat) (c : Ctl) (rec : EpochRec)
    (ret : Ret) (exit : Exit) (h : epochBody P env i c = (rec, Step.stop ret exit)) :
    epochLoop P env (left + 1) i c = { ret := ret, exit := exit, trace := [rec] } := by
  rw [epochLoop, h]

theorem epochLoop_next (P : Params) (env : Env) (left i : Nat) (c : Ctl) (rec : EpochRec)
    (c1 : Ctl) (h : epochBody P env i c = (rec, Step.next c1)) :
    epochLoop P env (left + 1) i c =
      { ret := (epochLoop P env left (i + 1) c1).ret,
        exit := (epochLoop P env left (i + 1) c1).exit,
        trace := rec :: (epochLoop P env left (i + 1) c1).trace } := by
  rw [epochLoop, h]

/-! ### The value returned -/

/-- An epoch that gets past the test of line 707 has summed the error of all its batches,
provided a cancellation seen at line 632 is still seen at line 707. -/
theorem epoch_error_complete (P : Params) (env : Env) (i : Nat)
    (hsticky : ∀ e b, env.escapeBatch e b = true → env.escapeEpoch e = true)
    (out : BatchLoopOut)
    (hout : out = batchLoop env i (epochBatches P.max_threads P.nc P.n_batches) 0 0)
    (hnf : out.exit ≠ BatchExit.fatal) (hne : ¬ (i ≠ 0 ∧ env.escapeEpoch i = true)) :
    out.exit = BatchExit.completed ∧ out.updates = P.n_batches.toNat ∧
    normalize P out.error = normalizedError P env i := by
  have h := batchLoop_spec env i (epochBatches P.max_threads P.nc P.n_batches) 0 0
  rw [← hout, epochBatches_length] at h
  obtain ⟨_, _, _, hc, he, _, _⟩ := h
  have hcomp : out.exit = BatchExit.completed := by
    cases hx : out.exit with
    | completed => rfl
    | fatal => exact absurd hx hnf
    | escape =>
      obtain ⟨_, _, h0, hesc⟩ := he hx
      exact absurd ⟨h0, hsticky _ _ hesc⟩ hne
  obtain ⟨_, hu, herr⟩ := hc hcomp
  refine ⟨hcomp, by omega, ?_⟩
  rw [herr, normalizedError, errorSum, List.range_eq_range', zero_add]

/-- The value returned by the epoch loop when no dispatcher failure ends it. -/
theorem epochLoop_ret (P : Params) (env : Env)
    (hsticky : ∀ e b, env.escapeBatch e b = true → env.escapeEpoch e = true) :
    ∀ (left i : Nat) (c : Ctl),
      (epochLoop P env left i c).exit ≠ Exit.fatal →
      ((epochLoop P env left i c).exit = Exit.escape →
        1 ≤ (epochLoop P env left i c).trace.length ∧
        i + (epochLoop P env left i c).trace.length ≠ 1 ∧
        (epochLoop P env left i c).ret = Ret.value
          (if (epochLoop P env left i c).trace.length = 1 then c.most_recent_correct_error
           else some (normalizedError P env (i + (epochLoop P env left i c).trace.length - 2)))) ∧
      ((epochLoop P env left i c).exit ≠ Exit.escape →
        (epochLoop P env left i c).ret = Ret.value
          (if (epochLoop P env left i c).trace.length = 0 then c.most_recent_correct_error
           else some (normalizedError P env (i + (epochLoop P env left i c).trace.length - 1)))) ∧
      (∀ k rec, (epochLoop P env left i c).trace[k]? = some rec →
        ((rec.cancelled = true ↔
          ((epochLoop P env left i c).exit = Exit.escape ∧
            k + 1 = (epochLoop P env left i c).trace.length)) ∧
         (rec.cancelled = false → rec.batches.exit = BatchExit.completed ∧
            rec.batches.updates = P.n_batches.toNat)))
  | 0, i, c, _ => by
    simp [epochLoop]
  | left + 1, i, c, hnf => by
    rcases hbody : epochBody P env i c with ⟨rec0, st⟩
    obtain ⟨hbat, hcases⟩ := epochBody_cases P env i c rec0 st hbody
    rcases hcases with ⟨_, hst, _⟩ | ⟨hx, hesc, hst, hcan, _⟩ | ⟨hx, hne, _, hst, hcan, _⟩ |
      ⟨hx, hne, _, _, _, hst, hcan, _⟩ | ⟨hx, hne, _, hcan, _, _, _, c1, hst, hmr, _⟩
    · subst hst
      rw [epochLoop_stop P env left i c rec0 _ _ hbody] at hnf
      exact absurd rfl hnf
    · subst hst
      rw [epochLoop_stop P env left i c rec0 _ _ hbody]
      refine ⟨fun _ => ⟨by simp, by simp; exact hesc.1, by simp⟩, fun h => absurd rfl h, ?_⟩
      intro k rec hk
      cases k with
      | zero =>
        simp at hk
        subst hk
        simp [hcan]
      | succ k => simp at hk
    · obtain ⟨hcomp, hup, hnorm⟩ := epoch_error_complete P env i hsticky rec0.batches hbat hx hne
      subst hst
      rw [epochLoop_stop P env left i c rec0 _ _ hbody]
      refine ⟨fun h => (by cases h), fun _ => (by simp [hnorm]), ?_⟩
      intro k rec hk
      cases k with
      | zero =>
        simp at hk
        subst hk
        simp [hcan, hcomp, hup]
      | succ k => simp at hk
    · obtain ⟨hcomp, hup, hnorm⟩ := epoch_error_complete P env i hsticky rec0.batches hbat hx hne
      subst hst
      rw [epochLoop_stop P env left i c rec0 _ _ hbody]
      refine ⟨fun h => (by cases h), fun _ => (by simp [hnorm]), ?_⟩
      intro k rec hk
      cases k with
      | zero =>
        simp at hk
        subst hk
        simp [hcan, hcomp, hup]
      | succ k => simp at hk
    · obtain ⟨hcomp, hup, hnorm⟩ := epoch_error_complete P env i hsticky rec0.batches hbat hx hne
      subst hst
      rw [epochLoop_next P env left i c rec0 c1 hbody] at hnf ⊢
      simp only at hnf
      obtain ⟨a1, a2, a3⟩ := epochLoop_ret P env hsticky left (i + 1) c1 hnf
      simp only [List.length_cons]
      refine ⟨?_, ?_, ?_⟩
      · intro he
        obtain ⟨b1, b2, b3⟩ := a1 he
        refine ⟨by omega, by omega, ?_⟩
        rw [b3]
        by_cases hl : (epochLoop P env left (i + 1) c1).trace.length = 1
        · simp [hl, hmr, hnorm]
        · have e1 : ¬ (epochLoop P env left (i + 1) c1).trace.length + 1 = 1 := by omega
          simp only [hl, e1, if_false]
          congr 3
          omega
      · intro he
        rw [a2 he]
        by_cases hl : (epochLoop P env left (i + 1) c1).trace.length = 0
        · simp [hl, hmr, hnorm]
        · simp only [hl, if_false, Nat.add_one_ne_zero]
          congr 3
          omega
      · intro k rec hk
        cases k with
        | zero =>
          simp at hk
          subst hk
          refine ⟨?_, fun _ => ⟨hcomp, hup⟩⟩
          simp only [hcan, Bool.false_eq_true, false_iff, not_and]
          intro he
          have := (a1 he).1
          omega
        | succ k =>
          simp only [List.getElem?_cons_succ] at hk
          have := a3 k rec hk
          refine ⟨?_, this.2⟩
          rw [this.1]
          constructor
          · rintro ⟨h1, h2⟩; exact ⟨h1, by omega⟩
          · rintro ⟨h1, h2⟩; exact ⟨h1, by omega⟩

theorem epochLoop_trace_pos (P : Params) (env : Env) (left i : Nat) (c : Ctl) :
    1 ≤ (epochLoop P env (left + 1) i c).trace.length := by
  rcases hbody : epochBody P env i c with ⟨rec0, st⟩
  cases st with
  | stop ret exit => rw [epochLoop_stop P env left i c rec0 ret exit hbody]; simp
  | next c1 => rw [epochLoop_next P env left i c rec0 c1 hbody]; simp

/-- C6 as stated fails in two ways.  With `max_epochs = 0` no dispatcher fails, no epoch is
entered, and the value returned is the unset `most_recent_correct_error`.  And when the
escape key is found pressed only by the test of line 707 of epoch 1, the batch loop of
epoch 1 has run through both its batches and summed the error of both (`2 + 2 = 4`), yet
the value returned is the normalized error of epoch 0, not that of epoch 1. -/
theorem C6_counterexample :
    ((rbm_thr2 noEpochRun quietEnv).exit ≠ Exit.fatal ∧
      (rbm_thr2 noEpochRun quietEnv).trace = [] ∧
      (rbm_thr2 noEpochRun quietEnv).ret = Ret.value none) ∧
    ((rbm_thr2 smallRun lateEscapeEnv).exit ≠ Exit.fatal ∧
      (rbm_thr2 smallRun lateEscapeEnv).trace.map
          (fun r => (r.batches.exit, r.batches.updates, r.batches.error))
        = [(BatchExit.completed, 2, 2), (BatchExit.completed, 2, 4)] ∧
      errorSum lateEscapeEnv 1 2 = 4 ∧
      (rbm_thr2 smallRun lateEscapeEnv).ret
        = Ret.value (some (normalizedError smallRun lateEscapeEnv 0)) ∧
      (rbm_thr2 smallRun lateEscapeEnv).ret
        ≠ Ret.value (some (normalizedError smallRun lateEscapeEnv 1))) := by
  decide!

/-- C6, amended. For every run with `max_epochs ≥ 1` that no dispatcher failure ends, in
which a cancellation seen by a test of line 632 is still seen by the test of line 707 of
the same epoch, the value returned is the normalized error of the most recent epoch `e` in
which no cancellation was detected: that epoch ran through all its batches, and the value
is its error summed over all its batches divided by the `int` product `nc * n_inputs`.
Either `e` is the last epoch entered, or the run was left by the cancellation detected in
epoch `e + 1`, the last epoch entered, whose error is not returned. -/
theorem C6_return_value (P : Params) (env : Env) (hmax : 1 ≤ P.max_epochs)
    (hsticky : ∀ e b, env.escapeBatch e b = true → env.escapeEpoch e = true)
    (hnofatal : (rbm_thr2 P env).exit ≠ Exit.fatal) :
    ∃ e rec,
      (rbm_thr2 P env).ret = Ret.value (some (normalizedError P env e)) ∧
      (rbm_thr2 P env).trace[e]? = some rec ∧ rec.cancelled = false ∧
      rec.batches.exit = BatchExit.completed ∧ rec.batches.updates = P.n_batches.toNat ∧
      (rbm_thr2 P env).trace.length
        = (if (rbm_thr2 P env).exit = Exit.escape then e + 2 else e + 1) ∧
      (∀ k rec1, (rbm_thr2 P env).trace[k]? = some rec1 →
        (rec1.cancelled = true ↔ ((rbm_thr2 P env).exit = Exit.escape ∧ k = e + 1))) ∧
      (inInt32 (P.nc * P.n_inputs) →
        normalizedError P env e
          = Dbl.div (errorSum env e P.n_batches.toNat) ((P.nc * P.n_inputs : Int) : ℚ)) := by
  obtain ⟨left, hleft⟩ : ∃ left, P.max_epochs.toNat = left + 1 :=
    ⟨P.max_epochs.toNat - 1, by omega⟩
  unfold rbm_thr2 at hnofatal ⊢
  rw [hleft] at hnofatal ⊢
  generalize startCtl = c at hnofatal ⊢
  have hpos := epochLoop_trace_pos P env left 0 c
  obtain ⟨a1, a2, a3⟩ := epochLoop_ret P env hsticky (left + 1) 0 c hnofatal
  have hnorm : ∀ e, inInt32 (P.nc * P.n_inputs) →
      normalizedError P env e
        = Dbl.div (errorSum env e P.n_batches.toNat) ((P.nc * P.n_inputs : Int) : ℚ) := by
    intro e hin
    rw [normalizedError, normalize, wrap32_eq _ hin]
  by_cases he : (epochLoop P env (left + 1) 0 c).exit = Exit.escape
  · obtain ⟨b1, b2, b3⟩ := a1 he
    have hlen : 2 ≤ (epochLoop P env (left + 1) 0 c).trace.length := by omega
    obtain ⟨rec, hrec⟩ : ∃ rec, (epochLoop P env (left + 1) 0 c).trace[
        (epochLoop P env (left + 1) 0 c).trace.length - 2]? = some rec :=
      ⟨_, List.getElem?_eq_getElem (by omega)⟩
    have hr := a3 _ rec hrec
    have hcan : rec.cancelled = false := by
      cases hx : rec.cancelled with
      | false => rfl
      | true => have := (hr.1.1 hx).2; omega
    refine ⟨_, rec, ?_, hrec, hcan, (hr.2 hcan).1, (hr.2 hcan).2, ?_, ?_, hnorm _⟩
    · rw [b3, if_neg (by omega), Nat.zero_add]
    · rw [if_pos he]; omega
    · intro k rec1 hk
      rw [(a3 k rec1 hk).1]
      constructor
      · rintro ⟨h1, h2⟩; exact ⟨h1, by omega⟩
      · rintro ⟨h1, h2⟩; exact ⟨h1, by omega⟩
  · have b3 := a2 he
    obtain ⟨rec, hrec⟩ : ∃ rec, (epochLoop P env (left + 1) 0 c).trace[
        (epochLoop P env (left + 1) 0 c).trace.length - 1]? = some rec :=
      ⟨_, List.getElem?_eq_getElem (by omega)⟩
    have hr := a3 _ rec hrec
    have hcan : rec.cancelled = false := by
      cases hx : rec.cancelled with
      | false => rfl
      | true => exact absurd (hr.1.1 hx).1 he
    refine ⟨_, rec, ?_, hrec, hcan, (hr.2 hcan).1, (hr.2 hcan).2, ?_, ?_, hnorm _⟩
    · rw [b3, if_neg (by omega), Nat.zero_add]
    · rw [if_neg he]; omega
    · intro k rec1 hk
      rw [(a3 k rec1 hk).1]
      constructor
      · rintro ⟨h1, _⟩; exact absurd h1 he
      · rintro ⟨h1, _⟩; exact absurd h1 he

theorem C6_return_value_witness :
    ∃ e rec,
      (rbm_thr2 smallRun escapeEnv).ret
        = Ret.value (some (normalizedError smallRun escapeEnv e)) ∧
      (rbm_thr2 smallRun escapeEnv).trace[e]? = some rec ∧ rec.cancelled = false ∧
      rec.batches.exit = BatchExit.completed ∧
      rec.batches.updates = smallRun.n_batches.toNat ∧
      (rbm_thr2 smallRun escapeEnv).trace.length
        = (if (rbm_thr2 smallRun escapeEnv).exit = Exit.escape then e + 2 else e + 1) ∧
      (∀ k rec1, (rbm_thr2 smallRun escapeEnv).trace[k]? = some rec1 →
        (rec1.cancelled = true ↔ ((rbm_thr2 smallRun escapeEnv).exit = Exit.escape ∧ k = e + 1))) ∧
      (inInt32 (smallRun.nc * smallRun.n_inputs) →
        normalizedError smallRun escapeEnv e
          = Dbl.div (errorSum escapeEnv e smallRun.n_batches.toNat)
              ((smallRun.nc * smallRun.n_inputs : Int) : ℚ)) :=
  C6_return_value smallRun escapeEnv (by decide)
    (by
      intro e b h
      simp only [escapeEnv, Bool.and_eq_true, beq_iff_eq] at h ⊢
      exact h.1)
    (by decide!)

/-! ### Dispatcher failures and termination -/

/-- A dispatcher failure met by the run ends it at once. -/
theorem epochLoop_fatal (P : Params) (env : Env) (b : Nat) (B : Batch)
    (hB : (epochBatches P.max_threads P.nc P.n_batches)[b]? = some B) :
    ∀ (left i : Nat) (c : Ctl) (k : Nat) (rec : EpochRec),
      (epochLoop P env left i c).trace[k]? = some rec →
      b < rec.batches.dispatched → dispatchFails env (i + k) b B.n_threads →
      (epochLoop P env left i c).ret = Ret.sentinel ∧
      (epochLoop P env left i c).exit = Exit.fatal ∧
      (epochLoop P env left i c).trace.length = k + 1 ∧
      rec.batches.dispatched = b + 1 ∧ rec.batches.updates = b
  | 0, i, c, k, rec, h, _, _ => by simp [epochLoop] at h
  | left + 1, i, c, k, rec, h, hb, hf => by
    rcases hbody : epochBody P env i c with ⟨rec0, st⟩
    obtain ⟨hbat, hcases⟩ := epochBody_cases P env i c rec0 st hbody
    cases k with
    | zero =>
      have hrec : rec0 = rec := by
        cases st with
        | stop ret exit => rw [epochLoop_stop P env left i c rec0 ret exit hbody] at h; simpa using h
        | next c1 => rw [epochLoop_next P env left i c rec0 c1 hbody] at h; simpa using h
      subst hrec
      have hspec := (batchLoop_spec env i (epochBatches P.max_threads P.nc P.n_batches) 0 0).2.2.2.2.2.2
        b B (Nat.zero_le _) (by rw [← hbat]; exact hb) (by simpa using hB) (by simpa using hf)
      rw [← hbat] at hspec
      obtain ⟨hx, hd, hu⟩ := hspec
      rcases hcases with ⟨_, hst, _⟩ | ⟨hne, _⟩ | ⟨hne, _⟩ | ⟨hne, _⟩ | ⟨hne, _⟩
      · subst hst
        rw [epochLoop_stop P env left i c rec0 _ _ hbody]
        exact ⟨rfl, rfl, rfl, hd, hu⟩
      all_goals exact absurd hx hne
    | succ k =>
      cases st with
      | stop ret exit =>
        rw [epochLoop_stop P env left i c rec0 ret exit hbody] at h
        simp at h
      | next c1 =>
        rw [epochLoop_next P env left i c rec0 c1 hbody] at h ⊢
        simp only [List.getElem?_cons_succ] at h
        have ih := epochLoop_fatal P env b B hB left (i + 1) c1 k rec h hb
          (by rw [show i + 1 + k = i + (k + 1) by omega]; exact hf)
        obtain ⟨a1, a2, a3, a4, a5⟩ := ih
        exact ⟨a1, a2, by simp [a3], a4, a5⟩

/-- C7. If, for a batch the run has started the threads of, the creation of a thread
fails or the wait on the workers reports a timeout or a failure, `rbm_thr2` returns the
sentinel `-1.e40`; the epoch of that batch is the last one entered, the batch is the last
one whose threads were started, and the updates of the weights and biases made in that
epoch are those of the batches before it: the failed batch brings no update. -/
theorem C7_fatal_dispatcher_error (P : Params) (env : Env) (e b : Nat) (rec : EpochRec)
    (B : Batch) (hrec : (rbm_thr2 P env).trace[e]? = some rec)
    (hb : b < rec.batches.dispatched)
    (hB : (epochBatches P.max_threads P.nc P.n_batches)[b]? = some B)
    (hfail : dispatchFails env e b B.n_threads) :
    (rbm_thr2 P env).ret = Ret.sentinel ∧ (rbm_thr2 P env).exit = Exit.fatal ∧
    (rbm_thr2 P env).trace.length = e + 1 ∧
    rec.batches.dispatched = b + 1 ∧ rec.batches.updates = b := by
  unfold rbm_thr2 at hrec ⊢
  exact epochLoop_fatal P env b B hB _ 0 _ e rec hrec hb (by simpa using hfail)

theorem C7_fatal_dispatcher_error_witness :
    (rbm_thr2 smallRun failingEnv).ret = Ret.sentinel ∧
    (rbm_thr2 smallRun failingEnv).exit = Exit.fatal ∧
    (rbm_thr2 smallRun failingEnv).trace.length = 1 + 1 ∧
    failedEpoch.batches.dispatched = 1 + 1 ∧ failedEpoch.batches.updates = 1 :=
  C7_fatal_dispatcher_error smallRun failingEnv 1 1 failedEpoch
    { istart := 20, n_in_batch := 20, n_threads := 2 }
    (by decide!) (by decide) (by decide) (Or.inl ⟨1, by decide, rfl⟩)

/-- The epoch loop makes at most `left` trips, a batch loop starts the threads of at most
`n_batches` batches, and an epoch after which another one is entered did not pass the
convergence test. -/
theorem epochLoop_bounds (P : Params) (env : Env) :
    ∀ (left i : Nat) (c : Ctl),
      (epochLoop P env left i c).trace.length ≤ left ∧
      (∀ rec ∈ (epochLoop P env left i c).trace,
        rec.batches.dispatched ≤ P.n_batches.toNat ∧
        rec.batches.updates ≤ rec.batches.dispatched) ∧
      (∀ k, k + 1 < (epochLoop P env left i c).trace.length →
        ¬ Dbl.lt (ratio env (i + k)) (Dbl.fin P.convergence_crit) = true)
  | 0, i, c => by simp [epochLoop]
  | left + 1, i, c => by
    rcases hbody : epochBody P env i c with ⟨rec0, st⟩
    obtain ⟨hbat, hcases⟩ := epochBody_cases P env i c rec0 st hbody
    have hdisp : rec0.batches.dispatched ≤ P.n_batches.toNat ∧
        rec0.batches.updates ≤ rec0.batches.dispatched := by
      have h := batchLoop_spec env i (epochBatches P.max_threads P.nc P.n_batches) 0 0
      rw [epochBatches_length, Nat.zero_add, ← hbat] at h
      exact ⟨h.2.2.1, h.2.1⟩
    cases st with
    | stop ret exit =>
      rw [epochLoop_stop P env left i c rec0 ret exit hbody]
      refine ⟨by simp, ?_, ?_⟩
      · intro rec hrec
        simp at hrec
        subst hrec
        exact hdisp
      · intro k hk
        simp at hk
    | next c1 =>
      rw [epochLoop_next P env left i c rec0 c1 hbody]
      obtain ⟨i1, i2, i3⟩ := epochLoop_bounds P env left (i + 1) c1
      refine ⟨by simp only [List.length_cons]; omega, ?_, ?_⟩
      · intro rec hrec
        rcases List.mem_cons.mp hrec with h | h
        · subst h; exact hdisp
        · exact i2 rec h
      · intro k hk
        simp only [List.length_cons] at hk
        cases k with
        | zero =>
          rcases hcases with ⟨_, hst, _⟩ | ⟨_, _, hst, _⟩ | ⟨_, _, _, hst, _⟩ |
            ⟨_, _, _, _, _, hst, _⟩ | ⟨_, _, hnc, _⟩
          · cases hst
          · cases hst
          · cases hst
          · cases hst
          · simpa using hnc
        | succ k =>
          have := i3 k (by omega)
          rw [show i + (k + 1) = i + 1 + k by omega]
          exact this

/-- C8. The epoch loop of `rbm_thr2` enters at most `max_epochs` epochs; an epoch whose
ratio `max_inc / max_weight` is below `convergence_crit` is the last epoch entered, so no
update follows it.  The other loops are bounded too: a batch loop starts the threads of at
most `n_batches` batches, the thread loop stores at most `n_threads` ranges, the loop that
reduces the thread count is left through its own test within `max_threads` trips, and the
shuffle loop within `nc` trips. -/
theorem C8_termination (P : Params) (env : Env) :
    (rbm_thr2 P env).trace.length ≤ P.max_epochs.toNat ∧
    (∀ e, e < (rbm_thr2 P env).trace.length →
      Dbl.lt (ratio env e) (Dbl.fin P.convergence_crit) = true →
      e + 1 = (rbm_thr2 P env).trace.length) ∧
    (∀ rec ∈ (rbm_thr2 P env).trace, rec.batches.dispatched ≤ P.n_batches.toNat ∧
      rec.batches.updates ≤ rec.batches.dispatched) ∧
    (∀ (cf : Nat → Bool) (istart n_in_batch n_threads : Int),
      (threadLoop cf istart n_in_batch n_threads n_threads.toNat 0 0 0).1.length
        ≤ n_threads.toNat) ∧
    (∀ n_in_batch : Int, ¬ (threadCount P.max_threads n_in_batch > 1 ∧
      Int.tdiv n_in_batch (threadCount P.max_threads n_in_batch) < 10)) ∧
    (∀ (draw : Nat → ℚ) (n : Nat) (shuffle_index : List Int),
      shuffle draw n P.nc shuffle_index ≠ ShuffleResult.outOfFuel) := by
  obtain ⟨h1, h2, h3⟩ := epochLoop_bounds P env P.max_epochs.toNat 0 startCtl
  unfold rbm_thr2
  refine ⟨h1, ?_, h2, ?_, ?_, ?_⟩
  · intro e he hconv
    by_contra hne
    have := h3 e (by omega)
    rw [Nat.zero_add] at this
    exact this hconv
  · intro cf istart n_in_batch n_threads
    exact threadLoop_length cf istart n_in_batch n_threads _ _ _ _
  · intro n_in_batch
    exact reduceThreads_exit n_in_batch _ _ (by omega)
  · intro draw n shuffle_index
    exact shuffleLoop_fuel draw _ n P.nc shuffle_index (le_refl _)

/-! ### The records of a run -/

/-- Every record of the run is the record of a trip of the epoch loop; the trip of an
epoch that is not the last one went on to the next epoch, and the trip of the last one
either left the routine or was the last trip the loop had to make. -/
theorem epochLoop_trace (P : Params) (env : Env) :
    ∀ (left i : Nat) (c : Ctl) (k : Nat) (rec : EpochRec),
      (epochLoop P env left i c).trace[k]? = some rec →
      ∃ c0 st, epochBody P env (i + k) c0 = (rec, st) ∧
        (k + 1 < (epochLoop P env left i c).trace.length → ∃ c1, st = Step.next c1) ∧
        (k + 1 = (epochLoop P env left i c).trace.length →
          st = Step.stop (epochLoop P env left i c).ret (epochLoop P env left i c).exit ∨
          ((∃ c1, st = Step.next c1) ∧ (epochLoop P env left i c).exit = Exit.maxEpochs))
  | 0, i, c, k, rec, h => by simp [epochLoop] at h
  | left + 1, i, c, k, rec, h => by
    rcases hbody : epochBody P env i c with ⟨rec0, st⟩
    cases st with
    | stop ret exit =>
      rw [epochLoop_stop P env left i c rec0 ret exit hbody] at h ⊢
      cases k with
      | zero =>
        simp at h
        subst h
        exact ⟨c, _, hbody, by simp, fun _ => Or.inl rfl⟩
      | succ k => simp at h
    | next c1 =>
      rw [epochLoop_next P env left i c rec0 c1 hbody] at h ⊢
      cases k with
      | zero =>
        simp at h
        subst h
        refine ⟨c, _, hbody, fun _ => ⟨c1, rfl⟩, ?_⟩
        intro hlen
        simp only [List.length_cons] at hlen
        have hnil : (epochLoop P env left (i + 1) c1).trace.length = 0 := by omega
        refine Or.inr ⟨⟨c1, rfl⟩, ?_⟩
        cases left with
        | zero => simp [epochLoop]
        | succ left =>
          have := epochLoop_trace_pos P env left (i + 1) c1
          omega
      | succ k =>
        simp only [List.getElem?_cons_succ] at h
        obtain ⟨c0, st, h1, h2, h3⟩ := epochLoop_trace P env left (i + 1) c1 k rec h
        refine ⟨c0, st, by rw [show i + (k + 1) = i + 1 + k by omega]; exact h1, ?_, ?_⟩
        · intro hlen
          simp only [List.length_cons] at hlen
          exact h2 (by omega)
        · intro hlen
          simp only [List.length_cons] at hlen
          exact h3 (by omega)

/-- With a zero `max_weight` and `max_inc ≥ 0` the quotient is `+inf` or a NaN, and it is
not below any finite value. -/
theorem ratio_zero_divisor (env : Env) (e : Nat) (crit : ℚ) (hw : env.max_weight e = 0)
    (hinc : 0 ≤ env.max_inc e) :
    (ratio env e = Dbl.pinf ∨ ratio env e = Dbl.nan) ∧
    Dbl.lt (ratio env e) (Dbl.fin crit) = false := by
  unfold ratio Dbl.div
  rw [hw]
  by_cases h0 : env.max_inc e = 0
  · simp [h0, Dbl.lt]
  · have hpos : 0 < env.max_inc e := lt_of_le_of_ne hinc (Ne.symm h0)
    simp [h0, hpos, Dbl.lt]

/-- C9, the behaviour of the code. With `max_no_improvement = 1` and ratios `0.5`, `0.6`,
`0.7` in epochs 0, 1, 2 (epoch 0 sets the best ratio, epochs 1 and 2 do not improve on it),
the run is not left at the end of epoch 1, the first epoch without improvement, but at the
end of epoch 2: after `max_no_improvement + 1` epochs without improvement.  The same holds
when every ratio is the NaN `0 / 0`. -/
theorem C9_no_improvement_exit_is_late :
    (ratio quietEnv 0 = Dbl.fin (1 / 2) ∧ ratio quietEnv 1 = Dbl.fin (3 / 5) ∧
      ratio quietEnv 2 = Dbl.fin (7 / 10)) ∧
    (rbm_thr2 impatientRun quietEnv).exit = Exit.noImprovement ∧
    (rbm_thr2 impatientRun quietEnv).trace.length = 3 ∧
    (rbm_thr2 impatientRun zeroWeightEnv).exit = Exit.noImprovement ∧
    (rbm_thr2 impatientRun zeroWeightEnv).trace.length = 3 := by
  decide!

/-- C10 as stated fails: when `max_weight = 0` in every epoch, each epoch evaluates
`max_inc / max_weight` with the divisor 0, in the convergence test, in the update of the
best ratio (epoch 0) or the test against it (later epochs), and in the smoothed ratio. -/
theorem C10_counterexample :
    (∀ e, zeroWeightEnv.max_weight e = 0) ∧
    (rbm_thr2 smallRun zeroWeightEnv).trace.map (fun r => r.divisors) =
      [[(Site.convergenceTest, 0), (Site.bestUpdate, 0), (Site.smoothedRatio, 0)],
       [(Site.convergenceTest, 0), (Site.bestTest, 0), (Site.smoothedRatio, 0)],
       [(Site.convergenceTest, 0), (Site.bestTest, 0), (Site.smoothedRatio, 0)]] :=
  ⟨fun _ => rfl, by decide!⟩

/-- C10, amended. When `max_weight = 0` at the end of an epoch that comes to the convergence
test (`max_inc ≥ 0`, as it is a maximum of absolute values from 0), `rbm_thr2` does
evaluate `max_inc / max_weight` with the divisor 0 in the convergence test, and also in the
smoothed ratio when another epoch follows; the IEEE quotient is `+inf` or a NaN, which is not
below `convergence_crit`: the epoch is treated as not converged and the run is not left
through the convergence test in that epoch. -/
theorem C10_zero_max_weight (P : Params) (env : Env) (e : Nat) (rec : EpochRec)
    (hrec : (rbm_thr2 P env).trace[e]? = some rec)
    (hreach : rec.batches.exit ≠ BatchExit.fatal ∧ rec.cancelled = false)
    (hw : env.max_weight e = 0) (hinc : 0 ≤ env.max_inc e) :
    (Site.convergenceTest, (0 : ℚ)) ∈ rec.divisors ∧
    (e + 1 < (rbm_thr2 P env).trace.length →
      (Site.smoothedRatio, (0 : ℚ)) ∈ rec.divisors ∧
      ((Site.bestTest, (0 : ℚ)) ∈ rec.divisors ∨ (Site.bestUpdate, (0 : ℚ)) ∈ rec.divisors)) ∧
    (ratio env e = Dbl.pinf ∨ ratio env e = Dbl.nan) ∧
    Dbl.lt (ratio env e) (Dbl.fin P.convergence_crit) = false ∧
    ¬ ((rbm_thr2 P env).exit = Exit.converged ∧ e + 1 = (rbm_thr2 P env).trace.length) := by
  unfold rbm_thr2 at hrec ⊢
  obtain ⟨c0, st, hbody, hnext, hlast⟩ := epochLoop_trace P env _ 0 startCtl e rec hrec
  rw [Nat.zero_add] at hbody
  obtain ⟨hr1, hr2⟩ := ratio_zero_divisor env e P.convergence_crit hw hinc
  obtain ⟨_, hcases⟩ := epochBody_cases P env e c0 rec st hbody
  rcases hcases with ⟨hx, _⟩ | ⟨_, _, _, hcan, _⟩ | ⟨_, _, hlt, _⟩ |
    ⟨_, _, _, _, _, hst, _, hdiv⟩ | ⟨_, _, _, _, hd1, hd2, hd3, c1, hst, _⟩
  · exact absurd hx hreach.1
  · rw [hreach.2] at hcan; cases hcan
  · rw [hr2] at hlt; cases hlt
  · refine ⟨by rw [hdiv, hw]; simp, ?_, hr1, hr2, ?_⟩
    · intro hlen
      obtain ⟨c1, hc1⟩ := hnext hlen
      rw [hst] at hc1
      cases hc1
    · rintro ⟨hexit, hlen⟩
      rcases hlast hlen with h | ⟨⟨c1, hc1⟩, _⟩
      · rw [hst] at h
        injection h with _ h2
        rw [hexit] at h2
        cases h2
      · rw [hst] at hc1
        cases hc1
  · refine ⟨by rw [← hw]; exact hd1, fun _ => (by rw [← hw]; exact ⟨hd2, hd3⟩), hr1, hr2, ?_⟩
    rintro ⟨hexit, hlen⟩
    rcases hlast hlen with h | ⟨_, hmax⟩
    · rw [hst] at h
      cases h
    · rw [hexit] at hmax
      cases hmax

theorem C10_zero_max_weight_witness :
    (Site.convergenceTest, (0 : ℚ)) ∈ zeroWeightEpoch.divisors ∧
    (1 + 1 < (rbm_thr2 smallRun zeroWeightEnv).trace.length →
      (Site.smoothedRatio, (0 : ℚ)) ∈ zeroWeightEpoch.divisors ∧
      ((Site.bestTest, (0 : ℚ)) ∈ zeroWeightEpoch.divisors ∨
        (Site.bestUpdate, (0 : ℚ)) ∈ zeroWeightEpoch.divisors)) ∧
    (ratio zeroWeightEnv 1 = Dbl.pinf ∨ ratio zeroWeightEnv 1 = Dbl.nan) ∧
    Dbl.lt (ratio zeroWeightEnv 1) (Dbl.fin smallRun.convergence_crit) = false ∧
    ¬ ((rbm_thr2 smallRun zeroWeightEnv).exit = Exit.converged ∧
      1 + 1 = (rbm_thr2 smallRun zeroWeightEnv).trace.length) :=
  C10_zero_max_weight smallRun zeroWeightEnv 1 zeroWeightEpoch
    (by decide!) (by decide) rfl (le_refl _)

/-! ### Cancellation -/

/-- In an epoch other than the first, the escape test that follows the update of a batch,
when it finds the key pressed, ends the batch loop there. -/
theorem batchLoop_escape_at (env : Env) (e : Nat) (he : e ≠ 0) :
    ∀ (bs : List Batch) (ib : Nat) (err : ℚ) (k : Nat),
      ib ≤ k → k < (batchLoop env e bs ib err).updates → env.escapeBatch e k = true →
      (batchLoop env e bs ib err).exit = BatchExit.escape ∧
      (batchLoop env e bs ib err).updates = k + 1 ∧
      (batchLoop env e bs ib err).dispatched = k + 1
  | [], ib, err, k, h1, h2, _ => by
    simp only [batchLoop] at h2
    omega
  | b :: rest, ib, err, k, h1, h2, hk => by
    by_cases c1 : (threadLoop (env.createFails e ib) b.istart b.n_in_batch b.n_threads
        b.n_threads.toNat 0 0 0).2 = false
    · rw [batchLoop_createFails env e b rest ib err c1] at h2
      simp only at h2
      omega
    · by_cases c2 : waitBad (env.waitRet e ib) b.n_threads = true
      · rw [batchLoop_waitBad env e b rest ib err c1 c2] at h2
        simp only at h2
        omega
      · by_cases c3 : e ≠ 0 ∧ env.escapeBatch e ib = true
        · rw [batchLoop_escape env e b rest ib err c1 c2 c3] at h2 ⊢
          simp only at h2 ⊢
          exact ⟨trivial, by omega, by omega⟩
        · rw [batchLoop_next env e b rest ib err c1 c2 c3] at h2 ⊢
          have hne : k ≠ ib := by
            intro hki
            subst hki
            exact c3 ⟨he, hk⟩
          exact batchLoop_escape_at env e he rest (ib + 1) _ k (by omega) h2 hk

/-- C11 as stated fails for `i_epoch = 0`: with the escape key pressed during the first
batch of epoch 0, the batch loop of epoch 0 goes on to the second batch and the epoch loop
goes on to epochs 1 and 2. -/
theorem C11_counterexample :
    earlyEscapeEnv.escapeBatch 0 0 = true ∧ earlyEscapeEnv.escapeEpoch 0 = true ∧
    (rbm_thr2 smallRun earlyEscapeEnv).trace.map
        (fun r => (r.batches.exit, r.batches.dispatched, r.cancelled))
      = [(BatchExit.completed, 2, false), (BatchExit.completed, 2, false),
         (BatchExit.completed, 2, false)] ∧
    (rbm_thr2 smallRun earlyEscapeEnv).exit = Exit.maxEpochs := by
  decide!

/-- In epoch 0 the escape key is not looked at: the batch loop is not left through the
`break` of line 633 and the epoch is not ended by the test of line 707. -/
theorem epoch_zero_no_escape (P : Params) (env : Env) (rec : EpochRec)
    (hrec : (rbm_thr2 P env).trace[0]? = some rec) :
    rec.batches.exit ≠ BatchExit.escape ∧ rec.cancelled = false := by
  unfold rbm_thr2 at hrec
  obtain ⟨c0, st, hbody, _, _⟩ := epochLoop_trace P env _ 0 startCtl 0 rec hrec
  rw [Nat.zero_add] at hbody
  obtain ⟨hbat, hcases⟩ := epochBody_cases P env 0 c0 rec st hbody
  constructor
  · intro hx
    rw [hbat] at hx
    have hspec := (batchLoop_spec env 0 (epochBatches P.max_threads P.nc P.n_batches) 0
      0).2.2.2.2.1 hx
    exact hspec.2.2.1 rfl
  · rcases hcases with ⟨_, _, hc, _⟩ | ⟨_, hne, _⟩ | ⟨_, _, _, _, hc, _⟩ |
      ⟨_, _, _, _, _, _, hc, _⟩ | ⟨_, _, _, hc, _⟩
    · exact hc
    · exact absurd rfl hne.1
    · exact hc
    · exact hc
    · exact hc

/-- C11, amended. For every epoch `i_epoch ≥ 1` and every batch whose update was made, if
the escape test that follows the update (line 632) finds the key pressed, the batch loop is
left at once: that batch is the last one updated and the last one whose threads were
started.  If the test of line 707 still finds the key pressed, the epoch loop ends with
that epoch.  In epoch 0 the escape key is not looked at: the batch loop of epoch 0 is not
left through the escape test and epoch 0 is not ended as cancelled. -/
theorem C11_cancellation (P : Params) (env : Env) (e b : Nat) (rec : EpochRec)
    (hrec : (rbm_thr2 P env).trace[e]? = some rec) (he : 1 ≤ e)
    (hb : b < rec.batches.updates) (hesc : env.escapeBatch e b = true) :
    rec.batches.exit = BatchExit.escape ∧ rec.batches.updates = b + 1 ∧
    rec.batches.dispatched = b + 1 ∧
    (env.escapeEpoch e = true →
      rec.cancelled = true ∧ (rbm_thr2 P env).trace.length = e + 1 ∧
      (rbm_thr2 P env).exit = Exit.escape) ∧
    (∀ rec0, (rbm_thr2 P env).trace[0]? = some rec0 →
      rec0.batches.exit ≠ BatchExit.escape ∧ rec0.cancelled = false) := by
  have hzero := epoch_zero_no_escape P env
  unfold rbm_thr2 at hrec ⊢
  obtain ⟨c0, st, hbody, hnext, hlast⟩ := epochLoop_trace P env _ 0 startCtl e rec hrec
  rw [Nat.zero_add] at hbody
  obtain ⟨hbat, hcases⟩ := epochBody_cases P env e c0 rec st hbody
  have he0 : e ≠ 0 := by omega
  have hloop := batchLoop_escape_at env e he0 (epochBatches P.max_threads P.nc P.n_batches)
    0 0 b (Nat.zero_le _) (by rw [← hbat]; exact hb) hesc
  rw [← hbat] at hloop
  refine ⟨hloop.1, hloop.2.1, hloop.2.2, ?_, hzero⟩
  intro h707
  have hlen : e < (epochLoop P env P.max_epochs.toNat 0 startCtl).trace.length := by
    by_contra hge
    rw [List.getElem?_eq_none (by omega)] at hrec
    cases hrec
  rcases hcases with ⟨hx, _⟩ | ⟨_, _, hst, hcan, _⟩ | ⟨_, hne, _⟩ | ⟨_, hne, _⟩ | ⟨_, hne, _⟩
  · rw [hloop.1] at hx
    cases hx
  · have hlast1 : e + 1 = (epochLoop P env P.max_epochs.toNat 0 startCtl).trace.length := by
      by_contra hne
      obtain ⟨c1, hc1⟩ := hnext (by omega)
      rw [hst] at hc1
      cases hc1
    refine ⟨hcan, hlast1.symm, ?_⟩
    rcases hlast hlast1 with h | ⟨⟨c1, hc1⟩, _⟩
    · rw [hst] at h
      injection h with _ h2
      exact h2.symm
    · rw [hst] at hc1
      cases hc1
  · exact absurd ⟨he0, h707⟩ hne
  · exact absurd ⟨he0, h707⟩ hne
  · exact absurd ⟨he0, h707⟩ hne

theorem C11_cancellation_witness :
    escapedEpoch.batches.exit = BatchExit.escape ∧ escapedEpoch.batches.updates = 0 + 1 ∧
    escapedEpoch.batches.dispatched = 0 + 1 ∧
    (escapeEnv.escapeEpoch 2 = true →
      escapedEpoch.cancelled = true ∧ (rbm_thr2 smallRun escapeEnv).trace.length = 2 + 1 ∧
      (rbm_thr2 smallRun escapeEnv).exit = Exit.escape) ∧
    (∀ rec0, (rbm_thr2 smallRun escapeEnv).trace[0]? = some rec0 →
      rec0.batches.exit ≠ BatchExit.escape ∧ rec0.cancelled = false) :=
  C11_cancellation smallRun escapeEnv 2 0 escapedEpoch (by decide!) (by decide) (by decide)
    rfl

/-! ### The learning rate stays in its range -/

theorem adjustRate_range (learning_rate : ℚ) (dot : Dbl) :
    1 / 1000 ≤ adjustRate learning_rate dot ∧ adjustRate learning_rate dot ≤ 1 := by
  unfold adjustRate
  simp only []
  split_ifs <;> constructor <;> linarith

/-- The caps lower the rate to one of the five cap values or leave it as it is. -/
theorem capRate_cases (learning_rate : ℚ) (n : Int) :
    capRate learning_rate n = learning_rate ∨
      (isCapValue (capRate learning_rate n) ∧ capRate learning_rate n < learning_rate) := by
  unfold capRate isCapValue
  simp only []
  split_ifs <;> first
    | (left; rfl)
    | (right; constructor <;> first | linarith | norm_num)

theorem capRate_range (learning_rate : ℚ) (n : Int)
    (h : 1 / 1000 ≤ learning_rate ∧ learning_rate ≤ 1) :
    1 / 1000 ≤ capRate learning_rate n ∧ capRate learning_rate n ≤ 1 := by
  rcases capRate_cases learning_rate n with h1 | ⟨h1, h2⟩
  · rw [h1]; exact h
  · unfold isCapValue at h1
    rcases h1 with h1 | h1 | h1 | h1 | h1 <;> rw [h1] <;> constructor <;> norm_num

/-- Once an adjustment has been made, the rate is in `[0.001, 1]` after every later event. -/
theorem rateAfter_range (lr0 : ℚ) :
    ∀ (events : List RateEvent), (∃ dot, RateEvent.adjust dot ∈ events) →
      1 / 1000 ≤ rateAfter lr0 events ∧ rateAfter lr0 events ≤ 1 := by
  intro events
  induction events using List.reverseRecOn with
  | nil => rintro ⟨dot, h⟩; cases h
  | append_singleton pre ev ih =>
    rintro ⟨dot, hmem⟩
    unfold rateAfter at ih ⊢
    rw [List.foldl_append]
    simp only [List.foldl_cons, List.foldl_nil]
    cases ev with
    | adjust d => exact adjustRate_range _ d
    | cap n =>
      have hpre : ∃ dot, RateEvent.adjust dot ∈ pre := by
        rcases List.mem_append.mp hmem with h | h
        · exact ⟨dot, h⟩
        · simp at h
      exact capRate_range _ n (ih hpre)

/-- C12, counterexample.  The caller supplies the learning rate 5 and the training set is
one batch: the only batch of epoch 0 takes the branch of line 640, which has no adjustment,
and at the end of epoch 0 the counter `n_no_improvement` is 0 (line 747), so none of the
caps of lines 769-782 applies.  After that end-of-epoch cap the learning rate is still 5,
above 1. -/
theorem C12_counterexample :
    rateAfter 5 [RateEvent.cap 0] = 5 ∧
    ¬ (rateAfter 5 [RateEvent.cap 0] ≤ 1) := by
  decide!

/-- C12, amended.  For every initial learning rate and every sequence of adjustments (with
any direction cosines, NaN included) and end-of-epoch caps: after each adjustment the
learning rate lies in `[0.001, 1]`; each cap that lowers the rate sets it to one of
`0.03, 0.02, 0.01, 0.005, 0.002`, which lie in `[0.001, 1]`; and a cap that comes after an
adjustment leaves the rate in `[0.001, 1]` whether it lowers it or not. -/
theorem C12_learning_rate_bound (lr0 : ℚ) (pre : List RateEvent) :
    (∀ dot, 1 / 1000 ≤ rateAfter lr0 (pre ++ [RateEvent.adjust dot]) ∧
      rateAfter lr0 (pre ++ [RateEvent.adjust dot]) ≤ 1) ∧
    (∀ n, rateAfter lr0 (pre ++ [RateEvent.cap n]) ≠ rateAfter lr0 pre →
      isCapValue (rateAfter lr0 (pre ++ [RateEvent.cap n])) ∧
      1 / 1000 ≤ rateAfter lr0 (pre ++ [RateEvent.cap n]) ∧
      rateAfter lr0 (pre ++ [RateEvent.cap n]) ≤ 1) ∧
    (∀ n, (∃ dot, RateEvent.adjust dot ∈ pre) →
      1 / 1000 ≤ rateAfter lr0 (pre ++ [RateEvent.cap n]) ∧
      rateAfter lr0 (pre ++ [RateEvent.cap n]) ≤ 1) := by
  refine ⟨?_, ?_, ?_⟩
  · intro dot
    exact rateAfter_range lr0 _ ⟨dot, by simp⟩
  · intro n hne
    have hstep : rateAfter lr0 (pre ++ [RateEvent.cap n]) = capRate (rateAfter lr0 pre) n := by
      simp [rateAfter, rateStep]
    rw [hstep] at hne ⊢
    rcases capRate_cases (rateAfter lr0 pre) n with h1 | ⟨h1, _⟩
    · exact absurd h1 hne
    · refine ⟨h1, ?_⟩
      unfold isCapValue at h1
      rcases h1 with h1 | h1 | h1 | h1 | h1 <;> rw [h1] <;> constructor <;> norm_num
  · rintro n ⟨dot, hdot⟩
    exact rateAfter_range lr0 _ ⟨dot, by simp [hdot]⟩

/-- C12, witness: from the learning rate 5, the cap at a counter of 51 lowers the rate, to
one of the five cap values in `[0.001, 1]`; and after an adjustment with `dot = 1` the cap
at a counter of 0 leaves the rate in `[0.001, 1]`. -/
theorem C12_learning_rate_bound_witness :
    (isCapValue (rateAfter 5 ([] ++ [RateEvent.cap 51])) ∧
      1 / 1000 ≤ rateAfter 5 ([] ++ [RateEvent.cap 51]) ∧
      rateAfter 5 ([] ++ [RateEvent.cap 51]) ≤ 1) ∧
    (1 / 1000 ≤ rateAfter 5 ([RateEvent.adjust (Dbl.fin 1)] ++ [RateEvent.cap 0]) ∧
      rateAfter 5 ([RateEvent.adjust (Dbl.fin 1)] ++ [RateEvent.cap 0]) ≤ 1) :=
  ⟨(C12_learning_rate_bound 5 []).2.1 51 (by decide!),
    (C12_learning_rate_bound 5 [RateEvent.adjust (Dbl.fin 1)]).2.2 0
      ⟨Dbl.fin 1, List.mem_singleton.2 rfl⟩⟩
/-! ### The near-equal split and the thread count -/

theorem threadLoop_sizes (istart n_in_batch n_threads : Int) :
    ∀ (left ithread : Nat) (jstart nt_done : Int),
      (threadLoop (fun _ => false) istart n_in_batch n_threads left ithread jstart
        nt_done).1.map (fun r => r.2 - r.1)
        = splitSizes n_in_batch n_threads left ithread nt_done
  | 0, _, _, _ => rfl
  | left + 1, ithread, jstart, nt_done => by
    simp only [threadLoop, splitSizes, Bool.false_eq_true, if_false, List.map_cons]
    rw [threadLoop_sizes istart n_in_batch n_threads left]
    congr 1
    omega

theorem batchPlan_sizes (max_threads nc n_batches : Int) :
    ∀ (left ibatch : Nat) (istart n_done : Int),
      (batchPlan max_threads nc n_batches left ibatch istart n_done).map Batch.n_in_batch
        = splitSizes nc n_batches left ibatch n_done
  | 0, _, _, _ => rfl
  | left + 1, ibatch, istart, n_done => by
    simp only [batchPlan, splitSizes, List.map_cons]
    rw [batchPlan_sizes max_threads nc n_batches left]

/-- With `left` parts to go and `q * left + min r left` still to share out, the rule gives
`q` to the parts that come first and `q + 1` to the last `min r left` parts. -/
theorem splitSizes_closed (n p q r : Int) (hq : 0 ≤ q) (hr : 0 ≤ r) :
    ∀ (left i : Nat) (done : Int), p - (i : Int) = left →
      n - done = q * (left : Int) + min r (left : Int) →
      splitSizes n p left i done
        = List.replicate (left - (min r (left : Int)).toNat) q ++
            List.replicate (min r (left : Int)).toNat (q + 1)
  | 0, _, _, _, _ => by simp [splitSizes]
  | left + 1, i, done, hleft, hrem => by
    have hk : (((left + 1 : Nat) : Int)) = (left : Int) + 1 := by push_cast; rfl
    rw [hk] at hrem hleft
    have hmul : q * ((left : Int) + 1) = q * (left : Int) + q := by ring
    have hql : 0 ≤ q * (left : Int) := mul_nonneg hq (by omega)
    have hk0 : ((left : Int) + 1) ≠ 0 := by omega
    have hdiv : Int.tdiv (n - done) (p - (i : Int))
        = min r ((left : Int) + 1) / ((left : Int) + 1) + q := by
      rw [hleft, Int.tdiv_eq_ediv (by omega) (by omega), hrem,
        Int.add_comm (q * ((left : Int) + 1)), Int.add_mul_ediv_right _ _ hk0]
    by_cases hc : r ≤ (left : Int)
    · have hm1 : min r ((left : Int) + 1) = r := by omega
      have hm0 : min r (left : Int) = r := by omega
      have hsize : Int.tdiv (n - done) (p - (i : Int)) = q := by
        rw [hdiv, hm1, Int.ediv_eq_zero_of_lt hr (by omega)]
        omega
      have ih := splitSizes_closed n p q r hq hr left (i + 1) (done + q)
        (by push_cast; omega) (by omega)
      simp only [splitSizes, hsize, ih, hk, hm1, hm0]
      have e : left + 1 - r.toNat = (left - r.toNat) + 1 := by omega
      rw [e, List.replicate_succ, List.cons_append]
    · have hm1 : min r ((left : Int) + 1) = (left : Int) + 1 := by omega
      have hm0 : min r (left : Int) = (left : Int) := by omega
      have hsize : Int.tdiv (n - done) (p - (i : Int)) = q + 1 := by
        rw [hdiv, hm1, Int.ediv_self hk0]
        omega
      have ih := splitSizes_closed n p q r hq hr left (i + 1) (done + (q + 1))
        (by push_cast; omega) (by omega)
      simp only [splitSizes, hsize, ih, hk, hm1, hm0]
      have e1 : ((left : Int) + 1).toNat = left + 1 := by omega
      have e2 : (left : Int).toNat = left := by omega
      rw [e1, e2, List.replicate_succ]
      simp

/-- The sizes of a split of `n ≥ 0` into `p ≥ 1` parts: `p - n % p` parts of `n / p`, then
`n % p` parts of `n / p + 1`. -/
theorem splitSizes_eq (n p : Int) (hn : 0 ≤ n) (hp : 1 ≤ p) :
    splitSizes n p p.toNat 0 0
      = List.replicate (p.toNat - (n % p).toNat) (n / p) ++
          List.replicate (n % p).toNat (n / p + 1) := by
  have hr0 : 0 ≤ n % p := Int.emod_nonneg _ (by omega)
  have hr1 : n % p < p := Int.emod_lt_of_pos _ (by omega)
  have hq : 0 ≤ n / p := Int.ediv_nonneg hn (by omega)
  have hpn : ((p.toNat : Nat) : Int) = p := by omega
  have hmin : min (n % p) ((p.toNat : Nat) : Int) = n % p := by omega
  have h := splitSizes_closed n p (n / p) (n % p) hq hr0 p.toNat 0 0 (by omega)
    (by
      rw [hmin, hpn]
      have := Int.ediv_add_emod n p
      have hc : n / p * p = p * (n / p) := by ring
      omega)
  rw [hmin] at h
  exact h

/-- Each worker range of a batch of `n ≥ 0` cases on `p ≥ 1` threads holds at least
`n / p` cases. -/
theorem rangeSize_ge_floor (n p : Int) (hn : 0 ≤ n) (hp : 1 ≤ p) (istart : Int) :
    ∀ s ∈ (threadRanges istart n p).map (fun r => r.2 - r.1), n / p ≤ s := by
  intro s hs
  have hsz : (threadRanges istart n p).map (fun r => r.2 - r.1) = splitSizes n p p.toNat 0 0 :=
    threadLoop_sizes istart n p _ _ _ _
  rw [hsz, splitSizes_eq n p hn hp, List.mem_append, List.mem_replicate,
    List.mem_replicate] at hs
  rcases hs with ⟨_, h⟩ | ⟨_, h⟩ <;> omega

/-- The ceiling of `n / p` is `n / p` when `p` divides `n` and `n / p + 1` otherwise. -/
theorem ceil_div (n p : Int) (hp : 1 ≤ p) :
    (n + p - 1) / p = if n % p = 0 then n / p else n / p + 1 := by
  have hr0 : 0 ≤ n % p := Int.emod_nonneg _ (by omega)
  have hr1 : n % p < p := Int.emod_lt_of_pos _ (by omega)
  have hdec := Int.ediv_add_emod n p
  have hp0 : p ≠ 0 := by omega
  split
  · rename_i h0
    have e : n + p - 1 = (p - 1) + (n / p) * p := by
      have hc : n / p * p = p * (n / p) := by ring
      omega
    rw [e, Int.add_mul_ediv_right _ _ hp0, Int.ediv_eq_zero_of_lt (by omega) (by omega)]
    omega
  · rename_i h0
    have e : n + p - 1 = (n % p - 1) + (n / p + 1) * p := by
      have hc : (n / p + 1) * p = p * (n / p) + p := by ring
      omega
    rw [e, Int.add_mul_ediv_right _ _ hp0, Int.ediv_eq_zero_of_lt (by omega) (by omega)]
    omega

/-- C18. For every total `n ≥ 0` and every number of parts `p ≥ 1`, the rule
`size = remaining / parts remaining` makes `p` sizes that are non-decreasing, each equal to
the floor `n / p` or to the ceiling `(n + p - 1) / p` of `n / p`, so that two sizes differ
by at most one; these are the batch sizes `n_in_batch` of an epoch of `n` cases in `p`
batches and the sizes of the worker ranges of a batch of `n` cases on `p` threads. -/
theorem C18_near_equal_split (n p : Int) (hn : 0 ≤ n) (hp : 1 ≤ p) :
    (splitSizes n p p.toNat 0 0).length = p.toNat ∧
    List.Pairwise (fun s t : Int => s ≤ t) (splitSizes n p p.toNat 0 0) ∧
    (∀ s ∈ splitSizes n p p.toNat 0 0, s = n / p ∨ s = (n + p - 1) / p) ∧
    (∀ s ∈ splitSizes n p p.toNat 0 0, ∀ t ∈ splitSizes n p p.toNat 0 0,
      s - t ≤ 1 ∧ t - s ≤ 1) ∧
    (∀ max_threads : Int,
      (epochBatches max_threads n p).map Batch.n_in_batch = splitSizes n p p.toNat 0 0) ∧
    (∀ istart : Int,
      (threadRanges istart n p).map (fun r => r.2 - r.1) = splitSizes n p p.toNat 0 0) := by
  have hr0 : 0 ≤ n % p := Int.emod_nonneg _ (by omega)
  have hr1 : n % p < p := Int.emod_lt_of_pos _ (by omega)
  have heq := splitSizes_eq n p hn hp
  have hmem : ∀ s ∈ splitSizes n p p.toNat 0 0,
      s = n / p ∨ (s = n / p + 1 ∧ n % p ≠ 0) := by
    intro s hs
    rw [heq, List.mem_append, List.mem_replicate, List.mem_replicate] at hs
    rcases hs with ⟨_, h⟩ | ⟨h0, h⟩
    · exact Or.inl h
    · exact Or.inr ⟨h, by omega⟩
  refine ⟨?_, ?_, ?_, ?_, ?_, ?_⟩
  · rw [heq]
    simp only [List.length_append, List.length_replicate]
    omega
  · rw [heq, List.pairwise_append]
    refine ⟨List.pairwise_replicate.2 (Or.inr (le_refl _)),
      List.pairwise_replicate.2 (Or.inr (le_refl _)), ?_⟩
    intro a ha b hb
    rw [List.mem_replicate] at ha hb
    omega
  · intro s hs
    rw [ceil_div n p hp]
    rcases hmem s hs with h | ⟨h, hne⟩
    · exact Or.inl h
    · right
      rw [if_neg hne]
      exact h
  · intro s hs t ht
    rcases hmem s hs with h | ⟨h, _⟩ <;> rcases hmem t ht with h' | ⟨h', _⟩ <;> omega
  · intro max_threads
    exact batchPlan_sizes max_threads n p _ _ _ _
  · intro istart
    exact threadLoop_sizes istart n p _ _ _ _

theorem C18_near_equal_split_witness :
    (splitSizes 25 3 (3 : Int).toNat 0 0).length = (3 : Int).toNat ∧
    List.Pairwise (fun s t : Int => s ≤ t) (splitSizes 25 3 (3 : Int).toNat 0 0) ∧
    (∀ s ∈ splitSizes 25 3 (3 : Int).toNat 0 0, s = 25 / 3 ∨ s = (25 + 3 - 1) / 3) ∧
    (∀ s ∈ splitSizes 25 3 (3 : Int).toNat 0 0, ∀ t ∈ splitSizes 25 3 (3 : Int).toNat 0 0,
      s - t ≤ 1 ∧ t - s ≤ 1) ∧
    (∀ max_threads : Int,
      (epochBatches max_threads 25 3).map Batch.n_in_batch
        = splitSizes 25 3 (3 : Int).toNat 0 0) ∧
    (∀ istart : Int,
      (threadRanges istart 25 3).map (fun r => r.2 - r.1)
        = splitSizes 25 3 (3 : Int).toNat 0 0) :=
  C18_near_equal_split 25 3 (by decide) (by decide)

/-- The thread count in closed form. -/
theorem reduceThreads_closed (n_in_batch : Int) (hn : 0 ≤ n_in_batch) :
    ∀ (fuel : Nat) (n_threads : Int), 1 ≤ n_threads → (n_threads - 1).toNat ≤ fuel →
      reduceThreads n_in_batch fuel n_threads = max 1 (min n_threads (n_in_batch / 10))
  | 0, n_threads, h1, hf => by
    simp only [reduceThreads]
    omega
  | fuel + 1, n_threads, h1, hf => by
    have hq : Int.tdiv n_in_batch n_threads = n_in_batch / n_threads :=
      Int.tdiv_eq_ediv hn (by omega)
    have hlt : n_in_batch / n_threads < 10 ↔ n_in_batch < 10 * n_threads :=
      Int.ediv_lt_iff_lt_mul (by omega)
    unfold reduceThreads
    rw [hq]
    split
    · rename_i hc
      rw [reduceThreads_closed n_in_batch hn fuel (n_threads - 1) (by omega) (by omega)]
      have := hlt.1 hc.2
      omega
    · rename_i hc
      by_cases h : n_threads > 1
      · have : ¬ n_in_batch < 10 * n_threads := fun hh => hc ⟨h, hlt.2 hh⟩
        omega
      · omega

/-- C17. For every `max_threads ≥ 1` and `n_in_batch ≥ 0` the thread count used for a
batch is `max(1, min(max_threads, n_in_batch / 10))`; it is the largest `t ≤ max_threads`
with `t = 1` or `n_in_batch / t ≥ 10`; and when it is more than 1, each of the worker
ranges of the batch holds at least 10 cases. -/
theorem C17_thread_count (max_threads n_in_batch : Int) (hm : 1 ≤ max_threads)
    (hn : 0 ≤ n_in_batch) :
    threadCount max_threads n_in_batch = max 1 (min max_threads (n_in_batch / 10)) ∧
    threadCount max_threads n_in_batch ≤ max_threads ∧
    (threadCount max_threads n_in_batch = 1 ∨
      Int.tdiv n_in_batch (threadCount max_threads n_in_batch) ≥ 10) ∧
    (∀ t : Int, threadCount max_threads n_in_batch < t → t ≤ max_threads →
      ¬ (t = 1 ∨ Int.tdiv n_in_batch t ≥ 10)) ∧
    (1 < threadCount max_threads n_in_batch →
      ∀ istart : Int,
        ∀ r ∈ threadRanges istart n_in_batch (threadCount max_threads n_in_batch),
          10 ≤ r.2 - r.1) := by
  have hclosed : threadCount max_threads n_in_batch
      = max 1 (min max_threads (n_in_batch / 10)) :=
    reduceThreads_closed n_in_batch hn _ _ hm (by omega)
  have hge : ∀ t : Int, 1 ≤ t → (Int.tdiv n_in_batch t ≥ 10 ↔ 10 * t ≤ n_in_batch) := by
    intro t ht
    rw [Int.tdiv_eq_ediv hn (by omega)]
    exact Int.le_ediv_iff_mul_le (by omega)
  refine ⟨hclosed, by omega, ?_, ?_, ?_⟩
  · by_cases h1 : threadCount max_threads n_in_batch = 1
    · exact Or.inl h1
    · right
      rw [hge _ (by omega)]
      omega
  · intro t ht1 ht2
    rintro (h | h)
    · omega
    · rw [hge t (by omega)] at h
      omega
  · intro hgt istart r hr
    have hq10 : 10 ≤ n_in_batch / threadCount max_threads n_in_batch := by
      rw [Int.le_ediv_iff_mul_le (by omega)]
      omega
    have hsizes := (rangeSize_ge_floor n_in_batch (threadCount max_threads n_in_batch) hn
      (by omega) istart) (r.2 - r.1) (List.mem_map.2 ⟨r, hr, rfl⟩)
    omega

theorem C17_thread_count_witness :
    threadCount 8 57 = max 1 (min 8 (57 / 10)) ∧
    threadCount 8 57 ≤ 8 ∧
    (threadCount 8 57 = 1 ∨ Int.tdiv 57 (threadCount 8 57) ≥ 10) ∧
    (∀ t : Int, threadCount 8 57 < t → t ≤ 8 → ¬ (t = 1 ∨ Int.tdiv 57 t ≥ 10)) ∧
    (1 < threadCount 8 57 →
      ∀ istart : Int, ∀ r ∈ threadRanges istart 57 (threadCount 8 57), 10 ≤ r.2 - r.1) :=
  C17_thread_count 8 57 (by decide) (by decide)


/-! ### Work vectors -/

/-- The elements reached through a slot pointer are those from the slot start up to
`count` further on. -/
theorem mem_slotIndices (max_neurons count i k : Int) :
    k ∈ slotIndices max_neurons count i ↔
      i * max_neurons ≤ k ∧ k < i * max_neurons + count := by
  unfold slotIndices slotOffset
  simp only [List.mem_map, List.mem_range]
  constructor
  · rintro ⟨j, hj, rfl⟩
    omega
  · rintro ⟨h1, h2⟩
    exact ⟨(k - i * max_neurons).toNat, by omega, by omega⟩

/-- The elements of `w_grad` reached through a slot pointer lie in
`[i * nhid * n_inputs, (i + 1) * nhid * n_inputs)`. -/
theorem mem_wGradIndices (nhid n_inputs i k : Int) (hk : k ∈ wGradIndices nhid n_inputs i) :
    i * nhid * n_inputs ≤ k ∧ k < (i + 1) * nhid * n_inputs := by
  unfold wGradIndices wGradOffset at hk
  simp only [List.mem_flatMap, List.mem_map, List.mem_range] at hk
  obtain ⟨ihid, hh, ivis, hv, rfl⟩ := hk
  have h1 : (ihid : Int) + 1 ≤ nhid := by omega
  have h2 : (ivis : Int) + 1 ≤ n_inputs := by omega
  have h3 : (0 : Int) ≤ ihid := by omega
  have h4 : (0 : Int) ≤ ivis := by omega
  have h5 : ((ihid : Int) + 1) * n_inputs ≤ nhid * n_inputs :=
    Int.mul_le_mul_of_nonneg_right h1 (by omega)
  have h6 : (0 : Int) ≤ (ihid : Int) * n_inputs := Int.mul_nonneg h3 (by omega)
  constructor
  · nlinarith
  · nlinarith

/-- C16. The work vectors of the documented lengths do not suffice.  With
`max_threads = 2`, `n_inputs = 3`, `nhid = 5`, `max_neurons = 5` the vector `visible1` is
documented as `3 * 2 = 6` long, and thread 1 reaches its elements 5, 6 and 7 (the slot
starts at `1 * max_neurons = 5`); with `n_inputs = 5`, `nhid = 3` the same happens to
`hidden1` and the other vectors addressed per hidden neuron.  In general, whenever
`max_threads ≥ 2` and `1 ≤ count < max_neurons`, the last element of the last slot lies
at or after `count * max_threads`.  The slots of `w_grad` always lie inside the documented
length, and so do the slots of a vector that is `max_neurons * max_threads` long. -/
theorem C16_slot_outside_documented_length :
    (slotIndices 5 3 1 = [5, 6, 7] ∧ visibleLength 3 2 = 6) ∧
    (slotIndices 5 3 1 = [5, 6, 7] ∧ hiddenLength 3 2 = 6) ∧
    (∀ max_neurons count max_threads : Int,
      2 ≤ max_threads → 1 ≤ count → count < max_neurons →
      (max_threads - 1) * max_neurons + (count - 1)
          ∈ slotIndices max_neurons count (max_threads - 1) ∧
        count * max_threads ≤ (max_threads - 1) * max_neurons + (count - 1)) ∧
    (∀ nhid n_inputs max_threads t : Int, 0 ≤ t → t < max_threads →
      ∀ k ∈ wGradIndices nhid n_inputs t,
        0 ≤ k ∧ k < wGradLength n_inputs nhid max_threads) ∧
    (∀ max_neurons count max_threads t : Int, 0 ≤ t → t < max_threads →
      count ≤ max_neurons →
      ∀ k ∈ slotIndices max_neurons count t, 0 ≤ k ∧ k < max_neurons * max_threads) := by
  refine ⟨⟨by decide, by decide⟩, ⟨by decide, by decide⟩, ?_, ?_, ?_⟩
  · intro max_neurons count max_threads hm hc hlt
    refine ⟨(mem_slotIndices _ _ _ _).2 ⟨by omega, by omega⟩, ?_⟩
    nlinarith
  · intro nhid n_inputs max_threads t ht0 ht k hk
    have hmem := mem_wGradIndices nhid n_inputs t k hk
    unfold wGradLength
    by_cases hpos : 0 ≤ nhid * n_inputs
    · constructor
      · nlinarith
      · nlinarith
    · exfalso
      nlinarith
  · intro max_neurons count max_threads t ht0 ht hc k hk
    rw [mem_slotIndices] at hk
    have hmn : 0 ≤ max_neurons ∨ max_neurons < 0 := by omega
    rcases hmn with hmn | hmn
    · constructor
      · nlinarith
      · nlinarith
    · exfalso
      nlinarith


/-! ### Loops -/

/-- The last trip of a counted loop. -/
theorem forLoop_succ_last {σ : Type} (body : Nat → σ → σ) :
    ∀ (n i : Nat) (s : σ), forLoop body (n + 1) i s = body (i + n) (forLoop body n i s)
  | 0, i, s => by simp [forLoop]
  | n + 1, i, s => by
    have h := forLoop_succ_last body n (i + 1) (body i s)
    rw [forLoop, h]
    have e : i + 1 + n = i + (n + 1) := by omega
    rw [e]
    rfl

/-- Invariant rule for a counted loop: what holds before the loop with `0` trips done and
is carried by the body from `k` trips done to `k + 1` holds after the loop with all trips
done. -/
theorem forLoop_inv {σ : Type} (body : Nat → σ → σ) (P : Nat → σ → Prop) (i : Nat) (s : σ)
    (h0 : P 0 s) :
    ∀ n : Nat, (∀ k t, k < n → P k t → P (k + 1) (body (i + k) t)) →
      P n (forLoop body n i s)
  | 0, _ => h0
  | n + 1, hstep => by
    rw [forLoop_succ_last]
    exact hstep n _ (by omega)
      (forLoop_inv body P i s h0 n (fun k t hk hP => hstep k t (by omega) hP))


/-! ### Pooling -/

/-- What the loop over the inputs of one hidden neuron does in the pooling loop: the
elements `ihid * n_inputs + ivis` of `w_grad` take up those of the slot of `ithread`, the
rest is left as it was. -/
theorem poolWeights_spec (nhid n_inputs ithread ihid : Nat) (m : Pooled)
    (hoff : ihid * n_inputs + n_inputs ≤ ithread * nhid * n_inputs) :
    (poolWeights nhid n_inputs ithread ihid m).hid_bias_grad = m.hid_bias_grad ∧
    (poolWeights nhid n_inputs ithread ihid m).hid_on_frac = m.hid_on_frac ∧
    (poolWeights nhid n_inputs ithread ihid m).in_bias_grad = m.in_bias_grad ∧
    (poolWeights nhid n_inputs ithread ihid m).error_vec = m.error_vec ∧
    ∀ j, (poolWeights nhid n_inputs ithread ihid m).w_grad j =
      if ihid * n_inputs ≤ j ∧ j < ihid * n_inputs + n_inputs
      then m.w_grad j + m.w_grad (ithread * nhid * n_inputs + j) else m.w_grad j := by
  unfold poolWeights
  refine forLoop_inv _ (fun k t => k ≤ n_inputs → (t.hid_bias_grad = m.hid_bias_grad ∧
      t.hid_on_frac = m.hid_on_frac ∧
      t.in_bias_grad = m.in_bias_grad ∧ t.error_vec = m.error_vec ∧
      ∀ j, t.w_grad j =
        if ihid * n_inputs ≤ j ∧ j < ihid * n_inputs + k
        then m.w_grad j + m.w_grad (ithread * nhid * n_inputs + j) else m.w_grad j))
    0 m ?_ n_inputs ?_ (le_refl _)
  · intro _
    refine ⟨rfl, rfl, rfl, rfl, ?_⟩
    intro j
    rw [if_neg (by omega)]
  · intro k t hk hP hk2
    obtain ⟨h1, h2, h3, h4, h5⟩ := hP (by omega)
    refine ⟨h1, h2, h3, h4, ?_⟩
    intro j
    have e1 : t.w_grad (ihid * n_inputs + k) = m.w_grad (ihid * n_inputs + k) := by
      rw [h5 (ihid * n_inputs + k), if_neg (by omega)]
    have e2 : t.w_grad (ithread * nhid * n_inputs + (ihid * n_inputs + k))
        = m.w_grad (ithread * nhid * n_inputs + (ihid * n_inputs + k)) := by
      rw [h5 (ithread * nhid * n_inputs + (ihid * n_inputs + k)), if_neg (by omega)]
    simp only [Nat.zero_add, Function.update_apply]
    by_cases hj : j = ihid * n_inputs + k
    · rw [if_pos hj, if_pos (by omega), hj, e1, e2]
    · rw [if_neg hj, h5 j]
      by_cases hj2 : ihid * n_inputs ≤ j ∧ j < ihid * n_inputs + k
      · rw [if_pos hj2, if_pos (by omega)]
      · rw [if_neg hj2, if_neg (by omega)]

/-- What the loop over the hidden neurons does in the pooling loop, for a thread other
than thread 0 and dimensions within `max_neurons`. -/
theorem poolHidden_spec (max_neurons nhid n_inputs ithread : Nat) (m : Pooled)
    (ht : 1 ≤ ithread) (hh : nhid ≤ max_neurons) :
    (∀ i, (poolHidden max_neurons nhid n_inputs ithread m).hid_bias_grad i =
      if i < nhid then m.hid_bias_grad i + m.hid_bias_grad (ithread * max_neurons + i)
      else m.hid_bias_grad i) ∧
    (∀ i, (poolHidden max_neurons nhid n_inputs ithread m).hid_on_frac i =
      if i < nhid then m.hid_on_frac i + m.hid_on_frac (ithread * max_neurons + i)
      else m.hid_on_frac i) ∧
    (∀ j, (poolHidden max_neurons nhid n_inputs ithread m).w_grad j =
      if j < nhid * n_inputs then m.w_grad j + m.w_grad (ithread * nhid * n_inputs + j)
      else m.w_grad j) ∧
    (poolHidden max_neurons nhid n_inputs ithread m).in_bias_grad = m.in_bias_grad ∧
    (poolHidden max_neurons nhid n_inputs ithread m).error_vec = m.error_vec := by
  have hM : max_neurons ≤ ithread * max_neurons := Nat.le_mul_of_pos_left _ (by omega)
  have hW : nhid * n_inputs ≤ ithread * nhid * n_inputs := by
    rw [Nat.mul_assoc]
    exact Nat.le_mul_of_pos_left _ (by omega)
  unfold poolHidden
  refine forLoop_inv _ (fun k t => k ≤ nhid →
    ((∀ i, t.hid_bias_grad i =
      if i < k then m.hid_bias_grad i + m.hid_bias_grad (ithread * max_neurons + i)
      else m.hid_bias_grad i) ∧
    (∀ i, t.hid_on_frac i =
      if i < k then m.hid_on_frac i + m.hid_on_frac (ithread * max_neurons + i)
      else m.hid_on_frac i) ∧
    (∀ j, t.w_grad j =
      if j < k * n_inputs then m.w_grad j + m.w_grad (ithread * nhid * n_inputs + j)
      else m.w_grad j) ∧
    t.in_bias_grad = m.in_bias_grad ∧ t.error_vec = m.error_vec))
    0 m ?_ nhid ?_ (le_refl _)
  · intro _
    refine ⟨?_, ?_, ?_, rfl, rfl⟩
    · intro i
      rw [if_neg (by omega)]
    · intro i
      rw [if_neg (by omega)]
    · intro j
      rw [if_neg (by omega)]
  · intro k t hk hP hk2
    obtain ⟨h1, h2, h3, h4, h5⟩ := hP (by omega)
    have hrow : (k + 1) * n_inputs ≤ nhid * n_inputs := Nat.mul_le_mul_right _ (by omega)
    have hrow2 : (k + 1) * n_inputs = k * n_inputs + n_inputs := by ring
    simp only [Nat.zero_add]
    obtain ⟨g1, g2, g3, g4, g5⟩ := poolWeights_spec nhid n_inputs ithread k
      { hid_bias_grad := Function.update t.hid_bias_grad k
          (t.hid_bias_grad k + t.hid_bias_grad (ithread * max_neurons + k)),
        hid_on_frac := Function.update t.hid_on_frac k
          (t.hid_on_frac k + t.hid_on_frac (ithread * max_neurons + k)),
        w_grad := t.w_grad, in_bias_grad := t.in_bias_grad, error_vec := t.error_vec }
      (by omega)
    refine ⟨?_, ?_, ?_, ?_, ?_⟩
    · intro i
      rw [g1]
      have e1 : t.hid_bias_grad k = m.hid_bias_grad k := by
        rw [h1 k, if_neg (by omega)]
      have e2 : t.hid_bias_grad (ithread * max_neurons + k)
          = m.hid_bias_grad (ithread * max_neurons + k) := by
        rw [h1 (ithread * max_neurons + k), if_neg (by omega)]
      simp only [Function.update_apply]
      by_cases hi : i = k
      · rw [if_pos hi, if_pos (by omega), hi, e1, e2]
      · rw [if_neg hi, h1 i]
        by_cases hi2 : i < k
        · rw [if_pos hi2, if_pos (by omega)]
        · rw [if_neg hi2, if_neg (by omega)]
    · intro i
      rw [g2]
      have e1 : t.hid_on_frac k = m.hid_on_frac k := by
        rw [h2 k, if_neg (by omega)]
      have e2 : t.hid_on_frac (ithread * max_neurons + k)
          = m.hid_on_frac (ithread * max_neurons + k) := by
        rw [h2 (ithread * max_neurons + k), if_neg (by omega)]
      simp only [Function.update_apply]
      by_cases hi : i = k
      · rw [if_pos hi, if_pos (by omega), hi, e1, e2]
      · rw [if_neg hi, h2 i]
        by_cases hi2 : i < k
        · rw [if_pos hi2, if_pos (by omega)]
        · rw [if_neg hi2, if_neg (by omega)]
    · intro j
      rw [g5 j]
      have e2 : t.w_grad (ithread * nhid * n_inputs + j)
          = m.w_grad (ithread * nhid * n_inputs + j) := by
        rw [h3 (ithread * nhid * n_inputs + j), if_neg (by omega)]
      simp only []
      by_cases hj : k * n_inputs ≤ j ∧ j < k * n_inputs + n_inputs
      · have e1 : t.w_grad j = m.w_grad j := by
          rw [h3 j, if_neg (by omega)]
        rw [if_pos hj, if_pos (by omega), e1, e2]
      · rw [if_neg hj, h3 j]
        by_cases hj2 : j < k * n_inputs
        · rw [if_pos hj2, if_pos (by omega)]
        · rw [if_neg hj2, if_neg (by omega)]
    · rw [g3]
      exact h4
    · rw [g4]
      exact h5

/-- What the loop over the inputs does in the pooling loop, for a thread other than
thread 0 and `n_inputs` within `max_neurons`. -/
theorem poolVisible_spec (max_neurons n_inputs ithread : Nat) (m : Pooled)
    (ht : 1 ≤ ithread) (hv : n_inputs ≤ max_neurons) :
    (poolVisible max_neurons n_inputs ithread m).hid_bias_grad = m.hid_bias_grad ∧
    (poolVisible max_neurons n_inputs ithread m).hid_on_frac = m.hid_on_frac ∧
    (poolVisible max_neurons n_inputs ithread m).w_grad = m.w_grad ∧
    (∀ i, (poolVisible max_neurons n_inputs ithread m).in_bias_grad i =
      if i < n_inputs then m.in_bias_grad i + m.in_bias_grad (ithread * max_neurons + i)
      else m.in_bias_grad i) ∧
    (poolVisible max_neurons n_inputs ithread m).error_vec = m.error_vec := by
  have hM : max_neurons ≤ ithread * max_neurons := Nat.le_mul_of_pos_left _ (by omega)
  unfold poolVisible
  refine forLoop_inv _ (fun k t => k ≤ n_inputs →
    (t.hid_bias_grad = m.hid_bias_grad ∧ t.hid_on_frac = m.hid_on_frac ∧
    t.w_grad = m.w_grad ∧
    (∀ i, t.in_bias_grad i =
      if i < k then m.in_bias_grad i + m.in_bias_grad (ithread * max_neurons + i)
      else m.in_bias_grad i) ∧
    t.error_vec = m.error_vec))
    0 m ?_ n_inputs ?_ (le_refl _)
  · intro _
    refine ⟨rfl, rfl, rfl, ?_, rfl⟩
    intro i
    rw [if_neg (by omega)]
  · intro k t hk hP hk2
    obtain ⟨h1, h2, h3, h4, h5⟩ := hP (by omega)
    refine ⟨h1, h2, h3, ?_, h5⟩
    intro i
    have e1 : t.in_bias_grad k = m.in_bias_grad k := by
      rw [h4 k, if_neg (by omega)]
    have e2 : t.in_bias_grad (ithread * max_neurons + k)
        = m.in_bias_grad (ithread * max_neurons + k) := by
      rw [h4 (ithread * max_neurons + k), if_neg (by omega)]
    simp only [Nat.zero_add, Function.update_apply]
    by_cases hi : i = k
    · rw [if_pos hi, if_pos (by omega), hi, e1, e2]
    · rw [if_neg hi, h4 i]
      by_cases hi2 : i < k
      · rw [if_pos hi2, if_pos (by omega)]
      · rw [if_neg hi2, if_neg (by omega)]

/-- What one trip of the pooling loop does, for a thread other than thread 0 and
dimensions within `max_neurons`: slot 0 takes up the slot of the thread, the rest is left
as it was. -/
theorem poolThread_spec (max_neurons nhid n_inputs ithread : Nat) (m : Pooled)
    (ht : 1 ≤ ithread) (hh : nhid ≤ max_neurons) (hv : n_inputs ≤ max_neurons) :
    (∀ i, (poolThread max_neurons nhid n_inputs ithread m).hid_bias_grad i =
      if i < nhid then m.hid_bias_grad i + m.hid_bias_grad (ithread * max_neurons + i)
      else m.hid_bias_grad i) ∧
    (∀ i, (poolThread max_neurons nhid n_inputs ithread m).hid_on_frac i =
      if i < nhid then m.hid_on_frac i + m.hid_on_frac (ithread * max_neurons + i)
      else m.hid_on_frac i) ∧
    (∀ j, (poolThread max_neurons nhid n_inputs ithread m).w_grad j =
      if j < nhid * n_inputs then m.w_grad j + m.w_grad (ithread * nhid * n_inputs + j)
      else m.w_grad j) ∧
    (∀ i, (poolThread max_neurons nhid n_inputs ithread m).in_bias_grad i =
      if i < n_inputs then m.in_bias_grad i + m.in_bias_grad (ithread * max_neurons + i)
      else m.in_bias_grad i) ∧
    (∀ i, (poolThread max_neurons nhid n_inputs ithread m).error_vec i =
      if i = 0 then m.error_vec 0 + m.error_vec ithread else m.error_vec i) := by
  obtain ⟨h1, h2, h3, h4, h5⟩ := poolHidden_spec max_neurons nhid n_inputs ithread m ht hh
  obtain ⟨g1, g2, g3, g4, g5⟩ := poolVisible_spec max_neurons n_inputs ithread
    (poolHidden max_neurons nhid n_inputs ithread m) ht hv
  unfold poolThread
  simp only []
  refine ⟨?_, ?_, ?_, ?_, ?_⟩
  · intro i
    rw [g1, h1 i]
  · intro i
    rw [g2, h2 i]
  · intro j
    rw [g3, h3 j]
  · intro i
    rw [g4 i, h4]
  · intro i
    rw [g5, h5, Function.update_apply]

/-- What the pooling loop does, for dimensions within `max_neurons`: slot 0 holds the sums
over the slots of the threads `0 .. n_threads - 1`, the rest is left as it was. -/
theorem pool_spec (max_neurons nhid n_inputs : Nat) (m : Pooled)
    (hh : nhid ≤ max_neurons) (hv : n_inputs ≤ max_neurons) (k : Nat) :
    (∀ i, (pool max_neurons nhid n_inputs (k + 1) m).hid_bias_grad i =
      if i < nhid then slotSum m.hid_bias_grad max_neurons (k + 1) i
      else m.hid_bias_grad i) ∧
    (∀ i, (pool max_neurons nhid n_inputs (k + 1) m).hid_on_frac i =
      if i < nhid then slotSum m.hid_on_frac max_neurons (k + 1) i else m.hid_on_frac i) ∧
    (∀ j, (pool max_neurons nhid n_inputs (k + 1) m).w_grad j =
      if j < nhid * n_inputs then slotSum m.w_grad (nhid * n_inputs) (k + 1) j
      else m.w_grad j) ∧
    (∀ i, (pool max_neurons nhid n_inputs (k + 1) m).in_bias_grad i =
      if i < n_inputs then slotSum m.in_bias_grad max_neurons (k + 1) i
      else m.in_bias_grad i) ∧
    (∀ i, (pool max_neurons nhid n_inputs (k + 1) m).error_vec i =
      if i = 0 then slotSum m.error_vec 1 (k + 1) 0 else m.error_vec i) := by
  unfold pool
  rw [Nat.add_sub_cancel]
  refine forLoop_inv _ (fun k t =>
    (∀ i, t.hid_bias_grad i =
      if i < nhid then slotSum m.hid_bias_grad max_neurons (k + 1) i
      else m.hid_bias_grad i) ∧
    (∀ i, t.hid_on_frac i =
      if i < nhid then slotSum m.hid_on_frac max_neurons (k + 1) i else m.hid_on_frac i) ∧
    (∀ j, t.w_grad j =
      if j < nhid * n_inputs then slotSum m.w_grad (nhid * n_inputs) (k + 1) j
      else m.w_grad j) ∧
    (∀ i, t.in_bias_grad i =
      if i < n_inputs then slotSum m.in_bias_grad max_neurons (k + 1) i
      else m.in_bias_grad i) ∧
    (∀ i, t.error_vec i =
      if i = 0 then slotSum m.error_vec 1 (k + 1) 0 else m.error_vec i))
    1 m ?_ k ?_
  · have hone : ∀ (a : Vec) (stride i : Nat), slotSum a stride 1 i = a i := by
      intro a stride i
      simp [slotSum, List.range_succ]
    refine ⟨?_, ?_, ?_, ?_, ?_⟩ <;> intro i <;> rw [hone] <;> split <;> simp_all
  · intro k t _ hP
    obtain ⟨h1, h2, h3, h4, h5⟩ := hP
    obtain ⟨g1, g2, g3, g4, g5⟩ :=
      poolThread_spec max_neurons nhid n_inputs (1 + k) t (by omega) hh hv
    have hM : max_neurons ≤ (1 + k) * max_neurons := Nat.le_mul_of_pos_left _ (by omega)
    have hW : nhid * n_inputs ≤ (1 + k) * nhid * n_inputs := by
      rw [Nat.mul_assoc]
      exact Nat.le_mul_of_pos_left _ (by omega)
    have hsucc : ∀ (a : Vec) (stride i : Nat),
        slotSum a stride (k + 1 + 1) i = slotSum a stride (k + 1) i + a ((1 + k) * stride + i) := by
      intro a stride i
      unfold slotSum
      rw [List.range_succ, List.map_append, List.sum_append]
      simp [Nat.add_comm]
    refine ⟨?_, ?_, ?_, ?_, ?_⟩
    · intro i
      have hneg : ¬ ((1 + k) * max_neurons + i < nhid) := by omega
      by_cases hi : i < nhid
      · simp only [g1 i, h1, hneg, hi, if_true, if_false, hsucc]
      · simp only [g1 i, h1, hi, if_false]
    · intro i
      have hneg : ¬ ((1 + k) * max_neurons + i < nhid) := by omega
      by_cases hi : i < nhid
      · simp only [g2 i, h2, hneg, hi, if_true, if_false, hsucc]
      · simp only [g2 i, h2, hi, if_false]
    · intro j
      have hW2 : nhid * n_inputs ≤ (1 + k) * (nhid * n_inputs) :=
        Nat.le_mul_of_pos_left _ (by omega)
      have hneg : ¬ ((1 + k) * (nhid * n_inputs) + j < nhid * n_inputs) := by omega
      by_cases hj : j < nhid * n_inputs
      · simp only [g3 j, h3, hneg, hj, if_true, if_false, hsucc, Nat.mul_assoc]
      · simp only [g3 j, h3, hj, if_false]
    · intro i
      have hneg : ¬ ((1 + k) * max_neurons + i < n_inputs) := by omega
      by_cases hi : i < n_inputs
      · simp only [g4 i, h4, hneg, hi, if_true, if_false, hsucc]
      · simp only [g4 i, h4, hi, if_false]
    · intro i
      have hneg : ¬ (1 + k = 0) := by omega
      by_cases hi : i = 0
      · subst hi
        simp only [g5 0, h5, hneg, if_true, if_false, hsucc, Nat.mul_one, Nat.add_zero]
      · simp only [g5 i, h5, hi, if_false]

/-- C19. After the pooling loop of a batch run on `n_threads ≥ 1` threads, with
`nhid ≤ max_neurons` and `n_inputs ≤ max_neurons`, every accumulator of slot 0 holds the
sum over the threads `0 .. n_threads - 1` of that accumulator in the slot of the thread:
`hid_bias_grad[h]`, `hid_on_frac[h]`, `w_grad[h*n_inputs+v]`, `in_bias_grad[v]` for
`h < nhid`, `v < n_inputs`, and `error_vec[0]`; with `n_threads = 1` the loop changes
nothing. -/
theorem C19_pooling (max_neurons nhid n_inputs n_threads : Nat) (m : Pooled)
    (hh : nhid ≤ max_neurons) (hv : n_inputs ≤ max_neurons) (ht : 1 ≤ n_threads) :
    (∀ h, h < nhid →
      (pool max_neurons nhid n_inputs n_threads m).hid_bias_grad h
        = ((List.range n_threads).map
            (fun t => m.hid_bias_grad (t * max_neurons + h))).sum ∧
      (pool max_neurons nhid n_inputs n_threads m).hid_on_frac h
        = ((List.range n_threads).map
            (fun t => m.hid_on_frac (t * max_neurons + h))).sum) ∧
    (∀ h v, h < nhid → v < n_inputs →
      (pool max_neurons nhid n_inputs n_threads m).w_grad (h * n_inputs + v)
        = ((List.range n_threads).map
            (fun t => m.w_grad (t * nhid * n_inputs + (h * n_inputs + v)))).sum) ∧
    (∀ v, v < n_inputs →
      (pool max_neurons nhid n_inputs n_threads m).in_bias_grad v
        = ((List.range n_threads).map
            (fun t => m.in_bias_grad (t * max_neurons + v))).sum) ∧
    (pool max_neurons nhid n_inputs n_threads m).error_vec 0
      = ((List.range n_threads).map (fun t => m.error_vec t)).sum ∧
    pool max_neurons nhid n_inputs 1 m = m := by
  obtain ⟨k, rfl⟩ : ∃ k, n_threads = k + 1 := ⟨n_threads - 1, by omega⟩
  obtain ⟨h1, h2, h3, h4, h5⟩ := pool_spec max_neurons nhid n_inputs m hh hv k
  refine ⟨?_, ?_, ?_, ?_, ?_⟩
  · intro h hlt
    rw [h1 h, h2 h, if_pos hlt, if_pos hlt]
    exact ⟨rfl, rfl⟩
  · intro h v hlt vlt
    have hrow : (h + 1) * n_inputs ≤ nhid * n_inputs := Nat.mul_le_mul_right _ (by omega)
    have hrow2 : (h + 1) * n_inputs = h * n_inputs + n_inputs := by ring
    rw [h3 (h * n_inputs + v), if_pos (by omega)]
    unfold slotSum
    simp only [Nat.mul_assoc]
  · intro v vlt
    rw [h4 v, if_pos vlt]
    rfl
  · rw [h5 0, if_pos rfl]
    unfold slotSum
    simp only [Nat.mul_one, Nat.add_zero]
  · rfl

theorem C19_pooling_witness :
    (∀ h, h < 2 →
      (pool 2 2 1 2 twoSlots).hid_bias_grad h
        = ((List.range 2).map (fun t => twoSlots.hid_bias_grad (t * 2 + h))).sum ∧
      (pool 2 2 1 2 twoSlots).hid_on_frac h
        = ((List.range 2).map (fun t => twoSlots.hid_on_frac (t * 2 + h))).sum) ∧
    (∀ h v, h < 2 → v < 1 →
      (pool 2 2 1 2 twoSlots).w_grad (h * 1 + v)
        = ((List.range 2).map
            (fun t => twoSlots.w_grad (t * 2 * 1 + (h * 1 + v)))).sum) ∧
    (∀ v, v < 1 →
      (pool 2 2 1 2 twoSlots).in_bias_grad v
        = ((List.range 2).map (fun t => twoSlots.in_bias_grad (t * 2 + v))).sum) ∧
    (pool 2 2 1 2 twoSlots).error_vec 0
      = ((List.range 2).map (fun t => twoSlots.error_vec t)).sum ∧
    pool 2 2 1 1 twoSlots = twoSlots :=
  C19_pooling 2 2 1 2 twoSlots (by decide) (by decide) (by decide)

/-! ### The update after a batch -/

/-- Element `h * n + v` with `v < n` determines `h` and `v`. -/
theorem flatIndex_inj (n h v k m : Nat) (hv : v < n) (hm : m < n) :
    h * n + v = k * n + m ↔ h = k ∧ v = m := by
  constructor
  · intro heq
    have h1 : (h * n + v) % n = v := by
      rw [Nat.add_comm, Nat.add_mul_mod_self_right, Nat.mod_eq_of_lt hv]
    have h2 : (k * n + m) % n = m := by
      rw [Nat.add_comm, Nat.add_mul_mod_self_right, Nat.mod_eq_of_lt hm]
    have hvm : v = m := by rw [← h1, ← h2, heq]
    subst hvm
    have h3 : h * n = k * n := by omega
    exact ⟨Nat.eq_of_mul_eq_mul_right (by omega) h3, rfl⟩
  · rintro ⟨rfl, rfl⟩
    rfl

/-- One trip of the loop over the inputs of a hidden neuron, field by field. -/
theorem updateWeight_eq (H : Hyper) (ihid : Nat) (sp_pen : ℚ) (ivis : Nat) (s : Weights) :
    updateWeight H ihid sp_pen ivis s =
      { s with
        w_grad := Function.update s.w_grad (ihid * H.n_inputs + ivis)
          (s.w_grad (ihid * H.n_inputs + ivis) / (H.n_in_batch : ℚ)
            - H.weight_penalty * s.w (ihid * H.n_inputs + ivis) - H.data_mean ivis * sp_pen),
        w_inc := Function.update s.w_inc (ihid * H.n_inputs + ivis)
          (H.momentum * s.w_inc (ihid * H.n_inputs + ivis) + H.learning_rate *
            (s.w_grad (ihid * H.n_inputs + ivis) / (H.n_in_batch : ℚ)
              - H.weight_penalty * s.w (ihid * H.n_inputs + ivis)
              - H.data_mean ivis * sp_pen)),
        w := Function.update s.w (ihid * H.n_inputs + ivis)
          (s.w (ihid * H.n_inputs + ivis) +
            (H.momentum * s.w_inc (ihid * H.n_inputs + ivis) + H.learning_rate *
              (s.w_grad (ihid * H.n_inputs + ivis) / (H.n_in_batch : ℚ)
                - H.weight_penalty * s.w (ihid * H.n_inputs + ivis)
                - H.data_mean ivis * sp_pen))),
        max_inc := max s.max_inc
          |H.momentum * s.w_inc (ihid * H.n_inputs + ivis) + H.learning_rate *
            (s.w_grad (ihid * H.n_inputs + ivis) / (H.n_in_batch : ℚ)
              - H.weight_penalty * s.w (ihid * H.n_inputs + ivis)
              - H.data_mean ivis * sp_pen)| } := by
  unfold updateWeight
  simp only [Function.update_same, Function.update_idem]
  split
  · rename_i hgt
    rw [max_eq_right (le_of_lt hgt)]
  · rename_i hgt
    rw [max_eq_left (not_lt.1 hgt)]

/-- What the loop over the inputs of the hidden neuron `ihid` does: the weights of the
neuron get their gradient, increment and new value, `max_inc` becomes the largest of its
old value and the sizes of the increments, the rest is left as it was. -/
theorem updateWeights_spec (H : Hyper) (ihid : Nat) (sp_pen : ℚ) (s : Weights) :
    keepsHidden (updateWeights H ihid sp_pen s) s ∧
    keepsVisible (updateWeights H ihid sp_pen s) s ∧
    (∀ h v, v < H.n_inputs →
      (updateWeights H ihid sp_pen s).w_grad (h * H.n_inputs + v)
        = (if h = ihid then rowGrad H s ihid sp_pen v else s.w_grad (h * H.n_inputs + v)) ∧
      (updateWeights H ihid sp_pen s).w_inc (h * H.n_inputs + v)
        = (if h = ihid then rowInc H s ihid sp_pen v else s.w_inc (h * H.n_inputs + v)) ∧
      (updateWeights H ihid sp_pen s).w (h * H.n_inputs + v)
        = (if h = ihid then s.w (ihid * H.n_inputs + v) + rowInc H s ihid sp_pen v
           else s.w (h * H.n_inputs + v))) ∧
    s.max_inc ≤ (updateWeights H ihid sp_pen s).max_inc ∧
    (∀ v, v < H.n_inputs → |rowInc H s ihid sp_pen v| ≤ (updateWeights H ihid sp_pen s).max_inc) ∧
    ((updateWeights H ihid sp_pen s).max_inc = s.max_inc ∨
      ∃ v, v < H.n_inputs ∧ (updateWeights H ihid sp_pen s).max_inc = |rowInc H s ihid sp_pen v|) := by
  unfold updateWeights
  have hfin := forLoop_inv (updateWeight H ihid sp_pen) (fun k t => k ≤ H.n_inputs →
    (keepsHidden t s ∧ keepsVisible t s ∧
    (∀ h v, v < H.n_inputs →
      t.w_grad (h * H.n_inputs + v)
        = (if h = ihid ∧ v < k then rowGrad H s ihid sp_pen v
           else s.w_grad (h * H.n_inputs + v)) ∧
      t.w_inc (h * H.n_inputs + v)
        = (if h = ihid ∧ v < k then rowInc H s ihid sp_pen v
           else s.w_inc (h * H.n_inputs + v)) ∧
      t.w (h * H.n_inputs + v)
        = (if h = ihid ∧ v < k then s.w (ihid * H.n_inputs + v) + rowInc H s ihid sp_pen v
           else s.w (h * H.n_inputs + v))) ∧
    s.max_inc ≤ t.max_inc ∧
    (∀ v, v < k → |rowInc H s ihid sp_pen v| ≤ t.max_inc) ∧
    (t.max_inc = s.max_inc ∨ ∃ v, v < k ∧ t.max_inc = |rowInc H s ihid sp_pen v|)))
    0 s ?_ H.n_inputs ?_ (le_refl _)
  · obtain ⟨h1, h2, h3, h4, h5, h6⟩ := hfin
    refine ⟨h1, h2, ?_, h4, h5, h6⟩
    intro h v hv
    obtain ⟨a, b, c⟩ := h3 h v hv
    simp only [hv, and_true] at a b c
    exact ⟨a, b, c⟩
  · intro _
    refine ⟨⟨rfl, rfl, rfl, rfl, rfl⟩, ⟨rfl, rfl, rfl⟩, ?_, le_refl _, ?_, Or.inl rfl⟩
    · intro h v _
      simp only [Nat.not_lt_zero, and_false, if_false, and_self]
    · intro v hv
      omega
  · intro k t hk hP hk2
    obtain ⟨h1, h2, h3, h4, h5, h6⟩ := hP (by omega)
    obtain ⟨ak, bk, ck⟩ := h3 ihid k hk
    have hnk : ¬ (ihid = ihid ∧ k < k) := by omega
    rw [if_neg hnk] at ak bk ck
    rw [Nat.zero_add, updateWeight_eq]
    simp only [ak, bk, ck]
    have hI : H.momentum * s.w_inc (ihid * H.n_inputs + k) + H.learning_rate *
        (s.w_grad (ihid * H.n_inputs + k) / (H.n_in_batch : ℚ)
          - H.weight_penalty * s.w (ihid * H.n_inputs + k) - H.data_mean k * sp_pen)
        = rowInc H s ihid sp_pen k := rfl
    have hG : s.w_grad (ihid * H.n_inputs + k) / (H.n_in_batch : ℚ)
          - H.weight_penalty * s.w (ihid * H.n_inputs + k) - H.data_mean k * sp_pen
        = rowGrad H s ihid sp_pen k := rfl
    rw [hI, hG]
    refine ⟨h1, h2, ?_, le_trans h4 (le_max_left _ _), ?_, ?_⟩
    · intro h v hv
      obtain ⟨a, b, c⟩ := h3 h v hv
      simp only [Function.update_apply, flatIndex_inj H.n_inputs h v ihid k hv hk]
      by_cases hc : h = ihid ∧ v = k
      · obtain ⟨rfl, rfl⟩ := hc
        simp only [and_self, if_true, Nat.lt_succ_self]
      · have hiff : (h = ihid ∧ v < k + 1) ↔ (h = ihid ∧ v < k) := by
          constructor
          · rintro ⟨e1, e2⟩
            refine ⟨e1, ?_⟩
            have : v ≠ k := fun e => hc ⟨e1, e⟩
            omega
          · rintro ⟨e1, e2⟩
            exact ⟨e1, by omega⟩
        simp only [hc, if_false, a, b, c, hiff]
        exact ⟨trivial, trivial, trivial⟩
    · intro v hv
      by_cases hvk : v = k
      · subst hvk
        exact le_max_right _ _
      · exact le_trans (h5 v (by omega)) (le_max_left _ _)
    · rcases max_cases t.max_inc |rowInc H s ihid sp_pen k| with ⟨e, _⟩ | ⟨e, _⟩
      · rw [e]
        rcases h6 with h6 | ⟨v, hv, h6⟩
        · exact Or.inl h6
        · exact Or.inr ⟨v, by omega, h6⟩
      · rw [e]
        exact Or.inr ⟨k, by omega, rfl⟩

/-- One trip of the loop over the hidden neurons: the loop over the inputs, run on the
state in which the four vectors addressed per hidden neuron have their new element
`ihid`. -/
theorem updateNeuron_eq (H : Hyper) (ihid : Nat) (s : Weights) :
    updateNeuron H ihid s =
      updateWeights H ihid (spPen H (smoothedAfter H s ihid))
        { s with
          hid_on_frac := Function.update s.hid_on_frac ihid
            (s.hid_on_frac ihid / (H.n_in_batch : ℚ)),
          hid_on_smoothed := Function.update s.hid_on_smoothed ihid (smoothedAfter H s ihid),
          hid_bias_inc := Function.update s.hid_bias_inc ihid (hidIncAfter H s ihid),
          hid_bias := Function.update s.hid_bias ihid
            (s.hid_bias ihid + hidIncAfter H s ihid) } := by
  unfold updateNeuron smoothedAfter hidIncAfter smoothedAfter
  simp only [Function.update_same]

/-- What the loop over the hidden neurons does, element by element. -/
theorem updateHidden_spec (H : Hyper) (s : Weights) :
    keepsVisible (updateHidden H s) s ∧
    (updateHidden H s).hid_bias_grad = s.hid_bias_grad ∧
    (∀ i, (updateHidden H s).hid_on_frac i
        = (if i < H.nhid then s.hid_on_frac i / (H.n_in_batch : ℚ) else s.hid_on_frac i) ∧
      (updateHidden H s).hid_on_smoothed i
        = (if i < H.nhid then smoothedAfter H s i else s.hid_on_smoothed i) ∧
      (updateHidden H s).hid_bias_inc i
        = (if i < H.nhid then hidIncAfter H s i else s.hid_bias_inc i) ∧
      (updateHidden H s).hid_bias i
        = (if i < H.nhid then s.hid_bias i + hidIncAfter H s i else s.hid_bias i)) ∧
    (∀ h v, v < H.n_inputs →
      (updateHidden H s).w_grad (h * H.n_inputs + v)
        = (if h < H.nhid then wGradAfter H s h v else s.w_grad (h * H.n_inputs + v)) ∧
      (updateHidden H s).w_inc (h * H.n_inputs + v)
        = (if h < H.nhid then wIncAfter H s h v else s.w_inc (h * H.n_inputs + v)) ∧
      (updateHidden H s).w (h * H.n_inputs + v)
        = (if h < H.nhid then s.w (h * H.n_inputs + v) + wIncAfter H s h v
           else s.w (h * H.n_inputs + v))) ∧
    s.max_inc ≤ (updateHidden H s).max_inc ∧
    (∀ h v, h < H.nhid → v < H.n_inputs → |wIncAfter H s h v| ≤ (updateHidden H s).max_inc) ∧
    ((updateHidden H s).max_inc = s.max_inc ∨
      ∃ h v, h < H.nhid ∧ v < H.n_inputs ∧
        (updateHidden H s).max_inc = |wIncAfter H s h v|) := by
  unfold updateHidden
  refine forLoop_inv (updateNeuron H) (fun k t =>
    keepsVisible t s ∧
    t.hid_bias_grad = s.hid_bias_grad ∧
    (∀ i, t.hid_on_frac i
        = (if i < k then s.hid_on_frac i / (H.n_in_batch : ℚ) else s.hid_on_frac i) ∧
      t.hid_on_smoothed i
        = (if i < k then smoothedAfter H s i else s.hid_on_smoothed i) ∧
      t.hid_bias_inc i
        = (if i < k then hidIncAfter H s i else s.hid_bias_inc i) ∧
      t.hid_bias i
        = (if i < k then s.hid_bias i + hidIncAfter H s i else s.hid_bias i)) ∧
    (∀ h v, v < H.n_inputs →
      t.w_grad (h * H.n_inputs + v)
        = (if h < k then wGradAfter H s h v else s.w_grad (h * H.n_inputs + v)) ∧
      t.w_inc (h * H.n_inputs + v)
        = (if h < k then wIncAfter H s h v else s.w_inc (h * H.n_inputs + v)) ∧
      t.w (h * H.n_inputs + v)
        = (if h < k then s.w (h * H.n_inputs + v) + wIncAfter H s h v
           else s.w (h * H.n_inputs + v))) ∧
    s.max_inc ≤ t.max_inc ∧
    (∀ h v, h < k → v < H.n_inputs → |wIncAfter H s h v| ≤ t.max_inc) ∧
    (t.max_inc = s.max_inc ∨
      ∃ h v, h < k ∧ v < H.n_inputs ∧ t.max_inc = |wIncAfter H s h v|))
    0 s ?_ H.nhid ?_
  · refine ⟨⟨rfl, rfl, rfl⟩, rfl, ?_, ?_, le_refl _, ?_, Or.inl rfl⟩
    · intro i
      simp only [Nat.not_lt_zero, if_false, and_self]
    · intro h v _
      simp only [Nat.not_lt_zero, if_false, and_self]
    · intro h v hh
      omega
  · intro k t hk hP
    obtain ⟨h1, h2, h3, h4, h5, h6, h7⟩ := hP
    obtain ⟨fk, sk, ik, bk⟩ := h3 k
    rw [if_neg (Nat.lt_irrefl k)] at fk sk ik bk
    have hsm : smoothedAfter H t k = smoothedAfter H s k := by
      unfold smoothedAfter
      rw [fk, sk]
    have hinc : hidIncAfter H t k = hidIncAfter H s k := by
      unfold hidIncAfter
      rw [hsm, ik, h2]
    rw [Nat.zero_add, updateNeuron_eq, hsm, hinc, fk, bk]
    obtain ⟨g1, g2, g3, g4, g5, g6⟩ := updateWeights_spec H k (spPen H (smoothedAfter H s k))
      { t with
        hid_on_frac := Function.update t.hid_on_frac k
          (s.hid_on_frac k / (H.n_in_batch : ℚ)),
        hid_on_smoothed := Function.update t.hid_on_smoothed k (smoothedAfter H s k),
        hid_bias_inc := Function.update t.hid_bias_inc k (hidIncAfter H s k),
        hid_bias := Function.update t.hid_bias k (s.hid_bias k + hidIncAfter H s k) }
    obtain ⟨q1, q2, q3, q4, q5⟩ := g1
    obtain ⟨r1, r2, r3⟩ := g2
    obtain ⟨v1, v2, v3⟩ := h1
    simp only [] at q1 q2 q3 q4 q5 r1 r2 r3 g3 g4 g5 g6
    have hrg : ∀ v, v < H.n_inputs → rowGrad H
        { t with
          hid_on_frac := Function.update t.hid_on_frac k
            (s.hid_on_frac k / (H.n_in_batch : ℚ)),
          hid_on_smoothed := Function.update t.hid_on_smoothed k (smoothedAfter H s k),
          hid_bias_inc := Function.update t.hid_bias_inc k (hidIncAfter H s k),
          hid_bias := Function.update t.hid_bias k (s.hid_bias k + hidIncAfter H s k) }
        k (spPen H (smoothedAfter H s k)) v = wGradAfter H s k v := by
      intro v hv
      obtain ⟨a, _, c⟩ := h4 k v hv
      rw [if_neg (Nat.lt_irrefl k)] at a c
      unfold rowGrad wGradAfter
      simp only [a, c]
    have hri : ∀ v, v < H.n_inputs → rowInc H
        { t with
          hid_on_frac := Function.update t.hid_on_frac k
            (s.hid_on_frac k / (H.n_in_batch : ℚ)),
          hid_on_smoothed := Function.update t.hid_on_smoothed k (smoothedAfter H s k),
          hid_bias_inc := Function.update t.hid_bias_inc k (hidIncAfter H s k),
          hid_bias := Function.update t.hid_bias k (s.hid_bias k + hidIncAfter H s k) }
        k (spPen H (smoothedAfter H s k)) v = wIncAfter H s k v := by
      intro v hv
      obtain ⟨_, b, _⟩ := h4 k v hv
      rw [if_neg (Nat.lt_irrefl k)] at b
      unfold rowInc wIncAfter
      rw [hrg v hv]
      simp only [b]
    refine ⟨⟨r1.trans v1, r2.trans v2, r3.trans v3⟩, q3.trans h2, ?_, ?_, le_trans h5 g4, ?_, ?_⟩
    · intro i
      obtain ⟨fi, si, ii, bi⟩ := h3 i
      rw [q1, q2, q4, q5]
      simp only [Function.update_apply]
      by_cases hik : i = k
      · subst hik
        simp only [if_true, Nat.lt_succ_self, and_self]
      · have hiff : i < k + 1 ↔ i < k := by omega
        simp only [hik, if_false, hiff, fi, si, ii, bi, and_self]
    · intro h v hv
      obtain ⟨a, b, c⟩ := h4 h v hv
      obtain ⟨a2, b2, c2⟩ := g3 h v hv
      obtain ⟨_, _, ck⟩ := h4 k v hv
      rw [if_neg (Nat.lt_irrefl k)] at ck
      rw [a2, b2, c2]
      by_cases hhk : h = k
      · subst hhk
        simp only [if_true, Nat.lt_succ_self, hrg v hv, hri v hv, ck, and_self]
      · have hiff : h < k + 1 ↔ h < k := by omega
        simp only [hhk, if_false, hiff, a, b, c, and_self]
    · intro h v hh hv
      by_cases hhk : h = k
      · subst hhk
        rw [← hri v hv]
        exact g5 v hv
      · exact le_trans (h6 h v (by omega) hv) g4
    · rcases g6 with g6 | ⟨v, hv, g6⟩
      · rw [g6]
        rcases h7 with h7 | ⟨h, v, hh, hv, h7⟩
        · exact Or.inl h7
        · exact Or.inr ⟨h, v, by omega, hv, h7⟩
      · rw [g6, hri v hv]
        exact Or.inr ⟨k, v, by omega, hv, rfl⟩

/-- One trip of the loop over the inputs, field by field. -/
theorem updateInput_eq (H : Hyper) (ivis : Nat) (s : Weights) :
    updateInput H ivis s =
      { s with
        in_bias_inc := Function.update s.in_bias_inc ivis
          (H.momentum * s.in_bias_inc ivis
            + H.learning_rate * s.in_bias_grad ivis / (H.n_in_batch : ℚ)),
        in_bias := Function.update s.in_bias ivis
          (s.in_bias ivis + (H.momentum * s.in_bias_inc ivis
            + H.learning_rate * s.in_bias_grad ivis / (H.n_in_batch : ℚ))) } := by
  unfold updateInput
  simp only [Function.update_same]

/-- What the loop over the inputs does: the input biases get their increment and new
value, the rest is left as it was. -/
theorem updateVisible_spec (H : Hyper) (s : Weights) :
    keepsHidden (updateVisible H s) s ∧ keepsWeights (updateVisible H s) s ∧
    (updateVisible H s).in_bias_grad = s.in_bias_grad ∧
    (∀ i, (updateVisible H s).in_bias_inc i
        = (if i < H.n_inputs then H.momentum * s.in_bias_inc i
            + H.learning_rate * s.in_bias_grad i / (H.n_in_batch : ℚ)
           else s.in_bias_inc i) ∧
      (updateVisible H s).in_bias i
        = (if i < H.n_inputs then s.in_bias i + (H.momentum * s.in_bias_inc i
            + H.learning_rate * s.in_bias_grad i / (H.n_in_batch : ℚ))
           else s.in_bias i)) := by
  unfold updateVisible
  refine forLoop_inv (updateInput H) (fun k t =>
    keepsHidden t s ∧ keepsWeights t s ∧ t.in_bias_grad = s.in_bias_grad ∧
    (∀ i, t.in_bias_inc i
        = (if i < k then H.momentum * s.in_bias_inc i
            + H.learning_rate * s.in_bias_grad i / (H.n_in_batch : ℚ)
           else s.in_bias_inc i) ∧
      t.in_bias i
        = (if i < k then s.in_bias i + (H.momentum * s.in_bias_inc i
            + H.learning_rate * s.in_bias_grad i / (H.n_in_batch : ℚ))
           else s.in_bias i)))
    0 s ?_ H.n_inputs ?_
  · refine ⟨⟨rfl, rfl, rfl, rfl, rfl⟩, ⟨rfl, rfl, rfl, rfl⟩, rfl, ?_⟩
    intro i
    simp only [Nat.not_lt_zero, if_false, and_self]
  · intro k t hk hP
    obtain ⟨h1, h2, h3, h4⟩ := hP
    obtain ⟨ik, bk⟩ := h4 k
    rw [if_neg (Nat.lt_irrefl k)] at ik bk
    rw [Nat.zero_add, updateInput_eq]
    refine ⟨h1, h2, h3, ?_⟩
    intro i
    obtain ⟨ii, bi⟩ := h4 i
    simp only [Function.update_apply]
    by_cases hik : i = k
    · subst hik
      simp only [if_true, Nat.lt_succ_self, ik, bk, h3, and_self]
    · have hiff : i < k + 1 ↔ i < k := by omega
      simp only [hik, if_false, hiff, ii, bi, and_self]

/-- C15. One batch update computes, for every hidden neuron `h < nhid` and input
`v < n_inputs`, with `i = h*n_inputs+v` and a batch that is not empty:
`w_grad[i] = w_grad[i] / n_in_batch - weight_penalty * w[i] - data_mean[v] * sp_pen`, where
`sp_pen` is the sparsity penalty of neuron `h` from its smoothed activation as updated in
this batch; `w_inc[i] = momentum * w_inc[i] + learning_rate * w_grad[i]`;
`w[i] = w[i] + w_inc[i]`.  Afterwards `max_inc` is the largest of its old value and the
sizes of the new increments (for `nhid = n_inputs = 1` the larger of its old value and
`|w_inc[0]|`).  The momentum and the learning rate are those the batch finds: the update
is the same whatever the adjustment to the direction cosine does afterwards. -/
theorem C15_weight_update (H : Hyper) (s : Weights) (h v : Nat)
    (hh : h < H.nhid) (hv : v < H.n_inputs) (_hn : H.n_in_batch ≠ 0) :
    (batchUpdate H s).w_grad (h * H.n_inputs + v)
      = s.w_grad (h * H.n_inputs + v) / (H.n_in_batch : ℚ)
        - H.weight_penalty * s.w (h * H.n_inputs + v)
        - H.data_mean v * spPen H (smoothedAfter H s h) ∧
    (batchUpdate H s).w_inc (h * H.n_inputs + v)
      = H.momentum * s.w_inc (h * H.n_inputs + v)
        + H.learning_rate * (batchUpdate H s).w_grad (h * H.n_inputs + v) ∧
    (batchUpdate H s).w (h * H.n_inputs + v)
      = s.w (h * H.n_inputs + v) + (batchUpdate H s).w_inc (h * H.n_inputs + v) ∧
    s.max_inc ≤ (batchUpdate H s).max_inc ∧
    |(batchUpdate H s).w_inc (h * H.n_inputs + v)| ≤ (batchUpdate H s).max_inc ∧
    ((batchUpdate H s).max_inc = s.max_inc ∨
      ∃ h2 v2, h2 < H.nhid ∧ v2 < H.n_inputs ∧
        (batchUpdate H s).max_inc = |(batchUpdate H s).w_inc (h2 * H.n_inputs + v2)|) ∧
    (H.nhid = 1 → H.n_inputs = 1 →
      (batchUpdate H s).max_inc = max s.max_inc |(batchUpdate H s).w_inc 0|) ∧
    (∀ (firstBatch : Bool) (dot : Dbl),
      (batchTail firstBatch dot H s).1 = batchUpdate H s) := by
  obtain ⟨_, _, _, g4, g5, g6, g7⟩ := updateHidden_spec H s
  obtain ⟨_, ⟨w1, w2, w3, w4⟩, _, _⟩ := updateVisible_spec H (updateHidden H s)
  have hall : ∀ h2 v2, h2 < H.nhid → v2 < H.n_inputs →
      (batchUpdate H s).w_grad (h2 * H.n_inputs + v2) = wGradAfter H s h2 v2 ∧
      (batchUpdate H s).w_inc (h2 * H.n_inputs + v2) = wIncAfter H s h2 v2 ∧
      (batchUpdate H s).w (h2 * H.n_inputs + v2)
        = s.w (h2 * H.n_inputs + v2) + wIncAfter H s h2 v2 := by
    intro h2 v2 hh2 hv2
    obtain ⟨a, b, c⟩ := g4 h2 v2 hv2
    rw [if_pos hh2] at a b c
    unfold batchUpdate
    rw [w1, w2, w3]
    exact ⟨a, b, c⟩
  have hmax : (batchUpdate H s).max_inc = (updateHidden H s).max_inc := w4
  obtain ⟨a, b, c⟩ := hall h v hh hv
  refine ⟨a, ?_, ?_, ?_, ?_, ?_, ?_, ?_⟩
  · rw [b, a]
    rfl
  · rw [c, b]
  · rw [hmax]
    exact g5
  · rw [hmax, b]
    exact g6 h v hh hv
  · rw [hmax]
    rcases g7 with g7 | ⟨h2, v2, hh2, hv2, g7⟩
    · exact Or.inl g7
    · exact Or.inr ⟨h2, v2, hh2, hv2, by rw [g7, (hall h2 v2 hh2 hv2).2.1]⟩
  · intro e1 e2
    obtain ⟨_, b0, _⟩ := hall 0 0 (by omega) (by omega)
    rw [Nat.zero_mul, Nat.zero_add] at b0
    rw [hmax, b0]
    have hle := g6 0 0 (by omega) (by omega)
    rcases g7 with g7 | ⟨h2, v2, hh2, hv2, g7⟩
    · rw [g7] at hle ⊢
      exact (max_eq_left hle).symm
    · have e3 : h2 = 0 := by omega
      have e4 : v2 = 0 := by omega
      subst e3 e4
      rw [g7]
      rw [g7] at g5
      exact (max_eq_right g5).symm
  · intro firstBatch dot
    unfold batchTail
    cases firstBatch <;> rfl

theorem C15_weight_update_witness :
    (batchUpdate oneWeightHyper oneWeightState).w_grad (0 * oneWeightHyper.n_inputs + 0)
      = oneWeightState.w_grad (0 * oneWeightHyper.n_inputs + 0)
          / (oneWeightHyper.n_in_batch : ℚ)
        - oneWeightHyper.weight_penalty * oneWeightState.w (0 * oneWeightHyper.n_inputs + 0)
        - oneWeightHyper.data_mean 0
          * spPen oneWeightHyper (smoothedAfter oneWeightHyper oneWeightState 0) ∧
    (batchUpdate oneWeightHyper oneWeightState).w_inc (0 * oneWeightHyper.n_inputs + 0)
      = oneWeightHyper.momentum * oneWeightState.w_inc (0 * oneWeightHyper.n_inputs + 0)
        + oneWeightHyper.learning_rate
          * (batchUpdate oneWeightHyper oneWeightState).w_grad
              (0 * oneWeightHyper.n_inputs + 0) ∧
    (batchUpdate oneWeightHyper oneWeightState).w (0 * oneWeightHyper.n_inputs + 0)
      = oneWeightState.w (0 * oneWeightHyper.n_inputs + 0)
        + (batchUpdate oneWeightHyper oneWeightState).w_inc
            (0 * oneWeightHyper.n_inputs + 0) ∧
    oneWeightState.max_inc ≤ (batchUpdate oneWeightHyper oneWeightState).max_inc ∧
    |(batchUpdate oneWeightHyper oneWeightState).w_inc (0 * oneWeightHyper.n_inputs + 0)|
      ≤ (batchUpdate oneWeightHyper oneWeightState).max_inc ∧
    ((batchUpdate oneWeightHyper oneWeightState).max_inc = oneWeightState.max_inc ∨
      ∃ h2 v2, h2 < oneWeightHyper.nhid ∧ v2 < oneWeightHyper.n_inputs ∧
        (batchUpdate oneWeightHyper oneWeightState).max_inc
          = |(batchUpdate oneWeightHyper oneWeightState).w_inc
              (h2 * oneWeightHyper.n_inputs + v2)|) ∧
    (oneWeightHyper.nhid = 1 → oneWeightHyper.n_inputs = 1 →
      (batchUpdate oneWeightHyper oneWeightState).max_inc
        = max oneWeightState.max_inc
            |(batchUpdate oneWeightHyper oneWeightState).w_inc 0|) ∧
    (∀ (firstBatch : Bool) (dot : Dbl),
      (batchTail firstBatch dot oneWeightHyper oneWeightState).1
        = batchUpdate oneWeightHyper oneWeightState) :=
  C15_weight_update oneWeightHyper oneWeightState 0 0 (by decide) (by decide) (by decide)

/-- The numbers of the single-weight instance: the gradient is
`2/4 - 0.01 * 1 - 0.25 * sp_pen` with `sp_pen = 0.2 * (0.5 - 0.1)`, the increment
`0.5 * 0.2 + 0.1 * 0.47`, the weight `1 + 0.147`, and `max_inc` goes from 0 to 0.147. -/
theorem oneWeight_values :
    (batchUpdate oneWeightHyper oneWeightState).w_grad 0 = 47 / 100 ∧
    (batchUpdate oneWeightHyper oneWeightState).w_inc 0 = 147 / 1000 ∧
    (batchUpdate oneWeightHyper oneWeightState).w 0 = 1147 / 1000 ∧
    (batchUpdate oneWeightHyper oneWeightState).max_inc = 147 / 1000 := by
  decide!

/-! ### The worker -/

/-- A loop that adds up terms: `sum = b`, then `sum += f i` for `i = 0 .. n - 1`. -/
theorem forLoop_sum (f : Nat → ℚ) (b : ℚ) (n : Nat) :
    forLoop (fun i sum => sum + f i) n 0 b = b + ((List.range n).map f).sum := by
  induction n with
  | zero => simp [forLoop]
  | succ n ih =>
    rw [forLoop_succ_last, ih, List.range_succ, List.map_append, List.sum_append]
    simp only [Nat.zero_add, List.map_cons, List.map_nil, List.sum_cons, List.sum_nil,
      add_zero, add_assoc]

/-- The net input of a hidden neuron as a sum. -/
theorem hiddenNet_eq (A : Args) (x : Vec) (ihid : Nat) :
    hiddenNet A x ihid = A.hid_bias ihid
      + ((List.range A.n_inputs).map (fun v => A.w (ihid * A.n_inputs + v) * x v)).sum :=
  forLoop_sum _ _ _

/-- The net input of an input as a sum. -/
theorem visibleNet_eq (A : Args) (x : Vec) (ivis : Nat) :
    visibleNet A x ivis = A.in_bias ivis
      + ((List.range A.nhid).map (fun h => A.w (h * A.n_inputs + ivis) * x h)).sum :=
  forLoop_sum _ _ _

/-- Copying the case changes `visible1` only. -/
theorem loadCase_frame (A : Args) (icase : Int) (s : Work) :
    { loadCase A icase s with visible1 := s.visible1 } = s := by
  unfold loadCase
  exact forLoop_inv (loadInput A icase) (fun _ t => { t with visible1 := s.visible1 } = s)
    0 s rfl A.n_inputs (fun k t _ hP => hP)

/-- Sampling the inputs changes `randnum` and `visible1` only. -/
theorem sampleInputs_frame (A : Args) (s : Work) :
    { sampleInputs A s with randnum := s.randnum, visible1 := s.visible1 } = s := by
  unfold sampleInputs
  split
  · rfl
  · exact forLoop_inv sampleInput
      (fun _ t => { t with randnum := s.randnum, visible1 := s.visible1 } = s)
      0 s rfl A.n_inputs (fun k t _ hP => hP)

/-- The hidden probabilities of the case: `hidden1`, `hidden2` and `hid_on_frac` change,
and only these. -/
theorem hiddenProbs_spec (B : Build) (A : Args) (s : Work) :
    { hiddenProbs B A s with
      hidden1 := s.hidden1, hidden2 := s.hidden2, hid_on_frac := s.hid_on_frac } = s ∧
    ∀ h, (hiddenProbs B A s).hidden1 h
        = (if h < A.nhid then logistic B (hiddenNet A s.visible1 h) else s.hidden1 h) ∧
      (hiddenProbs B A s).hidden2 h
        = (if h < A.nhid then logistic B (hiddenNet A s.visible1 h) else s.hidden2 h) ∧
      (hiddenProbs B A s).hid_on_frac h
        = (if h < A.nhid then s.hid_on_frac h + logistic B (hiddenNet A s.visible1 h)
           else s.hid_on_frac h) := by
  unfold hiddenProbs
  refine forLoop_inv (hiddenProb B A) (fun k t =>
    { t with hidden1 := s.hidden1, hidden2 := s.hidden2, hid_on_frac := s.hid_on_frac } = s ∧
    ∀ h, t.hidden1 h
        = (if h < k then logistic B (hiddenNet A s.visible1 h) else s.hidden1 h) ∧
      t.hidden2 h
        = (if h < k then logistic B (hiddenNet A s.visible1 h) else s.hidden2 h) ∧
      t.hid_on_frac h
        = (if h < k then s.hid_on_frac h + logistic B (hiddenNet A s.visible1 h)
           else s.hid_on_frac h)) 0 s ?_ A.nhid ?_
  · refine ⟨rfl, ?_⟩
    intro h
    simp only [Nat.not_lt_zero, if_false, and_self]
  · intro k t _ hP
    obtain ⟨hf, hp⟩ := hP
    refine ⟨hf, ?_⟩
    intro h
    have hv : t.visible1 = s.visible1 := by
      have hc := congrArg Work.visible1 hf
      exact hc
    obtain ⟨_, _, ck⟩ := hp k
    rw [if_neg (Nat.lt_irrefl k)] at ck
    obtain ⟨a, b, c⟩ := hp h
    unfold hiddenProb
    simp only [Nat.zero_add, Function.update_apply, hv, ck]
    by_cases hk : h = k
    · subst hk
      simp only [if_true, Nat.lt_succ_self, and_self]
    · have hiff : h < k + 1 ↔ h < k := by omega
      simp only [hk, if_false, hiff, a, b, c, and_self]

/-- The direct reconstruction error changes `error` only. -/
theorem directError_frame (B : Build) (A : Args) (s : Work) :
    { directError B A s with error := s.error } = s := by
  unfold directError
  split
  · exact forLoop_inv (directErrorTerm B A) (fun _ t => { t with error := s.error } = s)
      0 s rfl A.n_inputs (fun k t _ hP => hP)
  · rfl

/-- Sampling the hidden layer changes `randnum` and `hidden_act` only. -/
theorem sampleHidden_frame (A : Args) (s : Work) :
    { sampleHidden A s with randnum := s.randnum, hidden_act := s.hidden_act } = s := by
  unfold sampleHidden
  exact forLoop_inv sampleHiddenUnit
    (fun _ t => { t with randnum := s.randnum, hidden_act := s.hidden_act } = s)
    0 s rfl A.nhid (fun k t _ hP => hP)

/-- One trip of the reconstruction changes `randnum`, `visible2` and `error` only. -/
theorem reconstructInput_frame (B : Build) (A : Args) (ichain ivis : Nat) (s t : Work)
    (hP : { t with randnum := s.randnum, visible2 := s.visible2, error := s.error } = s) :
    { reconstructInput B A ichain ivis t with
      randnum := s.randnum, visible2 := s.visible2, error := s.error } = s := by
  unfold reconstructInput
  by_cases h1 : B.RECON_ERR_DIRECT = false ∧ ichain = 0 <;>
    by_cases h2 : A.mean_field = true <;>
    simp only [h1, h2, if_true, if_false] <;> exact hP

/-- The reconstruction changes `randnum`, `visible2` and `error` only. -/
theorem reconstruct_frame (B : Build) (A : Args) (ichain : Nat) (s : Work) :
    { reconstruct B A ichain s with
      randnum := s.randnum, visible2 := s.visible2, error := s.error } = s := by
  unfold reconstruct
  exact forLoop_inv (reconstructInput B A ichain)
    (fun _ t => { t with randnum := s.randnum, visible2 := s.visible2, error := s.error } = s)
    0 s rfl A.n_inputs (fun k t _ hP => reconstructInput_frame B A ichain (0 + k) s t hP)

/-- One trip of the reconstruction under `mean_field`: `visible2[ivis]` is the probability
of the input given `hidden_act`. -/
theorem reconstructInput_mean (B : Build) (A : Args) (ichain ivis : Nat) (t : Work)
    (hmf : A.mean_field = true) :
    (reconstructInput B A ichain ivis t).hidden_act = t.hidden_act ∧
    (reconstructInput B A ichain ivis t).visible2
      = Function.update t.visible2 ivis (logistic B (visibleNet A t.hidden_act ivis)) := by
  unfold reconstructInput
  by_cases h1 : B.RECON_ERR_DIRECT = false ∧ ichain = 0
  · simp only [h1, hmf, if_true, and_self]
  · simp only [h1, hmf, if_true, if_false, and_self]

/-- Under `mean_field` the reconstruction leaves in `visible2` the probabilities of the
inputs given `hidden_act`. -/
theorem reconstruct_mean (B : Build) (A : Args) (ichain : Nat) (s : Work)
    (hmf : A.mean_field = true) (v : Nat) :
    (reconstruct B A ichain s).visible2 v
      = if v < A.n_inputs then logistic B (visibleNet A s.hidden_act v) else s.visible2 v := by
  unfold reconstruct
  refine (forLoop_inv (reconstructInput B A ichain) (fun k t =>
    t.hidden_act = s.hidden_act ∧
    ∀ v, t.visible2 v
      = if v < k then logistic B (visibleNet A s.hidden_act v) else s.visible2 v)
    0 s ?_ A.n_inputs ?_).2 v
  · refine ⟨rfl, ?_⟩
    intro v
    simp only [Nat.not_lt_zero, if_false]
  · intro k t _ hP
    obtain ⟨ha, hp⟩ := hP
    obtain ⟨e1, e2⟩ := reconstructInput_mean B A ichain (0 + k) t hmf
    refine ⟨e1.trans ha, ?_⟩
    intro v
    rw [e2, ha]
    simp only [Nat.zero_add, Function.update_apply]
    by_cases hk : v = k
    · subst hk
      simp only [if_true, Nat.lt_succ_self]
    · have hiff : v < k + 1 ↔ v < k := by omega
      simp only [hk, if_false, hiff, hp v]

/-- The hidden probabilities given `visible2`: `hidden2` changes, and only it. -/
theorem hiddenProbs2_spec (B : Build) (A : Args) (s : Work) :
    { hiddenProbs2 B A s with hidden2 := s.hidden2 } = s ∧
    ∀ h, (hiddenProbs2 B A s).hidden2 h
      = if h < A.nhid then logistic B (hiddenNet A s.visible2 h) else s.hidden2 h := by
  unfold hiddenProbs2
  refine forLoop_inv (hiddenProb2 B A) (fun k t =>
    { t with hidden2 := s.hidden2 } = s ∧
    ∀ h, t.hidden2 h
      = if h < k then logistic B (hiddenNet A s.visible2 h) else s.hidden2 h)
    0 s ?_ A.nhid ?_
  · refine ⟨rfl, ?_⟩
    intro h
    simp only [Nat.not_lt_zero, if_false]
  · intro k t _ hP
    obtain ⟨hf, hp⟩ := hP
    refine ⟨hf, ?_⟩
    intro h
    have hv : t.visible2 = s.visible2 := by
      have hc := congrArg Work.visible2 hf
      exact hc
    unfold hiddenProb2
    simp only [Nat.zero_add, Function.update_apply, hv]
    by_cases hk : h = k
    · subst hk
      simp only [if_true, Nat.lt_succ_self]
    · have hiff : h < k + 1 ↔ h < k := by omega
      simp only [hk, if_false, hiff, hp h]

/-- One trip of the Markov chain writes neither `visible1` nor `hidden1` nor an
accumulator. -/
theorem chainStep_keeps (B : Build) (A : Args) (ichain : Nat) (s : Work) :
    chainKeeps (chainStep B A ichain s) = chainKeeps s := by
  unfold chainStep
  have k1 : chainKeeps (sampleHidden A s) = chainKeeps s := by
    have h := congrArg chainKeeps (sampleHidden_frame A s)
    exact h
  have k2 : chainKeeps (reconstruct B A ichain (sampleHidden A s))
      = chainKeeps (sampleHidden A s) := by
    have h := congrArg chainKeeps (reconstruct_frame B A ichain (sampleHidden A s))
    exact h
  have k3 : chainKeeps (hiddenProbs2 B A (reconstruct B A ichain (sampleHidden A s)))
      = chainKeeps (reconstruct B A ichain (sampleHidden A s)) := by
    have h := congrArg chainKeeps
      (hiddenProbs2_spec B A (reconstruct B A ichain (sampleHidden A s))).1
    exact h
  rw [k3, k2, k1]

/-- The Markov chain writes neither `visible1` nor `hidden1` nor an accumulator. -/
theorem chain_keeps (B : Build) (A : Args) (s : Work) :
    chainKeeps (chain B A s) = chainKeeps s := by
  unfold chain
  exact forLoop_inv (chainStep B A) (fun _ t => chainKeeps t = chainKeeps s) 0 s rfl
    A.n_chain (fun k t _ hP => (chainStep_keeps B A (0 + k) t).trans hP)

/-- After a trip of the Markov chain under `mean_field`, `visible2` holds the
probabilities of the inputs given `hidden_act` and `hidden2` those of the hidden neurons
given `visible2`. -/
theorem chainStep_mean (B : Build) (A : Args) (ichain : Nat) (s : Work)
    (hmf : A.mean_field = true) :
    (∀ v, v < A.n_inputs → (chainStep B A ichain s).visible2 v
      = logistic B (visibleNet A (chainStep B A ichain s).hidden_act v)) ∧
    (∀ h, h < A.nhid → (chainStep B A ichain s).hidden2 h
      = logistic B (hiddenNet A (chainStep B A ichain s).visible2 h)) := by
  unfold chainStep
  obtain ⟨f3, c3⟩ := hiddenProbs2_spec B A (reconstruct B A ichain (sampleHidden A s))
  have f2 := reconstruct_frame B A ichain (sampleHidden A s)
  have e1 : (hiddenProbs2 B A (reconstruct B A ichain (sampleHidden A s))).hidden_act
      = (sampleHidden A s).hidden_act := by
    have h3 := congrArg Work.hidden_act f3
    have h2 := congrArg Work.hidden_act f2
    exact h3.trans h2
  have e2 : (hiddenProbs2 B A (reconstruct B A ichain (sampleHidden A s))).visible2
      = (reconstruct B A ichain (sampleHidden A s)).visible2 := by
    have h3 := congrArg Work.visible2 f3
    exact h3
  constructor
  · intro v hv
    rw [e1, e2, reconstruct_mean B A ichain (sampleHidden A s) hmf v, if_pos hv]
  · intro h hh
    rw [c3 h, if_pos hh, e2]

/-- After a Markov chain of at least one trip under `mean_field`, `visible2` holds the
probabilities of the inputs given `hidden_act` and `hidden2` those of the hidden neurons
given `visible2`. -/
theorem chain_mean (B : Build) (A : Args) (s : Work) (hmf : A.mean_field = true)
    (hn : 1 ≤ A.n_chain) :
    (∀ v, v < A.n_inputs → (chain B A s).visible2 v
      = logistic B (visibleNet A (chain B A s).hidden_act v)) ∧
    (∀ h, h < A.nhid → (chain B A s).hidden2 h
      = logistic B (hiddenNet A (chain B A s).visible2 h)) := by
  unfold chain
  obtain ⟨k, hk⟩ : ∃ k, A.n_chain = k + 1 := ⟨A.n_chain - 1, by omega⟩
  rw [hk, forLoop_succ_last]
  exact chainStep_mean B A (0 + k) _ hmf

/-- A Markov chain of no trip changes nothing. -/
theorem chain_zero (B : Build) (A : Args) (s : Work) (hn : A.n_chain = 0) :
    chain B A s = s := by
  unfold chain
  rw [hn]
  rfl

/-- The loop over the inputs of a hidden neuron in the gradient under `mean_field`: the
weights of the neuron take up their term, the rest is left as it was. -/
theorem weightGradMean_spec (A : Args) (ihid : Nat) (s : Work) :
    { forLoop (weightGradMean A ihid) A.n_inputs 0 s with w_grad := s.w_grad } = s ∧
    ∀ h v, v < A.n_inputs →
      (forLoop (weightGradMean A ihid) A.n_inputs 0 s).w_grad (h * A.n_inputs + v)
        = if h = ihid then s.w_grad (h * A.n_inputs + v)
            + (s.hidden1 h * s.visible1 v - s.hidden2 h * s.visible2 v)
          else s.w_grad (h * A.n_inputs + v) := by
  have hfin := forLoop_inv (weightGradMean A ihid) (fun k t => k ≤ A.n_inputs →
    ({ t with w_grad := s.w_grad } = s ∧
    ∀ h v, v < A.n_inputs →
      t.w_grad (h * A.n_inputs + v)
        = if h = ihid ∧ v < k then s.w_grad (h * A.n_inputs + v)
            + (s.hidden1 h * s.visible1 v - s.hidden2 h * s.visible2 v)
          else s.w_grad (h * A.n_inputs + v))) 0 s ?_ A.n_inputs ?_ (le_refl _)
  · obtain ⟨hf, hp⟩ := hfin
    refine ⟨hf, ?_⟩
    intro h v hv
    rw [hp h v hv]
    simp only [hv, and_true]
  · intro _
    refine ⟨rfl, ?_⟩
    intro h v _
    simp only [Nat.not_lt_zero, and_false, if_false]
  · intro k t hk hP hk2
    obtain ⟨hf, hp⟩ := hP (by omega)
    refine ⟨hf, ?_⟩
    intro h v hv
    have e1 : t.hidden1 = s.hidden1 := by
      have hc := congrArg Work.hidden1 hf
      exact hc
    have e2 : t.hidden2 = s.hidden2 := by
      have hc := congrArg Work.hidden2 hf
      exact hc
    have e3 : t.visible1 = s.visible1 := by
      have hc := congrArg Work.visible1 hf
      exact hc
    have e4 : t.visible2 = s.visible2 := by
      have hc := congrArg Work.visible2 hf
      exact hc
    have ek := hp ihid k hk
    have hnk : ¬ (ihid = ihid ∧ k < k) := by omega
    rw [if_neg hnk] at ek
    unfold weightGradMean
    simp only [Nat.zero_add, Function.update_apply, e1, e2, e3, e4, ek,
      flatIndex_inj A.n_inputs h v ihid k hv hk]
    by_cases hc : h = ihid ∧ v = k
    · obtain ⟨rfl, rfl⟩ := hc
      simp only [and_self, if_true, Nat.lt_succ_self]
    · have hiff : (h = ihid ∧ v < k + 1) ↔ (h = ihid ∧ v < k) := by
        constructor
        · rintro ⟨e1, e2⟩
          refine ⟨e1, ?_⟩
          have : v ≠ k := fun e => hc ⟨e1, e⟩
          omega
        · rintro ⟨e1, e2⟩
          exact ⟨e1, by omega⟩
      simp only [hc, if_false, hiff, hp h v hv]

/-- The gradient loop under `mean_field`: `hid_bias_grad` and `w_grad` take up the terms
of the case, the rest is left as it was. -/
theorem gradient_mean (A : Args) (s : Work) (hmf : A.mean_field = true) :
    { gradient A s with hid_bias_grad := s.hid_bias_grad, w_grad := s.w_grad } = s ∧
    (∀ h, (gradient A s).hid_bias_grad h
      = if h < A.nhid then s.hid_bias_grad h + (s.hidden1 h - s.hidden2 h)
        else s.hid_bias_grad h) ∧
    (∀ h v, v < A.n_inputs → (gradient A s).w_grad (h * A.n_inputs + v)
      = if h < A.nhid then s.w_grad (h * A.n_inputs + v)
          + (s.hidden1 h * s.visible1 v - s.hidden2 h * s.visible2 v)
        else s.w_grad (h * A.n_inputs + v)) := by
  unfold gradient
  refine forLoop_inv (gradientUnit A) (fun k t =>
    { t with hid_bias_grad := s.hid_bias_grad, w_grad := s.w_grad } = s ∧
    (∀ h, t.hid_bias_grad h
      = if h < k then s.hid_bias_grad h + (s.hidden1 h - s.hidden2 h)
        else s.hid_bias_grad h) ∧
    (∀ h v, v < A.n_inputs → t.w_grad (h * A.n_inputs + v)
      = if h < k then s.w_grad (h * A.n_inputs + v)
          + (s.hidden1 h * s.visible1 v - s.hidden2 h * s.visible2 v)
        else s.w_grad (h * A.n_inputs + v))) 0 s ?_ A.nhid ?_
  · refine ⟨rfl, ?_, ?_⟩
    · intro h
      simp only [Nat.not_lt_zero, if_false]
    · intro h v _
      simp only [Nat.not_lt_zero, if_false]
  · intro k t _ hP
    obtain ⟨hf, hb, hw⟩ := hP
    have e1 : t.hidden1 = s.hidden1 := by
      have hc := congrArg Work.hidden1 hf
      exact hc
    have e2 : t.hidden2 = s.hidden2 := by
      have hc := congrArg Work.hidden2 hf
      exact hc
    have e3 : t.visible1 = s.visible1 := by
      have hc := congrArg Work.visible1 hf
      exact hc
    have e4 : t.visible2 = s.visible2 := by
      have hc := congrArg Work.visible2 hf
      exact hc
    have hbk := hb k
    rw [if_neg (Nat.lt_irrefl k)] at hbk
    unfold gradientUnit
    rw [if_pos hmf]
    simp only [Nat.zero_add]
    obtain ⟨g1, g2⟩ := weightGradMean_spec A k
      { t with
        hid_bias_grad := Function.update t.hid_bias_grad k
          (t.hid_bias_grad k + (t.hidden1 k - t.hidden2 k)) }
    refine ⟨?_, ?_, ?_⟩
    · have hc := congrArg (fun x : Work =>
        { x with hid_bias_grad := s.hid_bias_grad, w_grad := s.w_grad }) g1
      exact hc.trans hf
    · intro h
      have hc := congrArg Work.hid_bias_grad g1
      have hc2 : (forLoop (weightGradMean A k) A.n_inputs 0
          { t with
            hid_bias_grad := Function.update t.hid_bias_grad k
              (t.hid_bias_grad k + (t.hidden1 k - t.hidden2 k)) }).hid_bias_grad
          = Function.update t.hid_bias_grad k
              (t.hid_bias_grad k + (t.hidden1 k - t.hidden2 k)) := hc
      rw [hc2]
      simp only [Function.update_apply, hbk, e1, e2]
      by_cases hk : h = k
      · subst hk
        simp only [if_true, Nat.lt_succ_self]
      · have hiff : h < k + 1 ↔ h < k := by omega
        simp only [hk, if_false, hiff, hb h]
    · intro h v hv
      rw [g2 h v hv]
      simp only [e1, e2, e3, e4]
      by_cases hk : h = k
      · subst hk
        have hwk := hw h v hv
        rw [if_neg (Nat.lt_irrefl h)] at hwk
        simp only [if_true, Nat.lt_succ_self, hwk]
      · have hiff : h < k + 1 ↔ h < k := by omega
        simp only [hk, if_false, hiff, hw h v hv]

/-- The loop of line 239: `in_bias_grad` takes up the terms of the case, the rest is left
as it was. -/
theorem inputGradients_spec (A : Args) (s : Work) :
    { inputGradients A s with in_bias_grad := s.in_bias_grad } = s ∧
    ∀ v, (inputGradients A s).in_bias_grad v
      = if v < A.n_inputs then s.in_bias_grad v + (s.visible1 v - s.visible2 v)
        else s.in_bias_grad v := by
  unfold inputGradients
  refine forLoop_inv inputGradient (fun k t =>
    { t with in_bias_grad := s.in_bias_grad } = s ∧
    ∀ v, t.in_bias_grad v
      = if v < k then s.in_bias_grad v + (s.visible1 v - s.visible2 v)
        else s.in_bias_grad v) 0 s ?_ A.n_inputs ?_
  · refine ⟨rfl, ?_⟩
    intro v
    simp only [Nat.not_lt_zero, if_false]
  · intro k t _ hP
    obtain ⟨hf, hp⟩ := hP
    have e3 : t.visible1 = s.visible1 := by
      have hc := congrArg Work.visible1 hf
      exact hc
    have e4 : t.visible2 = s.visible2 := by
      have hc := congrArg Work.visible2 hf
      exact hc
    have hpk := hp k
    rw [if_neg (Nat.lt_irrefl k)] at hpk
    refine ⟨hf, ?_⟩
    intro v
    unfold inputGradient
    simp only [Nat.zero_add, Function.update_apply, e3, e4, hpk]
    by_cases hk : v = k
    · subst hk
      simp only [if_true, Nat.lt_succ_self]
    · have hiff : v < k + 1 ↔ v < k := by omega
      simp only [hk, if_false, hiff, hp v]

/-- Setting the weights of one hidden neuron to zero. -/
theorem zeroWeight_spec (A : Args) (ihid : Nat) (s : Work) :
    { forLoop (zeroWeight A ihid) A.n_inputs 0 s with w_grad := s.w_grad } = s ∧
    ∀ h v, v < A.n_inputs →
      (forLoop (zeroWeight A ihid) A.n_inputs 0 s).w_grad (h * A.n_inputs + v)
        = if h = ihid then 0 else s.w_grad (h * A.n_inputs + v) := by
  have hfin := forLoop_inv (zeroWeight A ihid) (fun k t => k ≤ A.n_inputs →
    ({ t with w_grad := s.w_grad } = s ∧
    ∀ h v, v < A.n_inputs →
      t.w_grad (h * A.n_inputs + v)
        = if h = ihid ∧ v < k then 0 else s.w_grad (h * A.n_inputs + v)))
    0 s ?_ A.n_inputs ?_ (le_refl _)
  · obtain ⟨hf, hp⟩ := hfin
    refine ⟨hf, ?_⟩
    intro h v hv
    rw [hp h v hv]
    simp only [hv, and_true]
  · intro _
    refine ⟨rfl, ?_⟩
    intro h v _
    simp only [Nat.not_lt_zero, and_false, if_false]
  · intro k t hk hP hk2
    obtain ⟨hf, hp⟩ := hP (by omega)
    refine ⟨hf, ?_⟩
    intro h v hv
    unfold zeroWeight
    simp only [Nat.zero_add, Function.update_apply,
      flatIndex_inj A.n_inputs h v ihid k hv hk]
    by_cases hc : h = ihid ∧ v = k
    · obtain ⟨rfl, rfl⟩ := hc
      simp only [and_self, if_true, Nat.lt_succ_self]
    · have hiff : (h = ihid ∧ v < k + 1) ↔ (h = ihid ∧ v < k) := by
        constructor
        · rintro ⟨e1, e2⟩
          refine ⟨e1, ?_⟩
          have : v ≠ k := fun e => hc ⟨e1, e⟩
          omega
        · rintro ⟨e1, e2⟩
          exact ⟨e1, by omega⟩
      simp only [hc, if_false, hiff, hp h v hv]

/-- Lines 83-93 leave zeros in the accumulators, where the worker adds to them, and change
nothing else. -/
theorem zeroAccumulators_spec (A : Args) (s : Work) :
    { zeroAccumulators A s with
      hid_bias_grad := s.hid_bias_grad, hid_on_frac := s.hid_on_frac, w_grad := s.w_grad,
      in_bias_grad := s.in_bias_grad, error := s.error } = s ∧
    (∀ h, h < A.nhid → (zeroAccumulators A s).hid_bias_grad h = 0 ∧
      (zeroAccumulators A s).hid_on_frac h = 0) ∧
    (∀ h v, h < A.nhid → v < A.n_inputs →
      (zeroAccumulators A s).w_grad (h * A.n_inputs + v) = 0) ∧
    (∀ v, v < A.n_inputs → (zeroAccumulators A s).in_bias_grad v = 0) ∧
    (zeroAccumulators A s).error = 0 := by
  have h1 := forLoop_inv (zeroHidden A) (fun k t =>
    { t with
      hid_bias_grad := s.hid_bias_grad, hid_on_frac := s.hid_on_frac, w_grad := s.w_grad }
      = s ∧
    (∀ h, h < k → t.hid_bias_grad h = 0 ∧ t.hid_on_frac h = 0) ∧
    (∀ h v, h < k → v < A.n_inputs → t.w_grad (h * A.n_inputs + v) = 0))
    0 s ⟨rfl, fun h hh => absurd hh (Nat.not_lt_zero h),
      fun h v hh => absurd hh (Nat.not_lt_zero h)⟩ A.nhid ?_
  · have h2 := forLoop_inv zeroInput (fun k t =>
      { t with in_bias_grad := (forLoop (zeroHidden A) A.nhid 0 s).in_bias_grad }
        = forLoop (zeroHidden A) A.nhid 0 s ∧
      ∀ v, v < k → t.in_bias_grad v = 0)
      0 (forLoop (zeroHidden A) A.nhid 0 s)
      ⟨rfl, fun v hv => absurd hv (Nat.not_lt_zero v)⟩ A.n_inputs ?_
    · obtain ⟨f1, b1, w1⟩ := h1
      obtain ⟨f2, i2⟩ := h2
      unfold zeroAccumulators
      simp only []
      refine ⟨?_, ?_, ?_, i2, trivial⟩
      · have hc := congrArg (fun x : Work =>
          { x with
            hid_bias_grad := s.hid_bias_grad, hid_on_frac := s.hid_on_frac,
            w_grad := s.w_grad, in_bias_grad := s.in_bias_grad, error := s.error }) f2
        have hd := congrArg (fun x : Work =>
          { x with in_bias_grad := s.in_bias_grad, error := s.error }) f1
        exact hc.trans hd
      · intro h hh
        have hc := congrArg (fun x : Work => (x.hid_bias_grad, x.hid_on_frac)) f2
        have hb : (forLoop zeroInput A.n_inputs 0 (forLoop (zeroHidden A) A.nhid 0 s)).hid_bias_grad
            = (forLoop (zeroHidden A) A.nhid 0 s).hid_bias_grad := congrArg Prod.fst hc
        have hf : (forLoop zeroInput A.n_inputs 0 (forLoop (zeroHidden A) A.nhid 0 s)).hid_on_frac
            = (forLoop (zeroHidden A) A.nhid 0 s).hid_on_frac := congrArg Prod.snd hc
        rw [hb, hf]
        exact b1 h hh
      · intro h v hh hv
        have hc := congrArg Work.w_grad f2
        have hw : (forLoop zeroInput A.n_inputs 0 (forLoop (zeroHidden A) A.nhid 0 s)).w_grad
            = (forLoop (zeroHidden A) A.nhid 0 s).w_grad := hc
        rw [hw]
        exact w1 h v hh hv
    · intro k t _ hP
      obtain ⟨hf, hp⟩ := hP
      refine ⟨hf, ?_⟩
      intro v hv
      unfold zeroInput
      simp only [Nat.zero_add, Function.update_apply]
      by_cases hk : v = k
      · simp only [hk, if_true]
      · simp only [hk, if_false]
        exact hp v (by omega)
  · intro k t _ hP
    obtain ⟨hf, hb, hw⟩ := hP
    unfold zeroHidden
    simp only [Nat.zero_add]
    obtain ⟨g1, g2⟩ := zeroWeight_spec A k
      { t with
        hid_bias_grad := Function.update t.hid_bias_grad k 0,
        hid_on_frac := Function.update t.hid_on_frac k 0 }
    refine ⟨?_, ?_, ?_⟩
    · have hc := congrArg (fun x : Work =>
        { x with
          hid_bias_grad := s.hid_bias_grad, hid_on_frac := s.hid_on_frac,
          w_grad := s.w_grad }) g1
      exact hc.trans hf
    · intro h hh
      have hc := congrArg (fun x : Work => (x.hid_bias_grad, x.hid_on_frac)) g1
      have e1 : (forLoop (zeroWeight A k) A.n_inputs 0
          { t with
            hid_bias_grad := Function.update t.hid_bias_grad k 0,
            hid_on_frac := Function.update t.hid_on_frac k 0 }).hid_bias_grad
          = Function.update t.hid_bias_grad k 0 := congrArg Prod.fst hc
      have e2 : (forLoop (zeroWeight A k) A.n_inputs 0
          { t with
            hid_bias_grad := Function.update t.hid_bias_grad k 0,
            hid_on_frac := Function.update t.hid_on_frac k 0 }).hid_on_frac
          = Function.update t.hid_on_frac k 0 := congrArg Prod.snd hc
      rw [e1, e2]
      simp only [Function.update_apply]
      by_cases hk : h = k
      · simp only [hk, if_true, and_self]
      · simp only [hk, if_false]
        exact hb h (by omega)
    · intro h v hh hv
      rw [g2 h v hv]
      by_cases hk : h = k
      · simp only [hk, if_true]
      · simp only [hk, if_false]
        exact hw h v (by omega) hv

/-- What the body of the case loop has done at the end of the Markov chain: the gradient
accumulators are untouched, `hid_on_frac` has taken up `hidden1`, and `hidden1` holds the
probabilities of the hidden neurons given `visible1`. -/
theorem afterChain_spec (B : Build) (A : Args) (icase : Int) (s : Work) :
    (afterChain B A icase s).in_bias_grad = s.in_bias_grad ∧
    (afterChain B A icase s).hid_bias_grad = s.hid_bias_grad ∧
    (afterChain B A icase s).w_grad = s.w_grad ∧
    (∀ h, h < A.nhid → (afterChain B A icase s).hid_on_frac h
      = s.hid_on_frac h + (afterChain B A icase s).hidden1 h) ∧
    (∀ h, h < A.nhid → (afterChain B A icase s).hidden1 h
      = logistic B (hiddenNet A (afterChain B A icase s).visible1 h)) := by
  unfold afterChain
  have k5 := chain_keeps B A
    (directError B A (hiddenProbs B A (sampleInputs A (loadCase A icase s))))
  have k4 : chainKeeps (directError B A (hiddenProbs B A (sampleInputs A (loadCase A icase s))))
      = chainKeeps (hiddenProbs B A (sampleInputs A (loadCase A icase s))) := by
    have h := congrArg chainKeeps
      (directError_frame B A (hiddenProbs B A (sampleInputs A (loadCase A icase s))))
    exact h
  obtain ⟨f3, c3⟩ := hiddenProbs_spec B A (sampleInputs A (loadCase A icase s))
  have k3 : (fun x : Work => (x.visible1, x.in_bias_grad, x.hid_bias_grad, x.w_grad))
        (hiddenProbs B A (sampleInputs A (loadCase A icase s)))
      = (fun x : Work => (x.visible1, x.in_bias_grad, x.hid_bias_grad, x.w_grad))
        (sampleInputs A (loadCase A icase s)) := by
    have h := congrArg
      (fun x : Work => (x.visible1, x.in_bias_grad, x.hid_bias_grad, x.w_grad)) f3
    exact h
  have k2 : (fun x : Work => (x.in_bias_grad, x.hid_bias_grad, x.w_grad, x.hid_on_frac))
        (sampleInputs A (loadCase A icase s))
      = (fun x : Work => (x.in_bias_grad, x.hid_bias_grad, x.w_grad, x.hid_on_frac))
        (loadCase A icase s) := by
    have h := congrArg
      (fun x : Work => (x.in_bias_grad, x.hid_bias_grad, x.w_grad, x.hid_on_frac))
      (sampleInputs_frame A (loadCase A icase s))
    exact h
  have k1 : (fun x : Work => (x.in_bias_grad, x.hid_bias_grad, x.w_grad, x.hid_on_frac))
        (loadCase A icase s)
      = (fun x : Work => (x.in_bias_grad, x.hid_bias_grad, x.w_grad, x.hid_on_frac)) s := by
    have h := congrArg
      (fun x : Work => (x.in_bias_grad, x.hid_bias_grad, x.w_grad, x.hid_on_frac))
      (loadCase_frame A icase s)
    exact h
  have k54 := k5.trans k4
  have k21 := k2.trans k1
  simp only [chainKeeps, Prod.mk.injEq] at k54 k3 k21
  obtain ⟨a1, a2, a3, a4, a5, a6⟩ := k54
  obtain ⟨b1, b2, b3, b4⟩ := k3
  obtain ⟨d1, d2, d3, d4⟩ := k21
  refine ⟨a3.trans (b2.trans d1), a4.trans (b3.trans d2), a5.trans (b4.trans d3), ?_, ?_⟩
  · intro h hh
    obtain ⟨c1, _, c6⟩ := c3 h
    rw [if_pos hh] at c1 c6
    rw [a6, a2, c6, c1, d4]
  · intro h hh
    obtain ⟨c1, _, _⟩ := c3 h
    rw [if_pos hh] at c1
    rw [a2, a1, b1, c1]

/-- What the body of the case loop adds to the accumulators under `mean_field`, in terms of
the state at the end of the Markov chain. -/
theorem caseBody_mean (B : Build) (A : Args) (icase : Int) (s : Work)
    (hmf : A.mean_field = true) :
    (∀ h, h < A.nhid →
      (caseBody B A icase s).hid_bias_grad h = s.hid_bias_grad h
        + ((afterChain B A icase s).hidden1 h - (afterChain B A icase s).hidden2 h) ∧
      (caseBody B A icase s).hid_on_frac h = s.hid_on_frac h
        + (afterChain B A icase s).hidden1 h) ∧
    (∀ h v, h < A.nhid → v < A.n_inputs →
      (caseBody B A icase s).w_grad (h * A.n_inputs + v) = s.w_grad (h * A.n_inputs + v)
        + ((afterChain B A icase s).hidden1 h * (afterChain B A icase s).visible1 v
          - (afterChain B A icase s).hidden2 h * (afterChain B A icase s).visible2 v)) ∧
    (∀ v, v < A.n_inputs →
      (caseBody B A icase s).in_bias_grad v = s.in_bias_grad v
        + ((afterChain B A icase s).visible1 v - (afterChain B A icase s).visible2 v)) := by
  obtain ⟨a1, a2, a3, a4, _⟩ := afterChain_spec B A icase s
  obtain ⟨gf, gb, gw⟩ := gradient_mean A (afterChain B A icase s) hmf
  obtain ⟨jf, ji⟩ := inputGradients_spec A (gradient A (afterChain B A icase s))
  have kj : (fun x : Work => (x.hid_bias_grad, x.w_grad, x.hid_on_frac))
        (inputGradients A (gradient A (afterChain B A icase s)))
      = (fun x : Work => (x.hid_bias_grad, x.w_grad, x.hid_on_frac))
        (gradient A (afterChain B A icase s)) := by
    have h := congrArg (fun x : Work => (x.hid_bias_grad, x.w_grad, x.hid_on_frac)) jf
    exact h
  have kg : (fun x : Work => (x.visible1, x.visible2, x.in_bias_grad, x.hid_on_frac))
        (gradient A (afterChain B A icase s))
      = (fun x : Work => (x.visible1, x.visible2, x.in_bias_grad, x.hid_on_frac))
        (afterChain B A icase s) := by
    have h := congrArg
      (fun x : Work => (x.visible1, x.visible2, x.in_bias_grad, x.hid_on_frac)) gf
    exact h
  simp only [Prod.mk.injEq] at kj kg
  obtain ⟨j1, j2, j3⟩ := kj
  obtain ⟨g1, g2, g3, g4⟩ := kg
  unfold caseBody
  refine ⟨?_, ?_, ?_⟩
  · intro h hh
    rw [j1, j3, gb h, if_pos hh, g4, a4 h hh, a2]
    exact ⟨rfl, rfl⟩
  · intro h v hh hv
    rw [j2, gw h v hv, if_pos hh, a3]
  · intro v hv
    rw [ji v, if_pos hv, g1, g2, g3, a1]

/-- The case loop under `mean_field`: the accumulators end as what they were plus the sums,
over the cases, of the terms taken at the end of the Markov chain of each case. -/
theorem runCases_mean (B : Build) (A : Args) (hmf : A.mean_field = true) :
    ∀ (cases : List Int) (s : Work),
      (∀ h, h < A.nhid →
        (runCases B A cases s).hid_bias_grad h = s.hid_bias_grad h
          + ((chainStates B A cases s).map (fun c => c.hidden1 h - c.hidden2 h)).sum ∧
        (runCases B A cases s).hid_on_frac h = s.hid_on_frac h
          + ((chainStates B A cases s).map (fun c => c.hidden1 h)).sum) ∧
      (∀ h v, h < A.nhid → v < A.n_inputs →
        (runCases B A cases s).w_grad (h * A.n_inputs + v) = s.w_grad (h * A.n_inputs + v)
          + ((chainStates B A cases s).map
              (fun c => c.hidden1 h * c.visible1 v - c.hidden2 h * c.visible2 v)).sum) ∧
      (∀ v, v < A.n_inputs →
        (runCases B A cases s).in_bias_grad v = s.in_bias_grad v
          + ((chainStates B A cases s).map (fun c => c.visible1 v - c.visible2 v)).sum)
  | [], s => by
    simp only [runCases, chainStates, List.map_nil, List.sum_nil, add_zero, and_self,
      implies_true]
  | icase :: rest, s => by
    obtain ⟨r1, r2, r3⟩ := runCases_mean B A hmf rest (caseBody B A icase s)
    obtain ⟨c1, c2, c3⟩ := caseBody_mean B A icase s hmf
    simp only [runCases, chainStates, List.map_cons, List.sum_cons]
    refine ⟨?_, ?_, ?_⟩
    · intro h hh
      obtain ⟨x1, x2⟩ := r1 h hh
      obtain ⟨y1, y2⟩ := c1 h hh
      rw [x1, x2, y1, y2]
      constructor <;> ring
    · intro h v hh hv
      rw [r2 h v hh hv, c2 h v hh hv]
      ring
    · intro v hv
      rw [r3 v hv, c3 v hv]
      ring

/-- Every state at the end of a Markov chain has what `afterChain` gives it. -/
theorem chainStates_all (B : Build) (A : Args) (P : Work → Prop)
    (hP : ∀ icase s, P (afterChain B A icase s)) :
    ∀ (cases : List Int) (s : Work), ∀ c ∈ chainStates B A cases s, P c
  | [], s => by
    intro c hc
    simp only [chainStates, List.not_mem_nil] at hc
  | icase :: rest, s => by
    intro c hc
    simp only [chainStates, List.mem_cons] at hc
    rcases hc with rfl | hc
    · exact hP icase s
    · exact chainStates_all B A P hP rest _ c hc

/-- There is one state for each case. -/
theorem chainStates_length (B : Build) (A : Args) :
    ∀ (cases : List Int) (s : Work), (chainStates B A cases s).length = cases.length
  | [], s => rfl
  | icase :: rest, s => by
    simp only [chainStates, List.length_cons, chainStates_length B A rest]

/-- C20. Under `mean_field`, when `rbm2_threaded` returns for the range `[istart, istop)`,
with `c` running over the states at the end of the Markov chain of the cases of the range
(one state for each case): `hid_bias_grad[h]` is the sum of `hidden1[h] - hidden2[h]`,
`hid_on_frac[h]` the sum of `hidden1[h]`, `w_grad[h*n_inputs+v]` the sum of
`hidden1[h]*visible1[v] - hidden2[h]*visible2[v]` and `in_bias_grad[v]` the sum of
`visible1[v] - visible2[v]`, for `h < nhid` and `v < n_inputs`.  In each of these states
`hidden1[h]` is the logistic function of `hid_bias[h] + sum over v of w[h,v]*visible1[v]`;
if the chain has at least one step, `visible2[v]` is the logistic function of
`in_bias[v] + sum over h of w[h,v]*hidden_act[h]` and `hidden2[h]` that of
`hid_bias[h] + sum over v of w[h,v]*visible2[v]`; if it has none, `hidden2` is
`hidden1`. -/
theorem C20_mean_field_gradient (B : Build) (A : Args) (s : Work)
    (hmf : A.mean_field = true) :
    (workerStates B A s).length = (A.istop - A.istart).toNat ∧
    (∀ h, h < A.nhid →
      (rbm2_threaded B A s).hid_bias_grad h
        = ((workerStates B A s).map (fun c => c.hidden1 h - c.hidden2 h)).sum ∧
      (rbm2_threaded B A s).hid_on_frac h
        = ((workerStates B A s).map (fun c => c.hidden1 h)).sum) ∧
    (∀ h v, h < A.nhid → v < A.n_inputs →
      (rbm2_threaded B A s).w_grad (h * A.n_inputs + v)
        = ((workerStates B A s).map
            (fun c => c.hidden1 h * c.visible1 v - c.hidden2 h * c.visible2 v)).sum) ∧
    (∀ v, v < A.n_inputs →
      (rbm2_threaded B A s).in_bias_grad v
        = ((workerStates B A s).map (fun c => c.visible1 v - c.visible2 v)).sum) ∧
    (∀ c ∈ workerStates B A s, ∀ h, h < A.nhid →
      c.hidden1 h = logistic B (A.hid_bias h
        + ((List.range A.n_inputs).map
            (fun v => A.w (h * A.n_inputs + v) * c.visible1 v)).sum)) ∧
    (1 ≤ A.n_chain → ∀ c ∈ workerStates B A s,
      (∀ v, v < A.n_inputs →
        c.visible2 v = logistic B (A.in_bias v
          + ((List.range A.nhid).map
              (fun h => A.w (h * A.n_inputs + v) * c.hidden_act h)).sum)) ∧
      (∀ h, h < A.nhid →
        c.hidden2 h = logistic B (A.hid_bias h
          + ((List.range A.n_inputs).map
              (fun v => A.w (h * A.n_inputs + v) * c.visible2 v)).sum))) ∧
    (A.n_chain = 0 → ∀ c ∈ workerStates B A s, ∀ h, h < A.nhid →
      c.hidden2 h = c.hidden1 h) := by
  obtain ⟨_, z1, z2, z3, _⟩ := zeroAccumulators_spec A
    { s with randnum := seedOf A.istop (A.shuffle_index 0) }
  obtain ⟨r1, r2, r3⟩ := runCases_mean B A hmf (workerCases A.istart A.istop)
    (zeroAccumulators A { s with randnum := seedOf A.istop (A.shuffle_index 0) })
  unfold rbm2_threaded rbm2_from workerStates
  refine ⟨?_, ?_, ?_, ?_, ?_, ?_, ?_⟩
  · rw [chainStates_length]
    exact caseLoop_length _ _
  · intro h hh
    obtain ⟨x1, x2⟩ := r1 h hh
    obtain ⟨y1, y2⟩ := z1 h hh
    rw [x1, x2, y1, y2, zero_add, zero_add]
    exact ⟨rfl, rfl⟩
  · intro h v hh hv
    rw [r2 h v hh hv, z2 h v hh hv, zero_add]
  · intro v hv
    rw [r3 v hv, z3 v hv, zero_add]
  · refine chainStates_all B A (fun c => ∀ h, h < A.nhid →
      c.hidden1 h = logistic B (A.hid_bias h
        + ((List.range A.n_inputs).map
            (fun v => A.w (h * A.n_inputs + v) * c.visible1 v)).sum)) ?_ _ _
    intro icase t h hh
    rw [← hiddenNet_eq]
    exact (afterChain_spec B A icase t).2.2.2.2 h hh
  · intro hn
    refine chainStates_all B A (fun c =>
      (∀ v, v < A.n_inputs →
        c.visible2 v = logistic B (A.in_bias v
          + ((List.range A.nhid).map
              (fun h => A.w (h * A.n_inputs + v) * c.hidden_act h)).sum)) ∧
      (∀ h, h < A.nhid →
        c.hidden2 h = logistic B (A.hid_bias h
          + ((List.range A.n_inputs).map
              (fun v => A.w (h * A.n_inputs + v) * c.visible2 v)).sum))) ?_ _ _
    intro icase t
    unfold afterChain
    obtain ⟨m1, m2⟩ := chain_mean B A
      (directError B A (hiddenProbs B A (sampleInputs A (loadCase A icase t)))) hmf hn
    constructor
    · intro v hv
      rw [← visibleNet_eq]
      exact m1 v hv
    · intro h hh
      rw [← hiddenNet_eq]
      exact m2 h hh
  · intro hn
    refine chainStates_all B A (fun c => ∀ h, h < A.nhid → c.hidden2 h = c.hidden1 h) ?_ _ _
    intro icase t h hh
    unfold afterChain
    rw [chain_zero B A _ hn]
    have hf := directError_frame B A (hiddenProbs B A (sampleInputs A (loadCase A icase t)))
    have e : (fun x : Work => (x.hidden1, x.hidden2))
          (directError B A (hiddenProbs B A (sampleInputs A (loadCase A icase t))))
        = (fun x : Work => (x.hidden1, x.hidden2))
          (hiddenProbs B A (sampleInputs A (loadCase A icase t))) := by
      have hc := congrArg (fun x : Work => (x.hidden1, x.hidden2)) hf
      exact hc
    simp only [Prod.mk.injEq] at e
    obtain ⟨c1, c2, _⟩ := (hiddenProbs_spec B A (sampleInputs A (loadCase A icase t))).2 h
    rw [if_pos hh] at c1 c2
    rw [e.1, e.2, c1, c2]

theorem C20_mean_field_gradient_witness :
    (workerStates plainBuild (unitArgs 0) zeroWork).length
      = ((unitArgs 0).istop - (unitArgs 0).istart).toNat ∧
    (∀ h, h < (unitArgs 0).nhid →
      (rbm2_threaded plainBuild (unitArgs 0) zeroWork).hid_bias_grad h
        = ((workerStates plainBuild (unitArgs 0) zeroWork).map
            (fun c => c.hidden1 h - c.hidden2 h)).sum ∧
      (rbm2_threaded plainBuild (unitArgs 0) zeroWork).hid_on_frac h
        = ((workerStates plainBuild (unitArgs 0) zeroWork).map (fun c => c.hidden1 h)).sum) ∧
    (∀ h v, h < (unitArgs 0).nhid → v < (unitArgs 0).n_inputs →
      (rbm2_threaded plainBuild (unitArgs 0) zeroWork).w_grad (h * (unitArgs 0).n_inputs + v)
        = ((workerStates plainBuild (unitArgs 0) zeroWork).map
            (fun c => c.hidden1 h * c.visible1 v - c.hidden2 h * c.visible2 v)).sum) ∧
    (∀ v, v < (unitArgs 0).n_inputs →
      (rbm2_threaded plainBuild (unitArgs 0) zeroWork).in_bias_grad v
        = ((workerStates plainBuild (unitArgs 0) zeroWork).map
            (fun c => c.visible1 v - c.visible2 v)).sum) ∧
    (∀ c ∈ workerStates plainBuild (unitArgs 0) zeroWork, ∀ h, h < (unitArgs 0).nhid →
      c.hidden1 h = logistic plainBuild ((unitArgs 0).hid_bias h
        + ((List.range (unitArgs 0).n_inputs).map
            (fun v => (unitArgs 0).w (h * (unitArgs 0).n_inputs + v) * c.visible1 v)).sum)) ∧
    (1 ≤ (unitArgs 0).n_chain → ∀ c ∈ workerStates plainBuild (unitArgs 0) zeroWork,
      (∀ v, v < (unitArgs 0).n_inputs →
        c.visible2 v = logistic plainBuild ((unitArgs 0).in_bias v
          + ((List.range (unitArgs 0).nhid).map
              (fun h => (unitArgs 0).w (h * (unitArgs 0).n_inputs + v) * c.hidden_act h)).sum)) ∧
      (∀ h, h < (unitArgs 0).nhid →
        c.hidden2 h = logistic plainBuild ((unitArgs 0).hid_bias h
          + ((List.range (unitArgs 0).n_inputs).map
              (fun v => (unitArgs 0).w (h * (unitArgs 0).n_inputs + v) * c.visible2 v)).sum))) ∧
    ((unitArgs 0).n_chain = 0 → ∀ c ∈ workerStates plainBuild (unitArgs 0) zeroWork,
      ∀ h, h < (unitArgs 0).nhid → c.hidden2 h = c.hidden1 h) :=
  C20_mean_field_gradient plainBuild (unitArgs 0) zeroWork rfl

/-- A loop whose body commutes with a map of the state commutes with it. -/
theorem forLoop_comm {σ : Type} (body : Nat → σ → σ) (g : σ → σ)
    (hc : ∀ k t, body k (g t) = g (body k t)) :
    ∀ (n i : Nat) (s : σ), forLoop body n i (g s) = g (forLoop body n i s)
  | 0, _, _ => rfl
  | n + 1, i, s => by
    simp only [forLoop]
    rw [hc, forLoop_comm body g hc n (i + 1)]

/-- With both mean-field flags set and no chain step the body of the case loop neither
reads nor writes `randnum`. -/
theorem caseBody_setRand (B : Build) (A : Args) (icase : Int) (x : Int) (s : Work)
    (hmf : A.mean_field = true) (hg : A.greedy_mean_field = true) (hn : A.n_chain = 0) :
    caseBody B A icase (setRand x s) = setRand x (caseBody B A icase s) := by
  have h1 : loadCase A icase (setRand x s) = setRand x (loadCase A icase s) :=
    forLoop_comm (loadInput A icase) (setRand x) (fun _ _ => rfl) _ _ _
  have h2 : ∀ t, sampleInputs A t = t := by
    intro t
    unfold sampleInputs
    rw [if_pos hg]
  have h3 : ∀ t, hiddenProbs B A (setRand x t) = setRand x (hiddenProbs B A t) :=
    fun t => forLoop_comm (hiddenProb B A) (setRand x) (fun _ _ => rfl) _ _ _
  have h4 : ∀ t, directError B A (setRand x t) = setRand x (directError B A t) := by
    intro t
    unfold directError
    split
    · exact forLoop_comm (directErrorTerm B A) (setRand x) (fun _ _ => rfl) _ _ _
    · rfl
  have h5 : ∀ t, chain B A t = t := fun t => chain_zero B A t hn
  have h6 : ∀ t, gradient A (setRand x t) = setRand x (gradient A t) := by
    intro t
    refine forLoop_comm (gradientUnit A) (setRand x) ?_ _ _ _
    intro k u
    unfold gradientUnit
    rw [if_pos hmf, if_pos hmf]
    exact forLoop_comm (weightGradMean A k) (setRand x) (fun _ _ => rfl) A.n_inputs 0
      { u with
        hid_bias_grad := Function.update u.hid_bias_grad k
          (u.hid_bias_grad k + (u.hidden1 k - u.hidden2 k)) }
  have h7 : ∀ t, inputGradients A (setRand x t) = setRand x (inputGradients A t) :=
    fun t => forLoop_comm inputGradient (setRand x) (fun _ _ => rfl) _ _ _
  unfold caseBody afterChain
  rw [h5, h5, h2, h2, h1, h3, h4, h6, h7]

/-- With both mean-field flags set and no chain step the case loop neither reads nor
writes `randnum`. -/
theorem runCases_setRand (B : Build) (A : Args) (x : Int)
    (hmf : A.mean_field = true) (hg : A.greedy_mean_field = true) (hn : A.n_chain = 0) :
    ∀ (cases : List Int) (s : Work),
      runCases B A cases (setRand x s) = setRand x (runCases B A cases s)
  | [], _ => rfl
  | icase :: rest, s => by
    simp only [runCases]
    rw [caseBody_setRand B A icase x s hmf hg hn, runCases_setRand B A x hmf hg hn rest]

/-- Setting the accumulators to zero neither reads nor writes `randnum`. -/
theorem zeroAccumulators_setRand (A : Args) (x : Int) (s : Work) :
    zeroAccumulators A (setRand x s) = setRand x (zeroAccumulators A s) := by
  unfold zeroAccumulators
  have h1 : forLoop (zeroHidden A) A.nhid 0 (setRand x s)
      = setRand x (forLoop (zeroHidden A) A.nhid 0 s) := by
    refine forLoop_comm (zeroHidden A) (setRand x) ?_ _ _ _
    intro k u
    unfold zeroHidden
    exact forLoop_comm (zeroWeight A k) (setRand x) (fun _ _ => rfl) A.n_inputs 0
      { u with
        hid_bias_grad := Function.update u.hid_bias_grad k 0,
        hid_on_frac := Function.update u.hid_on_frac k 0 }
  simp only [h1]
  rw [forLoop_comm zeroInput (setRand x) (fun _ _ => rfl)]
  rfl

/-- With both mean-field flags set and no chain step the worker leaves the same state
whatever state the generator starts from, but for `randnum`, which it leaves as it
was. -/
theorem rbm2_from_setRand (B : Build) (A : Args) (r1 r2 : Int) (s : Work)
    (hmf : A.mean_field = true) (hg : A.greedy_mean_field = true) (hn : A.n_chain = 0) :
    rbm2_from B A r1 s = setRand r1 (rbm2_from B A r2 s) := by
  unfold rbm2_from
  have e : ({ s with randnum := r1 } : Work) = setRand r1 { s with randnum := r2 } := rfl
  rw [e, zeroAccumulators_setRand, runCases_setRand B A r1 hmf hg hn]

/-- C14 as stated fails as soon as the chain has a step.  The two runs are on the same
range (the case at position 1), data, weights and chain length `n_chain = 1`, both
mean-field flags set; they differ in `shuffle_index[0]` only, 0 and 63887, which is not
read for a case but starts the generator in the states 2 and 63889.  The draw of line 165
gives `hidden_act[0] = 1` in the first run and `0` in the second, and `in_bias_grad[0]`
ends as `-1/(1+exp(-1))` and as `-1/2`, whatever `exp` with `exp(0) = 1` the worker is
linked with; with the `exp` of `plainBuild` the three gradients are as listed. -/
theorem C14_counterexample :
    ((unitArgs 0).mean_field = true ∧ (unitArgs 0).greedy_mean_field = true ∧
      (unitArgs 63887).mean_field = true ∧ (unitArgs 63887).greedy_mean_field = true) ∧
    (seedOf (unitArgs 0).istop ((unitArgs 0).shuffle_index 0) = 2 ∧
      seedOf (unitArgs 63887).istop ((unitArgs 63887).shuffle_index 0) = 63889) ∧
    ((rbm2_threaded plainBuild (unitArgs 0) zeroWork).in_bias_grad 0 = -(2 / 3) ∧
      (rbm2_threaded plainBuild (unitArgs 63887) zeroWork).in_bias_grad 0 = -(1 / 2) ∧
      (rbm2_threaded plainBuild (unitArgs 0) zeroWork).hid_bias_grad 0 = -(1 / 8) ∧
      (rbm2_threaded plainBuild (unitArgs 63887) zeroWork).hid_bias_grad 0 = -(1 / 10) ∧
      (rbm2_threaded plainBuild (unitArgs 0) zeroWork).w_grad 0 = -(5 / 12) ∧
      (rbm2_threaded plainBuild (unitArgs 63887) zeroWork).w_grad 0 = -(3 / 10)) ∧
    (∀ B : Build, B.exp 0 = 1 →
      (rbm2_threaded B (unitArgs 0) zeroWork).in_bias_grad 0 = -(1 / (1 + B.exp (-1))) ∧
      (rbm2_threaded B (unitArgs 63887) zeroWork).in_bias_grad 0 = -(1 / 2)) := by
  refine ⟨by decide, by decide, by decide!, ?_⟩
  intro B hB
  have s1 : seedOf 2 0 = 2 := by decide
  have s2 : seedOf 2 63887 = 63889 := by decide
  have r1 : rngStep 2 = 33614 := by decide
  have r2 : rngStep 63889 = 1073782423 := by decide
  have f1 : frand 33614 < (1 + 1)⁻¹ := by
    unfold frand AM
    norm_num
  have f2 : ¬ frand 1073782423 < (1 + 1)⁻¹ := by
    unfold frand AM
    norm_num
  have hc : workerCases 1 2 = [1] := by decide
  obtain ⟨e, l, d, x⟩ := B
  simp only at hB
  constructor
  · cases d <;> cases x <;>
    simp [rbm2_threaded, rbm2_from, unitArgs, zeroWork, hc, runCases, caseBody, afterChain,
      zeroAccumulators, forLoop, zeroHidden, zeroWeight, zeroInput, loadCase, loadInput,
      sampleInputs, hiddenProbs, hiddenProb, directError, directErrorTerm, chain, chainStep,
      sampleHidden, sampleHiddenUnit, reconstruct, reconstructInput, hiddenProbs2,
      hiddenProb2, gradient, gradientUnit, weightGradMean, inputGradients, inputGradient,
      logistic, hiddenNet, visibleNet, s1, r1, f1, hB]
  · cases d <;> cases x <;>
    simp [rbm2_threaded, rbm2_from, unitArgs, zeroWork, hc, runCases, caseBody, afterChain,
      zeroAccumulators, forLoop, zeroHidden, zeroWeight, zeroInput, loadCase, loadInput,
      sampleInputs, hiddenProbs, hiddenProb, directError, directErrorTerm, chain, chainStep,
      sampleHidden, sampleHiddenUnit, reconstruct, reconstructInput, hiddenProbs2,
      hiddenProb2, gradient, gradientUnit, weightGradMean, inputGradients, inputGradient,
      logistic, hiddenNet, visibleNet, s2, r2, f2, hB] <;>
    norm_num

/-- C14, amended. With `mean_field` and `greedy_mean_field` both set and a chain of no
step (`n_chain = 0`), `rbm2_threaded` makes no draw: started with the generator in any
state `r1`, the worker leaves the generator in that state, and the gradients `w_grad`,
`hid_bias_grad`, `in_bias_grad`, as well as `hid_on_frac` and the error, are those it
leaves when started with the generator in any other state `r2`.  And a second run of
`rbm2_threaded` on the same arguments and the same contents of the vectors leaves the same
gradients. -/
theorem C14_mean_field_determinism (B : Build) (A : Args) (s : Work) (r1 r2 : Int)
    (hmf : A.mean_field = true) (hg : A.greedy_mean_field = true) (hn : A.n_chain = 0) :
    (rbm2_from B A r1 s).randnum = r1 ∧
    (rbm2_from B A r1 s).w_grad = (rbm2_from B A r2 s).w_grad ∧
    (rbm2_from B A r1 s).hid_bias_grad = (rbm2_from B A r2 s).hid_bias_grad ∧
    (rbm2_from B A r1 s).in_bias_grad = (rbm2_from B A r2 s).in_bias_grad ∧
    (rbm2_from B A r1 s).hid_on_frac = (rbm2_from B A r2 s).hid_on_frac ∧
    (rbm2_from B A r1 s).error = (rbm2_from B A r2 s).error ∧
    (∀ (A2 : Args) (s2 : Work), A2 = A → s2 = s →
      workGradients (rbm2_threaded B A2 s2) = workGradients (rbm2_threaded B A s)) := by
  rw [rbm2_from_setRand B A r1 r2 s hmf hg hn]
  refine ⟨rfl, rfl, rfl, rfl, rfl, rfl, ?_⟩
  intro A2 s2 hA hs
  rw [hA, hs]

theorem C14_mean_field_determinism_witness :
    (rbm2_from plainBuild noChainArgs 2 zeroWork).randnum = 2 ∧
    (rbm2_from plainBuild noChainArgs 2 zeroWork).w_grad
      = (rbm2_from plainBuild noChainArgs 63889 zeroWork).w_grad ∧
    (rbm2_from plainBuild noChainArgs 2 zeroWork).hid_bias_grad
      = (rbm2_from plainBuild noChainArgs 63889 zeroWork).hid_bias_grad ∧
    (rbm2_from plainBuild noChainArgs 2 zeroWork).in_bias_grad
      = (rbm2_from plainBuild noChainArgs 63889 zeroWork).in_bias_grad ∧
    (rbm2_from plainBuild noChainArgs 2 zeroWork).hid_on_frac
      = (rbm2_from plainBuild noChainArgs 63889 zeroWork).hid_on_frac ∧
    (rbm2_from plainBuild noChainArgs 2 zeroWork).error
      = (rbm2_from plainBuild noChainArgs 63889 zeroWork).error ∧
    (∀ (A2 : Args) (s2 : Work), A2 = noChainArgs → s2 = zeroWork →
      workGradients (rbm2_threaded plainBuild A2 s2)
        = workGradients (rbm2_threaded plainBuild noChainArgs zeroWork)) :=
  C14_mean_field_determinism plainBuild noChainArgs zeroWork 2 63889 rfl rfl rfl

/-! ### The worker when every net input is zero -/

/-- Two loops whose bodies do the same but for what they leave in a part `g` of the state
that neither reads do the same but for that part. -/
theorem forLoop_sim {σ ε : Type} (body1 body2 : Nat → σ → σ) (g : ε → σ → σ)
    (hs : ∀ k t e, ∃ e2, body2 k (g e t) = g e2 (body1 k t)) :
    ∀ (n i : Nat) (t : σ) (e : ε),
      ∃ e2, forLoop body2 n i (g e t) = g e2 (forLoop body1 n i t)
  | 0, _, _, e => ⟨e, rfl⟩
  | n + 1, i, t, e => by
    obtain ⟨e1, h1⟩ := hs i t e
    obtain ⟨e2, h2⟩ := forLoop_sim body1 body2 g hs n (i + 1) (body1 i t) e1
    exact ⟨e2, by simp only [forLoop, h1, h2]⟩

/-- With all weights and biases zero, the body of the case loop does the same with two
builds whose `exp` agree at 0, but for what it leaves in `*error`. -/
theorem caseBody_zeroNet (B1 B2 : Build) (A : Args) (icase : Int)
    (hw : A.w = fun _ => 0) (hhb : A.hid_bias = fun _ => 0) (hib : A.in_bias = fun _ => 0)
    (hexp : B1.exp 0 = B2.exp 0) (t : Work) (e : ℚ) :
    ∃ e2, caseBody B2 A icase (setError e t) = setError e2 (caseBody B1 A icase t) := by
  have hnet : ∀ x h, hiddenNet A x h = 0 := by
    intro x h
    rw [hiddenNet_eq, hw, hhb]
    simp
  have vnet : ∀ x v, visibleNet A x v = 0 := by
    intro x v
    rw [visibleNet_eq, hw, hib]
    simp
  have hlog : logistic B2 0 = logistic B1 0 := by
    unfold logistic
    rw [neg_zero, hexp]
  have s1 : ∀ t e, ∃ e2, loadCase A icase (setError e t) = setError e2 (loadCase A icase t) :=
    fun t e => forLoop_sim (loadInput A icase) (loadInput A icase) setError
      (fun _ _ e => ⟨e, rfl⟩) _ _ t e
  have s2 : ∀ t e, ∃ e2, sampleInputs A (setError e t) = setError e2 (sampleInputs A t) := by
    intro t e
    unfold sampleInputs
    split
    · exact ⟨e, rfl⟩
    · exact forLoop_sim sampleInput sampleInput setError (fun _ _ e => ⟨e, rfl⟩) _ _ t e
  have s3 : ∀ t e, ∃ e2, hiddenProbs B2 A (setError e t) = setError e2 (hiddenProbs B1 A t) := by
    intro t e
    refine forLoop_sim (hiddenProb B1 A) (hiddenProb B2 A) setError ?_ _ _ t e
    intro k u e1
    unfold hiddenProb
    simp only [hnet, hlog]
    exact ⟨e1, rfl⟩
  have s4 : ∀ t e, ∃ e2, directError B2 A (setError e t) = setError e2 (directError B1 A t) := by
    intro t e
    have hloop : ∀ (Bx : Build) (u : Work) (e1 : ℚ),
        ∃ e2, forLoop (directErrorTerm Bx A) A.n_inputs 0 (setError e1 u) = setError e2 u := by
      intro Bx u e1
      have h := forLoop_sim (fun _ (x : Work) => x) (directErrorTerm Bx A) setError
        (fun _ _ e => ⟨_, rfl⟩) A.n_inputs 0 u e1
      obtain ⟨e2, h2⟩ := h
      refine ⟨e2, ?_⟩
      rw [h2]
      have hid : ∀ (n i : Nat) (x : Work), forLoop (fun _ (x : Work) => x) n i x = x := by
        intro n
        induction n with
        | zero => intro _ _; rfl
        | succ n ih => intro i x; simp only [forLoop, ih]
      rw [hid]
    unfold directError
    by_cases h1 : B1.RECON_ERR_DIRECT = true <;> by_cases h2 : B2.RECON_ERR_DIRECT = true
    · rw [if_pos h1, if_pos h2]
      obtain ⟨e2, he2⟩ := hloop B2 t e
      obtain ⟨e3, he3⟩ := hloop B1 t t.error
      have ht : setError t.error t = t := rfl
      rw [ht] at he3
      rw [he2, he3]
      exact ⟨e2, rfl⟩
    · rw [if_pos h1, if_neg h2]
      obtain ⟨e3, he3⟩ := hloop B1 t t.error
      have ht : setError t.error t = t := rfl
      rw [ht] at he3
      rw [he3]
      exact ⟨e, rfl⟩
    · rw [if_neg h1, if_pos h2]
      exact hloop B2 t e
    · rw [if_neg h1, if_neg h2]
      exact ⟨e, rfl⟩
  have s5 : ∀ t e, ∃ e2, sampleHidden A (setError e t) = setError e2 (sampleHidden A t) :=
    fun t e => forLoop_sim sampleHiddenUnit sampleHiddenUnit setError
      (fun _ _ e => ⟨e, rfl⟩) _ _ t e
  have s6 : ∀ ichain t e,
      ∃ e2, reconstruct B2 A ichain (setError e t) = setError e2 (reconstruct B1 A ichain t) := by
    intro ichain t e
    refine forLoop_sim (reconstructInput B1 A ichain) (reconstructInput B2 A ichain)
      setError ?_ _ _ t e
    intro k u e1
    unfold reconstructInput
    simp only [vnet, hlog]
    cases c1 : B1.RECON_ERR_DIRECT <;> cases c2 : B2.RECON_ERR_DIRECT <;>
      cases c3 : A.mean_field <;> by_cases c4 : ichain = 0 <;>
      simp only [c4, if_true, if_false, and_self, and_true, and_false, true_and, false_and,
        Bool.false_eq_true, Bool.true_eq_false, reduceCtorEq] <;>
      exact ⟨_, rfl⟩
  have s7 : ∀ t e, ∃ e2, hiddenProbs2 B2 A (setError e t) = setError e2 (hiddenProbs2 B1 A t) := by
    intro t e
    refine forLoop_sim (hiddenProb2 B1 A) (hiddenProb2 B2 A) setError ?_ _ _ t e
    intro k u e1
    unfold hiddenProb2
    simp only [hnet, hlog]
    exact ⟨e1, rfl⟩
  have s8 : ∀ t e, ∃ e2, chain B2 A (setError e t) = setError e2 (chain B1 A t) := by
    intro t e
    refine forLoop_sim (chainStep B1 A) (chainStep B2 A) setError ?_ _ _ t e
    intro k u e1
    unfold chainStep
    obtain ⟨e2, h2⟩ := s5 u e1
    obtain ⟨e3, h3⟩ := s6 k (sampleHidden A u) e2
    obtain ⟨e4, h4⟩ := s7 (reconstruct B1 A k (sampleHidden A u)) e3
    exact ⟨e4, by rw [h2, h3, h4]⟩
  have s9 : ∀ t e, ∃ e2, gradient A (setError e t) = setError e2 (gradient A t) := by
    intro t e
    refine forLoop_sim (gradientUnit A) (gradientUnit A) setError ?_ _ _ t e
    intro k u e1
    unfold gradientUnit
    by_cases c3 : A.mean_field = true
    · rw [if_pos c3, if_pos c3]
      exact forLoop_sim (weightGradMean A k) (weightGradMean A k) setError
        (fun _ _ e => ⟨e, rfl⟩) A.n_inputs 0
        { u with
          hid_bias_grad := Function.update u.hid_bias_grad k
            (u.hid_bias_grad k + (u.hidden1 k - u.hidden2 k)) } e1
    · rw [if_neg c3, if_neg c3]
      exact forLoop_sim (weightGradSampled A k) (weightGradSampled A k) setError
        (fun _ _ e => ⟨e, rfl⟩) A.n_inputs 0
        { u with
          randnum := rngStep u.randnum,
          hidden_act := Function.update u.hidden_act k
            (if frand (rngStep u.randnum) < u.hidden1 k then 1 else 0),
          hid_bias_grad := Function.update u.hid_bias_grad k
            (u.hid_bias_grad k
              + (Function.update u.hidden_act k
                  (if frand (rngStep u.randnum) < u.hidden1 k then 1 else 0) k
                - u.hidden2 k)) } e1
  have s10 : ∀ t e, ∃ e2, inputGradients A (setError e t) = setError e2 (inputGradients A t) :=
    fun t e => forLoop_sim inputGradient inputGradient setError
      (fun _ _ e => ⟨e, rfl⟩) _ _ t e
  unfold caseBody afterChain
  obtain ⟨e1, h1⟩ := s1 t e
  obtain ⟨e2, h2⟩ := s2 (loadCase A icase t) e1
  obtain ⟨e3, h3⟩ := s3 (sampleInputs A (loadCase A icase t)) e2
  obtain ⟨e4, h4⟩ := s4 (hiddenProbs B1 A (sampleInputs A (loadCase A icase t))) e3
  obtain ⟨e5, h5⟩ := s8
    (directError B1 A (hiddenProbs B1 A (sampleInputs A (loadCase A icase t)))) e4
  obtain ⟨e6, h6⟩ := s9
    (chain B1 A (directError B1 A (hiddenProbs B1 A (sampleInputs A (loadCase A icase t)))))
    e5
  obtain ⟨e7, h7⟩ := s10 (gradient A
    (chain B1 A (directError B1 A (hiddenProbs B1 A (sampleInputs A (loadCase A icase t))))))
    e6
  exact ⟨e7, by rw [h1, h2, h3, h4, h5, h6, h7]⟩

/-- With all weights and biases zero, the worker leaves the same with two builds whose
`exp` agree at 0, but for what it leaves in `*error`. -/
theorem rbm2_threaded_zeroNet (B1 B2 : Build) (A : Args)
    (hw : A.w = fun _ => 0) (hhb : A.hid_bias = fun _ => 0) (hib : A.in_bias = fun _ => 0)
    (hexp : B1.exp 0 = B2.exp 0) (s : Work) :
    ∃ e2, rbm2_threaded B2 A s = setError e2 (rbm2_threaded B1 A s) := by
  have hrun : ∀ (cases : List Int) (t : Work) (e : ℚ),
      ∃ e2, runCases B2 A cases (setError e t) = setError e2 (runCases B1 A cases t) := by
    intro cases
    induction cases with
    | nil => intro t e; exact ⟨e, rfl⟩
    | cons icase rest ih =>
      intro t e
      obtain ⟨e1, h1⟩ := caseBody_zeroNet B1 B2 A icase hw hhb hib hexp t e
      obtain ⟨e2, h2⟩ := ih (caseBody B1 A icase t) e1
      exact ⟨e2, by simp only [runCases, h1, h2]⟩
  unfold rbm2_threaded rbm2_from
  exact hrun _ (zeroAccumulators A { s with randnum := seedOf A.istop (A.shuffle_index 0) }) 0

/-! ### A batch on its threads -/

/-- With one thread the thread loop stores the whole batch. -/
theorem threadRanges_one (istart n_in_batch : Int) :
    threadRanges istart n_in_batch 1 = [(istart, istart + n_in_batch)] := by
  simp [threadRanges, threadLoop]

/-- With `max_threads = 1` one thread is used. -/
theorem threadCount_one (n_in_batch : Int) : threadCount 1 n_in_batch = 1 := by
  simp [threadCount, reduceThreads]

/-- A batch of fewer than 20 cases is run on one thread. -/
theorem threadCount_small (max_threads n_in_batch : Int) (hm : 1 ≤ max_threads)
    (hn : 0 ≤ n_in_batch) (hs : n_in_batch < 20) : threadCount max_threads n_in_batch = 1 := by
  unfold threadCount
  rw [reduceThreads_closed n_in_batch hn _ _ hm (by omega)]
  omega

/-- What the pooling loop finds in the slot of thread `t` is what the worker of the thread
has left. -/
theorem joined_slot (max_neurons nhid n_inputs : Nat) (W : Nat → Work) (t : Nat) :
    (∀ i, i < max_neurons →
      (joined max_neurons nhid n_inputs W).hid_bias_grad (t * max_neurons + i)
        = (W t).hid_bias_grad i ∧
      (joined max_neurons nhid n_inputs W).in_bias_grad (t * max_neurons + i)
        = (W t).in_bias_grad i) ∧
    (∀ j, j < nhid * n_inputs →
      (joined max_neurons nhid n_inputs W).w_grad (t * (nhid * n_inputs) + j)
        = (W t).w_grad j) := by
  have hdiv : ∀ (d i : Nat), i < d → (t * d + i) / d = t ∧ (t * d + i) % d = i := by
    intro d i hi
    constructor
    · rw [Nat.add_comm, Nat.add_mul_div_right _ _ (by omega), Nat.div_eq_of_lt hi,
        Nat.zero_add]
    · rw [Nat.add_comm, Nat.add_mul_mod_self_right, Nat.mod_eq_of_lt hi]
  constructor
  · intro i hi
    obtain ⟨e1, e2⟩ := hdiv max_neurons i hi
    simp only [joined, e1, e2, and_self]
  · intro j hj
    obtain ⟨e1, e2⟩ := hdiv (nhid * n_inputs) j hj
    simp only [joined, e1, e2]

/-- Element `h * n_inputs + v` lies in the slot of `w_grad`. -/
theorem flatIndex_lt (nhid n_inputs h v : Nat) (hh : h < nhid) (hv : v < n_inputs) :
    h * n_inputs + v < nhid * n_inputs := by
  have h1 : (h + 1) * n_inputs ≤ nhid * n_inputs := Nat.mul_le_mul_right _ (by omega)
  have h2 : (h + 1) * n_inputs = h * n_inputs + n_inputs := by ring
  omega

/-- The gradients of a batch after pooling are the sums of what the workers leave. -/
theorem pool_joined (max_neurons nhid n_inputs n : Nat) (W : Nat → Work)
    (hh : nhid ≤ max_neurons) (hv : n_inputs ≤ max_neurons) (hn : 1 ≤ n) :
    sameGradients nhid n_inputs
      (pooledGradients (pool max_neurons nhid n_inputs n (joined max_neurons nhid n_inputs W)))
      (summedGradients n W) := by
  obtain ⟨k, rfl⟩ : ∃ k, n = k + 1 := ⟨n - 1, by omega⟩
  obtain ⟨h1, _, h3, h4, _⟩ :=
    pool_spec max_neurons nhid n_inputs (joined max_neurons nhid n_inputs W) hh hv k
  refine ⟨?_, ?_, ?_⟩
  · intro h hlt
    simp only [pooledGradients, summedGradients]
    rw [h1 h, if_pos hlt]
    unfold slotSum
    refine congrArg List.sum (List.map_congr_left ?_)
    intro t _
    exact ((joined_slot max_neurons nhid n_inputs W t).1 h (by omega)).1
  · intro h v hlt vlt
    have hj := flatIndex_lt nhid n_inputs h v hlt vlt
    simp only [pooledGradients, summedGradients]
    rw [h3 (h * n_inputs + v), if_pos hj]
    unfold slotSum
    refine congrArg List.sum (List.map_congr_left ?_)
    intro t _
    exact (joined_slot max_neurons nhid n_inputs W t).2 _ hj
  · intro v vlt
    simp only [pooledGradients, summedGradients]
    rw [h4 v, if_pos vlt]
    unfold slotSum
    refine congrArg List.sum (List.map_congr_left ?_)
    intro t _
    exact ((joined_slot max_neurons nhid n_inputs W t).1 v (by omega)).2

/-- With all weights and biases zero, a batch leaves the same gradients after pooling with
two builds whose `exp` agree at 0. -/
theorem runBatch_zeroNet (B1 B2 : Build) (A : Args) (max_neurons : Nat) (max_threads : Int)
    (init : Nat → Work) (hw : A.w = fun _ => 0) (hhb : A.hid_bias = fun _ => 0)
    (hib : A.in_bias = fun _ => 0) (hexp : B1.exp 0 = B2.exp 0) (hm : 1 ≤ max_threads)
    (hh : A.nhid ≤ max_neurons) (hv : A.n_inputs ≤ max_neurons) :
    sameGradients A.nhid A.n_inputs
      (pooledGradients (runBatch B2 A max_neurons max_threads init))
      (pooledGradients (runBatch B1 A max_neurons max_threads init)) := by
  have hge : 1 ≤ threadCount max_threads (A.istop - A.istart) :=
    reduceThreads_ge_one _ _ _ hm
  have hW : ∀ t, workGradients (batchThread B2 A
        (threadRanges A.istart (A.istop - A.istart)
          (threadCount max_threads (A.istop - A.istart))) init t)
      = workGradients (batchThread B1 A
        (threadRanges A.istart (A.istop - A.istart)
          (threadCount max_threads (A.istop - A.istart))) init t) := by
    intro t
    unfold batchThread
    obtain ⟨e2, h2⟩ := rbm2_threaded_zeroNet B1 B2
      { A with
        istart := ((threadRanges A.istart (A.istop - A.istart)
          (threadCount max_threads (A.istop - A.istart))).getD t (0, 0)).1,
        istop := ((threadRanges A.istart (A.istop - A.istart)
          (threadCount max_threads (A.istop - A.istart))).getD t (0, 0)).2 }
      hw hhb hib hexp (init t)
    rw [h2]
    rfl
  have hsum : summedGradients (threadCount max_threads (A.istop - A.istart)).toNat
        (batchThread B2 A (threadRanges A.istart (A.istop - A.istart)
          (threadCount max_threads (A.istop - A.istart))) init)
      = summedGradients (threadCount max_threads (A.istop - A.istart)).toNat
        (batchThread B1 A (threadRanges A.istart (A.istop - A.istart)
          (threadCount max_threads (A.istop - A.istart))) init) := by
    have hf : ∀ t, (batchThread B2 A (threadRanges A.istart (A.istop - A.istart)
          (threadCount max_threads (A.istop - A.istart))) init t).hid_bias_grad
        = (batchThread B1 A (threadRanges A.istart (A.istop - A.istart)
          (threadCount max_threads (A.istop - A.istart))) init t).hid_bias_grad ∧
        (batchThread B2 A (threadRanges A.istart (A.istop - A.istart)
          (threadCount max_threads (A.istop - A.istart))) init t).w_grad
        = (batchThread B1 A (threadRanges A.istart (A.istop - A.istart)
          (threadCount max_threads (A.istop - A.istart))) init t).w_grad ∧
        (batchThread B2 A (threadRanges A.istart (A.istop - A.istart)
          (threadCount max_threads (A.istop - A.istart))) init t).in_bias_grad
        = (batchThread B1 A (threadRanges A.istart (A.istop - A.istart)
          (threadCount max_threads (A.istop - A.istart))) init t).in_bias_grad := by
      intro t
      have h := hW t
      simp only [workGradients, Prod.mk.injEq] at h
      exact h
    unfold summedGradients
    simp only [fun t => (hf t).1, fun t => (hf t).2.1, fun t => (hf t).2.2]
  have p2 := pool_joined max_neurons A.nhid A.n_inputs
    (threadCount max_threads (A.istop - A.istart)).toNat
    (batchThread B2 A (threadRanges A.istart (A.istop - A.istart)
      (threadCount max_threads (A.istop - A.istart))) init) hh hv (by omega)
  have p1 := pool_joined max_neurons A.nhid A.n_inputs
    (threadCount max_threads (A.istop - A.istart)).toNat
    (batchThread B1 A (threadRanges A.istart (A.istop - A.istart)
      (threadCount max_threads (A.istop - A.istart))) init) hh hv (by omega)
  rw [hsum] at p2
  unfold runBatch
  obtain ⟨a1, a2, a3⟩ := p1
  obtain ⟨b1, b2, b3⟩ := p2
  exact ⟨fun h hlt => (b1 h hlt).trans (a1 h hlt).symm,
    fun h v hlt vlt => (b2 h v hlt vlt).trans (a2 h v hlt vlt).symm,
    fun v vlt => (b3 v vlt).trans (a3 v vlt).symm⟩

/-- C13 as stated fails.  The batch is the 20 cases of `twentyArgs` (one input, one hidden
neuron, weights and biases 0, `mean_field` set, inputs sampled, one chain step; the first
case holds 0.0001, the others 0).  With `max_threads = 1` the single worker starts its
generator from `istop = 20` and its first uniform, `336140/2147483647`, is not below
0.0001; with `max_threads = 2` the reduction loop keeps two threads, the worker of
`[0, 10)` starts from `istop = 10` and its first uniform, `168070/2147483647`, is below
0.0001.  So `visible1[0]` of the first case is 0 in one run and 1 in the other, and the
pooled `in_bias_grad[0]` is -10 against -9, the pooled `w_grad[0]` -5 against -4.5: with the
build `plainBuild`, and with every build whose `exp` is 1 at 0, since every net input of
this batch is 0. -/
theorem C13_counterexample :
    (threadCount 1 (twentyArgs.istop - twentyArgs.istart) = 1 ∧
      threadCount 2 (twentyArgs.istop - twentyArgs.istart) = 2 ∧
      threadRanges twentyArgs.istart (twentyArgs.istop - twentyArgs.istart) 2
        = [(0, 10), (10, 20)]) ∧
    ((runBatch plainBuild twentyArgs 1 1 (fun _ => zeroWork)).in_bias_grad 0 = -10 ∧
      (runBatch plainBuild twentyArgs 1 2 (fun _ => zeroWork)).in_bias_grad 0 = -9) ∧
    ((runBatch plainBuild twentyArgs 1 1 (fun _ => zeroWork)).w_grad 0 = -5 ∧
      (runBatch plainBuild twentyArgs 1 2 (fun _ => zeroWork)).w_grad 0 = -(9 / 2)) ∧
    ((runBatch plainBuild twentyArgs 1 1 (fun _ => zeroWork)).hid_bias_grad 0 = 0 ∧
      (runBatch plainBuild twentyArgs 1 2 (fun _ => zeroWork)).hid_bias_grad 0 = 0) ∧
    (∀ B : Build, B.exp 0 = 1 →
      (runBatch B twentyArgs 1 1 (fun _ => zeroWork)).in_bias_grad 0 = -10 ∧
      (runBatch B twentyArgs 1 2 (fun _ => zeroWork)).in_bias_grad 0 = -9 ∧
      (runBatch B twentyArgs 1 1 (fun _ => zeroWork)).w_grad 0 = -5 ∧
      (runBatch B twentyArgs 1 2 (fun _ => zeroWork)).w_grad 0 = -(9 / 2)) := by
  have c1 : (runBatch plainBuild twentyArgs 1 1 (fun _ => zeroWork)).in_bias_grad 0 = -10 ∧
      (runBatch plainBuild twentyArgs 1 2 (fun _ => zeroWork)).in_bias_grad 0 = -9 := by
    decide!
  have c2 : (runBatch plainBuild twentyArgs 1 1 (fun _ => zeroWork)).w_grad 0 = -5 ∧
      (runBatch plainBuild twentyArgs 1 2 (fun _ => zeroWork)).w_grad 0 = -(9 / 2) := by
    decide!
  refine ⟨by decide, c1, c2, by decide!, ?_⟩
  intro B hB
  have hexp : plainBuild.exp 0 = B.exp 0 := by
    rw [hB]
    decide!
  obtain ⟨_, x2, x3⟩ := runBatch_zeroNet plainBuild B twentyArgs 1 1 (fun _ => zeroWork)
    rfl rfl rfl hexp (by decide) (by decide) (by decide)
  obtain ⟨_, y2, y3⟩ := runBatch_zeroNet plainBuild B twentyArgs 1 2 (fun _ => zeroWork)
    rfl rfl rfl hexp (by decide) (by decide) (by decide)
  have i1 := x3 0 (by decide)
  have i2 := y3 0 (by decide)
  have w1 := x2 0 0 (by decide) (by decide)
  have w2 := y2 0 0 (by decide) (by decide)
  simp only [pooledGradients] at i1 i2 w1 w2
  have hz : 0 * twentyArgs.n_inputs + 0 = 0 := by decide
  rw [hz] at w1 w2
  exact ⟨i1.trans c1.1, i2.trans c1.2, w1.trans c2.1, w2.trans c2.2⟩

/-- C13, amended. For a batch `[istart, istop)` with `istart ≤ istop`, the same weights,
biases, data, flags, chain length and `shuffle_index`, and `nhid`, `n_inputs` within
`max_neurons`: with `max_threads = 1` the pooled gradients are those of the single worker
on the whole batch; with any `max_threads ≥ 1` they are the sums, over the threads used,
of the gradients of the workers on their ranges, each worker drawing from its own
generator, started from its own `istop`; and when the batch holds fewer than 20 cases,
so that one thread is used, they are the same as with `max_threads = 1`. -/
theorem C13_pooled_gradients (B : Build) (A : Args) (max_neurons : Nat) (max_threads : Int)
    (init : Nat → Work) (hm : 1 ≤ max_threads) (hb : A.istart ≤ A.istop)
    (hh : A.nhid ≤ max_neurons) (hv : A.n_inputs ≤ max_neurons) :
    sameGradients A.nhid A.n_inputs
      (pooledGradients (runBatch B A max_neurons 1 init))
      (workGradients (rbm2_threaded B A (init 0))) ∧
    sameGradients A.nhid A.n_inputs
      (pooledGradients (runBatch B A max_neurons max_threads init))
      (summedGradients (threadCount max_threads (A.istop - A.istart)).toNat
        (batchThread B A (threadRanges A.istart (A.istop - A.istart)
          (threadCount max_threads (A.istop - A.istart))) init)) ∧
    (A.istop - A.istart < 20 →
      runBatch B A max_neurons max_threads init = runBatch B A max_neurons 1 init) := by
  have hge : 1 ≤ threadCount max_threads (A.istop - A.istart) :=
    reduceThreads_ge_one _ _ _ hm
  refine ⟨?_, ?_, ?_⟩
  · have hA : ({ A with istart := A.istart, istop := A.istart + (A.istop - A.istart) } : Args)
        = A := by
      have e : A.istart + (A.istop - A.istart) = A.istop := by omega
      rw [e]
    have hW : batchThread B A (threadRanges A.istart (A.istop - A.istart) 1) init 0
        = rbm2_threaded B A (init 0) := by
      unfold batchThread
      rw [threadRanges_one]
      simp only [List.getD_cons_zero]
      rw [hA]
    have hp := pool_joined max_neurons A.nhid A.n_inputs 1
      (batchThread B A (threadRanges A.istart (A.istop - A.istart) 1) init) hh hv (le_refl _)
    have h1 : (1 : Int).toNat = 1 := rfl
    have hsum : ∀ f : Nat → ℚ, ((List.range 1).map f).sum = f 0 := by
      intro f
      simp [List.range_succ]
    unfold runBatch
    simp only [threadCount_one, h1]
    obtain ⟨p1, p2, p3⟩ := hp
    refine ⟨?_, ?_, ?_⟩
    · intro h hlt
      have hp1 := p1 h hlt
      simp only [pooledGradients, summedGradients, workGradients, hsum, hW] at hp1 ⊢
      exact hp1
    · intro h v hlt vlt
      have hp2 := p2 h v hlt vlt
      simp only [pooledGradients, summedGradients, workGradients, hsum, hW] at hp2 ⊢
      exact hp2
    · intro v vlt
      have hp3 := p3 v vlt
      simp only [pooledGradients, summedGradients, workGradients, hsum, hW] at hp3 ⊢
      exact hp3
  · unfold runBatch
    exact pool_joined max_neurons A.nhid A.n_inputs _ _ hh hv (by omega)
  · intro hs
    unfold runBatch
    simp only [threadCount_one, threadCount_small max_threads _ hm (by omega) hs]

theorem C13_pooled_gradients_witness :
    sameGradients twentyArgs.nhid twentyArgs.n_inputs
      (pooledGradients (runBatch plainBuild twentyArgs 1 1 (fun _ => zeroWork)))
      (workGradients (rbm2_threaded plainBuild twentyArgs ((fun _ => zeroWork) 0))) ∧
    sameGradients twentyArgs.nhid twentyArgs.n_inputs
      (pooledGradients (runBatch plainBuild twentyArgs 1 2 (fun _ => zeroWork)))
      (summedGradients (threadCount 2 (twentyArgs.istop - twentyArgs.istart)).toNat
        (batchThread plainBuild twentyArgs
          (threadRanges twentyArgs.istart (twentyArgs.istop - twentyArgs.istart)
            (threadCount 2 (twentyArgs.istop - twentyArgs.istart))) (fun _ => zeroWork))) ∧
    (twentyArgs.istop - twentyArgs.istart < 20 →
      runBatch plainBuild twentyArgs 1 2 (fun _ => zeroWork)
        = runBatch plainBuild twentyArgs 1 1 (fun _ => zeroWork)) :=
  C13_pooled_gradients plainBuild twentyArgs 1 2 (fun _ => zeroWork) (by decide) (by decide)
    (by decide) (by decide)
/-! ### Sampling the inputs (lines 105-119) -/

/-- The state after one more step of the generator. -/
theorem rngIter_succ_last : ∀ (n : Nat) (s : Int), rngIter (n + 1) s = rngStep (rngIter n s)
  | 0, _ => rfl
  | n + 1, s => rngIter_succ_last n (rngStep s)

/-- Copying the case puts the values of the row in `visible1`. -/
theorem loadCase_spec (A : Args) (icase : Int) (s : Work) (v : Nat) :
    (loadCase A icase s).visible1 v
      = if v < A.n_inputs then A.data (A.shuffle_index icase * A.ncols + (v : Int))
        else s.visible1 v := by
  unfold loadCase
  refine forLoop_inv (loadInput A icase) (fun k t => ∀ v, t.visible1 v
      = if v < k then A.data (A.shuffle_index icase * A.ncols + (v : Int)) else s.visible1 v)
    0 s ?_ A.n_inputs ?_ v
  · intro v
    simp only [Nat.not_lt_zero, if_false]
  · intro k t _ hP v
    unfold loadInput
    simp only [Nat.zero_add, Function.update_apply]
    by_cases hk : v = k
    · subst hk
      simp only [if_true, Nat.lt_succ_self]
    · have hiff : v < k + 1 ↔ v < k := by omega
      simp only [hk, if_false, hiff, hP v]

/-- The loop of lines 111-118: input `v` is compared with the uniform made from the state
after `v + 1` steps of the generator. -/
theorem sampleLoop_spec (n : Nat) (s : Work) :
    (forLoop sampleInput n 0 s).randnum = rngIter n s.randnum ∧
    ∀ v, (forLoop sampleInput n 0 s).visible1 v
      = if v < n then (if frand (rngIter (v + 1) s.randnum) < s.visible1 v then 1 else 0)
        else s.visible1 v := by
  refine forLoop_inv sampleInput (fun k t => t.randnum = rngIter k s.randnum ∧
    ∀ v, t.visible1 v
      = if v < k then (if frand (rngIter (v + 1) s.randnum) < s.visible1 v then 1 else 0)
        else s.visible1 v) 0 s ?_ n ?_
  · refine ⟨rfl, ?_⟩
    intro v
    simp only [Nat.not_lt_zero, if_false]
  · intro k t _ hP
    obtain ⟨hr, hv⟩ := hP
    unfold sampleInput
    simp only [Nat.zero_add, Function.update_apply]
    refine ⟨?_, ?_⟩
    · rw [hr, rngIter_succ_last]
    · intro v
      by_cases hk : v = k
      · subst hk
        have e := hv v
        simp only [lt_irrefl, if_false] at e
        simp only [if_true, Nat.lt_succ_self, hr, rngIter_succ_last, e]
      · have hiff : v < k + 1 ↔ v < k := by omega
        simp only [hk, if_false, hiff, hv v]

/-- C26. With `greedy_mean_field` off and the generator in a state of `[1, 2147483646]`,
the step of lines 105-119 leaves in every `visible1[v]`, `v < n_inputs`, the value 1 when
the uniform drawn for it is below the data value and 0 otherwise, hence 0 or 1; a data
value that is exactly 0 gives 0 and a data value that is exactly 1 gives 1. -/
theorem C26_binarisation (A : Args) (icase : Int) (s : Work)
    (hg : A.greedy_mean_field = false) (h1 : 1 ≤ s.randnum) (h2 : s.randnum ≤ 2147483646)
    (v : Nat) (hv : v < A.n_inputs) :
    (sampleInputs A (loadCase A icase s)).visible1 v
      = (if frand (rngIter (v + 1) s.randnum)
            < A.data (A.shuffle_index icase * A.ncols + (v : Int)) then 1 else 0) ∧
    ((sampleInputs A (loadCase A icase s)).visible1 v = 0 ∨
      (sampleInputs A (loadCase A icase s)).visible1 v = 1) ∧
    (A.data (A.shuffle_index icase * A.ncols + (v : Int)) = 0 →
      (sampleInputs A (loadCase A icase s)).visible1 v = 0) ∧
    (A.data (A.shuffle_index icase * A.ncols + (v : Int)) = 1 →
      (sampleInputs A (loadCase A icase s)).visible1 v = 1) := by
  have hrand : (loadCase A icase s).randnum = s.randnum := by
    have hc := congrArg Work.randnum (loadCase_frame A icase s)
    exact hc
  have hval : (sampleInputs A (loadCase A icase s)).visible1 v
      = (if frand (rngIter (v + 1) s.randnum)
            < A.data (A.shuffle_index icase * A.ncols + (v : Int)) then 1 else 0) := by
    unfold sampleInputs
    rw [if_neg (by rw [hg]; decide), (sampleLoop_spec A.n_inputs (loadCase A icase s)).2 v,
      if_pos hv, hrand, loadCase_spec, if_pos hv]
  have hrange := rngIter_range (v + 1) s.randnum h1 h2
  have hf := frand_range (rngIter (v + 1) s.randnum) hrange.1 hrange.2
  refine ⟨hval, ?_, ?_, ?_⟩
  · rw [hval]
    split
    · exact Or.inr rfl
    · exact Or.inl rfl
  · intro h0
    rw [hval, h0, if_neg (not_lt.mpr (le_of_lt hf.1))]
  · intro h0
    rw [hval, h0, if_pos hf.2]

theorem C26_binarisation_witness :
    (sampleInputs twentyArgs (loadCase twentyArgs 0 { zeroWork with randnum := 1 })).visible1 0
      = (if frand (rngIter (0 + 1) ({ zeroWork with randnum := 1 } : Work).randnum)
            < twentyArgs.data (twentyArgs.shuffle_index 0 * twentyArgs.ncols + ((0 : Nat) : Int))
          then 1 else 0) ∧
    ((sampleInputs twentyArgs (loadCase twentyArgs 0 { zeroWork with randnum := 1 })).visible1 0
        = 0 ∨
      (sampleInputs twentyArgs (loadCase twentyArgs 0 { zeroWork with randnum := 1 })).visible1 0
        = 1) ∧
    (twentyArgs.data (twentyArgs.shuffle_index 0 * twentyArgs.ncols + ((0 : Nat) : Int)) = 0 →
      (sampleInputs twentyArgs (loadCase twentyArgs 0 { zeroWork with randnum := 1 })).visible1 0
        = 0) ∧
    (twentyArgs.data (twentyArgs.shuffle_index 0 * twentyArgs.ncols + ((0 : Nat) : Int)) = 1 →
      (sampleInputs twentyArgs (loadCase twentyArgs 0 { zeroWork with randnum := 1 })).visible1 0
        = 1) :=
  C26_binarisation twentyArgs 0 { zeroWork with randnum := 1 } rfl (by decide) (by decide)
    0 (by decide)

/-! ### The generator states the workers of a batch start from (lines 74-76, 518-537) -/

/-- A batch without a case is run on one thread. -/
theorem reduceThreads_nonpos (n_in_batch : Int) (hn : n_in_batch ≤ 0) :
    ∀ (fuel : Nat) (n_threads : Int), 1 ≤ n_threads → (n_threads - 1).toNat ≤ fuel →
      reduceThreads n_in_batch fuel n_threads = 1
  | 0, n_threads, h1, hf => by
    simp only [reduceThreads]
    omega
  | fuel + 1, n_threads, h1, hf => by
    unfold reduceThreads
    by_cases hgt : n_threads > 1
    · have hq := tdiv_of_nonpos n_in_batch n_threads hn (by omega)
      rw [if_pos ⟨hgt, by omega⟩]
      exact reduceThreads_nonpos n_in_batch hn fuel (n_threads - 1) (by omega) (by omega)
    · rw [if_neg (fun h => hgt h.1)]
      omega

/-- More than one thread is used only for a batch of at least 20 cases, and then every
worker range holds at least 10 cases. -/
theorem threadCount_many (max_threads n_in_batch : Int)
    (hgt : 1 < threadCount max_threads n_in_batch) :
    20 ≤ n_in_batch ∧
    ∀ istart : Int, ∀ r ∈ threadRanges istart n_in_batch (threadCount max_threads n_in_batch),
      10 ≤ r.2 - r.1 := by
  have hm : 1 ≤ max_threads := by
    by_contra hc
    have e : max_threads.toNat = 0 := by omega
    unfold threadCount at hgt
    rw [e] at hgt
    simp only [reduceThreads] at hgt
    omega
  have hn : 0 ≤ n_in_batch := by
    by_contra hc
    have e := reduceThreads_nonpos n_in_batch (by omega) max_threads.toNat max_threads hm
      (by omega)
    unfold threadCount at hgt
    omega
  have hclosed : threadCount max_threads n_in_batch
      = max 1 (min max_threads (n_in_batch / 10)) :=
    reduceThreads_closed n_in_batch hn _ _ hm (by omega)
  refine ⟨by omega, ?_⟩
  intro istart r hr
  have hq10 : 10 ≤ n_in_batch / threadCount max_threads n_in_batch := by
    rw [Int.le_ediv_iff_mul_le (by omega)]
    omega
  have hsizes := (rangeSize_ge_floor n_in_batch (threadCount max_threads n_in_batch) hn
    (by omega) istart) (r.2 - r.1) (List.mem_map.2 ⟨r, hr, rfl⟩)
  omega

/-- Ranges of at least 10 cases that tile an interval stop at least 10 apart. -/
theorem tiles_stops : ∀ (rs : List (Int × Int)) (a b : Int), Tiles a b rs →
    (∀ r ∈ rs, 10 ≤ r.2 - r.1) →
    List.Pairwise (fun p q : Int × Int => p.2 + 10 ≤ q.2) rs
  | [], _, _, _, _ => List.Pairwise.nil
  | r :: rs, a, b, h, hs => by
    obtain ⟨h1, h2, h3⟩ := h
    refine List.Pairwise.cons ?_
      (tiles_stops rs _ _ h3 (fun x hx => hs x (List.mem_cons_of_mem _ hx)))
    intro x hx
    have hb := (tiles_bounds rs _ _ h3 x hx).1
    have hx10 := hs x (List.mem_cons_of_mem _ hx)
    omega

/-- The starting state when the sum `istop + shuffle_index[0]` neither wraps nor reaches
the modulus: the sum itself, or 1 when the sum is 0. -/
theorem seedOf_small (istop s0 : Int) (hlo : -2147483647 < istop + s0)
    (hhi : istop + s0 < 2147483647) :
    seedOf istop s0 = if istop + s0 = 0 then 1 else istop + s0 := by
  have hw : wrap32 (istop + s0) = istop + s0 := by simp only [wrap32]; omega
  have hm : Int.tmod (istop + s0) 2147483647 = istop + s0 := by
    by_cases hneg : 0 ≤ istop + s0
    · rw [Int.tmod_eq_emod hneg (by omega)]
      omega
    · have hq := tdiv_of_nonpos (istop + s0) 2147483647 (by omega) (by omega)
      have hd : Int.tdiv (istop + s0) 2147483647 = -(Int.tdiv (-(istop + s0)) 2147483647) := by
        rw [Int.neg_tdiv, Int.neg_neg]
      have h0 : Int.tdiv (-(istop + s0)) 2147483647 = (-(istop + s0)) / 2147483647 :=
        Int.tdiv_eq_ediv (by omega) (by omega)
      rw [Int.tmod_def, hd, h0]
      omega
  simp only [seedOf, IM, hw, hm]

/-- Once `n_done` has reached `nc`, the batches that follow hold no case. -/
theorem batchPlan_neg (max_threads nc n_batches : Int) :
    ∀ (left ibatch : Nat) (istart n_done : Int),
      (n_batches - (ibatch : Int) = left) → nc ≤ n_done →
      ∀ b ∈ batchPlan max_threads nc n_batches left ibatch istart n_done,
        b.n_threads = threadCount max_threads b.n_in_batch ∧ b.n_in_batch ≤ 0
  | 0, _, _, _, _, _ => by simp [batchPlan]
  | left + 1, ibatch, istart, n_done, hleft, h1 => by
    intro b hb
    simp only [batchPlan, List.mem_cons] at hb
    have hq := tdiv_of_nonpos (nc - n_done) (n_batches - (ibatch : Int)) (by omega) (by omega)
    rcases hb with rfl | hb
    · exact ⟨rfl, hq.2⟩
    · exact batchPlan_neg max_threads nc n_batches left (ibatch + 1) _
        (n_done + Int.tdiv (nc - n_done) (n_batches - (ibatch : Int)))
        (by push_cast; omega) (by omega) b hb

/-- The batches of an epoch lie in `[0, nc]`, or hold no case. -/
theorem batchPlan_bounds (max_threads nc n_batches : Int) :
    ∀ (left ibatch : Nat) (n_done : Int),
      (n_batches - (ibatch : Int) = left) → 0 ≤ n_done →
      ∀ b ∈ batchPlan max_threads nc n_batches left ibatch n_done n_done,
        b.n_threads = threadCount max_threads b.n_in_batch ∧
        (b.n_in_batch ≤ 0 ∨ (0 ≤ b.istart ∧ b.istart + b.n_in_batch ≤ nc))
  | 0, _, _, _, _ => by simp [batchPlan]
  | left + 1, ibatch, n_done, hleft, h1 => by
    intro b hb
    simp only [batchPlan, List.mem_cons] at hb
    have hpos : (0 : Int) < n_batches - (ibatch : Int) := by omega
    rcases hb with rfl | hb
    · refine ⟨rfl, ?_⟩
      by_cases hc : nc - n_done ≤ 0
      · exact Or.inl (tdiv_of_nonpos _ _ hc hpos).2
      · right
        have hq : Int.tdiv (nc - n_done) (n_batches - (ibatch : Int))
            = (nc - n_done) / (n_batches - (ibatch : Int)) :=
          Int.tdiv_eq_ediv (by omega) (by omega)
        have hle : (nc - n_done) / (n_batches - (ibatch : Int)) ≤ nc - n_done :=
          Int.ediv_le_self _ (by omega)
        simp only [hq]
        omega
    · by_cases hc : nc - n_done ≤ 0
      · have hq := tdiv_of_nonpos _ _ hc hpos
        have hall := batchPlan_neg max_threads nc n_batches left (ibatch + 1)
          (n_done + Int.tdiv (nc - n_done) (n_batches - (ibatch : Int)))
          (n_done + Int.tdiv (nc - n_done) (n_batches - (ibatch : Int)))
          (by push_cast; omega) (by omega) b hb
        exact ⟨hall.1, Or.inl hall.2⟩
      · have hq : Int.tdiv (nc - n_done) (n_batches - (ibatch : Int))
            = (nc - n_done) / (n_batches - (ibatch : Int)) :=
          Int.tdiv_eq_ediv (by omega) (by omega)
        have hge : 0 ≤ (nc - n_done) / (n_batches - (ibatch : Int)) :=
          Int.ediv_nonneg (by omega) (by omega)
        exact batchPlan_bounds max_threads nc n_batches left (ibatch + 1)
          (n_done + Int.tdiv (nc - n_done) (n_batches - (ibatch : Int)))
          (by push_cast; omega) (by omega) b hb

/-- C21. In a batch of an epoch that is run on more than one thread, with
`nc + shuffle_index[0] < 2147483647`, every worker range stops inside `[10, nc]`, the
state worker `t` starts its generator from is `seedOf` of its own `istop` and of
`shuffle_index[0]` (`s0`, an `int`), which is their sum, or 1 when the sum is 0, and the
states of two different workers are different. -/
theorem C21_distinct_streams (max_threads nc n_batches s0 : Int)
    (hs : -2147483648 ≤ s0) (hsum : nc + s0 < 2147483647) (b : Batch)
    (hb : b ∈ epochBatches max_threads nc n_batches) (hgt : 1 < b.n_threads) :
    (∀ (B : Build) (A : Args) (init : Nat → Work) (t : Nat),
      A.shuffle_index 0 = s0 →
      batchThread B A (threadRanges b.istart b.n_in_batch b.n_threads) init t
        = rbm2_from B
            { A with
              istart := ((threadRanges b.istart b.n_in_batch b.n_threads).getD t (0, 0)).1,
              istop := ((threadRanges b.istart b.n_in_batch b.n_threads).getD t (0, 0)).2 }
            (seedOf ((threadRanges b.istart b.n_in_batch b.n_threads).getD t (0, 0)).2 s0)
            (init t)) ∧
    (∀ r ∈ threadRanges b.istart b.n_in_batch b.n_threads,
      10 ≤ r.2 ∧ r.2 ≤ nc ∧ seedOf r.2 s0 = (if r.2 + s0 = 0 then 1 else r.2 + s0)) ∧
    List.Pairwise (fun x y : Int => x ≠ y)
      ((threadRanges b.istart b.n_in_batch b.n_threads).map (fun r => seedOf r.2 s0)) := by
  have hplan := batchPlan_bounds max_threads nc n_batches n_batches.toNat 0 0
  by_cases hnb : 0 ≤ n_batches
  swap
  · have e : n_batches.toNat = 0 := by omega
    simp only [epochBatches, e, batchPlan, List.not_mem_nil] at hb
  have hbb := hplan (by simp; omega) (le_refl _) b hb
  obtain ⟨ht, hrange⟩ := hbb
  rw [ht] at hgt
  have hmany := threadCount_many max_threads b.n_in_batch hgt
  have hr : 0 ≤ b.istart ∧ b.istart + b.n_in_batch ≤ nc := by
    rcases hrange with h | h
    · omega
    · exact h
  have htiles := (threadRanges_tiles b.istart b.n_in_batch b.n_threads (by omega)
    (by rw [ht]; omega)).2
  have hsize : ∀ r ∈ threadRanges b.istart b.n_in_batch b.n_threads, 10 ≤ r.2 - r.1 := by
    rw [ht]
    exact hmany.2 b.istart
  have hfacts : ∀ r ∈ threadRanges b.istart b.n_in_batch b.n_threads,
      10 ≤ r.2 ∧ r.2 ≤ nc ∧ seedOf r.2 s0 = (if r.2 + s0 = 0 then 1 else r.2 + s0) := by
    intro r hr2
    have hbd := tiles_bounds _ _ _ htiles r hr2
    have h10 := hsize r hr2
    exact ⟨by omega, by omega, seedOf_small r.2 s0 (by omega) (by omega)⟩
  refine ⟨?_, hfacts, ?_⟩
  · intro B A init t hA
    unfold batchThread rbm2_threaded
    simp only [hA]
  · rw [List.pairwise_map]
    refine List.Pairwise.imp_of_mem ?_ (tiles_stops _ _ _ htiles hsize)
    intro p q hp hq hpq
    rw [(hfacts p hp).2.2, (hfacts q hq).2.2]
    have hp1 := (hfacts p hp).1
    split <;> split <;> omega

theorem C21_distinct_streams_witness :
    (∀ (B : Build) (A : Args) (init : Nat → Work) (t : Nat),
      A.shuffle_index 0 = 3 →
      batchThread B A (threadRanges 0 57 5) init t
        = rbm2_from B
            { A with
              istart := ((threadRanges 0 57 5).getD t (0, 0)).1,
              istop := ((threadRanges 0 57 5).getD t (0, 0)).2 }
            (seedOf ((threadRanges 0 57 5).getD t (0, 0)).2 3)
            (init t)) ∧
    (∀ r ∈ threadRanges 0 57 5,
      10 ≤ r.2 ∧ r.2 ≤ 57 ∧ seedOf r.2 3 = (if r.2 + 3 = 0 then 1 else r.2 + 3)) ∧
    List.Pairwise (fun x y : Int => x ≠ y)
      ((threadRanges 0 57 5).map (fun r => seedOf r.2 3)) :=
  C21_distinct_streams 8 57 1 3 (by decide) (by decide)
    { istart := 0, n_in_batch := 57, n_threads := 5 } (by decide) (by decide)

/-! ### Two runs of the worker side by side -/

/-- Relational rule for a counted loop run on two states. -/
theorem forLoop_rel {σ : Type} (body1 body2 : Nat → σ → σ) (R : Nat → σ → σ → Prop)
    (i : Nat) (s1 s2 : σ) (h0 : R 0 s1 s2) :
    ∀ n : Nat, (∀ k t1 t2, k < n → R k t1 t2 → R (k + 1) (body1 (i + k) t1) (body2 (i + k) t2)) →
      R n (forLoop body1 n i s1) (forLoop body2 n i s2)
  | 0, _ => h0
  | n + 1, hstep => by
    rw [forLoop_succ_last, forLoop_succ_last]
    exact hstep n _ _ (by omega)
      (forLoop_rel body1 body2 R i s1 s2 h0 n (fun k t1 t2 hk hR => hstep k t1 t2 (by omega) hR))

/-- Writing the same value to the same element of two vectors keeps the elements equal
that were equal. -/
theorem update_agree (a b : Vec) (k j : Nat) (x y : ℚ) (hxy : x = y)
    (hab : j ≠ k → a j = b j) :
    Function.update a k x j = Function.update b k y j := by
  simp only [Function.update_apply]
  by_cases hj : j = k
  · simp only [hj, if_true, hxy]
  · simp only [hj, if_false, hab hj]

/-- What is known of two states stays known when less is asked. -/
theorem Agree.mono {A : Args} {v1 v2 h1 h2 ha w1 w2 g1 g2 ga : Nat} {t u : Work}
    (h : Agree A v1 v2 h1 h2 ha t u) (e1 : w1 ≤ v1) (e2 : w2 ≤ v2) (e3 : g1 ≤ h1)
    (e4 : g2 ≤ h2) (e5 : ga ≤ ha) : Agree A w1 w2 g1 g2 ga t u :=
  { h with
    vis1 := fun i hi => h.vis1 i (by omega)
    vis2 := fun i hi => h.vis2 i (by omega)
    hid1 := fun i hi => h.hid1 i (by omega)
    hid2 := fun i hi => h.hid2 i (by omega)
    act := fun i hi => h.act i (by omega) }

/-- One trip of the loop of line 107 on two states. -/
theorem loadInput_agree (A : Args) (icase : Int) (k v2 h1 h2 ha : Nat) (t u : Work)
    (h : Agree A k v2 h1 h2 ha t u) :
    Agree A (k + 1) v2 h1 h2 ha (loadInput A icase k t) (loadInput A icase k u) :=
  { h with
    vis1 := fun i hi => update_agree _ _ _ _ _ _ rfl (fun hne => h.vis1 i (by omega)) }

/-- Copying the case on two states. -/
theorem loadCase_agree (A : Args) (icase : Int) (v1 v2 h1 h2 ha : Nat) (t u : Work)
    (h : Agree A v1 v2 h1 h2 ha t u) :
    Agree A A.n_inputs v2 h1 h2 ha (loadCase A icase t) (loadCase A icase u) := by
  unfold loadCase
  refine forLoop_rel (loadInput A icase) (loadInput A icase)
    (fun k x y => Agree A k v2 h1 h2 ha x y) 0 t u
    (h.mono (Nat.zero_le _) (le_refl _) (le_refl _) (le_refl _) (le_refl _)) A.n_inputs ?_
  intro k x y _ hk
  rw [Nat.zero_add]
  exact loadInput_agree A icase k v2 h1 h2 ha x y hk

/-- The net input of a hidden neuron reads the first `n_inputs` elements of the visible
vector only. -/
theorem hiddenNet_congr (A : Args) (x y : Vec) (ihid : Nat)
    (h : ∀ i, i < A.n_inputs → x i = y i) : hiddenNet A x ihid = hiddenNet A y ihid := by
  rw [hiddenNet_eq, hiddenNet_eq]
  congr 2
  apply List.map_congr_left
  intro v hv
  rw [h v (List.mem_range.1 hv)]

/-- The net input of an input reads the first `nhid` elements of the hidden vector only. -/
theorem visibleNet_congr (A : Args) (x y : Vec) (ivis : Nat)
    (h : ∀ i, i < A.nhid → x i = y i) : visibleNet A x ivis = visibleNet A y ivis := by
  rw [visibleNet_eq, visibleNet_eq]
  congr 2
  apply List.map_congr_left
  intro v hv
  rw [h v (List.mem_range.1 hv)]

/-- One trip of the loop of lines 111-118 on two states. -/
theorem sampleInput_agree (A : Args) (k v1 v2 h1 h2 ha : Nat) (t u : Work) (hk : k < v1)
    (h : Agree A v1 v2 h1 h2 ha t u) :
    Agree A v1 v2 h1 h2 ha (sampleInput k t) (sampleInput k u) :=
  { h with
    rand := congrArg rngStep h.rand
    vis1 := fun i _ => update_agree _ _ _ _ _ _
      (by
        show (if frand (rngStep t.randnum) < t.visible1 k then (1 : ℚ) else 0)
          = (if frand (rngStep u.randnum) < u.visible1 k then (1 : ℚ) else 0)
        rw [h.rand, h.vis1 k hk])
      (fun _ => h.vis1 i (by assumption)) }

/-- Sampling the inputs on two states. -/
theorem sampleInputs_agree (A : Args) (v1 v2 h1 h2 ha : Nat) (t u : Work)
    (hv : A.n_inputs ≤ v1) (h : Agree A v1 v2 h1 h2 ha t u) :
    Agree A v1 v2 h1 h2 ha (sampleInputs A t) (sampleInputs A u) := by
  unfold sampleInputs
  split
  · exact h
  · refine forLoop_rel sampleInput sampleInput (fun _ x y => Agree A v1 v2 h1 h2 ha x y) 0 t u
      h A.n_inputs ?_
    intro k x y hk hxy
    rw [Nat.zero_add]
    exact sampleInput_agree A k v1 v2 h1 h2 ha x y (by omega) hxy

/-- One trip of the loop of lines 126-134 on two states. -/
theorem hiddenProb_agree (B : Build) (A : Args) (k v1 v2 ha : Nat) (t u : Work)
    (hk : k < A.nhid) (hv : A.n_inputs ≤ v1) (h : Agree A v1 v2 k k ha t u) :
    Agree A v1 v2 (k + 1) (k + 1) ha (hiddenProb B A k t) (hiddenProb B A k u) := by
  have hnet : hiddenNet A t.visible1 k = hiddenNet A u.visible1 k :=
    hiddenNet_congr A _ _ k (fun i hi => h.vis1 i (by omega))
  exact
    { h with
      hid1 := fun i hi => update_agree _ _ _ _ _ _
        (by
          show logistic B (hiddenNet A t.visible1 k) = logistic B (hiddenNet A u.visible1 k)
          rw [hnet])
        (fun hne => h.hid1 i (by omega))
      hid2 := fun i hi => update_agree _ _ _ _ _ _
        (by
          show logistic B (hiddenNet A t.visible1 k) = logistic B (hiddenNet A u.visible1 k)
          rw [hnet])
        (fun hne => h.hid2 i (by omega))
      hof := fun i hi => update_agree _ _ _ _ _ _
        (by
          show t.hid_on_frac k + logistic B (hiddenNet A t.visible1 k)
            = u.hid_on_frac k + logistic B (hiddenNet A u.visible1 k)
          rw [hnet, h.hof k hk])
        (fun _ => h.hof i hi) }

/-- The hidden probabilities of the case on two states. -/
theorem hiddenProbs_agree (B : Build) (A : Args) (v1 v2 h1 h2 ha : Nat) (t u : Work)
    (hv : A.n_inputs ≤ v1) (h : Agree A v1 v2 h1 h2 ha t u) :
    Agree A v1 v2 A.nhid A.nhid ha (hiddenProbs B A t) (hiddenProbs B A u) := by
  unfold hiddenProbs
  refine forLoop_rel (hiddenProb B A) (hiddenProb B A)
    (fun k x y => Agree A v1 v2 k k ha x y) 0 t u
    (h.mono (le_refl _) (le_refl _) (Nat.zero_le _) (Nat.zero_le _) (le_refl _)) A.nhid ?_
  intro k x y hk hxy
  rw [Nat.zero_add]
  exact hiddenProb_agree B A k v1 v2 ha x y hk hv hxy

/-- One trip of the loop of lines 138-147 on two states. -/
theorem directErrorTerm_agree (B : Build) (A : Args) (k v1 v2 h1 h2 ha : Nat) (t u : Work)
    (hk : k < v1) (hh : A.nhid ≤ h1) (h : Agree A v1 v2 h1 h2 ha t u) :
    Agree A v1 v2 h1 h2 ha (directErrorTerm B A k t) (directErrorTerm B A k u) :=
  { h with
    err := by
      show errorTerm B (t.visible1 k) (logistic B (visibleNet A t.hidden1 k)) t.error
        = errorTerm B (u.visible1 k) (logistic B (visibleNet A u.hidden1 k)) u.error
      rw [h.vis1 k hk, h.err, visibleNet_congr A _ _ k (fun i hi => h.hid1 i (by omega))] }

/-- The direct reconstruction error on two states. -/
theorem directError_agree (B : Build) (A : Args) (v1 v2 h1 h2 ha : Nat) (t u : Work)
    (hv : A.n_inputs ≤ v1) (hh : A.nhid ≤ h1) (h : Agree A v1 v2 h1 h2 ha t u) :
    Agree A v1 v2 h1 h2 ha (directError B A t) (directError B A u) := by
  unfold directError
  split
  · refine forLoop_rel (directErrorTerm B A) (directErrorTerm B A)
      (fun _ x y => Agree A v1 v2 h1 h2 ha x y) 0 t u h A.n_inputs ?_
    intro k x y hk hxy
    rw [Nat.zero_add]
    exact directErrorTerm_agree B A k v1 v2 h1 h2 ha x y (by omega) hh hxy
  · exact h

/-- One trip of the loop of lines 160-167 on two states. -/
theorem sampleHiddenUnit_agree (A : Args) (k v1 v2 h1 h2 : Nat) (t u : Work)
    (hk : k < h2) (h : Agree A v1 v2 h1 h2 k t u) :
    Agree A v1 v2 h1 h2 (k + 1) (sampleHiddenUnit k t) (sampleHiddenUnit k u) :=
  { h with
    rand := congrArg rngStep h.rand
    act := fun i hi => update_agree _ _ _ _ _ _
      (by
        show (if frand (rngStep t.randnum) < t.hidden2 k then (1 : ℚ) else 0)
          = (if frand (rngStep u.randnum) < u.hidden2 k then (1 : ℚ) else 0)
        rw [h.rand, h.hid2 k hk])
      (fun hne => h.act i (by omega)) }

/-- Sampling the hidden layer on two states. -/
theorem sampleHidden_agree (A : Args) (v1 v2 h1 h2 ha : Nat) (t u : Work)
    (hh : A.nhid ≤ h2) (h : Agree A v1 v2 h1 h2 ha t u) :
    Agree A v1 v2 h1 h2 A.nhid (sampleHidden A t) (sampleHidden A u) := by
  unfold sampleHidden
  refine forLoop_rel sampleHiddenUnit sampleHiddenUnit
    (fun k x y => Agree A v1 v2 h1 h2 k x y) 0 t u
    (h.mono (le_refl _) (le_refl _) (le_refl _) (le_refl _) (Nat.zero_le _)) A.nhid ?_
  intro k x y hk hxy
  rw [Nat.zero_add]
  exact sampleHiddenUnit_agree A k v1 v2 h1 h2 x y (by omega) hxy

/-- One trip of the loop of lines 172-200 on two states. -/
theorem reconstructInput_agree (B : Build) (A : Args) (ichain k v1 h1 h2 ha : Nat)
    (t u : Work) (hk : k < v1) (hh : A.nhid ≤ ha) (h : Agree A v1 k h1 h2 ha t u) :
    Agree A v1 (k + 1) h1 h2 ha (reconstructInput B A ichain k t)
      (reconstructInput B A ichain k u) := by
  have hnet : visibleNet A t.hidden_act k = visibleNet A u.hidden_act k :=
    visibleNet_congr A _ _ k (fun i hi => h.act i (by omega))
  have hx := h.vis1 k hk
  have he := h.err
  have hr := h.rand
  unfold reconstructInput
  by_cases c1 : B.RECON_ERR_DIRECT = false ∧ ichain = 0
  · by_cases c2 : A.mean_field = true
    · simp only [c1, c2, and_self, if_true]
      exact
        { h with
          err := by
            show errorTerm B (t.visible1 k) (logistic B (visibleNet A t.hidden_act k)) t.error
              = errorTerm B (u.visible1 k) (logistic B (visibleNet A u.hidden_act k)) u.error
            rw [hx, he, hnet]
          vis2 := fun i hi => update_agree _ _ _ _ _ _
            (by
              show logistic B (visibleNet A t.hidden_act k)
                = logistic B (visibleNet A u.hidden_act k)
              rw [hnet])
            (fun hne => h.vis2 i (by omega)) }
    · simp only [c1, c2, and_self, if_true, if_false]
      exact
        { h with
          rand := congrArg rngStep hr
          err := by
            show errorTerm B (t.visible1 k) (logistic B (visibleNet A t.hidden_act k)) t.error
              = errorTerm B (u.visible1 k) (logistic B (visibleNet A u.hidden_act k)) u.error
            rw [hx, he, hnet]
          vis2 := fun i hi => update_agree _ _ _ _ _ _
            (by
              show (if frand (rngStep t.randnum) < logistic B (visibleNet A t.hidden_act k)
                  then (1 : ℚ) else 0)
                = (if frand (rngStep u.randnum) < logistic B (visibleNet A u.hidden_act k)
                  then (1 : ℚ) else 0)
              rw [hr, hnet])
            (fun hne => h.vis2 i (by omega)) }
  · by_cases c2 : A.mean_field = true
    · simp only [c1, c2, if_true, if_false]
      exact
        { h with
          vis2 := fun i hi => update_agree _ _ _ _ _ _
            (by
              show logistic B (visibleNet A t.hidden_act k)
                = logistic B (visibleNet A u.hidden_act k)
              rw [hnet])
            (fun hne => h.vis2 i (by omega)) }
    · simp only [c1, c2, if_false]
      exact
        { h with
          rand := congrArg rngStep hr
          vis2 := fun i hi => update_agree _ _ _ _ _ _
            (by
              show (if frand (rngStep t.randnum) < logistic B (visibleNet A t.hidden_act k)
                  then (1 : ℚ) else 0)
                = (if frand (rngStep u.randnum) < logistic B (visibleNet A u.hidden_act k)
                  then (1 : ℚ) else 0)
              rw [hr, hnet])
            (fun hne => h.vis2 i (by omega)) }

/-- The reconstruction of the inputs on two states. -/
theorem reconstruct_agree (B : Build) (A : Args) (ichain v1 v2 h1 h2 ha : Nat) (t u : Work)
    (hv : A.n_inputs ≤ v1) (hh : A.nhid ≤ ha) (h : Agree A v1 v2 h1 h2 ha t u) :
    Agree A v1 A.n_inputs h1 h2 ha (reconstruct B A ichain t) (reconstruct B A ichain u) := by
  unfold reconstruct
  refine forLoop_rel (reconstructInput B A ichain) (reconstructInput B A ichain)
    (fun k x y => Agree A v1 k h1 h2 ha x y) 0 t u
    (h.mono (le_refl _) (Nat.zero_le _) (le_refl _) (le_refl _) (le_refl _)) A.n_inputs ?_
  intro k x y hk hxy
  rw [Nat.zero_add]
  exact reconstructInput_agree B A ichain k v1 h1 h2 ha x y (by omega) hh hxy

/-- One trip of the loop of lines 205-211 on two states. -/
theorem hiddenProb2_agree (B : Build) (A : Args) (k v1 v2 h1 ha : Nat) (t u : Work)
    (hv : A.n_inputs ≤ v2) (h : Agree A v1 v2 h1 k ha t u) :
    Agree A v1 v2 h1 (k + 1) ha (hiddenProb2 B A k t) (hiddenProb2 B A k u) :=
  { h with
    hid2 := fun i hi => update_agree _ _ _ _ _ _
      (by
        show logistic B (hiddenNet A t.visible2 k) = logistic B (hiddenNet A u.visible2 k)
        rw [hiddenNet_congr A _ _ k (fun i hi => h.vis2 i (by omega))])
      (fun hne => h.hid2 i (by omega)) }

/-- The hidden probabilities given `visible2` on two states. -/
theorem hiddenProbs2_agree (B : Build) (A : Args) (v1 v2 h1 h2 ha : Nat) (t u : Work)
    (hv : A.n_inputs ≤ v2) (h : Agree A v1 v2 h1 h2 ha t u) :
    Agree A v1 v2 h1 A.nhid ha (hiddenProbs2 B A t) (hiddenProbs2 B A u) := by
  unfold hiddenProbs2
  refine forLoop_rel (hiddenProb2 B A) (hiddenProb2 B A)
    (fun k x y => Agree A v1 v2 h1 k ha x y) 0 t u
    (h.mono (le_refl _) (le_refl _) (le_refl _) (Nat.zero_le _) (le_refl _)) A.nhid ?_
  intro k x y hk hxy
  rw [Nat.zero_add]
  exact hiddenProb2_agree B A k v1 v2 h1 ha x y hv hxy

/-- One trip of the Markov chain on two states: whatever `visible2` and `hidden_act` held,
after the trip they agree. -/
theorem chainStep_agree (B : Build) (A : Args) (ichain v1 v2 h1 h2 ha : Nat) (t u : Work)
    (hv : A.n_inputs ≤ v1) (hh : A.nhid ≤ h2) (h : Agree A v1 v2 h1 h2 ha t u) :
    Agree A v1 A.n_inputs h1 A.nhid A.nhid (chainStep B A ichain t) (chainStep B A ichain u) := by
  unfold chainStep
  exact hiddenProbs2_agree B A _ _ _ _ _ _ _ (le_refl _)
    (reconstruct_agree B A ichain _ _ _ _ _ _ _ hv (le_refl _)
      (sampleHidden_agree A _ _ _ _ _ _ _ hh h))

/-- The Markov chain on two states that agree in `visible1` and `hidden2`: with at least
one trip, `visible2` and `hidden_act` agree afterwards whatever they held. -/
theorem chain_agree (B : Build) (A : Args) (v1 v2 h1 ha : Nat) (t u : Work)
    (hv : A.n_inputs ≤ v1) (hn : 1 ≤ A.n_chain ∨ (A.n_inputs ≤ v2 ∧ A.nhid ≤ ha))
    (h : Agree A v1 v2 h1 A.nhid ha t u) :
    Agree A v1 A.n_inputs h1 A.nhid A.nhid (chain B A t) (chain B A u) := by
  unfold chain
  have hloop := forLoop_rel (chainStep B A) (chainStep B A)
    (fun k x y => Agree A v1 (if k = 0 then v2 else A.n_inputs) h1 A.nhid
      (if k = 0 then ha else A.nhid) x y) 0 t u
    (by simp only [if_true]; exact h) A.n_chain ?_
  · by_cases h0 : A.n_chain = 0
    · rcases hn with hn | hn
      · omega
      · rw [h0] at hloop ⊢
        simp only [if_true] at hloop
        exact hloop.mono (le_refl _) hn.1 (le_refl _) (le_refl _) hn.2
    · simp only [h0, if_false] at hloop
      exact hloop
  · intro k x y _ hxy
    rw [Nat.zero_add]
    simp only [Nat.succ_ne_zero, if_false]
    exact chainStep_agree B A k _ _ _ _ _ x y hv (le_refl _) hxy

/-- One trip of the loop of lines 222-223 on two states. -/
theorem weightGradMean_agree (A : Args) (ihid k v1 v2 h1 h2 ha : Nat) (t u : Work)
    (hi : ihid < A.nhid) (hk : k < A.n_inputs) (e1 : A.n_inputs ≤ v1) (e2 : A.n_inputs ≤ v2)
    (e3 : A.nhid ≤ h1) (e4 : A.nhid ≤ h2) (h : Agree A v1 v2 h1 h2 ha t u) :
    Agree A v1 v2 h1 h2 ha (weightGradMean A ihid k t) (weightGradMean A ihid k u) :=
  { h with
    wg := fun i hi2 => update_agree _ _ _ _ _ _
      (by
        show t.w_grad (ihid * A.n_inputs + k)
            + (t.hidden1 ihid * t.visible1 k - t.hidden2 ihid * t.visible2 k)
          = u.w_grad (ihid * A.n_inputs + k)
            + (u.hidden1 ihid * u.visible1 k - u.hidden2 ihid * u.visible2 k)
        rw [h.wg _ (flatIndex_lt A.nhid A.n_inputs ihid k hi hk), h.hid1 ihid (by omega),
          h.hid2 ihid (by omega), h.vis1 k (by omega), h.vis2 k (by omega)])
      (fun _ => h.wg i hi2) }

/-- One trip of the loop of lines 234-235 on two states. -/
theorem weightGradSampled_agree (A : Args) (ihid k v1 v2 h1 h2 ha : Nat) (t u : Work)
    (hi : ihid < A.nhid) (hk : k < A.n_inputs) (e1 : A.n_inputs ≤ v1) (e2 : A.n_inputs ≤ v2)
    (e4 : A.nhid ≤ h2) (e5 : A.nhid ≤ ha) (h : Agree A v1 v2 h1 h2 ha t u) :
    Agree A v1 v2 h1 h2 ha (weightGradSampled A ihid k t) (weightGradSampled A ihid k u) :=
  { h with
    wg := fun i hi2 => update_agree _ _ _ _ _ _
      (by
        show t.w_grad (ihid * A.n_inputs + k)
            + (t.hidden_act ihid * t.visible1 k - t.hidden2 ihid * t.visible2 k)
          = u.w_grad (ihid * A.n_inputs + k)
            + (u.hidden_act ihid * u.visible1 k - u.hidden2 ihid * u.visible2 k)
        rw [h.wg _ (flatIndex_lt A.nhid A.n_inputs ihid k hi hk), h.act ihid (by omega),
          h.hid2 ihid (by omega), h.vis1 k (by omega), h.vis2 k (by omega)])
      (fun _ => h.wg i hi2) }

/-- One trip of the loop of lines 218-237 on two states. -/
theorem gradientUnit_agree (A : Args) (k v1 v2 h1 h2 ha : Nat) (t u : Work)
    (hk : k < A.nhid) (e1 : A.n_inputs ≤ v1) (e2 : A.n_inputs ≤ v2)
    (e3 : A.nhid ≤ h1) (e4 : A.nhid ≤ h2) (e5 : A.nhid ≤ ha)
    (h : Agree A v1 v2 h1 h2 ha t u) :
    Agree A v1 v2 h1 h2 ha (gradientUnit A k t) (gradientUnit A k u) := by
  unfold gradientUnit
  by_cases c : A.mean_field = true
  · simp only [c, if_true]
    refine forLoop_rel (weightGradMean A k) (weightGradMean A k)
      (fun _ x y => Agree A v1 v2 h1 h2 ha x y) 0 _ _ ?_ A.n_inputs ?_
    · exact
        { h with
          hbg := fun i hi => update_agree _ _ _ _ _ _
            (by
              show t.hid_bias_grad k + (t.hidden1 k - t.hidden2 k)
                = u.hid_bias_grad k + (u.hidden1 k - u.hidden2 k)
              rw [h.hbg k hk, h.hid1 k (by omega), h.hid2 k (by omega)])
            (fun _ => h.hbg i hi) }
    · intro j x y hj hxy
      rw [Nat.zero_add]
      exact weightGradMean_agree A k j v1 v2 h1 h2 ha x y hk hj e1 e2 e3 e4 hxy
  · simp only [c, if_false]
    have hx : (if frand (rngStep t.randnum) < t.hidden1 k then (1 : ℚ) else 0)
        = (if frand (rngStep u.randnum) < u.hidden1 k then (1 : ℚ) else 0) := by
      rw [h.rand, h.hid1 k (by omega)]
    refine forLoop_rel (weightGradSampled A k) (weightGradSampled A k)
      (fun _ x y => Agree A v1 v2 h1 h2 ha x y) 0 _ _ ?_ A.n_inputs ?_
    · exact
        { h with
          rand := congrArg rngStep h.rand
          act := fun i hi => update_agree _ _ _ _ _ _ hx (fun _ => h.act i hi)
          hbg := fun i hi => update_agree _ _ _ _ _ _
            (by
              show t.hid_bias_grad k
                  + (Function.update t.hidden_act k
                      (if frand (rngStep t.randnum) < t.hidden1 k then (1 : ℚ) else 0) k
                    - t.hidden2 k)
                = u.hid_bias_grad k
                  + (Function.update u.hidden_act k
                      (if frand (rngStep u.randnum) < u.hidden1 k then (1 : ℚ) else 0) k
                    - u.hidden2 k)
              rw [h.hbg k hk, h.hid2 k (by omega), Function.update_same,
                Function.update_same, hx])
            (fun _ => h.hbg i hi) }
    · intro j x y hj hxy
      rw [Nat.zero_add]
      exact weightGradSampled_agree A k j v1 v2 h1 h2 ha x y hk hj e1 e2 e4 e5 hxy

/-- The gradient loop on two states. -/
theorem gradient_agree (A : Args) (v1 v2 h1 h2 ha : Nat) (t u : Work)
    (e1 : A.n_inputs ≤ v1) (e2 : A.n_inputs ≤ v2)
    (e3 : A.nhid ≤ h1) (e4 : A.nhid ≤ h2) (e5 : A.nhid ≤ ha)
    (h : Agree A v1 v2 h1 h2 ha t u) :
    Agree A v1 v2 h1 h2 ha (gradient A t) (gradient A u) := by
  unfold gradient
  refine forLoop_rel (gradientUnit A) (gradientUnit A)
    (fun _ x y => Agree A v1 v2 h1 h2 ha x y) 0 t u h A.nhid ?_
  intro k x y hk hxy
  rw [Nat.zero_add]
  exact gradientUnit_agree A k v1 v2 h1 h2 ha x y hk e1 e2 e3 e4 e5 hxy

/-- One trip of the loop of line 239 on two states. -/
theorem inputGradient_agree (A : Args) (k v1 v2 h1 h2 ha : Nat) (t u : Work)
    (hk : k < A.n_inputs) (e1 : A.n_inputs ≤ v1) (e2 : A.n_inputs ≤ v2)
    (h : Agree A v1 v2 h1 h2 ha t u) :
    Agree A v1 v2 h1 h2 ha (inputGradient k t) (inputGradient k u) :=
  { h with
    ibg := fun i hi => update_agree _ _ _ _ _ _
      (by
        show t.in_bias_grad k + (t.visible1 k - t.visible2 k)
          = u.in_bias_grad k + (u.visible1 k - u.visible2 k)
        rw [h.ibg k hk, h.vis1 k (by omega), h.vis2 k (by omega)])
      (fun _ => h.ibg i hi) }

/-- The loop of line 239 on two states. -/
theorem inputGradients_agree (A : Args) (v1 v2 h1 h2 ha : Nat) (t u : Work)
    (e1 : A.n_inputs ≤ v1) (e2 : A.n_inputs ≤ v2) (h : Agree A v1 v2 h1 h2 ha t u) :
    Agree A v1 v2 h1 h2 ha (inputGradients A t) (inputGradients A u) := by
  unfold inputGradients
  refine forLoop_rel inputGradient inputGradient
    (fun _ x y => Agree A v1 v2 h1 h2 ha x y) 0 t u h A.n_inputs ?_
  intro k x y hk hxy
  rw [Nat.zero_add]
  exact inputGradient_agree A k v1 v2 h1 h2 ha x y hk e1 e2 hxy

/-- The body of the case loop on two states.  With at least one trip of the Markov chain
nothing has to be known of the work vectors; without one, `visible2` and `hidden_act`
have to agree on entry.  Afterwards everything agrees. -/
theorem caseBody_agree (B : Build) (A : Args) (icase : Int) (v1 v2 h1 h2 ha : Nat)
    (t u : Work) (hn : 1 ≤ A.n_chain ∨ (A.n_inputs ≤ v2 ∧ A.nhid ≤ ha))
    (h : Agree A v1 v2 h1 h2 ha t u) :
    Agree A A.n_inputs A.n_inputs A.nhid A.nhid A.nhid
      (caseBody B A icase t) (caseBody B A icase u) := by
  unfold caseBody afterChain
  have s1 := loadCase_agree A icase v1 v2 h1 h2 ha t u h
  have s2 := sampleInputs_agree A _ _ _ _ _ _ _ (le_refl _) s1
  have s3 := hiddenProbs_agree B A _ _ _ _ _ _ _ (le_refl _) s2
  have s4 := directError_agree B A _ _ _ _ _ _ _ (le_refl _) (le_refl _) s3
  have s5 := chain_agree B A _ _ _ _ _ _ (le_refl _) hn s4
  have s6 := gradient_agree A _ _ _ _ _ _ _ (le_refl _) (le_refl _) (le_refl _) (le_refl _)
    (le_refl _) s5
  exact inputGradients_agree A _ _ _ _ _ _ _ (le_refl _) (le_refl _) s6

/-- The case loop on two states: the accumulators, the generator and `*error` agree at the
end when they agree at the start. -/
theorem runCases_agree (B : Build) (A : Args) :
    ∀ (cases : List Int) (v1 v2 h1 h2 ha : Nat) (t u : Work),
      (1 ≤ A.n_chain ∨ (A.n_inputs ≤ v2 ∧ A.nhid ≤ ha)) → Agree A v1 v2 h1 h2 ha t u →
      Agree A (min v1 A.n_inputs) (min v2 A.n_inputs) (min h1 A.nhid) (min h2 A.nhid)
        (min ha A.nhid) (runCases B A cases t) (runCases B A cases u)
  | [], v1, v2, h1, h2, ha, t, u, _, h =>
    h.mono (Nat.min_le_left _ _) (Nat.min_le_left _ _) (Nat.min_le_left _ _)
      (Nat.min_le_left _ _) (Nat.min_le_left _ _)
  | icase :: rest, v1, v2, h1, h2, ha, t, u, hn, h => by
    have hstep := caseBody_agree B A icase v1 v2 h1 h2 ha t u hn h
    have hrest := runCases_agree B A rest _ _ _ _ _ _ _ (Or.inr ⟨le_refl _, le_refl _⟩) hstep
    simp only [runCases]
    exact hrest.mono (by simp) (by simp) (by simp) (by simp) (by simp)

/-- An index below `nhid * n_inputs` is the index of a weight. -/
theorem flatIndex_split (nhid n_inputs i : Nat) (hi : i < nhid * n_inputs) :
    ∃ h v, h < nhid ∧ v < n_inputs ∧ i = h * n_inputs + v := by
  have hn : 0 < n_inputs := by
    rcases Nat.eq_zero_or_pos n_inputs with h0 | h0
    · rw [h0, Nat.mul_zero] at hi
      omega
    · exact h0
  refine ⟨i / n_inputs, i % n_inputs, ?_, Nat.mod_lt _ hn, ?_⟩
  · exact (Nat.div_lt_iff_lt_mul hn).2 hi
  · rw [Nat.mul_comm]
    exact (Nat.div_add_mod i n_inputs).symm

/-- Setting the accumulators to zero on two states with the generator in the same state:
the accumulators agree afterwards, and the work vectors are as they were. -/
theorem zeroAccumulators_agree (A : Args) (v1 v2 h1 h2 ha : Nat) (t u : Work)
    (hr : t.randnum = u.randnum)
    (e1 : ∀ i, i < v1 → t.visible1 i = u.visible1 i)
    (e2 : ∀ i, i < v2 → t.visible2 i = u.visible2 i)
    (e3 : ∀ i, i < h1 → t.hidden1 i = u.hidden1 i)
    (e4 : ∀ i, i < h2 → t.hidden2 i = u.hidden2 i)
    (e5 : ∀ i, i < ha → t.hidden_act i = u.hidden_act i) :
    Agree A v1 v2 h1 h2 ha (zeroAccumulators A t) (zeroAccumulators A u) := by
  obtain ⟨ft, hht, hwt, hit, het⟩ := zeroAccumulators_spec A t
  obtain ⟨fu, hhu, hwu, hiu, heu⟩ := zeroAccumulators_spec A u
  have kt := congrArg (fun x : Work =>
    (x.randnum, x.visible1, x.visible2, x.hidden1, x.hidden2, x.hidden_act)) ft
  have ku := congrArg (fun x : Work =>
    (x.randnum, x.visible1, x.visible2, x.hidden1, x.hidden2, x.hidden_act)) fu
  simp only [Prod.mk.injEq] at kt ku
  obtain ⟨t0, t1, t2, t3, t4, t5⟩ := kt
  obtain ⟨u0, u1, u2, u3, u4, u5⟩ := ku
  refine ⟨?_, ?_, ?_, ?_, ?_, ?_, ?_, ?_, ?_, ?_, ?_⟩
  · rw [t0, u0, hr]
  · rw [het, heu]
  · intro i hi
    rw [hit i hi, hiu i hi]
  · intro i hi
    rw [(hht i hi).1, (hhu i hi).1]
  · intro i hi
    obtain ⟨h, v, hh, hv, rfl⟩ := flatIndex_split A.nhid A.n_inputs i hi
    rw [hwt h v hh hv, hwu h v hh hv]
  · intro i hi
    rw [(hht i hi).2, (hhu i hi).2]
  · intro i hi
    rw [t1, u1, e1 i hi]
  · intro i hi
    rw [t2, u2, e2 i hi]
  · intro i hi
    rw [t3, u3, e3 i hi]
  · intro i hi
    rw [t4, u4, e4 i hi]
  · intro i hi
    rw [t5, u5, e5 i hi]

/-- The worker from line 83 on, run on two entry states with the generator started in the
same state.  With at least one trip of the Markov chain nothing has to be known of the
entry states; without one, the used parts of `visible2` and `hidden_act` have to agree. -/
theorem rbm2_from_agree (B : Build) (A : Args) (randnum : Int) (v1 v2 h1 h2 ha : Nat)
    (s s2 : Work) (hn : 1 ≤ A.n_chain ∨ (A.n_inputs ≤ v2 ∧ A.nhid ≤ ha))
    (e1 : ∀ i, i < v1 → s.visible1 i = s2.visible1 i)
    (e2 : ∀ i, i < v2 → s.visible2 i = s2.visible2 i)
    (e3 : ∀ i, i < h1 → s.hidden1 i = s2.hidden1 i)
    (e4 : ∀ i, i < h2 → s.hidden2 i = s2.hidden2 i)
    (e5 : ∀ i, i < ha → s.hidden_act i = s2.hidden_act i) :
    Agree A (min v1 A.n_inputs) (min v2 A.n_inputs) (min h1 A.nhid) (min h2 A.nhid)
      (min ha A.nhid) (rbm2_from B A randnum s) (rbm2_from B A randnum s2) := by
  unfold rbm2_from
  exact runCases_agree B A _ v1 v2 h1 h2 ha _ _ hn
    (zeroAccumulators_agree A v1 v2 h1 h2 ha _ _ rfl e1 e2 e3 e4 e5)

/-- C27. For `n_chain ≥ 1`, two calls of `rbm2_threaded` with the same arguments, whatever
the work vectors, the accumulators, `*error` and the local variables hold on entry, leave
the same `in_bias_grad`, `hid_bias_grad`, `w_grad`, `hid_on_frac` (in the elements the
worker uses) and the same `*error`. -/
theorem C27_no_stale_state (B : Build) (A : Args) (s s2 : Work) (hn : 1 ≤ A.n_chain) :
    (∀ v, v < A.n_inputs →
      (rbm2_threaded B A s).in_bias_grad v = (rbm2_threaded B A s2).in_bias_grad v) ∧
    (∀ h, h < A.nhid →
      (rbm2_threaded B A s).hid_bias_grad h = (rbm2_threaded B A s2).hid_bias_grad h) ∧
    (∀ h v, h < A.nhid → v < A.n_inputs →
      (rbm2_threaded B A s).w_grad (h * A.n_inputs + v)
        = (rbm2_threaded B A s2).w_grad (h * A.n_inputs + v)) ∧
    (∀ h, h < A.nhid →
      (rbm2_threaded B A s).hid_on_frac h = (rbm2_threaded B A s2).hid_on_frac h) ∧
    (rbm2_threaded B A s).error = (rbm2_threaded B A s2).error := by
  have h := rbm2_from_agree B A (seedOf A.istop (A.shuffle_index 0)) 0 0 0 0 0 s s2
    (Or.inl hn) (fun i hi => absurd hi (Nat.not_lt_zero i))
    (fun i hi => absurd hi (Nat.not_lt_zero i)) (fun i hi => absurd hi (Nat.not_lt_zero i))
    (fun i hi => absurd hi (Nat.not_lt_zero i)) (fun i hi => absurd hi (Nat.not_lt_zero i))
  exact ⟨h.ibg, h.hbg,
    fun hh v h1 h2 => h.wg _ (flatIndex_lt A.nhid A.n_inputs hh v h1 h2), h.hof, h.err⟩

theorem C27_no_stale_state_witness :
    (∀ v, v < (unitArgs 0).n_inputs →
      (rbm2_threaded plainBuild (unitArgs 0) zeroWork).in_bias_grad v
        = (rbm2_threaded plainBuild (unitArgs 0) staleWork).in_bias_grad v) ∧
    (∀ h, h < (unitArgs 0).nhid →
      (rbm2_threaded plainBuild (unitArgs 0) zeroWork).hid_bias_grad h
        = (rbm2_threaded plainBuild (unitArgs 0) staleWork).hid_bias_grad h) ∧
    (∀ h v, h < (unitArgs 0).nhid → v < (unitArgs 0).n_inputs →
      (rbm2_threaded plainBuild (unitArgs 0) zeroWork).w_grad (h * (unitArgs 0).n_inputs + v)
        = (rbm2_threaded plainBuild (unitArgs 0) staleWork).w_grad
            (h * (unitArgs 0).n_inputs + v)) ∧
    (∀ h, h < (unitArgs 0).nhid →
      (rbm2_threaded plainBuild (unitArgs 0) zeroWork).hid_on_frac h
        = (rbm2_threaded plainBuild (unitArgs 0) staleWork).hid_on_frac h) ∧
    (rbm2_threaded plainBuild (unitArgs 0) zeroWork).error
      = (rbm2_threaded plainBuild (unitArgs 0) staleWork).error :=
  C27_no_stale_state plainBuild (unitArgs 0) zeroWork staleWork (by decide)

/-- Without a trip of the Markov chain (`n_chain = 0`) the gradient is taken against what
`visible2` held on entry: the single case of `noChainArgs` leaves `in_bias_grad[0] = 0`
when the vectors held zeros and `-7` when they held sevens. -/
theorem stale_without_chain :
    (rbm2_threaded plainBuild noChainArgs zeroWork).in_bias_grad 0 = 0 ∧
    (rbm2_threaded plainBuild noChainArgs staleWork).in_bias_grad 0 = -7 := by
  decide!


/-! ### What the worker writes -/

/-- Writing element `k` of a vector leaves every other element. -/
theorem update_outside (a b : Vec) (k i : Nat) (x : ℚ) (hne : i ≠ k) (h : a i = b i) :
    Function.update a k x i = b i := by
  rw [Function.update_noteq hne]
  exact h

theorem zeroWeight_outside (A : Args) (ihid k : Nat) (s t : Work) (hi : ihid < A.nhid)
    (hk : k < A.n_inputs) (h : Outside A s t) : Outside A s (zeroWeight A ihid k t) :=
  { h with
    wg := fun i hi2 => update_outside _ _ _ _ _
      (by have := flatIndex_lt A.nhid A.n_inputs ihid k hi hk; omega) (h.wg i hi2) }

theorem zeroHidden_outside (A : Args) (k : Nat) (s t : Work) (hk : k < A.nhid)
    (h : Outside A s t) : Outside A s (zeroHidden A k t) := by
  unfold zeroHidden
  refine forLoop_inv (zeroWeight A k) (fun _ x => Outside A s x) 0 _ ?_ A.n_inputs ?_
  · exact
      { h with
        hbg := fun i hi => update_outside _ _ _ _ _ (by omega) (h.hbg i hi)
        hof := fun i hi => update_outside _ _ _ _ _ (by omega) (h.hof i hi) }
  · intro j x hj hx
    rw [Nat.zero_add]
    exact zeroWeight_outside A k j s x hk hj hx

theorem zeroInput_outside (A : Args) (k : Nat) (s t : Work) (hk : k < A.n_inputs)
    (h : Outside A s t) : Outside A s (zeroInput k t) :=
  { h with ibg := fun i hi => update_outside _ _ _ _ _ (by omega) (h.ibg i hi) }

theorem zeroAccumulators_outside (A : Args) (s t : Work) (h : Outside A s t) :
    Outside A s (zeroAccumulators A t) := by
  unfold zeroAccumulators
  have h1 := forLoop_inv (zeroHidden A) (fun _ x => Outside A s x) 0 t h A.nhid
    (fun k x hk hx => by rw [Nat.zero_add]; exact zeroHidden_outside A k s x hk hx)
  have h2 := forLoop_inv zeroInput (fun _ x => Outside A s x) 0 _ h1 A.n_inputs
    (fun k x hk hx => by rw [Nat.zero_add]; exact zeroInput_outside A k s x hk hx)
  exact { h2 with }

theorem loadCase_outside (A : Args) (icase : Int) (s t : Work) (h : Outside A s t) :
    Outside A s (loadCase A icase t) := by
  unfold loadCase
  refine forLoop_inv (loadInput A icase) (fun _ x => Outside A s x) 0 t h A.n_inputs ?_
  intro k x hk hx
  exact { hx with vis1 := fun i hi => update_outside _ _ _ _ _ (by omega) (hx.vis1 i hi) }

theorem sampleInputs_outside (A : Args) (s t : Work) (h : Outside A s t) :
    Outside A s (sampleInputs A t) := by
  unfold sampleInputs
  split
  · exact h
  · refine forLoop_inv sampleInput (fun _ x => Outside A s x) 0 t h A.n_inputs ?_
    intro k x hk hx
    exact { hx with vis1 := fun i hi => update_outside _ _ _ _ _ (by omega) (hx.vis1 i hi) }

theorem hiddenProbs_outside (B : Build) (A : Args) (s t : Work) (h : Outside A s t) :
    Outside A s (hiddenProbs B A t) := by
  unfold hiddenProbs
  refine forLoop_inv (hiddenProb B A) (fun _ x => Outside A s x) 0 t h A.nhid ?_
  intro k x hk hx
  exact
    { hx with
      hid1 := fun i hi => update_outside _ _ _ _ _ (by omega) (hx.hid1 i hi)
      hid2 := fun i hi => update_outside _ _ _ _ _ (by omega) (hx.hid2 i hi)
      hof := fun i hi => update_outside _ _ _ _ _ (by omega) (hx.hof i hi) }

theorem directError_outside (B : Build) (A : Args) (s t : Work) (h : Outside A s t) :
    Outside A s (directError B A t) := by
  unfold directError
  split
  · refine forLoop_inv (directErrorTerm B A) (fun _ x => Outside A s x) 0 t h A.n_inputs ?_
    intro k x hk hx
    exact { hx with }
  · exact h

theorem sampleHidden_outside (A : Args) (s t : Work) (h : Outside A s t) :
    Outside A s (sampleHidden A t) := by
  unfold sampleHidden
  refine forLoop_inv sampleHiddenUnit (fun _ x => Outside A s x) 0 t h A.nhid ?_
  intro k x hk hx
  exact { hx with act := fun i hi => update_outside _ _ _ _ _ (by omega) (hx.act i hi) }

theorem reconstruct_outside (B : Build) (A : Args) (ichain : Nat) (s t : Work)
    (h : Outside A s t) : Outside A s (reconstruct B A ichain t) := by
  unfold reconstruct
  refine forLoop_inv (reconstructInput B A ichain) (fun _ x => Outside A s x) 0 t h
    A.n_inputs ?_
  intro k x hk hx
  unfold reconstructInput
  by_cases c1 : B.RECON_ERR_DIRECT = false ∧ ichain = 0 <;> by_cases c2 : A.mean_field = true
  all_goals simp only [c1, c2, if_true, if_false]
  all_goals
    exact { hx with vis2 := fun i hi => update_outside _ _ _ _ _ (by omega) (hx.vis2 i hi) }

theorem hiddenProbs2_outside (B : Build) (A : Args) (s t : Work) (h : Outside A s t) :
    Outside A s (hiddenProbs2 B A t) := by
  unfold hiddenProbs2
  refine forLoop_inv (hiddenProb2 B A) (fun _ x => Outside A s x) 0 t h A.nhid ?_
  intro k x hk hx
  exact { hx with hid2 := fun i hi => update_outside _ _ _ _ _ (by omega) (hx.hid2 i hi) }

theorem chain_outside (B : Build) (A : Args) (s t : Work) (h : Outside A s t) :
    Outside A s (chain B A t) := by
  unfold chain
  refine forLoop_inv (chainStep B A) (fun _ x => Outside A s x) 0 t h A.n_chain ?_
  intro k x _ hx
  unfold chainStep
  exact hiddenProbs2_outside B A s _
    (reconstruct_outside B A _ s _ (sampleHidden_outside A s x hx))

theorem gradientUnit_outside (A : Args) (k : Nat) (s t : Work) (hk : k < A.nhid)
    (h : Outside A s t) : Outside A s (gradientUnit A k t) := by
  unfold gradientUnit
  by_cases c : A.mean_field = true
  · simp only [c, if_true]
    refine forLoop_inv (weightGradMean A k) (fun _ x => Outside A s x) 0 _ ?_ A.n_inputs ?_
    · exact { h with hbg := fun i hi => update_outside _ _ _ _ _ (by omega) (h.hbg i hi) }
    · intro j x hj hx
      exact
        { hx with
          wg := fun i hi2 => update_outside _ _ _ _ _
            (by have := flatIndex_lt A.nhid A.n_inputs k (0 + j) hk (by omega); omega)
            (hx.wg i hi2) }
  · simp only [c, if_false]
    refine forLoop_inv (weightGradSampled A k) (fun _ x => Outside A s x) 0 _ ?_ A.n_inputs ?_
    · exact
        { h with
          act := fun i hi => update_outside _ _ _ _ _ (by omega) (h.act i hi)
          hbg := fun i hi => update_outside _ _ _ _ _ (by omega) (h.hbg i hi) }
    · intro j x hj hx
      exact
        { hx with
          wg := fun i hi2 => update_outside _ _ _ _ _
            (by have := flatIndex_lt A.nhid A.n_inputs k (0 + j) hk (by omega); omega)
            (hx.wg i hi2) }

theorem gradient_outside (A : Args) (s t : Work) (h : Outside A s t) :
    Outside A s (gradient A t) := by
  unfold gradient
  refine forLoop_inv (gradientUnit A) (fun _ x => Outside A s x) 0 t h A.nhid ?_
  intro k x hk hx
  rw [Nat.zero_add]
  exact gradientUnit_outside A k s x hk hx

theorem inputGradients_outside (A : Args) (s t : Work) (h : Outside A s t) :
    Outside A s (inputGradients A t) := by
  unfold inputGradients
  refine forLoop_inv inputGradient (fun _ x => Outside A s x) 0 t h A.n_inputs ?_
  intro k x hk hx
  exact { hx with ibg := fun i hi => update_outside _ _ _ _ _ (by omega) (hx.ibg i hi) }

theorem caseBody_outside (B : Build) (A : Args) (icase : Int) (s t : Work)
    (h : Outside A s t) : Outside A s (caseBody B A icase t) := by
  unfold caseBody afterChain
  exact inputGradients_outside A s _ (gradient_outside A s _ (chain_outside B A s _
    (directError_outside B A s _ (hiddenProbs_outside B A s _
      (sampleInputs_outside A s _ (loadCase_outside A icase s t h))))))

theorem runCases_outside (B : Build) (A : Args) (s : Work) :
    ∀ (cases : List Int) (t : Work), Outside A s t → Outside A s (runCases B A cases t)
  | [], _, h => h
  | icase :: rest, t, h => by
    simp only [runCases]
    exact runCases_outside B A s rest _ (caseBody_outside B A icase s t h)

/-- The worker writes only the elements of its vectors below the counts: what lies at or
after `n_inputs`, `nhid` or `nhid * n_inputs` is left as it was on entry. -/
theorem rbm2_threaded_outside (B : Build) (A : Args) (s : Work) :
    Outside A s (rbm2_threaded B A s) := by
  unfold rbm2_threaded rbm2_from
  refine runCases_outside B A s _ _ (zeroAccumulators_outside A s _ ?_)
  exact ⟨fun _ _ => rfl, fun _ _ => rfl, fun _ _ => rfl, fun _ _ => rfl, fun _ _ => rfl,
    fun _ _ => rfl, fun _ _ => rfl, fun _ _ => rfl, fun _ _ => rfl⟩


/-! ### The slots of two threads -/

/-- The elements of `w_grad` reached through the slot pointer of thread `i` are exactly
those of `[i * nhid * n_inputs, (i + 1) * nhid * n_inputs)`. -/
theorem mem_wGradIndices_iff (nhid n_inputs : Nat) (i k : Int) :
    k ∈ wGradIndices (nhid : Int) (n_inputs : Int) i ↔
      i * (nhid : Int) * (n_inputs : Int) ≤ k ∧ k < (i + 1) * (nhid : Int) * (n_inputs : Int) := by
  constructor
  · exact mem_wGradIndices _ _ i k
  · rintro ⟨h1, h2⟩
    have hlt : (k - i * (nhid : Int) * (n_inputs : Int)).toNat < nhid * n_inputs := by
      have e : (i + 1) * (nhid : Int) * (n_inputs : Int)
          = i * (nhid : Int) * (n_inputs : Int) + ((nhid * n_inputs : Nat) : Int) := by
        push_cast
        ring
      omega
    obtain ⟨h, v, hh, hv, hj⟩ := flatIndex_split nhid n_inputs _ hlt
    unfold wGradIndices wGradOffset
    simp only [List.mem_flatMap, List.mem_map, List.mem_range, Int.toNat_ofNat]
    refine ⟨h, hh, v, hv, ?_⟩
    have hj2 : ((h * n_inputs + v : Nat) : Int) = k - i * (nhid : Int) * (n_inputs : Int) := by
      rw [← hj]
      omega
    push_cast at hj2
    omega

/-- The slots of two different threads in a vector addressed per neuron have no element in
common when the count fits in a slot. -/
theorem slotIndices_disjoint (max_neurons count s t k : Int) (hst : s ≠ t)
    (hc : count ≤ max_neurons) (hs : k ∈ slotIndices max_neurons count s) :
    k ∉ slotIndices max_neurons count t := by
  rw [mem_slotIndices] at hs ⊢
  intro ht
  rcases lt_or_gt_of_ne hst with h | h
  · have h1 : (s + 1) * max_neurons ≤ t * max_neurons :=
      Int.mul_le_mul_of_nonneg_right (by omega) (by omega)
    have h2 : (s + 1) * max_neurons = s * max_neurons + max_neurons := by ring
    omega
  · have h1 : (t + 1) * max_neurons ≤ s * max_neurons :=
      Int.mul_le_mul_of_nonneg_right (by omega) (by omega)
    have h2 : (t + 1) * max_neurons = t * max_neurons + max_neurons := by ring
    omega

/-- The slots of two different threads in `w_grad` have no element in common. -/
theorem wGradIndices_disjoint (nhid n_inputs : Nat) (s t k : Int) (hst : s ≠ t)
    (hs : k ∈ wGradIndices (nhid : Int) (n_inputs : Int) s) :
    k ∉ wGradIndices (nhid : Int) (n_inputs : Int) t := by
  rw [mem_wGradIndices_iff] at hs ⊢
  intro ht
  have hp : (0 : Int) ≤ ((nhid * n_inputs : Nat) : Int) := Int.ofNat_nonneg _
  have e : ∀ x : Int, x * (nhid : Int) * (n_inputs : Int) = x * ((nhid * n_inputs : Nat) : Int) := by
    intro x
    push_cast
    ring
  rw [e, e] at hs ht
  rcases lt_or_gt_of_ne hst with h | h
  · have h1 : (s + 1) * ((nhid * n_inputs : Nat) : Int) ≤ t * ((nhid * n_inputs : Nat) : Int) :=
      Int.mul_le_mul_of_nonneg_right (by omega) hp
    omega
  · have h1 : (t + 1) * ((nhid * n_inputs : Nat) : Int) ≤ s * ((nhid * n_inputs : Nat) : Int) :=
      Int.mul_le_mul_of_nonneg_right (by omega) hp
    omega

/-- C23. For two different thread slots `s ≠ t`, with `n_inputs ≤ max_neurons` and
`nhid ≤ max_neurons`: the elements a worker reaches through its slot pointers are those
of `[t * max_neurons, t * max_neurons + n_inputs)` in `visible1`, `visible2`,
`in_bias_grad`, of `[t * max_neurons, t * max_neurons + nhid)` in `hidden1`, `hidden2`,
`hidden_act`, `hid_on_frac`, `hid_bias_grad`, of
`[t * nhid * n_inputs, (t + 1) * nhid * n_inputs)` in `w_grad`, and element `t` of
`error_vec`; the sets of the two slots have no element in common; and the worker keeps to
them: it writes no element at or after these counts, and what it leaves in the used parts
does not depend on anything but the used parts of its own vectors. -/
theorem C23_private_buffers (max_neurons : Int) (n_inputs nhid : Nat) (s t : Int)
    (hst : s ≠ t) (hv : (n_inputs : Int) ≤ max_neurons) (hh : (nhid : Int) ≤ max_neurons) :
    (∀ k, k ∈ slotIndices max_neurons (n_inputs : Int) t ↔
      t * max_neurons ≤ k ∧ k < t * max_neurons + (n_inputs : Int)) ∧
    (∀ k, k ∈ slotIndices max_neurons (nhid : Int) t ↔
      t * max_neurons ≤ k ∧ k < t * max_neurons + (nhid : Int)) ∧
    (∀ k, k ∈ wGradIndices (nhid : Int) (n_inputs : Int) t ↔
      t * (nhid : Int) * (n_inputs : Int) ≤ k ∧ k < (t + 1) * (nhid : Int) * (n_inputs : Int)) ∧
    (∀ k, k ∈ slotIndices max_neurons (n_inputs : Int) s →
      k ∉ slotIndices max_neurons (n_inputs : Int) t) ∧
    (∀ k, k ∈ slotIndices max_neurons (nhid : Int) s →
      k ∉ slotIndices max_neurons (nhid : Int) t) ∧
    (∀ k, k ∈ wGradIndices (nhid : Int) (n_inputs : Int) s →
      k ∉ wGradIndices (nhid : Int) (n_inputs : Int) t) ∧
    errorOffset s ≠ errorOffset t ∧
    (∀ (B : Build) (A : Args) (w : Work), A.n_inputs = n_inputs → A.nhid = nhid →
      Outside A w (rbm2_threaded B A w)) ∧
    (∀ (B : Build) (A : Args) (w w2 : Work), A.n_inputs = n_inputs → A.nhid = nhid →
      (∀ i, i < n_inputs → w.visible1 i = w2.visible1 i ∧ w.visible2 i = w2.visible2 i) →
      (∀ i, i < nhid → w.hidden1 i = w2.hidden1 i ∧ w.hidden2 i = w2.hidden2 i ∧
        w.hidden_act i = w2.hidden_act i) →
      Agree A n_inputs n_inputs nhid nhid nhid (rbm2_threaded B A w) (rbm2_threaded B A w2)) := by
  refine ⟨fun k => mem_slotIndices _ _ _ k, fun k => mem_slotIndices _ _ _ k,
    fun k => mem_wGradIndices_iff _ _ _ k,
    fun k hk => slotIndices_disjoint _ _ s t k hst hv hk,
    fun k hk => slotIndices_disjoint _ _ s t k hst hh hk,
    fun k hk => wGradIndices_disjoint _ _ s t k hst hk, hst, ?_, ?_⟩
  · intro B A w _ _
    exact rbm2_threaded_outside B A w
  · intro B A w w2 hn1 hn2 e1 e2
    subst hn1 hn2
    have h := rbm2_from_agree B A (seedOf A.istop (A.shuffle_index 0))
      A.n_inputs A.n_inputs A.nhid A.nhid A.nhid w w2 (Or.inr ⟨le_refl _, le_refl _⟩)
      (fun i hi => (e1 i hi).1) (fun i hi => (e1 i hi).2) (fun i hi => (e2 i hi).1)
      (fun i hi => (e2 i hi).2.1) (fun i hi => (e2 i hi).2.2)
    exact h.mono (by simp) (by simp) (by simp) (by simp) (by simp)

theorem C23_private_buffers_witness :
    (∀ k, k ∈ slotIndices 5 ((3 : Nat) : Int) 1 ↔
      1 * 5 ≤ k ∧ k < 1 * 5 + ((3 : Nat) : Int)) ∧
    (∀ k, k ∈ slotIndices 5 ((5 : Nat) : Int) 1 ↔
      1 * 5 ≤ k ∧ k < 1 * 5 + ((5 : Nat) : Int)) ∧
    (∀ k, k ∈ wGradIndices ((5 : Nat) : Int) ((3 : Nat) : Int) 1 ↔
      1 * ((5 : Nat) : Int) * ((3 : Nat) : Int) ≤ k ∧
        k < (1 + 1) * ((5 : Nat) : Int) * ((3 : Nat) : Int)) ∧
    (∀ k, k ∈ slotIndices 5 ((3 : Nat) : Int) 0 → k ∉ slotIndices 5 ((3 : Nat) : Int) 1) ∧
    (∀ k, k ∈ slotIndices 5 ((5 : Nat) : Int) 0 → k ∉ slotIndices 5 ((5 : Nat) : Int) 1) ∧
    (∀ k, k ∈ wGradIndices ((5 : Nat) : Int) ((3 : Nat) : Int) 0 →
      k ∉ wGradIndices ((5 : Nat) : Int) ((3 : Nat) : Int) 1) ∧
    errorOffset 0 ≠ errorOffset 1 ∧
    (∀ (B : Build) (A : Args) (w : Work), A.n_inputs = 3 → A.nhid = 5 →
      Outside A w (rbm2_threaded B A w)) ∧
    (∀ (B : Build) (A : Args) (w w2 : Work), A.n_inputs = 3 → A.nhid = 5 →
      (∀ i, i < 3 → w.visible1 i = w2.visible1 i ∧ w.visible2 i = w2.visible2 i) →
      (∀ i, i < 5 → w.hidden1 i = w2.hidden1 i ∧ w.hidden2 i = w2.hidden2 i ∧
        w.hidden_act i = w2.hidden_act i) →
      Agree A 3 3 5 5 5 (rbm2_threaded B A w) (rbm2_threaded B A w2)) :=
  C23_private_buffers 5 3 5 0 1 (by decide) (by decide) (by decide)


/-! ### Batches without a case (lines 506-508, 601-630) -/

/-- The first batch of an epoch starts at 0 and takes `nc / n_batches` cases. -/
theorem epochBatches_head (max_threads nc n_batches : Int) (hb : 1 ≤ n_batches) :
    ∃ rest, epochBatches max_threads nc n_batches
      = { istart := 0, n_in_batch := Int.tdiv nc n_batches,
          n_threads := threadCount max_threads (Int.tdiv nc n_batches) } :: rest := by
  obtain ⟨k, hk⟩ : ∃ k, n_batches.toNat = k + 1 := ⟨n_batches.toNat - 1, by omega⟩
  unfold epochBatches
  rw [hk]
  simp only [batchPlan, Nat.cast_zero, Int.sub_zero, Int.zero_add]
  exact ⟨_, rfl⟩

/-- The update after a batch leaves in `hid_on_frac[h]` the quotient by `n_in_batch`. -/
theorem batchUpdate_frac (H : Hyper) (s : Weights) (h : Nat) (hh : h < H.nhid) :
    (batchUpdate H s).hid_on_frac h = s.hid_on_frac h / (H.n_in_batch : ℚ) := by
  obtain ⟨_, _, g3, _⟩ := updateHidden_spec H s
  obtain ⟨k1, _⟩ := updateVisible_spec H (updateHidden H s)
  unfold batchUpdate
  rw [k1.1, (g3 h).1, if_pos hh]

/-- C24. For `n_batches ≥ 1`, every batch of an epoch holds at least one case
(`n_in_batch ≥ 1`) if and only if `n_batches ≤ nc`.  Then the divisor `n_in_batch` of the
update after a batch (lines 602, 610, 614, 626) is never 0, so that what the update leaves
in `hid_on_frac[h]`, times `n_in_batch`, is what pooling left there.  For
`nc < n_batches` the first batch takes `nc / n_batches` cases, which is none, and for a
number of cases `nc ≥ 0` (and down to `nc > -n_batches`) its `n_in_batch`, the divisor of
its update, is 0. -/
theorem C24_nonempty_batches (max_threads nc n_batches : Int) (hb : 1 ≤ n_batches) :
    ((∀ b ∈ epochBatches max_threads nc n_batches, 1 ≤ b.n_in_batch) ↔ n_batches ≤ nc) ∧
    (n_batches ≤ nc → ∀ b ∈ epochBatches max_threads nc n_batches,
      ∀ (H : Hyper) (s : Weights), H.n_in_batch = b.n_in_batch →
        (H.n_in_batch : ℚ) ≠ 0 ∧
        ∀ h, h < H.nhid →
          (batchUpdate H s).hid_on_frac h * (H.n_in_batch : ℚ) = s.hid_on_frac h) ∧
    (nc < n_batches → ∃ b rest, epochBatches max_threads nc n_batches = b :: rest ∧
      b.istart = 0 ∧ b.n_in_batch = Int.tdiv nc n_batches ∧ b.n_in_batch ≤ 0 ∧
      batchCases b = [] ∧
      (-n_batches < nc → b.n_in_batch = 0 ∧
        ∀ H : Hyper, H.n_in_batch = b.n_in_batch → (H.n_in_batch : ℚ) = 0)) := by
  obtain ⟨rest, hhead⟩ := epochBatches_head max_threads nc n_batches hb
  have hsizes : (epochBatches max_threads nc n_batches).map Batch.n_in_batch
      = splitSizes nc n_batches n_batches.toNat 0 0 := batchPlan_sizes _ _ _ _ _ _ _
  have hsmall : nc < n_batches → Int.tdiv nc n_batches ≤ 0 ∧
      (-n_batches < nc → Int.tdiv nc n_batches = 0) := by
    intro hlt
    by_cases hnc : 0 ≤ nc
    · rw [Int.tdiv_eq_ediv hnc (by omega), Int.ediv_eq_zero_of_lt hnc hlt]
      exact ⟨le_refl _, fun _ => rfl⟩
    · refine ⟨(tdiv_of_nonpos nc n_batches (by omega) (by omega)).2, ?_⟩
      intro hgt
      have hd : Int.tdiv nc n_batches = -(Int.tdiv (-nc) n_batches) := by
        rw [Int.neg_tdiv, Int.neg_neg]
      rw [hd, Int.tdiv_eq_ediv (by omega) (by omega), Int.ediv_eq_zero_of_lt (by omega) (by omega)]
      rfl
  have hall : n_batches ≤ nc →
      ∀ b ∈ epochBatches max_threads nc n_batches, 1 ≤ b.n_in_batch := by
    intro hle b hbm
    have hmem : b.n_in_batch ∈ splitSizes nc n_batches n_batches.toNat 0 0 := by
      rw [← hsizes]
      exact List.mem_map.2 ⟨b, hbm, rfl⟩
    have hq : 1 ≤ nc / n_batches := by
      rw [Int.le_ediv_iff_mul_le (by omega)]
      omega
    rw [splitSizes_eq nc n_batches (by omega) hb, List.mem_append, List.mem_replicate,
      List.mem_replicate] at hmem
    rcases hmem with ⟨_, h⟩ | ⟨_, h⟩ <;> omega
  refine ⟨⟨?_, hall⟩, ?_, ?_⟩
  · intro h
    by_contra hc
    have h1 := h _ (by rw [hhead]; exact List.mem_cons_self _ _)
    have h2 := (hsmall (by omega)).1
    simp only at h1
    omega
  · intro hle b hbm H s hH
    have h1 := hall hle b hbm
    have hne : (H.n_in_batch : ℚ) ≠ 0 := by
      rw [hH]
      exact_mod_cast (by omega : b.n_in_batch ≠ 0)
    refine ⟨hne, ?_⟩
    intro h hh
    rw [batchUpdate_frac H s h hh, div_mul_cancel₀ _ hne]
  · intro hlt
    refine ⟨_, rest, hhead, rfl, rfl, (hsmall hlt).1, ?_, ?_⟩
    · by_cases hm : 1 ≤ max_threads
      · exact batchCases_nil _ (hsmall hlt).1
          (reduceThreads_ge_one _ _ _ hm)
      · unfold batchCases threadRanges
        have e : (threadCount max_threads (Int.tdiv nc n_batches)).toNat = 0 := by
          have e0 : max_threads.toNat = 0 := by omega
          unfold threadCount
          rw [e0]
          simp only [reduceThreads]
          omega
        simp only [e, threadLoop, List.flatMap_nil]
    · intro hgt
      refine ⟨(hsmall hlt).2 hgt, ?_⟩
      intro H hH
      rw [hH]
      simp only [(hsmall hlt).2 hgt, Int.cast_zero]

theorem C24_nonempty_batches_witness :
    ((∀ b ∈ epochBatches 4 25 3, 1 ≤ b.n_in_batch) ↔ (3 : Int) ≤ 25) ∧
    ((3 : Int) ≤ 25 → ∀ b ∈ epochBatches 4 25 3,
      ∀ (H : Hyper) (s : Weights), H.n_in_batch = b.n_in_batch →
        (H.n_in_batch : ℚ) ≠ 0 ∧
        ∀ h, h < H.nhid →
          (batchUpdate H s).hid_on_frac h * (H.n_in_batch : ℚ) = s.hid_on_frac h) ∧
    ((25 : Int) < 3 → ∃ b rest, epochBatches 4 25 3 = b :: rest ∧
      b.istart = 0 ∧ b.n_in_batch = Int.tdiv 25 3 ∧ b.n_in_batch ≤ 0 ∧
      batchCases b = [] ∧
      (-3 < (25 : Int) → b.n_in_batch = 0 ∧
        ∀ H : Hyper, H.n_in_batch = b.n_in_batch → (H.n_in_batch : ℚ) = 0)) :=
  C24_nonempty_batches 4 25 3 (by decide)

/-- Three batches for two cases: the first batch takes none. -/
theorem empty_batch_example :
    (epochBatches 4 2 3).map Batch.n_in_batch = [0, 1, 1] := by
  decide


/-! ### The smoothed activation (lines 443-448, 601-603, 126-134) -/

/-- With a positive `exp` the probability `1 / (1 + exp(-sum))` lies strictly between 0
and 1. -/
theorem logistic_range (B : Build) (hexp : ∀ x, 0 < B.exp x) (x : ℚ) :
    0 < logistic B x ∧ logistic B x < 1 := by
  unfold logistic
  have h := hexp (-x)
  constructor
  · positivity
  · rw [div_lt_one (by linarith)]
    linarith

/-- A sum of values strictly between 0 and 1 lies strictly between 0 and their number. -/
theorem sum_range_open : ∀ (qs : List ℚ), (∀ q ∈ qs, 0 < q ∧ q < 1) → qs ≠ [] →
    0 < qs.sum ∧ qs.sum < (qs.length : ℚ)
  | [], _, h => absurd rfl h
  | [q], hq, _ => by
    have h := hq q (List.mem_singleton.2 rfl)
    simp only [List.sum_cons, List.sum_nil, add_zero, List.length_singleton, Nat.cast_one]
    exact h
  | q :: r :: rest, hq, _ => by
    have h := hq q (List.mem_cons_self _ _)
    have ih := sum_range_open (r :: rest) (fun x hx => hq x (List.mem_cons_of_mem _ hx))
      (List.cons_ne_nil _ _)
    rw [List.sum_cons, List.length_cons]
    push_cast
    constructor
    · linarith [ih.1]
    · linarith [ih.2]

/-- The gradient loop does not write `hid_on_frac`. -/
theorem gradient_frac (A : Args) (s : Work) : (gradient A s).hid_on_frac = s.hid_on_frac := by
  unfold gradient
  refine forLoop_inv (gradientUnit A) (fun _ t => t.hid_on_frac = s.hid_on_frac) 0 s rfl
    A.nhid ?_
  intro k t _ ht
  unfold gradientUnit
  split
  · exact forLoop_inv (weightGradMean A (0 + k)) (fun _ x => x.hid_on_frac = s.hid_on_frac) 0 _
      (by exact ht) A.n_inputs (fun _ _ _ hx => hx)
  · exact forLoop_inv (weightGradSampled A (0 + k)) (fun _ x => x.hid_on_frac = s.hid_on_frac)
      0 _ (by exact ht) A.n_inputs (fun _ _ _ hx => hx)

/-- One case adds to `hid_on_frac[h]` the probability of the hidden neuron `h` given the
inputs of the case. -/
theorem caseBody_frac (B : Build) (A : Args) (icase : Int) (s : Work) (h : Nat)
    (hh : h < A.nhid) :
    (caseBody B A icase s).hid_on_frac h
      = s.hid_on_frac h + logistic B (hiddenNet A (afterChain B A icase s).visible1 h) := by
  obtain ⟨_, _, _, g4, g5⟩ := afterChain_spec B A icase s
  have hf := congrArg Work.hid_on_frac (inputGradients_spec A (gradient A (afterChain B A icase s))).1
  unfold caseBody
  have e : (inputGradients A (gradient A (afterChain B A icase s))).hid_on_frac
      = (gradient A (afterChain B A icase s)).hid_on_frac := hf
  rw [e, gradient_frac, g4 h hh, g5 h hh]

/-- The case loop adds to `hid_on_frac[h]` one probability for each case. -/
theorem runCases_frac (B : Build) (A : Args) (h : Nat) (hh : h < A.nhid) :
    ∀ (cases : List Int) (s : Work), ∃ xs : List ℚ, xs.length = cases.length ∧
      (runCases B A cases s).hid_on_frac h = s.hid_on_frac h + (xs.map (logistic B)).sum
  | [], s => ⟨[], rfl, by simp [runCases]⟩
  | icase :: rest, s => by
    obtain ⟨xs, hl, hs⟩ := runCases_frac B A h hh rest (caseBody B A icase s)
    refine ⟨hiddenNet A (afterChain B A icase s).visible1 h :: xs, by simp [hl], ?_⟩
    simp only [runCases, hs, caseBody_frac B A icase s h hh, List.map_cons, List.sum_cons]
    ring

/-- What a worker leaves in `hid_on_frac[h]` is the sum of one probability for each case
of its range. -/
theorem rbm2_threaded_frac (B : Build) (A : Args) (s : Work) (h : Nat) (hh : h < A.nhid) :
    ∃ xs : List ℚ, xs.length = (A.istop - A.istart).toNat ∧
      (rbm2_threaded B A s).hid_on_frac h = (xs.map (logistic B)).sum := by
  unfold rbm2_threaded rbm2_from
  obtain ⟨xs, hl, hs⟩ := runCases_frac B A h hh (workerCases A.istart A.istop)
    (zeroAccumulators A { s with randnum := seedOf A.istop (A.shuffle_index 0) })
  refine ⟨xs, ?_, ?_⟩
  · rw [hl]
    unfold workerCases
    exact caseLoop_length _ _
  · rw [hs, ((zeroAccumulators_spec A _).2.1 h hh).2, zero_add]

/-- Going through a list by position is going through the list. -/
theorem range_getD_map {α β : Type} (d : α) (f : α → β) :
    ∀ l : List α, (List.range l.length).map (fun t => f (l.getD t d)) = l.map f
  | [] => rfl
  | a :: l => by
    rw [List.length_cons, List.range_succ_eq_map, List.map_cons, List.map_map, List.map_cons]
    simp only [List.getD_cons_zero]
    congr 1
    have ih := range_getD_map d f l
    rw [← ih]
    apply List.map_congr_left
    intro t _
    simp only [Function.comp, List.getD_cons_succ]

/-- The numbers of cases of ranges that tile `[a, b)` add up to `b - a`. -/
theorem tiles_count : ∀ (rs : List (Int × Int)) (a b : Int), Tiles a b rs →
    (rs.map (fun r => (r.2 - r.1).toNat)).sum = (b - a).toNat
  | [], a, b, h => by
    simp only [Tiles] at h
    subst h
    simp
  | r :: rs, a, b, h => by
    obtain ⟨h1, h2, h3⟩ := h
    have hle := tiles_le rs _ _ h3
    have ih := tiles_count rs _ _ h3
    simp only [List.map_cons, List.sum_cons, ih]
    omega

/-- Sums of values of `g`, one sum for each `t < n`, make one sum of values of `g`. -/
theorem sums_join (g : ℚ → ℚ) (f : Nat → ℚ) (L : Nat → Nat) :
    ∀ n : Nat, (∀ t, t < n → ∃ xs : List ℚ, xs.length = L t ∧ f t = (xs.map g).sum) →
      ∃ xs : List ℚ, xs.length = ((List.range n).map L).sum ∧
        ((List.range n).map f).sum = (xs.map g).sum
  | 0, _ => ⟨[], rfl, rfl⟩
  | n + 1, h => by
    obtain ⟨xs, hl, hs⟩ := sums_join g f L n (fun t ht => h t (by omega))
    obtain ⟨ys, hl2, hs2⟩ := h n (by omega)
    refine ⟨xs ++ ys, ?_, ?_⟩
    · simp only [List.length_append, hl, hl2, List.range_succ, List.map_append, List.sum_append,
        List.map_cons, List.map_nil, List.sum_cons, List.sum_nil, Nat.add_zero]
    · simp only [List.range_succ, List.map_append, List.sum_append, List.map_cons, List.map_nil,
        List.sum_cons, List.sum_nil, add_zero, hs, hs2]

/-- After pooling, `hid_on_frac[h]` of slot 0 is the sum of one probability for each case
of the batch. -/
theorem runBatch_frac (B : Build) (A : Args) (max_neurons : Nat) (max_threads : Int)
    (init : Nat → Work) (hm : 1 ≤ max_threads) (hb : A.istart ≤ A.istop)
    (hh : A.nhid ≤ max_neurons) (hv : A.n_inputs ≤ max_neurons) (h : Nat) (hlt : h < A.nhid) :
    ∃ xs : List ℚ, xs.length = (A.istop - A.istart).toNat ∧
      (runBatch B A max_neurons max_threads init).hid_on_frac h
        = (xs.map (logistic B)).sum := by
  have hge : 1 ≤ threadCount max_threads (A.istop - A.istart) :=
    reduceThreads_ge_one _ _ _ hm
  obtain ⟨hlen, htiles⟩ := threadRanges_tiles A.istart (A.istop - A.istart)
    (threadCount max_threads (A.istop - A.istart)) (by omega) hge
  obtain ⟨k, hk⟩ : ∃ k, (threadCount max_threads (A.istop - A.istart)).toNat = k + 1 :=
    ⟨(threadCount max_threads (A.istop - A.istart)).toNat - 1, by omega⟩
  have hpool := (pool_spec max_neurons A.nhid A.n_inputs
    (joined max_neurons A.nhid A.n_inputs
      (batchThread B A (threadRanges A.istart (A.istop - A.istart)
        (threadCount max_threads (A.istop - A.istart))) init)) hh hv k).2.1 h
  rw [if_pos hlt] at hpool
  have hslot : ∀ t : Nat, (t * max_neurons + h) / max_neurons = t ∧
      (t * max_neurons + h) % max_neurons = h := by
    intro t
    have hi : h < max_neurons := by omega
    constructor
    · rw [Nat.add_comm, Nat.add_mul_div_right _ _ (by omega), Nat.div_eq_of_lt hi,
        Nat.zero_add]
    · rw [Nat.add_comm, Nat.add_mul_mod_self_right, Nat.mod_eq_of_lt hi]
  have hjoin := sums_join (logistic B)
    (fun t => (batchThread B A (threadRanges A.istart (A.istop - A.istart)
        (threadCount max_threads (A.istop - A.istart))) init t).hid_on_frac h)
    (fun t => (((threadRanges A.istart (A.istop - A.istart)
        (threadCount max_threads (A.istop - A.istart))).getD t (0, 0)).2
      - ((threadRanges A.istart (A.istop - A.istart)
        (threadCount max_threads (A.istop - A.istart))).getD t (0, 0)).1).toNat)
    (k + 1) (fun t _ => rbm2_threaded_frac B
      { A with
        istart := ((threadRanges A.istart (A.istop - A.istart)
          (threadCount max_threads (A.istop - A.istart))).getD t (0, 0)).1,
        istop := ((threadRanges A.istart (A.istop - A.istart)
          (threadCount max_threads (A.istop - A.istart))).getD t (0, 0)).2 }
      (init t) h hlt)
  obtain ⟨xs, hl, hs⟩ := hjoin
  refine ⟨xs, ?_, ?_⟩
  · rw [hl, ← hk, ← hlen]
    have e := range_getD_map ((0 : Int), (0 : Int)) (fun r : Int × Int => (r.2 - r.1).toNat)
      (threadRanges A.istart (A.istop - A.istart)
        (threadCount max_threads (A.istop - A.istart)))
    rw [e, tiles_count _ _ _ htiles]
    congr 1
    omega
  · unfold runBatch
    simp only [hk]
    rw [hpool, ← hs]
    unfold slotSum
    refine congrArg List.sum (List.map_congr_left ?_)
    intro t _
    simp only [joined, (hslot t).1, (hslot t).2]

/-- Lines 443-451 leave 0.5 in the smoothed activation of every hidden neuron. -/
theorem initIncrements_smoothed (nhid n_inputs : Nat) (s : Weights) (h : Nat) (hh : h < nhid) :
    (initIncrements nhid n_inputs s).hid_on_smoothed h = 1 / 2 := by
  unfold initIncrements
  have h1 := forLoop_inv (initHidden n_inputs) (fun k t => ∀ i, i < k → t.hid_on_smoothed i = 1 / 2)
    0 s (fun i hi => absurd hi (Nat.not_lt_zero i)) nhid ?_
  · have h2 := forLoop_inv initInput
      (fun _ t => t.hid_on_smoothed = (forLoop (initHidden n_inputs) nhid 0 s).hid_on_smoothed)
      0 _ rfl n_inputs (fun _ _ _ hx => hx)
    rw [h2]
    exact h1 h hh
  · intro k t _ ht
    unfold initHidden
    have hin := forLoop_inv (initWeightInc n_inputs (0 + k))
      (fun _ x => x.hid_on_smoothed = Function.update t.hid_on_smoothed (0 + k) (1 / 2))
      0 { t with
          hid_bias_inc := Function.update t.hid_bias_inc (0 + k) 0,
          hid_on_smoothed := Function.update t.hid_on_smoothed (0 + k) (1 / 2) }
      rfl n_inputs (fun _ _ _ hx => hx)
    intro i hi
    have e : (forLoop (initWeightInc n_inputs (0 + k)) n_inputs 0
        { t with
          hid_bias_inc := Function.update t.hid_bias_inc (0 + k) 0,
          hid_on_smoothed := Function.update t.hid_on_smoothed (0 + k) (1 / 2) }).hid_on_smoothed i
        = Function.update t.hid_on_smoothed (0 + k) (1 / 2) i := congrFun hin i
    refine Eq.trans e ?_
    rw [Nat.zero_add, Function.update_apply]
    by_cases hik : i = k
    · rw [if_pos hik]
    · rw [if_neg hik]
      exact ht i (by omega)

/-- The smoothed activation after a batch: 0.95 of the old value and 0.05 of the pooled
`hid_on_frac[h]` over the size of the batch. -/
theorem trainBatch_smoothed (B : Build) (max_neurons : Nat) (max_threads : Int) (A : Args)
    (H : Hyper) (init : Nat → Work) (s : Weights) (h : Nat) (hh : h < A.nhid) :
    (trainBatch B max_neurons max_threads A H init s).hid_on_smoothed h
      = 95 / 100 * s.hid_on_smoothed h
        + 5 / 100 * ((runBatch B { A with w := s.w, in_bias := s.in_bias, hid_bias := s.hid_bias }
              max_neurons max_threads init).hid_on_frac h
            / ((A.istop - A.istart : Int) : ℚ)) := by
  unfold trainBatch
  simp only []
  obtain ⟨k1, _⟩ := updateVisible_spec
    { H with nhid := A.nhid, n_inputs := A.n_inputs, n_in_batch := A.istop - A.istart }
    (updateHidden
      { H with nhid := A.nhid, n_inputs := A.n_inputs, n_in_batch := A.istop - A.istart }
      { s with
        hid_on_frac := (runBatch B
          { A with w := s.w, in_bias := s.in_bias, hid_bias := s.hid_bias }
          max_neurons max_threads init).hid_on_frac,
        hid_bias_grad := (runBatch B
          { A with w := s.w, in_bias := s.in_bias, hid_bias := s.hid_bias }
          max_neurons max_threads init).hid_bias_grad,
        w_grad := (runBatch B
          { A with w := s.w, in_bias := s.in_bias, hid_bias := s.hid_bias }
          max_neurons max_threads init).w_grad,
        in_bias_grad := (runBatch B
          { A with w := s.w, in_bias := s.in_bias, hid_bias := s.hid_bias }
          max_neurons max_threads init).in_bias_grad })
  obtain ⟨_, _, g3, _⟩ := updateHidden_spec
    { H with nhid := A.nhid, n_inputs := A.n_inputs, n_in_batch := A.istop - A.istart }
    { s with
      hid_on_frac := (runBatch B
        { A with w := s.w, in_bias := s.in_bias, hid_bias := s.hid_bias }
        max_neurons max_threads init).hid_on_frac,
      hid_bias_grad := (runBatch B
        { A with w := s.w, in_bias := s.in_bias, hid_bias := s.hid_bias }
        max_neurons max_threads init).hid_bias_grad,
      w_grad := (runBatch B
        { A with w := s.w, in_bias := s.in_bias, hid_bias := s.hid_bias }
        max_neurons max_threads init).w_grad,
      in_bias_grad := (runBatch B
        { A with w := s.w, in_bias := s.in_bias, hid_bias := s.hid_bias }
        max_neurons max_threads init).in_bias_grad }
  unfold batchUpdate
  rw [k1.2.1, (g3 h).2.1, if_pos hh]
  rfl

/-- One batch keeps the smoothed activation strictly between 0 and 1, and makes it from
one probability for each case of the batch. -/
theorem trainBatch_range (B : Build) (hexp : ∀ x, 0 < B.exp x) (max_neurons : Nat)
    (max_threads : Int) (hm : 1 ≤ max_threads) (A : Args) (H : Hyper) (init : Nat → Work)
    (s : Weights) (hh : A.nhid ≤ max_neurons) (hv : A.n_inputs ≤ max_neurons)
    (hb : A.istart < A.istop) (h : Nat) (hlt : h < A.nhid) :
    ∃ xs : List ℚ, xs.length = (A.istop - A.istart).toNat ∧
      (trainBatch B max_neurons max_threads A H init s).hid_on_smoothed h
        = 95 / 100 * s.hid_on_smoothed h
          + 5 / 100 * ((xs.map (logistic B)).sum / ((A.istop - A.istart : Int) : ℚ)) ∧
      (0 < s.hid_on_smoothed h → s.hid_on_smoothed h < 1 →
        0 < (trainBatch B max_neurons max_threads A H init s).hid_on_smoothed h ∧
        (trainBatch B max_neurons max_threads A H init s).hid_on_smoothed h < 1) := by
  obtain ⟨xs, hl, hs⟩ := runBatch_frac B
    { A with w := s.w, in_bias := s.in_bias, hid_bias := s.hid_bias } max_neurons max_threads
    init hm (le_of_lt hb) hh hv h hlt
  have hstep := trainBatch_smoothed B max_neurons max_threads A H init s h hlt
  rw [hs] at hstep
  refine ⟨xs, hl, hstep, ?_⟩
  intro h0 h1
  have hne : xs ≠ [] := by
    intro hnil
    rw [hnil] at hl
    simp only [List.length_nil] at hl
    omega
  have hbound := sum_range_open (xs.map (logistic B))
    (by
      intro q hq
      obtain ⟨x, _, rfl⟩ := List.mem_map.1 hq
      exact logistic_range B hexp x)
    (by simpa using hne)
  rw [List.length_map] at hbound
  have hn : ((A.istop - A.istart : Int) : ℚ) = (xs.length : ℚ) := by
    rw [hl]
    have e : (((A.istop - A.istart).toNat : Nat) : Int) = A.istop - A.istart := by omega
    exact_mod_cast e.symm
  have hpos : (0 : ℚ) < (xs.length : ℚ) := by
    have : 0 < xs.length := List.length_pos.2 hne
    exact_mod_cast this
  have hq0 : 0 < (xs.map (logistic B)).sum / ((A.istop - A.istart : Int) : ℚ) := by
    rw [hn]
    exact div_pos hbound.1 hpos
  have hq1 : (xs.map (logistic B)).sum / ((A.istop - A.istart : Int) : ℚ) < 1 := by
    rw [hn, div_lt_one hpos]
    exact hbound.2
  rw [hstep]
  constructor
  · linarith
  · linarith

/-- A run keeps the smoothed activations strictly between 0 and 1 when every batch holds a
case. -/
theorem trainRun_range (B : Build) (hexp : ∀ x, 0 < B.exp x) (max_neurons nhid n_inputs : Nat)
    (max_threads : Int) (hm : 1 ≤ max_threads) (hh : nhid ≤ max_neurons)
    (hv : n_inputs ≤ max_neurons) :
    ∀ (batches : List (Args × Hyper × (Nat → Work))) (s : Weights),
      (∀ b ∈ batches, b.1.nhid = nhid ∧ b.1.n_inputs = n_inputs ∧ b.1.istart < b.1.istop) →
      (∀ h, h < nhid → 0 < s.hid_on_smoothed h ∧ s.hid_on_smoothed h < 1) →
      ∀ h, h < nhid → 0 < (trainRun B max_neurons max_threads batches s).hid_on_smoothed h ∧
        (trainRun B max_neurons max_threads batches s).hid_on_smoothed h < 1
  | [], _, _, hs => hs
  | b :: rest, s, hb, hs => by
    obtain ⟨e1, e2, e3⟩ := hb b (List.mem_cons_self _ _)
    simp only [trainRun]
    refine trainRun_range B hexp max_neurons nhid n_inputs max_threads hm hh hv rest _
      (fun x hx => hb x (List.mem_cons_of_mem _ hx)) ?_
    intro h hlt
    obtain ⟨_, _, _, hr⟩ := trainBatch_range B hexp max_neurons max_threads hm b.1 b.2.1 b.2.2 s
      (by omega) (by omega) e3 h (by omega)
    exact hr (hs h hlt).1 (hs h hlt).2

/-- C25. In exact arithmetic (`exp` positive), with `nhid` and `n_inputs` within
`max_neurons` and at least one thread: `hid_on_smoothed[h]` starts at 0.5; a batch that
holds a case leaves `0.95 * old + 0.05 * (sum / n_in_batch)`, where `sum`, the pooled
`hid_on_frac[h]`, is a sum of `n_in_batch` values of `1 / (1 + exp(-x))`, each strictly
between 0 and 1; and after every batch of a run whose batches all hold a case,
`0 < hid_on_smoothed[h] < 1` for every hidden neuron `h`. -/
theorem C25_smoothed_activation (B : Build) (hexp : ∀ x, 0 < B.exp x)
    (max_neurons nhid n_inputs : Nat) (max_threads : Int) (hm : 1 ≤ max_threads)
    (hh : nhid ≤ max_neurons) (hv : n_inputs ≤ max_neurons) :
    (∀ (s0 : Weights) (h : Nat), h < nhid →
      (initIncrements nhid n_inputs s0).hid_on_smoothed h = 1 / 2) ∧
    (∀ (A : Args) (H : Hyper) (init : Nat → Work) (s : Weights) (h : Nat),
      A.nhid = nhid → A.n_inputs = n_inputs → A.istart < A.istop → h < nhid →
      ∃ xs : List ℚ, xs.length = (A.istop - A.istart).toNat ∧
        (∀ x ∈ xs, 0 < logistic B x ∧ logistic B x < 1) ∧
        (runBatch B { A with w := s.w, in_bias := s.in_bias, hid_bias := s.hid_bias }
          max_neurons max_threads init).hid_on_frac h = (xs.map (logistic B)).sum ∧
        (trainBatch B max_neurons max_threads A H init s).hid_on_smoothed h
          = 95 / 100 * s.hid_on_smoothed h
            + 5 / 100 * ((xs.map (logistic B)).sum / ((A.istop - A.istart : Int) : ℚ))) ∧
    (∀ (batches : List (Args × Hyper × (Nat → Work))) (s0 : Weights),
      (∀ b ∈ batches, b.1.nhid = nhid ∧ b.1.n_inputs = n_inputs ∧ b.1.istart < b.1.istop) →
      ∀ h, h < nhid →
        0 < (trainRun B max_neurons max_threads batches
              (initIncrements nhid n_inputs s0)).hid_on_smoothed h ∧
        (trainRun B max_neurons max_threads batches
              (initIncrements nhid n_inputs s0)).hid_on_smoothed h < 1) := by
  refine ⟨fun s0 h hlt => initIncrements_smoothed nhid n_inputs s0 h hlt, ?_, ?_⟩
  · intro A H init s h e1 e2 e3 hlt
    obtain ⟨xs, hl, hs⟩ := runBatch_frac B
      { A with w := s.w, in_bias := s.in_bias, hid_bias := s.hid_bias } max_neurons
      max_threads init hm (le_of_lt e3) (by rw [e1]; exact hh) (by rw [e2]; exact hv) h
      (by rw [e1]; exact hlt)
    have hstep := trainBatch_smoothed B max_neurons max_threads A H init s h
      (by rw [e1]; exact hlt)
    rw [hs] at hstep
    exact ⟨xs, hl, fun x _ => logistic_range B hexp x, hs, hstep⟩
  · intro batches s0 hb h hlt
    refine trainRun_range B hexp max_neurons nhid n_inputs max_threads hm hh hv batches _ hb
      ?_ h hlt
    intro i hi
    rw [initIncrements_smoothed nhid n_inputs s0 i hi]
    constructor <;> norm_num

/-- The stand-in for `exp` of the examples is positive. -/
theorem plainBuild_exp_pos (x : ℚ) : 0 < plainBuild.exp x := by
  unfold plainBuild
  simp only
  split
  · rename_i h
    apply div_pos one_pos
    linarith
  · rename_i h
    linarith

theorem C25_smoothed_activation_witness :
    (∀ (s0 : Weights) (h : Nat), h < 1 →
      (initIncrements 1 1 s0).hid_on_smoothed h = 1 / 2) ∧
    (∀ (A : Args) (H : Hyper) (init : Nat → Work) (s : Weights) (h : Nat),
      A.nhid = 1 → A.n_inputs = 1 → A.istart < A.istop → h < 1 →
      ∃ xs : List ℚ, xs.length = (A.istop - A.istart).toNat ∧
        (∀ x ∈ xs, 0 < logistic plainBuild x ∧ logistic plainBuild x < 1) ∧
        (runBatch plainBuild { A with w := s.w, in_bias := s.in_bias, hid_bias := s.hid_bias }
          1 2 init).hid_on_frac h = (xs.map (logistic plainBuild)).sum ∧
        (trainBatch plainBuild 1 2 A H init s).hid_on_smoothed h
          = 95 / 100 * s.hid_on_smoothed h
            + 5 / 100 * ((xs.map (logistic plainBuild)).sum
              / ((A.istop - A.istart : Int) : ℚ))) ∧
    (∀ (batches : List (Args × Hyper × (Nat → Work))) (s0 : Weights),
      (∀ b ∈ batches, b.1.nhid = 1 ∧ b.1.n_inputs = 1 ∧ b.1.istart < b.1.istop) →
      ∀ h, h < 1 →
        0 < (trainRun plainBuild 1 2 batches (initIncrements 1 1 s0)).hid_on_smoothed h ∧
        (trainRun plainBuild 1 2 batches (initIncrements 1 1 s0)).hid_on_smoothed h < 1) :=
  C25_smoothed_activation plainBuild plainBuild_exp_pos 1 1 1 2 (by decide) (by decide)
    (by decide)

/-- A run of one batch of the 20 cases of `twentyArgs`, started with all weights and
biases 0: the single hidden neuron has probability `1/2` on every case, the pooled
`hid_on_frac[0]` is 10, and the smoothed activation stays `1/2`. -/
theorem trainRun_example :
    (trainRun plainBuild 1 2 [(twentyArgs, oneWeightHyper, fun _ => staleWork)]
      (initIncrements 1 1 { oneWeightState with w := fun _ => 0 })).hid_on_smoothed 0
      = 1 / 2 := by
  decide!

/-! ### The direction cosine (lines 640-667) -/

theorem sqLength_succ {K : Type} [Semiring K] (n : Nat) (a : Nat → K) :
    sqLength (n + 1) a = sqLength n a + a n * a n := by
  simp only [sqLength, List.range_succ, List.map_append, List.sum_append, List.map_cons,
    List.map_nil, List.sum_cons, List.sum_nil, add_zero]

theorem innerProduct_succ {K : Type} [Semiring K] (n : Nat) (a b : Nat → K) :
    innerProduct (n + 1) a b = innerProduct n a b + a n * b n := by
  simp only [innerProduct, List.range_succ, List.map_append, List.sum_append, List.map_cons,
    List.map_nil, List.sum_cons, List.sum_nil, add_zero]

/-- Only the first `n` elements count. -/
theorem sqLength_congr {K : Type} [Semiring K] (n : Nat) (a b : Nat → K)
    (h : ∀ i, i < n → a i = b i) : sqLength n a = sqLength n b := by
  unfold sqLength
  refine congrArg List.sum (List.map_congr_left ?_)
  intro i hi
  rw [h i (List.mem_range.1 hi)]

/-- Only the first `n` elements count. -/
theorem innerProduct_congr {K : Type} [Semiring K] (n : Nat) (a b c : Nat → K)
    (h : ∀ i, i < n → b i = c i) : innerProduct n a b = innerProduct n a c := by
  unfold innerProduct
  refine congrArg List.sum (List.map_congr_left ?_)
  intro i hi
  rw [h i (List.mem_range.1 hi)]

/-- The two loops of lines 655-664 without rounding: `w_prev` takes up the gradient,
`len_this` its squared length and `dot` its inner product with what `w_prev` held. -/
theorem scanNext_spec {K : Type} [Field K] (sqrt : K → K) (nhid n_inputs : Nat) (g : Nat → K)
    (c0 : Scan K) :
    (∀ i, (forLoop (fun ihid c => forLoop (scanNext (exactArith sqrt) n_inputs g ihid)
        n_inputs 0 c) nhid 0 c0).w_prev i
      = if i < nhid * n_inputs then g i else c0.w_prev i) ∧
    (forLoop (fun ihid c => forLoop (scanNext (exactArith sqrt) n_inputs g ihid)
        n_inputs 0 c) nhid 0 c0).len_this
      = c0.len_this + sqLength (nhid * n_inputs) g ∧
    (forLoop (fun ihid c => forLoop (scanNext (exactArith sqrt) n_inputs g ihid)
        n_inputs 0 c) nhid 0 c0).dot
      = c0.dot + innerProduct (nhid * n_inputs) g c0.w_prev := by
  refine forLoop_inv
    (fun ihid c => forLoop (scanNext (exactArith sqrt) n_inputs g ihid) n_inputs 0 c)
    (fun k c => (∀ i, c.w_prev i = if i < k * n_inputs then g i else c0.w_prev i) ∧
      c.len_this = c0.len_this + sqLength (k * n_inputs) g ∧
      c.dot = c0.dot + innerProduct (k * n_inputs) g c0.w_prev) 0 c0 ?_ nhid ?_
  · refine ⟨fun i => by simp, by simp [sqLength], by simp [innerProduct]⟩
  · intro k c _ hc
    have e : (k + 1) * n_inputs = k * n_inputs + n_inputs := by ring
    rw [e, Nat.zero_add]
    refine forLoop_inv (scanNext (exactArith sqrt) n_inputs g k)
      (fun j x => (∀ i, x.w_prev i = if i < k * n_inputs + j then g i else c0.w_prev i) ∧
        x.len_this = c0.len_this + sqLength (k * n_inputs + j) g ∧
        x.dot = c0.dot + innerProduct (k * n_inputs + j) g c0.w_prev) 0 c hc n_inputs ?_
    intro j x _ hx
    obtain ⟨h1, h2, h3⟩ := hx
    rw [Nat.zero_add]
    unfold scanNext
    refine ⟨?_, ?_, ?_⟩
    · intro i
      simp only [Function.update_apply]
      by_cases hi : i = k * n_inputs + j
      · subst hi
        simp
      · have hiff : i < k * n_inputs + (j + 1) ↔ i < k * n_inputs + j := by omega
        simp only [hi, if_false, hiff, h1 i]
    · simp only [exactArith, h2, ← Nat.add_assoc, sqLength_succ]
      ring
    · have hp : x.w_prev (k * n_inputs + j) = c0.w_prev (k * n_inputs + j) := by
        rw [h1, if_neg (lt_irrefl _)]
      simp only [exactArith, h3, hp, ← Nat.add_assoc, innerProduct_succ]
      ring

/-- The two loops of lines 642-648 without rounding: `w_prev` takes up the gradient and
`len_this` its squared length. -/
theorem scanFirst_spec {K : Type} [Field K] (sqrt : K → K) (nhid n_inputs : Nat) (g : Nat → K)
    (c0 : Scan K) :
    (∀ i, (forLoop (fun ihid c => forLoop (scanFirst (exactArith sqrt) n_inputs g ihid)
        n_inputs 0 c) nhid 0 c0).w_prev i
      = if i < nhid * n_inputs then g i else c0.w_prev i) ∧
    (forLoop (fun ihid c => forLoop (scanFirst (exactArith sqrt) n_inputs g ihid)
        n_inputs 0 c) nhid 0 c0).len_this
      = c0.len_this + sqLength (nhid * n_inputs) g := by
  refine forLoop_inv
    (fun ihid c => forLoop (scanFirst (exactArith sqrt) n_inputs g ihid) n_inputs 0 c)
    (fun k c => (∀ i, c.w_prev i = if i < k * n_inputs then g i else c0.w_prev i) ∧
      c.len_this = c0.len_this + sqLength (k * n_inputs) g) 0 c0 ?_ nhid ?_
  · refine ⟨fun i => by simp, by simp [sqLength]⟩
  · intro k c _ hc
    have e : (k + 1) * n_inputs = k * n_inputs + n_inputs := by ring
    rw [e, Nat.zero_add]
    refine forLoop_inv (scanFirst (exactArith sqrt) n_inputs g k)
      (fun j x => (∀ i, x.w_prev i = if i < k * n_inputs + j then g i else c0.w_prev i) ∧
        x.len_this = c0.len_this + sqLength (k * n_inputs + j) g) 0 c hc n_inputs ?_
    intro j x _ hx
    obtain ⟨h1, h2⟩ := hx
    rw [Nat.zero_add]
    unfold scanFirst
    refine ⟨?_, ?_⟩
    · intro i
      simp only [Function.update_apply]
      by_cases hi : i = k * n_inputs + j
      · subst hi
        simp
      · have hiff : i < k * n_inputs + (j + 1) ↔ i < k * n_inputs + j := by omega
        simp only [hi, if_false, hiff, h1 i]
    · simp only [exactArith, h2, ← Nat.add_assoc, sqLength_succ]
      ring

/-- Without rounding the first batch leaves its gradient in `w_prev` and the squared
length of it in `len_prev`. -/
theorem directionFirst_spec {K : Type} [Field K] (sqrt : K → K) (nhid n_inputs : Nat)
    (g : Nat → K) (d : Direction K) :
    (∀ i, (directionFirst (exactArith sqrt) nhid n_inputs g d).w_prev i
      = if i < nhid * n_inputs then g i else d.w_prev i) ∧
    (directionFirst (exactArith sqrt) nhid n_inputs g d).len_prev
      = sqLength (nhid * n_inputs) g := by
  obtain ⟨h1, h2⟩ := scanFirst_spec sqrt nhid n_inputs g
    { w_prev := d.w_prev, len_this := (exactArith sqrt).zero, dot := (exactArith sqrt).zero }
  unfold directionFirst
  refine ⟨h1, ?_⟩
  simp only [h2]
  simp only [exactArith, zero_add]

/-- Without rounding a later batch leaves its gradient in `w_prev` and the squared length
of it in `len_prev`; its `dot` is the inner product with what `w_prev` held, over `sqrt` of
the squared length times what `len_prev` held. -/
theorem directionNext_spec {K : Type} [Field K] (sqrt : K → K) (nhid n_inputs : Nat)
    (g : Nat → K) (d : Direction K) :
    (∀ i, (directionNext (exactArith sqrt) nhid n_inputs g d).1.w_prev i
      = if i < nhid * n_inputs then g i else d.w_prev i) ∧
    (directionNext (exactArith sqrt) nhid n_inputs g d).1.len_prev
      = sqLength (nhid * n_inputs) g ∧
    (directionNext (exactArith sqrt) nhid n_inputs g d).2
      = innerProduct (nhid * n_inputs) g d.w_prev
          / sqrt (sqLength (nhid * n_inputs) g * d.len_prev) := by
  obtain ⟨h1, h2, h3⟩ := scanNext_spec sqrt nhid n_inputs g
    { w_prev := d.w_prev, len_this := (exactArith sqrt).zero, dot := (exactArith sqrt).zero }
  unfold directionNext
  refine ⟨h1, ?_, ?_⟩
  · simp only [h2]
    simp only [exactArith, zero_add]
  · simp only [h2, h3]
    simp only [exactArith, zero_add]

/-- The direction code over the batches after the first, without rounding: when it starts
with `w_prev` holding the vector `prev` and `len_prev` its squared length, at the end
`w_prev` holds the last vector and `len_prev` its squared length. -/
theorem directionRun_spec {K : Type} [Field K] (sqrt : K → K) (nhid n_inputs : Nat) :
    ∀ (gs : List (Nat → K)) (d : Direction K) (prev : Nat → K),
      d.len_prev = sqLength (nhid * n_inputs) prev →
      (∀ i, i < nhid * n_inputs → d.w_prev i = prev i) →
      (directionRun (exactArith sqrt) nhid n_inputs gs d).len_prev
        = sqLength (nhid * n_inputs) (lastVec prev gs) ∧
      (∀ i, i < nhid * n_inputs →
        (directionRun (exactArith sqrt) nhid n_inputs gs d).w_prev i = lastVec prev gs i)
  | [], d, prev, hl, hw => ⟨hl, hw⟩
  | g :: gs, d, prev, hl, hw => by
    obtain ⟨h1, h2, _⟩ := directionNext_spec sqrt nhid n_inputs g d
    exact directionRun_spec sqrt nhid n_inputs gs
      (directionNext (exactArith sqrt) nhid n_inputs g d).1 g h2
      (fun i hi => by rw [h1 i, if_pos hi])

theorem sqLength_nonneg (n : Nat) (a : Nat → ℝ) : 0 ≤ sqLength n a := by
  induction n with
  | zero => simp [sqLength]
  | succ n ih =>
    rw [sqLength_succ]
    have := mul_self_nonneg (a n)
    linarith

/-- The squared length is positive for a vector that is not zero. -/
theorem sqLength_pos (n : Nat) (a : Nat → ℝ) (h : ∃ i, i < n ∧ a i ≠ 0) :
    0 < sqLength n a := by
  induction n with
  | zero =>
    obtain ⟨i, hi, _⟩ := h
    omega
  | succ n ih =>
    rw [sqLength_succ]
    obtain ⟨i, hi, hne⟩ := h
    have h1 := sqLength_nonneg n a
    have h2 := mul_self_nonneg (a n)
    by_cases hin : i = n
    · subst hin
      have := mul_self_pos.2 hne
      linarith
    · have := ih ⟨i, by omega, hne⟩
      linarith

theorem innerProduct_finset (n : Nat) (a b : Nat → ℝ) :
    innerProduct n a b = ∑ i in Finset.range n, a i * b i := by
  induction n with
  | zero => simp [innerProduct]
  | succ n ih => rw [innerProduct_succ, ih, Finset.sum_range_succ]

theorem sqLength_finset (n : Nat) (c : Nat → ℝ) :
    sqLength n c = ∑ i in Finset.range n, c i ^ 2 := by
  induction n with
  | zero => simp [sqLength]
  | succ n ih => rw [sqLength_succ, ih, Finset.sum_range_succ, pow_two]

/-- The inequality of Cauchy and Schwarz. -/
theorem innerProduct_sq_le (n : Nat) (a b : Nat → ℝ) :
    innerProduct n a b ^ 2 ≤ sqLength n a * sqLength n b := by
  rw [innerProduct_finset, sqLength_finset, sqLength_finset]
  exact Finset.sum_mul_sq_le_sq_mul_sq (Finset.range n) a b

/-- In exact arithmetic the quotient is the cosine of the angle between the two vectors
and lies in `[-1, 1]`. -/
theorem cosine_real (n : Nat) (a b : Nat → ℝ) (ha : 0 < sqLength n a) (hb : 0 < sqLength n b) :
    innerProduct n a b / Real.sqrt (sqLength n a * sqLength n b)
      = innerProduct n a b / (Real.sqrt (sqLength n a) * Real.sqrt (sqLength n b)) ∧
    -1 ≤ innerProduct n a b / Real.sqrt (sqLength n a * sqLength n b) ∧
    innerProduct n a b / Real.sqrt (sqLength n a * sqLength n b) ≤ 1 := by
  have hcs := innerProduct_sq_le n a b
  have hs : 0 < Real.sqrt (sqLength n a * sqLength n b) := Real.sqrt_pos.2 (mul_pos ha hb)
  have habs := Real.abs_le_sqrt hcs
  obtain ⟨h1, h2⟩ := abs_le.1 habs
  refine ⟨?_, ?_, ?_⟩
  · rw [Real.sqrt_mul (le_of_lt ha)]
  · rw [le_div_iff₀ hs]
    linarith
  · rw [div_le_one hs]
    exact h2

/-- The gradient the direction code reads is the one the update has averaged and
penalised. -/
theorem batchUpdate_w_grad (H : Hyper) (s : Weights) (h v : Nat) (hh : h < H.nhid)
    (hv : v < H.n_inputs) :
    (batchUpdate H s).w_grad (h * H.n_inputs + v) = wGradAfter H s h v := by
  obtain ⟨_, _, _, g4, _⟩ := updateHidden_spec H s
  obtain ⟨_, ⟨w1, _⟩, _⟩ := updateVisible_spec H (updateHidden H s)
  unfold batchUpdate
  rw [w1, (g4 h v hv).1, if_pos hh]

/-- C22, counterexample.  In the doubles the code computes with, one hidden neuron and two
inputs: the first batch has the gradient `(0.1, 0.7)` and the second `(0.3, 2.1)`, both
not zero.  After the first batch `len_prev` is `0.49999999999999994`, which is not the
squared length of the vector in `w_prev`; the second batch sums `len_this = 4.5` and
`dot = 1.5`, rounds `len_this * len_prev` to `2.2499999999999996` and its root to
`1.4999999999999998`, and the quotient of line 666 is `1.0000000000000002`, above 1.  With
the gradient `(2^-600, 2^-600)` on both batches the squares underflow to zero and `dot` is
`0 / 0`, a NaN. -/
theorem C22_counterexample :
    gradPrev 0 = Dbl.fin (gradPrevExact 0) ∧
    gradPrev 1 = Dbl.fin (gradPrevExact 1) ∧
    gradThis 0 = Dbl.fin (5404319552844595 / 18014398509481984) ∧
    gradThis 1 = Dbl.fin (4728779608739021 / 2251799813685248) ∧
    (directionFirst binary64 1 2 gradPrev noDirection).len_prev
      = Dbl.fin (9007199254740991 / 18014398509481984) ∧
    sqLength 2 gradPrevExact ≠ 9007199254740991 / 18014398509481984 ∧
    (directionNext binary64 1 2 gradThis
        (directionFirst binary64 1 2 gradPrev noDirection)).1.len_prev = Dbl.fin (9 / 2) ∧
    (directionNext binary64 1 2 gradThis
        (directionFirst binary64 1 2 gradPrev noDirection)).2
      = Dbl.fin (4503599627370497 / 4503599627370496) ∧
    Dbl.lt (Dbl.fin 1) (directionNext binary64 1 2 gradThis
        (directionFirst binary64 1 2 gradPrev noDirection)).2 = true ∧
    (directionNext binary64 1 2 gradTiny
        (directionFirst binary64 1 2 gradTiny noDirection)).2 = Dbl.nan := by
  decide!

/-- C22, amended.  In exact arithmetic (the sums, products and the quotient of lines
640-667 not rounded, `sqrt` the square root of the reals): at every batch after the first
batch of training, that is after the first batch with the gradient `g0` and any batches
`gs` behind it, `len_prev` is the squared Euclidean length of the vector in `w_prev`, and
that vector is the gradient of the batch before; so whenever the gradient `g` of this
batch and the one of the batch before are not zero, the `dot` computed is the cosine of the
angle between them, their inner product over the product of their lengths, and
`-1 <= dot <= 1`.  The vectors are the `w_grad` the update has left: on the first batch
the direction code runs the branch of line 640 and on the others the branch of line 653 on
the elements `wGradAfter`, averaged and penalised. -/
theorem C22_direction_cosine (nhid n_inputs : Nat) (g0 : Nat → ℝ) (gs : List (Nat → ℝ))
    (g : Nat → ℝ) (d0 : Direction ℝ) :
    ((directionRun (exactArith Real.sqrt) nhid n_inputs gs
        (directionFirst (exactArith Real.sqrt) nhid n_inputs g0 d0)).len_prev
      = sqLength (nhid * n_inputs)
          (directionRun (exactArith Real.sqrt) nhid n_inputs gs
            (directionFirst (exactArith Real.sqrt) nhid n_inputs g0 d0)).w_prev) ∧
    (∀ i, i < nhid * n_inputs →
      (directionRun (exactArith Real.sqrt) nhid n_inputs gs
        (directionFirst (exactArith Real.sqrt) nhid n_inputs g0 d0)).w_prev i
        = lastVec g0 gs i) ∧
    ((∃ i, i < nhid * n_inputs ∧ g i ≠ 0) →
      (∃ i, i < nhid * n_inputs ∧ lastVec g0 gs i ≠ 0) →
      (directionNext (exactArith Real.sqrt) nhid n_inputs g
          (directionRun (exactArith Real.sqrt) nhid n_inputs gs
            (directionFirst (exactArith Real.sqrt) nhid n_inputs g0 d0))).2
        = innerProduct (nhid * n_inputs) g (lastVec g0 gs)
            / (Real.sqrt (sqLength (nhid * n_inputs) g)
                * Real.sqrt (sqLength (nhid * n_inputs) (lastVec g0 gs))) ∧
      -1 ≤ (directionNext (exactArith Real.sqrt) nhid n_inputs g
          (directionRun (exactArith Real.sqrt) nhid n_inputs gs
            (directionFirst (exactArith Real.sqrt) nhid n_inputs g0 d0))).2 ∧
      (directionNext (exactArith Real.sqrt) nhid n_inputs g
          (directionRun (exactArith Real.sqrt) nhid n_inputs gs
            (directionFirst (exactArith Real.sqrt) nhid n_inputs g0 d0))).2 ≤ 1) ∧
    (∀ (H : Hyper) (s : Weights) (d : Direction ℝ),
      batchDirection (exactArith Real.sqrt) (fun q => (q : ℝ)) true H s d
        = (directionFirst (exactArith Real.sqrt) H.nhid H.n_inputs
            (fun i => ((batchUpdate H s).w_grad i : ℝ)) d, none) ∧
      batchDirection (exactArith Real.sqrt) (fun q => (q : ℝ)) false H s d
        = ((directionNext (exactArith Real.sqrt) H.nhid H.n_inputs
              (fun i => ((batchUpdate H s).w_grad i : ℝ)) d).1,
            some (directionNext (exactArith Real.sqrt) H.nhid H.n_inputs
              (fun i => ((batchUpdate H s).w_grad i : ℝ)) d).2) ∧
      ∀ h v, h < H.nhid → v < H.n_inputs →
        (batchUpdate H s).w_grad (h * H.n_inputs + v) = wGradAfter H s h v) := by
  obtain ⟨f1, f2⟩ := directionFirst_spec Real.sqrt nhid n_inputs g0 d0
  obtain ⟨r1, r2⟩ := directionRun_spec Real.sqrt nhid n_inputs gs
    (directionFirst (exactArith Real.sqrt) nhid n_inputs g0 d0) g0 f2
    (fun i hi => by rw [f1 i, if_pos hi])
  have hlen := sqLength_congr (nhid * n_inputs) _ _ r2
  refine ⟨by rw [r1, hlen], r2, ?_, ?_⟩
  · intro hg hp
    obtain ⟨_, _, n3⟩ := directionNext_spec Real.sqrt nhid n_inputs g
      (directionRun (exactArith Real.sqrt) nhid n_inputs gs
        (directionFirst (exactArith Real.sqrt) nhid n_inputs g0 d0))
    rw [n3, r1, innerProduct_congr (nhid * n_inputs) g _ _ r2]
    exact cosine_real (nhid * n_inputs) g (lastVec g0 gs)
      (sqLength_pos _ _ hg) (sqLength_pos _ _ hp)
  · intro H s d
    refine ⟨rfl, rfl, ?_⟩
    intro h v hh hv
    exact batchUpdate_w_grad H s h v hh hv

/-- An exact run on rationals, one hidden neuron and two inputs: after the first batch
with the gradient `(3, 4)` the batch with the gradient `(4, 3)` finds `len_prev = 25` and
computes `dot = 24 / 25`. -/
theorem direction_example :
    (directionFirst (exactArith sqrtAt625) 1 2 vec34
        { w_prev := fun _ => 0, len_prev := 0 }).len_prev = 25 ∧
    (directionNext (exactArith sqrtAt625) 1 2 vec43
        (directionFirst (exactArith sqrtAt625) 1 2 vec34
          { w_prev := fun _ => 0, len_prev := 0 })).2 = 24 / 25 ∧
    (directionNext (exactArith sqrtAt625) 1 2 vec43
        (directionFirst (exactArith sqrtAt625) 1 2 vec34
          { w_prev := fun _ => 0, len_prev := 0 })).1.len_prev = 25 := by
  decide!

/-- C22, witness: with one hidden neuron and two inputs, the second batch of a training
whose two batches both have the gradient `(1, 1)` computes a `dot` in `[-1, 1]`. -/
theorem C22_direction_cosine_witness :
    -1 ≤ (directionNext (exactArith Real.sqrt) 1 2 (fun _ => 1)
        (directionRun (exactArith Real.sqrt) 1 2 []
          (directionFirst (exactArith Real.sqrt) 1 2 (fun _ => 1)
            { w_prev := fun _ => 0, len_prev := 0 }))).2 ∧
    (directionNext (exactArith Real.sqrt) 1 2 (fun _ => 1)
        (directionRun (exactArith Real.sqrt) 1 2 []
          (directionFirst (exactArith Real.sqrt) 1 2 (fun _ => 1)
            { w_prev := fun _ => 0, len_prev := 0 }))).2 ≤ 1 :=
  ((C22_direction_cosine 1 2 (fun _ => 1) [] (fun _ => 1)
      { w_prev := fun _ => 0, len_prev := 0 }).2.2.1
    ⟨0, by decide, one_ne_zero⟩ ⟨0, by decide, one_ne_zero⟩).2

end RBM
